import Mathlib

/-!
# K-means (Lloyd's algorithm): a shallow embedding of `kmeans-serial-improved.cpp`
and `kmeans-parallel.cpp`

The source text is embedded twice, once for each arithmetic a property can be read in.

* Exact arithmetic (the definitions directly in `KMeansSpec`): `double` values are exact
  rationals (`ℚ`) and `pow(x, 2.0)` is `x ^ 2`; `sqrt` is exact, the value `sqrt(sum)` being
  kept as its radicand (`Root`), and two such values compare as the real square roots do
  (`Root.lt_iff_real`). The properties stated in exact arithmetic are proved here.
* IEEE 754 arithmetic (the namespace `KMeansSpec.Ieee`): `double` is binary64 (`Ieee.Dbl`),
  every operation is rounded to nearest with ties to even, with overflow to an infinity and
  gradual underflow. This is what the compiled program computes; the properties that depend
  on rounding are settled here.

Conventions common to both.

* The header integers `K`, `total_points`, `total_values`, `max_iterations` are natural
  numbers; a point's `id_cluster` is an `Int` (it starts at `-1`).
* `v[i]` on a `std::vector` is a checked read: outside the bounds the computation is `none`.
  A modulus by zero or a division by a zero count is `none` as well.
* `rand()` is a list of draws consumed from the front; when the list runs dry the
  seeding has not completed and the result is `none`.
* A `tbb::parallel_for` runs bodies that touch disjoint data, so one execution of it is the
  order in which its bodies ran; the accumulation also records which worker visited which
  point (`Parallel.Schedule`).
* `Point`, `Cluster` and `KMeans::getIDNearestCenter` are textually the same in both source
  files and are embedded once per arithmetic; `Serial.run` and `Parallel.run` embed the two
  `KMeans::run`.
-/

namespace KMeansSpec

/-! ## Generic pieces: loops and checked vector access -/

/-- The loop `for (int i = lo; i < hi; i++) s = body(s, i)`, stopping at the first fault. -/
def forLoop {σ : Type} (lo hi : Nat) (body : σ → Nat → Option σ) (s : σ) : Option σ :=
  (List.range' lo (hi - lo)).foldlM body s

/-- Checked read `v[i]` with an `int` index. -/
def readAt {α : Type} (v : List α) (i : Int) : Option α :=
  if 0 ≤ i then v[i.toNat]? else none

/-- Checked write `v[i] = x` with a natural index. -/
def writeAt {α : Type} (v : List α) (i : Nat) (x : α) : Option (List α) :=
  if i < v.length then some (v.set i x) else none

/-- Checked write `v[i] = x` with an `int` index. -/
def writeAtInt {α : Type} (v : List α) (i : Int) (x : α) : Option (List α) :=
  if 0 ≤ i then writeAt v i.toNat x else none

/-- Checked division `x / n` of a `double` by an `int` count, in exact arithmetic. -/
def divAt (x : ℚ) (n : Nat) : Option ℚ :=
  if n = 0 then none else some (x / n)

/-- The value `sqrt(sum)` in exact arithmetic, held by its radicand (the rounded `double`
is `Ieee.sqrt`). -/
structure Root where
  radicand : ℚ
  deriving DecidableEq, Repr

/-- The call `sqrt(sum)` in exact arithmetic. -/
def sqrt (sum : ℚ) : Root := ⟨sum⟩

instance : LT Root := ⟨fun a b => a.radicand < b.radicand⟩

instance (a b : Root) : Decidable (a < b) :=
  inferInstanceAs (Decidable (a.radicand < b.radicand))

/-! ## `class Point` -/

/-- The class `Point`: identity, current cluster, coordinates, optional label. -/
structure Point where
  id_point : Int
  id_cluster : Int
  values : List ℚ
  name : String
  deriving DecidableEq, Repr

/-- The constructor `Point(id_point, values, name)`: copies the values, cluster `-1`. -/
def Point.new (id_point : Int) (values : List ℚ) (name : String) : Point :=
  { id_point := id_point, id_cluster := -1, values := values, name := name }

/-- The method `Point::setCluster`. -/
def Point.setCluster (p : Point) (id_cluster : Int) : Point :=
  { p with id_cluster := id_cluster }

/-- The method `Point::getCluster`. -/
def Point.getCluster (p : Point) : Int := p.id_cluster

/-- The method `Point::getValue`: the read `values[index]`. -/
def Point.getValue (p : Point) (index : Nat) : Option ℚ := p.values[index]?

/-- The method `Point::getTotalValues`. -/
def Point.getTotalValues (p : Point) : Nat := p.values.length

/-! ## `class Cluster` -/

/-- The class `Cluster`: identity and centroid coordinates. -/
structure Cluster where
  id_cluster : Int
  central_values : List ℚ
  deriving DecidableEq, Repr

/-- One round of the constructor's loop: `central_values[i] = point.getValue(i)`. -/
def Cluster.copyValue (point : Point) (central_values : List ℚ) (i : Nat) : Option (List ℚ) := do
  let v ← point.getValue i
  writeAt central_values i v

/-- The constructor `Cluster(id_cluster, point)`: the centroid is a copy of the point's
coordinates (`resize(total_values)` then `central_values[i] = point.getValue(i)`). -/
def Cluster.new (id_cluster : Int) (point : Point) : Option Cluster :=
  (forLoop 0 point.getTotalValues (Cluster.copyValue point)
    (List.replicate point.getTotalValues 0)).map
    (fun cv => { id_cluster := id_cluster, central_values := cv })

/-- The method `Cluster::getCentralValue`: the read `central_values[index]`. -/
def Cluster.getCentralValue (c : Cluster) (index : Nat) : Option ℚ := c.central_values[index]?

/-- The method `Cluster::setCentralValue`: the write `central_values[index] = value`. -/
def Cluster.setCentralValue (c : Cluster) (index : Nat) (value : ℚ) : Option Cluster :=
  (writeAt c.central_values index value).map (fun cv => { c with central_values := cv })

/-! ## `class KMeans` -/

/-- The class `KMeans`: the configuration and the centroid table `clusters`. -/
structure KMeans where
  K : Nat
  total_values : Nat
  total_points : Nat
  max_iterations : Nat
  clusters : List Cluster
  deriving DecidableEq, Repr

/-- The constructor `KMeans(K, total_points, total_values, max_iterations)`. -/
def KMeans.new (K total_points total_values max_iterations : Nat) : KMeans :=
  { K := K, total_values := total_values, total_points := total_points,
    max_iterations := max_iterations, clusters := [] }

/-- One round of the inner loop of `getIDNearestCenter`, in exact arithmetic:
`sum += pow(clusters[i].getCentralValue(j) - point.getValue(j), 2.0)`. -/
def KMeans.sumSquaresStep (km : KMeans) (i : Nat) (point : Point) (sum : ℚ) (j : Nat) :
    Option ℚ := do
  let c ← km.clusters[i]?
  let cv ← c.getCentralValue j
  let pv ← point.getValue j
  pure (sum + (cv - pv) ^ 2)

/-- The inner loop of `getIDNearestCenter`, `for (j = 0; j < total_values; j++)`, from
`sum = 0.0`. -/
def KMeans.sumSquares (km : KMeans) (i : Nat) (point : Point) : Option ℚ :=
  forLoop 0 km.total_values (km.sumSquaresStep i point) 0

/-- One round of the outer loop of `getIDNearestCenter` on the pair
`(min_dist, id_cluster_center)`: centroid `i` is taken only when `dist < min_dist`. -/
def KMeans.nearestStep (km : KMeans) (point : Point) (st : Root × Nat) (i : Nat) :
    Option (Root × Nat) := do
  let sum ← km.sumSquares i point
  let dist := sqrt sum
  if dist < st.1 then pure (dist, i) else pure st

/-- The method `KMeans::getIDNearestCenter`: the distance to centroid 0 first, then
centroids `1 .. K-1` in increasing order. -/
def KMeans.getIDNearestCenter (km : KMeans) (point : Point) : Option Nat := do
  let sum ← km.sumSquares 0 point
  let min_dist := sqrt sum
  let r ← forLoop 1 km.K (km.nearestStep point) (min_dist, 0)
  pure r.2

/-! ## Seeding (the same text in both files) -/

/-- The variables the seeding loop works on: the list `prohibited_indexes`, the points,
the centroid table and the draws of `rand()` not yet consumed. -/
structure SeedState where
  prohibited_indexes : List Nat
  points : List Point
  clusters : List Cluster
  draws : List Nat
  deriving DecidableEq, Repr

/-- The loop `while (true)` of the seeding for cluster `i`: draw
`index_point = rand() % total_points` until it is not in `prohibited_indexes`, then push
it, set the point's cluster to `i`, append `Cluster(i, points[index_point])` and break. -/
def seedWhile (total_points i : Nat) (prohibited_indexes : List Nat) (points : List Point)
    (clusters : List Cluster) : List Nat → Option SeedState
  | [] => none
  | r :: draws =>
    if total_points = 0 then none
    else
      let index_point := r % total_points
      if index_point ∉ prohibited_indexes then do
        let p ← points[index_point]?
        let points ← writeAt points index_point (p.setCluster i)
        let q ← points[index_point]?
        let c ← Cluster.new i q
        pure { prohibited_indexes := prohibited_indexes ++ [index_point], points := points,
               clusters := clusters ++ [c], draws := draws }
      else seedWhile total_points i prohibited_indexes points clusters draws

/-- One round of `for (int i = 0; i < K; i++)` of the seeding. -/
def seedStep (total_points : Nat) (st : SeedState) (i : Nat) : Option SeedState :=
  seedWhile total_points i st.prohibited_indexes st.points st.clusters st.draws

/-- The seeding phase of `run`: choose `K` distinct points as the first centres. -/
def KMeans.seed (km : KMeans) (points : List Point) (draws : List Nat) : Option SeedState :=
  forLoop 0 km.K (seedStep km.total_points)
    { prohibited_indexes := [], points := points, clusters := km.clusters, draws := draws }

/-! ## The three passes of one iteration: loop bodies (the same text in both files) -/

/-- The body of the assignment pass for point `i`, on the pair `(points, done)`. -/
def KMeans.assignStep (km : KMeans) (st : List Point × Bool) (i : Nat) :
    Option (List Point × Bool) := do
  let p ← st.1[i]?
  let id_old_cluster := p.getCluster
  let id_nearest_center ← km.getIDNearestCenter p
  if id_old_cluster ≠ (id_nearest_center : Int) then do
    let points ← writeAt st.1 i (p.setCluster id_nearest_center)
    pure (points, false)
  else pure st

/-- The accumulators of the recompute: the `K x total_values` matrix of sums and the `K`
counts. In the parallel file this is `struct LocalVars` (`centers`, `counts`); in the serial
file the same two vectors are the locals `new_centers` and `points_per_cluster`. -/
structure LocalVars where
  centers : List (List ℚ)
  counts : List Nat
  deriving DecidableEq, Repr

/-- The constructor `LocalVars(K, total_values)`: all sums `0.0`, all counts `0`. -/
def LocalVars.new (K total_values : Nat) : LocalVars :=
  { centers := List.replicate K (List.replicate total_values 0), counts := List.replicate K 0 }

/-- The statement `centers[cluster_id][j] += points[i].getValue(j)`, in exact arithmetic. -/
def accumulateValue (points : List Point) (i : Nat) (cluster_id : Int)
    (centers : List (List ℚ)) (j : Nat) : Option (List (List ℚ)) := do
  let p ← points[i]?
  let v ← p.getValue j
  let row ← readAt centers cluster_id
  let x ← row[j]?
  let row ← writeAt row j (x + v)
  writeAtInt centers cluster_id row

/-- The body of the accumulation pass for point `i`: `counts[cluster_id]++`, then the
point's coordinates are added to row `cluster_id`. -/
def accumulateStep (total_values : Nat) (points : List Point) (acc : LocalVars) (i : Nat) :
    Option LocalVars := do
  let p ← points[i]?
  let cluster_id := p.getCluster
  let n ← readAt acc.counts cluster_id
  let counts ← writeAtInt acc.counts cluster_id (n + 1)
  let centers ← forLoop 0 total_values (accumulateValue points i cluster_id) acc.centers
  pure { centers := centers, counts := counts }

/-- The statement `clusters[i].setCentralValue(j, new_centers[i][j] / points_per_cluster[i])`. -/
def updateValue (acc : LocalVars) (i : Nat) (clusters : List Cluster) (j : Nat) :
    Option (List Cluster) := do
  let row ← acc.centers[i]?
  let x ← row[j]?
  let n ← acc.counts[i]?
  let q ← divAt x n
  let c ← clusters[i]?
  let c ← c.setCentralValue j q
  writeAt clusters i c

/-- The body of the last pass for cluster `i`: when `points_per_cluster[i] > 0` every
coordinate of the centre is overwritten, otherwise the centre is not touched. -/
def updateStep (total_values : Nat) (acc : LocalVars) (clusters : List Cluster) (i : Nat) :
    Option (List Cluster) := do
  let n ← acc.counts[i]?
  if n > 0 then forLoop 0 total_values (updateValue acc i) clusters
  else pure clusters

/-- The skeleton of the main loop, with `body` one iteration returning the new state and
`done`:
`while (true) { body; if (done == true || iter >= max_iterations) break; iter++; }`.
The result is the final state and the value of `iter` at the break. -/
def whileLoop {σ : Type} (max_iterations : Nat) (body : Nat → σ → Option (σ × Bool))
    (s : σ) (iter : Nat) : Option (σ × Nat) :=
  match body iter s with
  | none => none
  | some (t, done) =>
    if done = true ∨ iter ≥ max_iterations then some (t, iter)
    else whileLoop max_iterations body t (iter + 1)
termination_by max_iterations - iter
decreasing_by
  simp_wf
  omega

/-- What `run` leaves behind: the engine (with its centroid table), the points, and the
iteration printed at the break (`none` when the guard returned before the loop). -/
structure RunResult where
  km : KMeans
  points : List Point
  iter : Option Nat
  deriving DecidableEq, Repr

/-! ## `kmeans-serial-improved.cpp` -/

namespace Serial

/-- The assignment pass: `done = true`, then `for (int i = 0; i < total_points; i++)`. -/
def assignPass (km : KMeans) (points : List Point) : Option (List Point × Bool) :=
  forLoop 0 km.total_points km.assignStep (points, true)

/-- The accumulation pass over all points, from zeroed `new_centers`, `points_per_cluster`. -/
def accumulate (km : KMeans) (points : List Point) : Option LocalVars :=
  forLoop 0 km.total_points (accumulateStep km.total_values points)
    (LocalVars.new km.K km.total_values)

/-- The pass `for (int i = 0; i < K; i++)` computing the new centroids. -/
def updateCenters (km : KMeans) (acc : LocalVars) : Option (List Cluster) :=
  forLoop 0 km.K (updateStep km.total_values acc) km.clusters

/-- The recompute step: accumulate, then overwrite the centroids. -/
def recompute (km : KMeans) (points : List Point) : Option KMeans := do
  let acc ← accumulate km points
  let clusters ← updateCenters km acc
  pure { km with clusters := clusters }

/-- One iteration of the main loop: assignment pass, then recompute. -/
def iteration (st : KMeans × List Point) : Option ((KMeans × List Point) × Bool) := do
  let r ← assignPass st.1 st.2
  let km ← recompute st.1 r.1
  pure ((km, r.1), r.2)

/-- The method `KMeans::run` of the serial file. -/
def run (km : KMeans) (points : List Point) (draws : List Nat) : Option RunResult :=
  if km.K > km.total_points then some { km := km, points := points, iter := none }
  else do
    let sd ← km.seed points draws
    let r ← whileLoop km.max_iterations (fun _ => iteration)
      ({ km with clusters := sd.clusters }, sd.points) 1
    pure { km := r.1.1, points := r.1.2, iter := some r.2 }

end Serial

/-! ## `kmeans-parallel.cpp` -/

namespace Parallel

/-- How the three `tbb::parallel_for` of one iteration were executed. The bodies of one
`parallel_for` touch disjoint data (their own point, their worker's `LocalVars`, their own
cluster), so an execution is given by the order in which the bodies ran.
* `assign`: the order of the bodies of the assignment pass;
* `parts`: for each worker that took part in the accumulation, the point indices it
  visited, in order; `combine_each` visits the workers' `LocalVars` in the order of this list;
* `update`: the order of the bodies of the centroid update. -/
structure Schedule where
  assign : List Nat
  parts : List (List Nat)
  update : List Nat
  deriving DecidableEq, Repr

/-- The assignment pass: `done = true`, then `tbb::parallel_for(0, total_points, ...)`. -/
def assignPass (km : KMeans) (order : List Nat) (points : List Point) :
    Option (List Point × Bool) :=
  order.foldlM km.assignStep (points, true)

/-- The `LocalVars` of one worker after it visited the point indices `part`. -/
def localAccumulate (km : KMeans) (points : List Point) (part : List Nat) : Option LocalVars :=
  part.foldlM (accumulateStep km.total_values points) (LocalVars.new km.K km.total_values)

/-- The statement `new_centers[i][j] += local.centers[i][j]` of `combine_each`, in exact
arithmetic. -/
def combineValue (loc : LocalVars) (i : Nat) (new_centers : List (List ℚ)) (j : Nat) :
    Option (List (List ℚ)) := do
  let lrow ← loc.centers[i]?
  let lv ← lrow[j]?
  let row ← new_centers[i]?
  let x ← row[j]?
  let row ← writeAt row j (x + lv)
  writeAt new_centers i row

/-- The body of `for (int i = 0; i < K; i++)` inside `combine_each`. -/
def combineRow (total_values : Nat) (loc : LocalVars) (acc : LocalVars) (i : Nat) :
    Option LocalVars := do
  let lc ← loc.counts[i]?
  let n ← acc.counts[i]?
  let counts ← writeAt acc.counts i (n + lc)
  let centers ← forLoop 0 total_values (combineValue loc i) acc.centers
  pure { centers := centers, counts := counts }

/-- The lambda of `combine_each` applied to one worker's `LocalVars`. -/
def combineOne (km : KMeans) (acc : LocalVars) (loc : LocalVars) : Option LocalVars :=
  forLoop 0 km.K (combineRow km.total_values loc) acc

/-- The accumulation pass and `combine_each`: every worker fills its own `LocalVars`, then
they are added into zeroed `new_centers`, `points_per_cluster`. -/
def accumulate (km : KMeans) (parts : List (List Nat)) (points : List Point) :
    Option LocalVars := do
  let locals ← parts.mapM (localAccumulate km points)
  locals.foldlM (combineOne km) (LocalVars.new km.K km.total_values)

/-- The pass `tbb::parallel_for(0, K, ...)` computing the new centroids. -/
def updateCenters (km : KMeans) (order : List Nat) (acc : LocalVars) : Option (List Cluster) :=
  order.foldlM (updateStep km.total_values acc) km.clusters

/-- The recompute step: accumulate per worker, combine, then overwrite the centroids. -/
def recompute (km : KMeans) (sched : Schedule) (points : List Point) : Option KMeans := do
  let acc ← accumulate km sched.parts points
  let clusters ← updateCenters km sched.update acc
  pure { km with clusters := clusters }

/-- One iteration of the main loop under a schedule: assignment pass, then recompute. -/
def iteration (sched : Schedule) (st : KMeans × List Point) :
    Option ((KMeans × List Point) × Bool) := do
  let r ← assignPass st.1 sched.assign st.2
  let km ← recompute st.1 sched r.1
  pure ((km, r.1), r.2)

/-- The method `KMeans::run` of the parallel file; `scheds iter` is the schedule of
iteration `iter`. -/
def run (km : KMeans) (scheds : Nat → Schedule) (points : List Point) (draws : List Nat) :
    Option RunResult :=
  if km.K > km.total_points then some { km := km, points := points, iter := none }
  else do
    let sd ← km.seed points draws
    let r ← whileLoop km.max_iterations (fun iter => iteration (scheds iter))
      ({ km with clusters := sd.clusters }, sd.points) 1
    pure { km := r.1.1, points := r.1.2, iter := some r.2 }

end Parallel

/-! ## Vocabulary of the properties -/

/-- Squared Euclidean distance: the sum of the squared coordinate differences. -/
def sqDist (a b : List ℚ) : ℚ := (List.zipWith (fun x y => (x - y) ^ 2) a b).sum

/-- Squared Euclidean distance from the point to centroid `i` of the table. -/
def KMeans.distTo (km : KMeans) (point : Point) (i : Nat) : ℚ :=
  match km.clusters[i]? with
  | some c => sqDist c.central_values point.values
  | none => 0

/-- Centroid table of `K` centroids, each of dimension `total_values`. -/
def KMeans.WF (km : KMeans) : Prop :=
  km.clusters.length = km.K ∧ ∀ c ∈ km.clusters, c.central_values.length = km.total_values

/-- The index `c` is below `m`, no centroid below `m` is nearer to the point than
centroid `c`, and every centroid before `c` is strictly farther. -/
def KMeans.FirstNearest (km : KMeans) (point : Point) (m c : Nat) : Prop :=
  c < m ∧ (∀ i, i < m → km.distTo point c ≤ km.distTo point i) ∧
    (∀ i, i < c → km.distTo point c < km.distTo point i)

/-- The point has `D` coordinates. -/
def Point.HasDim (D : Nat) (p : Point) : Prop := p.values.length = D

/-- The point is assigned to a cluster index in `[0, K)`. -/
def Point.Assigned (K : Nat) (p : Point) : Prop := 0 ≤ p.id_cluster ∧ p.id_cluster < (K : Int)

/-- The length-`K` vector with entry `g c` at index `c`. -/
def vecOf {α : Type} (K : Nat) (g : Nat → α) : List α := (List.range K).map g

/-- The points of the list assigned to cluster `c`. -/
def members (points : List Point) (c : Nat) : List Point :=
  points.filter (fun p => decide (p.id_cluster = (c : Int)))

/-- The sum of coordinate `j` over a list of points. -/
def coordSum (ps : List Point) (j : Nat) : ℚ := (ps.map (fun p => p.values.getD j 0)).sum

/-- The accumulators a pass over the points `ps` ends with: per cluster and coordinate
the sum over the cluster's points, per cluster the number of its points. -/
def sumsOf (K D : Nat) (ps : List Point) : LocalVars :=
  { centers := vecOf K (fun c => vecOf D (fun j => coordSum (members ps c) j)),
    counts := vecOf K (fun c => (members ps c).length) }

/-- The points found at the indices of `L`, in the order of `L`. -/
def pointsAt (points : List Point) (L : List Nat) : List Point :=
  L.filterMap (fun i => points[i]?)

/-- Every index of the list addresses a point of dimension `D` assigned within `[0, K)`. -/
def GoodIndices (K D : Nat) (points : List Point) (L : List Nat) : Prop :=
  ∀ i ∈ L, ∃ p, points[i]? = some p ∧ p.HasDim D ∧ p.Assigned K

/-- The component-wise mean of the points: coordinate `j` is the sum of coordinate `j` over
the points divided by the number of points. -/
def meanOf (D : Nat) (ps : List Point) : List ℚ :=
  vecOf D (fun j => coordSum ps j / (ps.length : ℚ))

/-- The centroid of cluster `i` after a recompute over `points`: the mean of the cluster's
points when it has any, the old centroid otherwise. -/
def newCenter (D : Nat) (points : List Point) (i : Nat) (c : Cluster) : Cluster :=
  if 0 < (members points i).length then
    { c with central_values := meanOf D (members points i) }
  else c

/-- The index the nearest-centre search returns for the point (0 when the search faults). -/
def KMeans.nearest (km : KMeans) (p : Point) : Nat := (km.getIDNearestCenter p).getD 0

/-- Every point moved to its nearest centroid. -/
def KMeans.reassign (km : KMeans) (points : List Point) : List Point :=
  points.map (fun p => p.setCluster (km.nearest p))

/-- Every point is already assigned to its nearest centroid. -/
def KMeans.stable (km : KMeans) (points : List Point) : Bool :=
  points.all (fun p => decide (p.id_cluster = (km.nearest p : Int)))

/-- The centroid table after a recompute over `points`. -/
def newCenters (D : Nat) (points : List Point) (clusters : List Cluster) : List Cluster :=
  List.zipWith (newCenter D points) (List.range clusters.length) clusters

/-- The engine after a recompute over `points`. -/
def KMeans.recenter (km : KMeans) (points : List Point) : KMeans :=
  { km with clusters := newCenters km.total_values points km.clusters }

/-- A valid execution of one iteration: every point is visited exactly once by the
assignment pass and exactly once by the accumulation, every cluster exactly once by the
update. -/
def Parallel.Schedule.Valid (sched : Parallel.Schedule) (km : KMeans) : Prop :=
  sched.assign.Perm (List.range km.total_points) ∧
  sched.parts.flatten.Perm (List.range km.total_points) ∧
  sched.update.Perm (List.range km.K)

/-- The invariant of the main loop: at least one centroid, a table of `K` centroids of
dimension `total_values`, and `total_points` points of dimension `total_values`. -/
def LoopInv (st : KMeans × List Point) : Prop :=
  1 ≤ st.1.K ∧ st.1.WF ∧ st.2.length = st.1.total_points ∧
    ∀ p ∈ st.2, p.HasDim st.1.total_values

/-- One iteration of Lloyd's algorithm in closed form: reassign every point to its nearest
centroid, recompute the centroids from the new assignment, and report whether nothing
moved. -/
def lloydStep (st : KMeans × List Point) : (KMeans × List Point) × Bool :=
  ((st.1.recenter (st.1.reassign st.2), st.1.reassign st.2), st.1.stable st.2)

/-- The state and the `done` flag after iterations `1 .. n` of the loop body, repeated
without looking at the stop test (`n = 0`: the state the loop starts from). -/
def stateAfter {σ : Type} (body : Nat → σ → Option (σ × Bool)) (s : σ) :
    Nat → Option (σ × Bool)
  | 0 => some (s, false)
  | n + 1 => (stateAfter body s n).bind (fun r => body (n + 1) r.1)

/-- The state of the seeding after `i` rounds from the points `points` and an empty centroid
table: `i` accepted indices, distinct and below `total_points`; `i` centroids; the `k`-th
accepted point carries cluster `k` and centroid `k` is a copy of its coordinates; every other
point is as it was. -/
def Seeded (points : List Point) (total_points i : Nat) (st : SeedState) : Prop :=
  st.prohibited_indexes.length = i ∧ st.prohibited_indexes.Nodup ∧
  (∀ idx ∈ st.prohibited_indexes, idx < total_points) ∧
  st.clusters.length = i ∧ st.points.length = points.length ∧
  (∀ k, k < i → ∃ idx p0, st.prohibited_indexes[k]? = some idx ∧ points[idx]? = some p0 ∧
    st.points[idx]? = some (p0.setCluster k) ∧
    st.clusters[k]? = some { id_cluster := k, central_values := p0.values }) ∧
  (∀ idx, idx ∉ st.prohibited_indexes → st.points[idx]? = points[idx]?)

/-- The invariant of the main loop of a run of the engine `km0`: the loop invariant, with
`K` and `total_points` those of `km0`. -/
def RunInv (km0 : KMeans) (st : KMeans × List Point) : Prop :=
  LoopInv st ∧ st.1.K = km0.K ∧ st.1.total_points = km0.total_points

/-- The state and `done` flag after iterations `1 .. n` of the serial run (repeated without
the stop test), from the seeded state. -/
def Serial.trace (km : KMeans) (points : List Point) (draws : List Nat) (n : Nat) :
    Option ((KMeans × List Point) × Bool) :=
  (km.seed points draws).bind (fun sd =>
    stateAfter (fun _ => Serial.iteration) ({ km with clusters := sd.clusters }, sd.points) n)

/-- The state and `done` flag after iterations `1 .. n` of the parallel run (repeated
without the stop test), from the seeded state. -/
def Parallel.trace (km : KMeans) (scheds : Nat → Parallel.Schedule) (points : List Point) (draws : List Nat)
    (n : Nat) : Option ((KMeans × List Point) × Bool) :=
  (km.seed points draws).bind (fun sd =>
    stateAfter (fun iter => Parallel.iteration (scheds iter))
      ({ km with clusters := sd.clusters }, sd.points) n)

/-- An engine with three centroids in the plane. -/
def exKm : KMeans :=
  { K := 3, total_values := 2, total_points := 3, max_iterations := 5,
    clusters := [⟨0, [0, 0]⟩, ⟨1, [1, 1]⟩, ⟨2, [1 / 2, 3 / 2]⟩] }

/-- A point at the same distance from centroids 0 and 1 of `exKm`. -/
def exPoint : Point := { id_point := 0, id_cluster := 1, values := [1 / 2, 1 / 2], name := "" }

/-- Three points, two in cluster 1 and one in cluster 0; cluster 2 is empty. -/
def exPoints : List Point :=
  [exPoint, { id_point := 1, id_cluster := 1, values := [1, 1], name := "" },
    { id_point := 2, id_cluster := 0, values := [0, 0], name := "" }]

/-- An execution with two workers and shuffled orders. -/
def exSched : Parallel.Schedule :=
  { assign := [2, 0, 1], parts := [[2, 0], [1]], update := [1, 2, 0] }

/-- The stop rule of a run, read off the trace of its iterations: the run ended at
iteration `it >= 1` in the state the trace has there, iteration `it` reported `done` or
`it >= max_iterations`, and every earlier iteration reported a change below the cap. -/
def StopsAtFirst (max_iterations : Nat) (trace : Nat → Option ((KMeans × List Point) × Bool))
    (res : RunResult) : Prop :=
  ∃ it, res.iter = some it ∧ 1 ≤ it ∧
    (∃ done, trace it = some ((res.km, res.points), done) ∧
      (done = true ∨ it ≥ max_iterations)) ∧
    ∀ i, 1 ≤ i → i < it → ∃ st, trace i = some (st, false) ∧ i < max_iterations

/-- The four points of the line `1.0, 1.1, 9.0, 9.2`, all unassigned. -/
def linePoints : List Point :=
  [Point.new 0 [1] "", Point.new 1 [11 / 10] "", Point.new 2 [9] "", Point.new 3 [46 / 5] ""]

/-- A fresh engine for `linePoints`: two clusters, at most ten iterations. -/
def lineKm : KMeans := KMeans.new 2 4 1 10

/-- Draws of `rand()` that pick point 0, then point 0 again (rejected), then point 2. -/
def lineDraws : List Nat := [0, 4, 2]

/-- An execution of `lineKm` with two workers and shuffled orders, the same at every
iteration. -/
def lineSched : Parallel.Schedule :=
  { assign := [3, 1, 0, 2], parts := [[3, 0], [2, 1]], update := [1, 0] }

/-- The outcome of the run on `linePoints`: centroids `1.05` and `9.1`, two iterations. -/
def lineResult : RunResult :=
  { km := { K := 2, total_values := 1, total_points := 4, max_iterations := 10,
            clusters := [⟨0, [21 / 20]⟩, ⟨1, [91 / 10]⟩] },
    points := [⟨0, 0, [1], ""⟩, ⟨1, 0, [11 / 10], ""⟩, ⟨2, 1, [9], ""⟩, ⟨3, 1, [46 / 5], ""⟩],
    iter := some 2 }

/-- A fresh engine with one cluster, one point and `max_iterations = 0`. -/
def zeroCapKm : KMeans := KMeans.new 1 1 1 0

/-- The single point of the `zeroCapKm` run. -/
def zeroCapPoints : List Point := [Point.new 0 [1] ""]

/-- The state the seeding of `lineKm` ends in: points 0 and 2 accepted. -/
def lineSeed : SeedState :=
  { prohibited_indexes := [0, 2],
    points := [⟨0, 0, [1], ""⟩, ⟨1, -1, [11 / 10], ""⟩, ⟨2, 1, [9], ""⟩, ⟨3, -1, [46 / 5], ""⟩],
    clusters := [⟨0, [1]⟩, ⟨1, [9]⟩], draws := [] }

/-- A fresh engine asked for three clusters over two points. -/
def tooManyKm : KMeans := KMeans.new 3 2 1 10

/-- The two unassigned points given to `tooManyKm`. -/
def tooManyPoints : List Point := [Point.new 0 [1] "", Point.new 1 [2] ""]

/-- A second execution of `exKm`: three workers, one of them idle. -/
def exSched2 : Parallel.Schedule :=
  { assign := [0, 1, 2], parts := [[1], [], [0, 2]], update := [0, 1, 2] }

/-- A second execution of `lineKm`: a single worker, in index order. -/
def lineSched2 : Parallel.Schedule :=
  { assign := [0, 1, 2, 3], parts := [[0, 1, 2, 3]], update := [0, 1] }

instance (km : KMeans) : Decidable km.WF :=
  inferInstanceAs (Decidable (km.clusters.length = km.K ∧
    ∀ c ∈ km.clusters, c.central_values.length = km.total_values))

instance (K : Nat) (p : Point) : Decidable (p.Assigned K) :=
  inferInstanceAs (Decidable (0 ≤ p.id_cluster ∧ p.id_cluster < (K : Int)))

instance (D : Nat) (p : Point) : Decidable (p.HasDim D) :=
  inferInstanceAs (Decidable (p.values.length = D))

instance (sched : Parallel.Schedule) (km : KMeans) : Decidable (sched.Valid km) :=
  inferInstanceAs (Decidable (sched.assign.Perm (List.range km.total_points) ∧
    sched.parts.flatten.Perm (List.range km.total_points) ∧
    sched.update.Perm (List.range km.K)))

/-- The state and `done` flag after `n` iterations of Lloyd's algorithm in closed form. -/
def lloydTrace (s : KMeans × List Point) : Nat → (KMeans × List Point) × Bool
  | 0 => (s, false)
  | n + 1 => lloydStep (lloydTrace s n).1

/-- No two points of the list have the same coordinates. -/
def DistinctPoints (points : List Point) : Prop :=
  ∀ (i j : Nat) (p q : Point), points[i]? = some p → points[j]? = some q →
    p.values = q.values → i = j

/-- A fresh engine with as many clusters as points: `K = total_points = 3`. -/
def dupKm : KMeans := KMeans.new 3 3 2 5

/-- Three unassigned points, the first two with the same coordinates. -/
def dupPoints : List Point :=
  [Point.new 0 [1, 0] "", Point.new 1 [1, 0] "", Point.new 2 [5, 5] ""]

/-- The state the seeding of `dupKm` reaches on the draws `0, 1, 2`: point `i` seeds
cluster `i`. -/
def dupSeed : SeedState :=
  { prohibited_indexes := [0, 1, 2],
    points := [⟨0, 0, [1, 0], ""⟩, ⟨1, 1, [1, 0], ""⟩, ⟨2, 2, [5, 5], ""⟩],
    clusters := [⟨0, [1, 0]⟩, ⟨1, [1, 0]⟩, ⟨2, [5, 5]⟩], draws := [] }

/-- The points after the first assignment pass of the `dupKm` run: point 1 has moved to
cluster 0. -/
def dupAssigned : List Point :=
  [⟨0, 0, [1, 0], ""⟩, ⟨1, 0, [1, 0], ""⟩, ⟨2, 2, [5, 5], ""⟩]

/-- Three unassigned points of pairwise different coordinates. -/
def triPoints : List Point :=
  [Point.new 0 [1, 0] "", Point.new 1 [2, 0] "", Point.new 2 [5, 5] ""]

/-- The state the seeding of `dupKm` reaches on `triPoints` with the draws `2, 0, 1`. -/
def triSeed : SeedState :=
  { prohibited_indexes := [2, 0, 1],
    points := [⟨0, 1, [1, 0], ""⟩, ⟨1, 2, [2, 0], ""⟩, ⟨2, 0, [5, 5], ""⟩],
    clusters := [⟨0, [5, 5]⟩, ⟨1, [1, 0]⟩, ⟨2, [2, 0]⟩], draws := [] }

/-- An execution of `dupKm` with two workers, the same at every iteration. -/
def triSched : Parallel.Schedule :=
  { assign := [2, 0, 1], parts := [[1], [2, 0]], update := [2, 1, 0] }

/-- Every centroid whose cluster has a point is the component-wise mean of its points. -/
def Centered (st : KMeans × List Point) : Prop :=
  ∀ (i : Nat) (c : Cluster), st.1.clusters[i]? = some c → 0 < (members st.2 i).length →
    c.central_values = meanOf st.1.total_values (members st.2 i)

/-- The state of the seeding after its first `i` rounds (`i = K`: the whole seeding). -/
def KMeans.seedRounds (km : KMeans) (points : List Point) (draws : List Nat) (i : Nat) :
    Option SeedState :=
  forLoop 0 i (seedStep km.total_points)
    { prohibited_indexes := [], points := points, clusters := km.clusters, draws := draws }

/-- The squared distance from the point to the centroid of the cluster it is assigned to
(`0` when it is assigned to no centroid of the table). -/
def KMeans.pointCost (km : KMeans) (p : Point) : ℚ :=
  match readAt km.clusters p.id_cluster with
  | some c => sqDist c.central_values p.values
  | none => 0

/-- The clustering cost: the sum over all points of the squared distance to the centroid of
the point's cluster. -/
def cost (st : KMeans × List Point) : ℚ := (st.2.map st.1.pointCost).sum

/-- The outcome of a step on a list, told from its own element: a fault, no change, or a
new value for element `i`. -/
def applyLocal {α : Type} (l : List α) (i : Nat) : Option (Option α) → Option (List α)
  | none => none
  | some none => some l
  | some (some y) => some (l.set i y)

/-- The statement `clusters[i].setCentralValue(j, new_centers[i][j] / points_per_cluster[i])`
seen from the cluster it rewrites. -/
def updateElem (acc : LocalVars) (i : Nat) (c : Cluster) (j : Nat) : Option Cluster := do
  let row ← acc.centers[i]?
  let x ← row[j]?
  let n ← acc.counts[i]?
  let q ← divAt x n
  c.setCentralValue j q

/-- The body of the last pass for cluster `i`, told from the cluster it rewrites. -/
def updateLocal (total_values : Nat) (acc : LocalVars) (i : Nat) :
    Option Cluster → Option (Option Cluster) := fun oc =>
  match acc.counts[i]? with
  | none => none
  | some n =>
    if n > 0 then
      if total_values = 0 then some none
      else
        match oc with
        | none => none
        | some c => (forLoop 0 total_values (updateElem acc i) c).map some
    else some none

/-- Index `i` addresses a point assigned within `[0, K)` that has at least `D` coordinates:
the accumulation can visit it. -/
def Visitable (K D : Nat) (points : List Point) (i : Nat) : Prop :=
  ∃ p, points[i]? = some p ∧ p.Assigned K ∧ D ≤ p.values.length

/-! ## The same program under IEEE 754 arithmetic

Everything above computes with exact rationals. The namespace `Ieee` embeds the same source
text once more with `double` as the machine has it: binary64, every operation rounded to
nearest with ties to even, overflow to an infinity, underflow through the subnormals to zero.
Each arithmetic operation is rounded once (no extended precision, no fused multiply-add), and
`pow(x, 2.0)` is the rounded product `x * x`. -/

namespace Ieee

/-- A value of type `double`: a finite number, held as the rational it denotes, an infinity
with its sign (`neg = true` for the negative one), or a NaN. The two zeros are one value: the
program never divides by a `double` zero and comparisons do not tell them apart. -/
inductive Dbl where
  | fin (q : ℚ)
  | inf (neg : Bool)
  | nan
  deriving DecidableEq, Repr

/-- The number of halvings that bring `n` below 2, counted with at most `fuel` steps. -/
def log2Aux : Nat → Nat → Nat
  | 0, _ => 0
  | fuel + 1, n => if n < 2 then 0 else log2Aux fuel (n / 2) + 1

/-- The binary logarithm of a natural number, rounded down (`0` for `0`). -/
def log2 (n : Nat) : Nat := log2Aux n n

/-- The integer square root bit by bit: bit `k` is set when the square stays within `n`. -/
def isqrtAux (n : Nat) : Nat → Nat → Nat
  | 0, r => r
  | k + 1, r =>
    if (r + 2 ^ k) * (r + 2 ^ k) ≤ n then isqrtAux n k (r + 2 ^ k) else isqrtAux n k r

/-- The integer square root: the largest `r` with `r * r <= n`. -/
def isqrt (n : Nat) : Nat := isqrtAux n (log2 n / 2 + 1) 0

/-- The power of two `2^e` as a rational. -/
def twoPow (e : Int) : ℚ :=
  if 0 ≤ e then ((2 ^ e.toNat : Nat) : ℚ) else 1 / ((2 ^ (-e).toNat : Nat) : ℚ)

/-- The binary exponent of a positive rational: the `e` with `2^e <= q < 2^(e+1)`. -/
def ilog2 (q : ℚ) : Int :=
  let e : Int := (log2 q.num.natAbs : Int) - (log2 q.den : Int)
  if q < twoPow e then e - 1 else e

/-- Rounding of a non-negative rational to the nearest integer, a tie to the even one. -/
def roundHalfEven (m : ℚ) : Int :=
  let f := ⌊m⌋
  if m - f < 1 / 2 then f
  else if 1 / 2 < m - f then f + 1
  else if f % 2 = 0 then f else f + 1

/-- Rounding of a real result to `double`: to the nearest multiple of the unit in the last
place of its binade (53 significant bits, exponent not below `-1022`, so subnormals included),
a tie to the even multiple; a result that rounds to `2^1024` or beyond is an infinity. -/
def Dbl.round (q : ℚ) : Dbl :=
  if q = 0 then Dbl.fin 0
  else
    let a := if q < 0 then -q else q
    let e := max (ilog2 a) (-1022)
    let ulp := twoPow (e - 52)
    let r := (roundHalfEven (a / ulp) : ℚ) * ulp
    if twoPow 1024 ≤ r then Dbl.inf (decide (q < 0))
    else Dbl.fin (if q < 0 then -r else r)

/-- The sum `a + b` of two `double`. -/
def Dbl.add : Dbl → Dbl → Dbl
  | Dbl.fin a, Dbl.fin b => Dbl.round (a + b)
  | Dbl.fin _, Dbl.inf s => Dbl.inf s
  | Dbl.inf s, Dbl.fin _ => Dbl.inf s
  | Dbl.inf s, Dbl.inf t => if s = t then Dbl.inf s else Dbl.nan
  | _, _ => Dbl.nan

/-- The difference `a - b` of two `double`. -/
def Dbl.sub : Dbl → Dbl → Dbl
  | Dbl.fin a, Dbl.fin b => Dbl.round (a - b)
  | Dbl.fin _, Dbl.inf s => Dbl.inf (!s)
  | Dbl.inf s, Dbl.fin _ => Dbl.inf s
  | Dbl.inf s, Dbl.inf t => if s = t then Dbl.nan else Dbl.inf s
  | _, _ => Dbl.nan

/-- The quotient `a / b` of two `double`. -/
def Dbl.div : Dbl → Dbl → Dbl
  | Dbl.fin a, Dbl.fin b =>
    if b = 0 then (if a = 0 then Dbl.nan else Dbl.inf (decide (a < 0)))
    else Dbl.round (a / b)
  | Dbl.fin _, Dbl.inf _ => Dbl.fin 0
  | Dbl.inf s, Dbl.fin b => Dbl.inf (xor s (decide (b < 0)))
  | _, _ => Dbl.nan

/-- The comparison `a < b` of two `double`: false as soon as one side is a NaN. -/
def Dbl.lt : Dbl → Dbl → Bool
  | Dbl.fin a, Dbl.fin b => decide (a < b)
  | Dbl.fin _, Dbl.inf s => !s
  | Dbl.inf s, Dbl.fin _ => s
  | Dbl.inf s, Dbl.inf t => s && !t
  | _, _ => false

instance : Add Dbl := ⟨Dbl.add⟩

instance : Sub Dbl := ⟨Dbl.sub⟩

instance : Div Dbl := ⟨Dbl.div⟩

instance : Zero Dbl := ⟨Dbl.fin 0⟩

instance : LT Dbl := ⟨fun a b => Dbl.lt a b = true⟩

instance (a b : Dbl) : Decidable (a < b) :=
  inferInstanceAs (Decidable (Dbl.lt a b = true))

/-- The conversion of an `int` count to `double` (exact below `2^53`). -/
def Dbl.ofNat (n : Nat) : Dbl := Dbl.round n

/-- The call `pow(x, 2.0)`: the rounded square. -/
def pow2 : Dbl → Dbl
  | Dbl.fin a => Dbl.round (a * a)
  | Dbl.inf _ => Dbl.inf false
  | Dbl.nan => Dbl.nan

/-- A rational that rounds to `double` as the real square root of the positive rational `a`
does: `a` is scaled by a power of four until its integer square root `s` has more than 53
bits; the root is the scaled `s` when `s * s` is the scaled `a`, and lies strictly between
`s` and `s + 1` otherwise, where no `double` and no midpoint of two `double` lies. -/
def sqrtApprox (a : ℚ) : ℚ :=
  let k := ((120 - ilog2 a) / 2).toNat
  let x := a * ((4 ^ k : Nat) : ℚ)
  let s := isqrt ⌊x⌋.toNat
  if ((s * s : Nat) : ℚ) = x then (s : ℚ) / ((2 ^ k : Nat) : ℚ)
  else ((s : ℚ) + 1 / 2) / ((2 ^ k : Nat) : ℚ)

/-- The call `sqrt(x)`, correctly rounded; a NaN for a negative argument. -/
def sqrt : Dbl → Dbl
  | Dbl.fin a =>
    if a < 0 then Dbl.nan else if a = 0 then Dbl.fin 0 else Dbl.round (sqrtApprox a)
  | Dbl.inf s => if s then Dbl.nan else Dbl.inf false
  | Dbl.nan => Dbl.nan

/-- Checked division `x / n` of a `double` by an `int` count. -/
def divAt (x : Dbl) (n : Nat) : Option Dbl :=
  if n = 0 then none else some (x / Dbl.ofNat n)

/-! ## `class Point` -/

/-- The class `Point`: identity, current cluster, coordinates, optional label. -/
structure Point where
  id_point : Int
  id_cluster : Int
  values : List Dbl
  name : String
  deriving DecidableEq, Repr

/-- The constructor `Point(id_point, values, name)`: copies the values, cluster `-1`. -/
def Point.new (id_point : Int) (values : List Dbl) (name : String) : Point :=
  { id_point := id_point, id_cluster := -1, values := values, name := name }

/-- The method `Point::setCluster`. -/
def Point.setCluster (p : Point) (id_cluster : Int) : Point :=
  { p with id_cluster := id_cluster }

/-- The method `Point::getCluster`. -/
def Point.getCluster (p : Point) : Int := p.id_cluster

/-- The method `Point::getValue`: the read `values[index]`. -/
def Point.getValue (p : Point) (index : Nat) : Option Dbl := p.values[index]?

/-- The method `Point::getTotalValues`. -/
def Point.getTotalValues (p : Point) : Nat := p.values.length

/-! ## `class Cluster` -/

/-- The class `Cluster`: identity and centroid coordinates. -/
structure Cluster where
  id_cluster : Int
  central_values : List Dbl
  deriving DecidableEq, Repr

/-- One round of the constructor's loop: `central_values[i] = point.getValue(i)`. -/
def Cluster.copyValue (point : Point) (central_values : List Dbl) (i : Nat) : Option (List Dbl) := do
  let v ← point.getValue i
  writeAt central_values i v

/-- The constructor `Cluster(id_cluster, point)`: the centroid is a copy of the point's
coordinates (`resize(total_values)` then `central_values[i] = point.getValue(i)`). -/
def Cluster.new (id_cluster : Int) (point : Point) : Option Cluster :=
  (forLoop 0 point.getTotalValues (Cluster.copyValue point)
    (List.replicate point.getTotalValues 0)).map
    (fun cv => { id_cluster := id_cluster, central_values := cv })

/-- The method `Cluster::getCentralValue`: the read `central_values[index]`. -/
def Cluster.getCentralValue (c : Cluster) (index : Nat) : Option Dbl := c.central_values[index]?

/-- The method `Cluster::setCentralValue`: the write `central_values[index] = value`. -/
def Cluster.setCentralValue (c : Cluster) (index : Nat) (value : Dbl) : Option Cluster :=
  (writeAt c.central_values index value).map (fun cv => { c with central_values := cv })

/-! ## `class KMeans` -/

/-- The class `KMeans`: the configuration and the centroid table `clusters`. -/
structure KMeans where
  K : Nat
  total_values : Nat
  total_points : Nat
  max_iterations : Nat
  clusters : List Cluster
  deriving DecidableEq, Repr

/-- The constructor `KMeans(K, total_points, total_values, max_iterations)`. -/
def KMeans.new (K total_points total_values max_iterations : Nat) : KMeans :=
  { K := K, total_values := total_values, total_points := total_points,
    max_iterations := max_iterations, clusters := [] }

/-- One round of the inner loop of `getIDNearestCenter`, each operation rounded:
`sum += pow(clusters[i].getCentralValue(j) - point.getValue(j), 2.0)`. -/
def KMeans.sumSquaresStep (km : KMeans) (i : Nat) (point : Point) (sum : Dbl) (j : Nat) :
    Option Dbl := do
  let c ← km.clusters[i]?
  let cv ← c.getCentralValue j
  let pv ← point.getValue j
  pure (sum + pow2 (cv - pv))

/-- The inner loop of `getIDNearestCenter`, `for (j = 0; j < total_values; j++)`, from
`sum = 0.0`. -/
def KMeans.sumSquares (km : KMeans) (i : Nat) (point : Point) : Option Dbl :=
  forLoop 0 km.total_values (km.sumSquaresStep i point) 0

/-- One round of the outer loop of `getIDNearestCenter` on the pair
`(min_dist, id_cluster_center)`: centroid `i` is taken only when `dist < min_dist`. -/
def KMeans.nearestStep (km : KMeans) (point : Point) (st : Dbl × Nat) (i : Nat) :
    Option (Dbl × Nat) := do
  let sum ← km.sumSquares i point
  let dist := sqrt sum
  if dist < st.1 then pure (dist, i) else pure st

/-- The method `KMeans::getIDNearestCenter`: the distance to centroid 0 first, then
centroids `1 .. K-1` in increasing order. -/
def KMeans.getIDNearestCenter (km : KMeans) (point : Point) : Option Nat := do
  let sum ← km.sumSquares 0 point
  let min_dist := sqrt sum
  let r ← forLoop 1 km.K (km.nearestStep point) (min_dist, 0)
  pure r.2

/-! ## Seeding -/

/-- The variables the seeding loop works on: the list `prohibited_indexes`, the points,
the centroid table and the draws of `rand()` not yet consumed. -/
structure SeedState where
  prohibited_indexes : List Nat
  points : List Point
  clusters : List Cluster
  draws : List Nat
  deriving DecidableEq, Repr

/-- The loop `while (true)` of the seeding for cluster `i`: draw
`index_point = rand() % total_points` until it is not in `prohibited_indexes`, then push
it, set the point's cluster to `i`, append `Cluster(i, points[index_point])` and break. -/
def seedWhile (total_points i : Nat) (prohibited_indexes : List Nat) (points : List Point)
    (clusters : List Cluster) : List Nat → Option SeedState
  | [] => none
  | r :: draws =>
    if total_points = 0 then none
    else
      let index_point := r % total_points
      if index_point ∉ prohibited_indexes then do
        let p ← points[index_point]?
        let points ← writeAt points index_point (p.setCluster i)
        let q ← points[index_point]?
        let c ← Cluster.new i q
        pure { prohibited_indexes := prohibited_indexes ++ [index_point], points := points,
               clusters := clusters ++ [c], draws := draws }
      else seedWhile total_points i prohibited_indexes points clusters draws

/-- One round of `for (int i = 0; i < K; i++)` of the seeding. -/
def seedStep (total_points : Nat) (st : SeedState) (i : Nat) : Option SeedState :=
  seedWhile total_points i st.prohibited_indexes st.points st.clusters st.draws

/-- The seeding phase of `run`: choose `K` distinct points as the first centres. -/
def KMeans.seed (km : KMeans) (points : List Point) (draws : List Nat) : Option SeedState :=
  forLoop 0 km.K (seedStep km.total_points)
    { prohibited_indexes := [], points := points, clusters := km.clusters, draws := draws }

/-! ## The three passes of one iteration: loop bodies -/

/-- The body of the assignment pass for point `i`, on the pair `(points, done)`. -/
def KMeans.assignStep (km : KMeans) (st : List Point × Bool) (i : Nat) :
    Option (List Point × Bool) := do
  let p ← st.1[i]?
  let id_old_cluster := p.getCluster
  let id_nearest_center ← km.getIDNearestCenter p
  if id_old_cluster ≠ (id_nearest_center : Int) then do
    let points ← writeAt st.1 i (p.setCluster id_nearest_center)
    pure (points, false)
  else pure st

/-- The accumulators of the recompute: the `K x total_values` matrix of sums and the `K`
counts. In the parallel file this is `struct LocalVars` (`centers`, `counts`); in the serial
file the same two vectors are the locals `new_centers` and `points_per_cluster`. -/
structure LocalVars where
  centers : List (List Dbl)
  counts : List Nat
  deriving DecidableEq, Repr

/-- The constructor `LocalVars(K, total_values)`: all sums `0.0`, all counts `0`. -/
def LocalVars.new (K total_values : Nat) : LocalVars :=
  { centers := List.replicate K (List.replicate total_values 0), counts := List.replicate K 0 }

/-- The statement `centers[cluster_id][j] += points[i].getValue(j)`, a rounded addition. -/
def accumulateValue (points : List Point) (i : Nat) (cluster_id : Int)
    (centers : List (List Dbl)) (j : Nat) : Option (List (List Dbl)) := do
  let p ← points[i]?
  let v ← p.getValue j
  let row ← readAt centers cluster_id
  let x ← row[j]?
  let row ← writeAt row j (x + v)
  writeAtInt centers cluster_id row

/-- The body of the accumulation pass for point `i`: `counts[cluster_id]++`, then the
point's coordinates are added to row `cluster_id`. -/
def accumulateStep (total_values : Nat) (points : List Point) (acc : LocalVars) (i : Nat) :
    Option LocalVars := do
  let p ← points[i]?
  let cluster_id := p.getCluster
  let n ← readAt acc.counts cluster_id
  let counts ← writeAtInt acc.counts cluster_id (n + 1)
  let centers ← forLoop 0 total_values (accumulateValue points i cluster_id) acc.centers
  pure { centers := centers, counts := counts }

/-- The statement `clusters[i].setCentralValue(j, new_centers[i][j] / points_per_cluster[i])`. -/
def updateValue (acc : LocalVars) (i : Nat) (clusters : List Cluster) (j : Nat) :
    Option (List Cluster) := do
  let row ← acc.centers[i]?
  let x ← row[j]?
  let n ← acc.counts[i]?
  let q ← divAt x n
  let c ← clusters[i]?
  let c ← c.setCentralValue j q
  writeAt clusters i c

/-- The body of the last pass for cluster `i`: when `points_per_cluster[i] > 0` every
coordinate of the centre is overwritten, otherwise the centre is not touched. -/
def updateStep (total_values : Nat) (acc : LocalVars) (clusters : List Cluster) (i : Nat) :
    Option (List Cluster) := do
  let n ← acc.counts[i]?
  if n > 0 then forLoop 0 total_values (updateValue acc i) clusters
  else pure clusters

/-- What `run` leaves behind: the engine (with its centroid table), the points, and the
iteration printed at the break (`none` when the guard returned before the loop). -/
structure RunResult where
  km : KMeans
  points : List Point
  iter : Option Nat
  deriving DecidableEq, Repr

/-! ## `kmeans-serial-improved.cpp` -/

namespace Serial

/-- The assignment pass: `done = true`, then `for (int i = 0; i < total_points; i++)`. -/
def assignPass (km : KMeans) (points : List Point) : Option (List Point × Bool) :=
  forLoop 0 km.total_points km.assignStep (points, true)

/-- The accumulation pass over all points, from zeroed `new_centers`, `points_per_cluster`. -/
def accumulate (km : KMeans) (points : List Point) : Option LocalVars :=
  forLoop 0 km.total_points (accumulateStep km.total_values points)
    (LocalVars.new km.K km.total_values)

/-- The pass `for (int i = 0; i < K; i++)` computing the new centroids. -/
def updateCenters (km : KMeans) (acc : LocalVars) : Option (List Cluster) :=
  forLoop 0 km.K (updateStep km.total_values acc) km.clusters

/-- The recompute step: accumulate, then overwrite the centroids. -/
def recompute (km : KMeans) (points : List Point) : Option KMeans := do
  let acc ← accumulate km points
  let clusters ← updateCenters km acc
  pure { km with clusters := clusters }

/-- One iteration of the main loop: assignment pass, then recompute. -/
def iteration (st : KMeans × List Point) : Option ((KMeans × List Point) × Bool) := do
  let r ← assignPass st.1 st.2
  let km ← recompute st.1 r.1
  pure ((km, r.1), r.2)

/-- The method `KMeans::run` of the serial file. -/
def run (km : KMeans) (points : List Point) (draws : List Nat) : Option RunResult :=
  if km.K > km.total_points then some { km := km, points := points, iter := none }
  else do
    let sd ← km.seed points draws
    let r ← whileLoop km.max_iterations (fun _ => iteration)
      ({ km with clusters := sd.clusters }, sd.points) 1
    pure { km := r.1.1, points := r.1.2, iter := some r.2 }

end Serial

/-! ## `kmeans-parallel.cpp` -/

namespace Parallel

/-- The assignment pass: `done = true`, then `tbb::parallel_for(0, total_points, ...)`. -/
def assignPass (km : KMeans) (order : List Nat) (points : List Point) :
    Option (List Point × Bool) :=
  order.foldlM km.assignStep (points, true)

/-- The `LocalVars` of one worker after it visited the point indices `part`. -/
def localAccumulate (km : KMeans) (points : List Point) (part : List Nat) : Option LocalVars :=
  part.foldlM (accumulateStep km.total_values points) (LocalVars.new km.K km.total_values)

/-- The statement `new_centers[i][j] += local.centers[i][j]` of `combine_each`, a rounded
addition. -/
def combineValue (loc : LocalVars) (i : Nat) (new_centers : List (List Dbl)) (j : Nat) :
    Option (List (List Dbl)) := do
  let lrow ← loc.centers[i]?
  let lv ← lrow[j]?
  let row ← new_centers[i]?
  let x ← row[j]?
  let row ← writeAt row j (x + lv)
  writeAt new_centers i row

/-- The body of `for (int i = 0; i < K; i++)` inside `combine_each`. -/
def combineRow (total_values : Nat) (loc : LocalVars) (acc : LocalVars) (i : Nat) :
    Option LocalVars := do
  let lc ← loc.counts[i]?
  let n ← acc.counts[i]?
  let counts ← writeAt acc.counts i (n + lc)
  let centers ← forLoop 0 total_values (combineValue loc i) acc.centers
  pure { centers := centers, counts := counts }

/-- The lambda of `combine_each` applied to one worker's `LocalVars`. -/
def combineOne (km : KMeans) (acc : LocalVars) (loc : LocalVars) : Option LocalVars :=
  forLoop 0 km.K (combineRow km.total_values loc) acc

/-- The accumulation pass and `combine_each`: every worker fills its own `LocalVars`, then
they are added into zeroed `new_centers`, `points_per_cluster`. -/
def accumulate (km : KMeans) (parts : List (List Nat)) (points : List Point) :
    Option LocalVars := do
  let locals ← parts.mapM (localAccumulate km points)
  locals.foldlM (combineOne km) (LocalVars.new km.K km.total_values)

/-- The pass `tbb::parallel_for(0, K, ...)` computing the new centroids. -/
def updateCenters (km : KMeans) (order : List Nat) (acc : LocalVars) : Option (List Cluster) :=
  order.foldlM (updateStep km.total_values acc) km.clusters

/-- The recompute step: accumulate per worker, combine, then overwrite the centroids. -/
def recompute (km : KMeans) (sched : Parallel.Schedule) (points : List Point) : Option KMeans := do
  let acc ← accumulate km sched.parts points
  let clusters ← updateCenters km sched.update acc
  pure { km with clusters := clusters }

/-- One iteration of the main loop under a schedule: assignment pass, then recompute. -/
def iteration (sched : Parallel.Schedule) (st : KMeans × List Point) :
    Option ((KMeans × List Point) × Bool) := do
  let r ← assignPass st.1 sched.assign st.2
  let km ← recompute st.1 sched r.1
  pure ((km, r.1), r.2)

/-- The method `KMeans::run` of the parallel file; `scheds iter` is the schedule of
iteration `iter`. -/
def run (km : KMeans) (scheds : Nat → Parallel.Schedule) (points : List Point) (draws : List Nat) :
    Option RunResult :=
  if km.K > km.total_points then some { km := km, points := points, iter := none }
  else do
    let sd ← km.seed points draws
    let r ← whileLoop km.max_iterations (fun iter => iteration (scheds iter))
      ({ km with clusters := sd.clusters }, sd.points) 1
    pure { km := r.1.1, points := r.1.2, iter := some r.2 }

end Parallel

/-- The value is a finite number. -/
def Dbl.Finite : Dbl → Prop
  | Dbl.fin _ => True
  | _ => False

/-- The value is not a NaN. -/
def Dbl.NotNaN : Dbl → Prop
  | Dbl.nan => False
  | _ => True

/-- The value is a finite number that is not negative, or the positive infinity. -/
def Dbl.Nonneg : Dbl → Prop
  | Dbl.fin q => 0 ≤ q
  | Dbl.inf s => s = false
  | Dbl.nan => False

/-- The sum the inner loop of `getIDNearestCenter` computes for a centroid and a point:
from `0.0`, the rounded squares of the rounded differences are added one by one, each
partial sum rounded. -/
def sumSq (c p : List Dbl) : Dbl :=
  (List.zipWith (fun x y => pow2 (x - y)) c p).foldl (fun s x => s + x) 0

/-- The distance `sqrt(sum)` as the code computes it between a centroid and a point. -/
def computedDist (c p : List Dbl) : Dbl := sqrt (sumSq c p)

/-- The computed distance from the point to centroid `i` of the table. -/
def KMeans.distTo (km : KMeans) (point : Point) (i : Nat) : Dbl :=
  match km.clusters[i]? with
  | some c => computedDist c.central_values point.values
  | none => 0

/-- Centroid table of `K` centroids, each of dimension `total_values`. -/
def KMeans.WF (km : KMeans) : Prop :=
  km.clusters.length = km.K ∧ ∀ c ∈ km.clusters, c.central_values.length = km.total_values

/-- The point has `D` coordinates. -/
def Point.HasDim (D : Nat) (p : Point) : Prop := p.values.length = D

/-- The index `c` is below `m`, no centroid below `m` has a computed distance to the point
smaller than that of centroid `c`, and every centroid before `c` has a larger one. -/
def KMeans.FirstMinimal (km : KMeans) (point : Point) (m c : Nat) : Prop :=
  c < m ∧ (∀ i, i < m → ¬ km.distTo point i < km.distTo point c) ∧
    (∀ i, i < c → km.distTo point c < km.distTo point i)

instance (a : Dbl) : Decidable a.Finite :=
  match a with
  | Dbl.fin _ => isTrue trivial
  | Dbl.inf _ => isFalse (fun h => h)
  | Dbl.nan => isFalse (fun h => h)

instance (a : Dbl) : Decidable a.NotNaN :=
  match a with
  | Dbl.fin _ => isTrue trivial
  | Dbl.inf _ => isTrue trivial
  | Dbl.nan => isFalse (fun h => h)

instance (km : KMeans) : Decidable km.WF :=
  inferInstanceAs (Decidable (km.clusters.length = km.K ∧
    ∀ c ∈ km.clusters, c.central_values.length = km.total_values))

instance (D : Nat) (p : Point) : Decidable (p.HasDim D) :=
  inferInstanceAs (Decidable (p.values.length = D))

/-- The rational is a value of type `double`: rounding leaves it as it is. -/
def IsDouble (q : ℚ) : Prop := Dbl.round q = Dbl.fin q

instance (q : ℚ) : Decidable (IsDouble q) :=
  inferInstanceAs (Decidable (Dbl.round q = Dbl.fin q))

end Ieee

/-- The point with its coordinates taken as `double` (meant for coordinates that are). -/
def Point.toIeee (p : Point) : Ieee.Point :=
  { id_point := p.id_point, id_cluster := p.id_cluster,
    values := p.values.map Ieee.Dbl.fin, name := p.name }

/-- The centroid with its coordinates taken as `double`. -/
def Cluster.toIeee (c : Cluster) : Ieee.Cluster :=
  { id_cluster := c.id_cluster, central_values := c.central_values.map Ieee.Dbl.fin }

/-- The engine with the coordinates of its centroids taken as `double`. -/
def KMeans.toIeee (km : KMeans) : Ieee.KMeans :=
  { K := km.K, total_values := km.total_values, total_points := km.total_points,
    max_iterations := km.max_iterations, clusters := km.clusters.map Cluster.toIeee }

/-- An engine with the two centroids `(1, 2^-26)` and `(1, 0)` in the plane. -/
def tieKm : KMeans :=
  { K := 2, total_values := 2, total_points := 1, max_iterations := 5,
    clusters := [⟨0, [1, 1 / 2 ^ 26]⟩, ⟨1, [1, 0]⟩] }

/-- The point `(0, 0)`, unassigned. -/
def tiePoint : Point := Point.new 0 [0, 0] ""

namespace Ieee

/-- The point is assigned to a cluster index in `[0, K)`. -/
def Point.Assigned (K : Nat) (p : Point) : Prop := 0 ≤ p.id_cluster ∧ p.id_cluster < (K : Int)

instance (K : Nat) (p : Point) : Decidable (p.Assigned K) :=
  inferInstanceAs (Decidable (0 ≤ p.id_cluster ∧ p.id_cluster < (K : Int)))

/-- The points of the list assigned to cluster `c`. -/
def members (points : List Point) (c : Nat) : List Point :=
  points.filter (fun p => decide (p.id_cluster = (c : Int)))

/-- The index the nearest-centre search returns for the point (0 when the search faults). -/
def KMeans.nearest (km : KMeans) (p : Point) : Nat := (km.getIDNearestCenter p).getD 0

/-- Every point moved to its nearest centroid. -/
def KMeans.reassign (km : KMeans) (points : List Point) : List Point :=
  points.map (fun p => p.setCluster (km.nearest p))

/-- Every point is already assigned to its nearest centroid. -/
def KMeans.stable (km : KMeans) (points : List Point) : Bool :=
  points.all (fun p => decide (p.id_cluster = (km.nearest p : Int)))

/-- A valid execution of one iteration of the engine: every point is visited exactly once by
the assignment pass and exactly once by the accumulation, every cluster exactly once by the
update. -/
def KMeans.Admits (km : KMeans) (sched : Parallel.Schedule) : Prop :=
  sched.assign.Perm (List.range km.total_points) ∧
  sched.parts.flatten.Perm (List.range km.total_points) ∧
  sched.update.Perm (List.range km.K)

instance (km : KMeans) (sched : Parallel.Schedule) : Decidable (km.Admits sched) :=
  inferInstanceAs (Decidable (sched.assign.Perm (List.range km.total_points) ∧
    sched.parts.flatten.Perm (List.range km.total_points) ∧
    sched.update.Perm (List.range km.K)))

/-- The invariant of the main loop: at least one centroid, a table of `K` centroids of
dimension `total_values`, and `total_points` points of dimension `total_values`. -/
def LoopInv (st : KMeans × List Point) : Prop :=
  1 ≤ st.1.K ∧ st.1.WF ∧ st.2.length = st.1.total_points ∧
    ∀ p ∈ st.2, p.HasDim st.1.total_values

/-- The state of the seeding after `i` rounds from the points `points` and an empty centroid
table: `i` accepted indices, distinct and below `total_points`; `i` centroids; the `k`-th
accepted point carries cluster `k` and centroid `k` is a copy of its coordinates; every other
point is as it was. -/
def Seeded (points : List Point) (total_points i : Nat) (st : SeedState) : Prop :=
  st.prohibited_indexes.length = i ∧ st.prohibited_indexes.Nodup ∧
  (∀ idx ∈ st.prohibited_indexes, idx < total_points) ∧
  st.clusters.length = i ∧ st.points.length = points.length ∧
  (∀ k, k < i → ∃ idx p0, st.prohibited_indexes[k]? = some idx ∧ points[idx]? = some p0 ∧
    st.points[idx]? = some (p0.setCluster k) ∧
    st.clusters[k]? = some { id_cluster := k, central_values := p0.values }) ∧
  (∀ idx, idx ∉ st.prohibited_indexes → st.points[idx]? = points[idx]?)

/-- The sum the accumulators hold for cluster `c` and coordinate `j` (`0.0` outside). -/
def LocalVars.cell (acc : LocalVars) (c j : Nat) : Dbl := (acc.centers.getD c []).getD j 0

/-- The count the accumulators hold for cluster `c` (`0` outside). -/
def LocalVars.count (acc : LocalVars) (c : Nat) : Nat := acc.counts.getD c 0

/-- The accumulators have the shape their constructor gave them: `K` rows of `D` sums and
`K` counts. -/
def Shape (K D : Nat) (acc : LocalVars) : Prop :=
  acc = { centers := vecOf K (fun c => vecOf D (acc.cell c)), counts := vecOf K acc.count }

/-- The centroid of cluster `i` after the update pass with the accumulators `acc`: when the
count is positive every coordinate is the accumulated sum divided by the count, otherwise
the centroid is the old one. -/
def recenterBy (D : Nat) (acc : LocalVars) (i : Nat) (c : Cluster) : Cluster :=
  if 0 < acc.count i then
    { c with central_values := vecOf D (fun j => acc.cell i j / Dbl.ofNat (acc.count i)) }
  else c

/-- The centroid table after the update pass with the accumulators `acc`. -/
def recenterAll (D : Nat) (acc : LocalVars) (clusters : List Cluster) : List Cluster :=
  List.zipWith (recenterBy D acc) (List.range clusters.length) clusters

/-- Index `i` addresses a point assigned within `[0, K)` that has at least `D` coordinates:
the accumulation can visit it. -/
def Visitable (K D : Nat) (points : List Point) (i : Nat) : Prop :=
  ∃ p, points[i]? = some p ∧ p.Assigned K ∧ D ≤ p.values.length

/-- No two points of the list are at computed distance zero from each other: with the
coordinates of one as the centroid, the value `sqrt(sum)` computed for the other is not
`0.0`. -/
def FarApart (points : List Point) : Prop :=
  ∀ (i j : Nat) (p q : Point), points[i]? = some p → points[j]? = some q → i ≠ j →
    computedDist q.values p.values ≠ 0

/-- The value is one a `double` can hold: a finite number that rounding leaves as it is, an
infinity or a NaN. -/
def Dbl.Representable : Dbl → Prop
  | Dbl.fin q => Dbl.round q = Dbl.fin q
  | _ => True

instance (a : Dbl) : Decidable a.Representable :=
  match a with
  | Dbl.fin q => inferInstanceAs (Decidable (Dbl.round q = Dbl.fin q))
  | Dbl.inf _ => isTrue trivial
  | Dbl.nan => isTrue trivial

/-- The sum of coordinate `j` over a list of points as the serial accumulation computes it:
from `0.0`, one rounded addition per point, in the order of the list. -/
def coordSum (ps : List Point) (j : Nat) : Dbl :=
  ps.foldl (fun s p => s + p.values.getD j 0) 0

/-- The accumulators the serial pass over the points `ps` ends with: per cluster and
coordinate the running sum over the cluster's points in list order, per cluster the number
of its points. -/
def sumsOf (K D : Nat) (ps : List Point) : LocalVars :=
  { centers := vecOf K (fun c => vecOf D (fun j => coordSum (members ps c) j)),
    counts := vecOf K (fun c => (members ps c).length) }

/-- The engine after the serial recompute over `points`. -/
def KMeans.recenter (km : KMeans) (points : List Point) : KMeans :=
  { km with
    clusters := recenterAll km.total_values (sumsOf km.K km.total_values points) km.clusters }

/-- One iteration of the serial program in closed form: reassign every point to its nearest
centroid, recompute the centroids from the sums accumulated in point order, and report
whether nothing moved. -/
def lloydStep (st : KMeans × List Point) : (KMeans × List Point) × Bool :=
  ((st.1.recenter (st.1.reassign st.2), st.1.reassign st.2), st.1.stable st.2)

/-- The state and `done` flag after `n` iterations of the serial program in closed form. -/
def lloydTrace (s : KMeans × List Point) : Nat → (KMeans × List Point) × Bool
  | 0 => (s, false)
  | n + 1 => lloydStep (lloydTrace s n).1

/-- The serial recompute over the current assignment leaves the centroid table as it is. -/
def Centered (st : KMeans × List Point) : Prop :=
  recenterAll st.1.total_values (sumsOf st.1.K st.1.total_values st.2) st.1.clusters =
    st.1.clusters

/-- The state and `done` flag after iterations `1 .. n` of the serial run (repeated without
the stop test), from the seeded state. -/
def Serial.trace (km : KMeans) (points : List Point) (draws : List Nat) (n : Nat) :
    Option ((KMeans × List Point) × Bool) :=
  (km.seed points draws).bind (fun sd =>
    stateAfter (fun _ => Serial.iteration) ({ km with clusters := sd.clusters }, sd.points) n)

/-- The state and `done` flag after iterations `1 .. n` of the parallel run (repeated
without the stop test), from the seeded state. -/
def Parallel.trace (km : KMeans) (scheds : Nat → Parallel.Schedule) (points : List Point)
    (draws : List Nat) (n : Nat) : Option ((KMeans × List Point) × Bool) :=
  (km.seed points draws).bind (fun sd =>
    stateAfter (fun iter => Parallel.iteration (scheds iter))
      ({ km with clusters := sd.clusters }, sd.points) n)

end Ieee

/-- The state of the seeding with all coordinates taken as `double`. -/
def SeedState.toIeee (sd : SeedState) : Ieee.SeedState :=
  { prohibited_indexes := sd.prohibited_indexes, points := sd.points.map Point.toIeee,
    clusters := sd.clusters.map Cluster.toIeee, draws := sd.draws }

/-- The three points `0.1`, `0.2`, `0.3` of the line as `double`, all unassigned. -/
def thirdsPoints : List Ieee.Point :=
  [Ieee.Point.new 0 [Ieee.Dbl.round (1 / 10)] "", Ieee.Point.new 1 [Ieee.Dbl.round (2 / 10)] "",
    Ieee.Point.new 2 [Ieee.Dbl.round (3 / 10)] ""]

/-- A fresh engine for `thirdsPoints`: one cluster, at most ten iterations. -/
def thirdsKm : Ieee.KMeans := Ieee.KMeans.new 1 3 1 10

/-- An execution of `thirdsKm` whose accumulation is done by one worker in iteration 1 and
by two workers, one taking point 0 and the other points 1 and 2, in every later iteration. -/
def thirdsScheds : Nat → Parallel.Schedule := fun iter =>
  if iter = 1 then { assign := [0, 1, 2], parts := [[0, 1, 2]], update := [0] }
  else { assign := [0, 1, 2], parts := [[0], [1, 2]], update := [0] }

/-- The state the seeding of `thirdsKm` reaches on the draw `0`: point 0 seeds cluster 0. -/
def thirdsSeed : Ieee.SeedState :=
  { prohibited_indexes := [0],
    points := [⟨0, 0, [Ieee.Dbl.round (1 / 10)], ""⟩, ⟨1, -1, [Ieee.Dbl.round (2 / 10)], ""⟩,
      ⟨2, -1, [Ieee.Dbl.round (3 / 10)], ""⟩],
    clusters := [⟨0, [Ieee.Dbl.round (1 / 10)]⟩], draws := [] }

/-- The points of `thirdsPoints`, all assigned to cluster 0. -/
def thirdsAssigned : List Ieee.Point :=
  [⟨0, 0, [Ieee.Dbl.round (1 / 10)], ""⟩, ⟨1, 0, [Ieee.Dbl.round (2 / 10)], ""⟩,
    ⟨2, 0, [Ieee.Dbl.round (3 / 10)], ""⟩]

/-- The engine `thirdsKm` with the centroid `0.20000000000000004`, the `double` that one
worker computes as `((0.1 + 0.2) + 0.3) / 3`. -/
def thirdsHigh : Ieee.KMeans :=
  { thirdsKm with clusters := [⟨0, [Ieee.Dbl.fin (7205759403792795 / 36028797018963968)]⟩] }

/-- The engine `thirdsKm` with the centroid `0.19999999999999998`, the `double` that two
workers compute as `(0.1 + (0.2 + 0.3)) / 3`. -/
def thirdsLow : Ieee.KMeans :=
  { thirdsKm with clusters := [⟨0, [Ieee.Dbl.fin (7205759403792793 / 36028797018963968)]⟩] }

/-- The two points `0` and `2` of the line, both handed over already assigned to cluster 0. -/
def stalePoints : List Point := [⟨0, 0, [0], ""⟩, ⟨1, 0, [2], ""⟩]

/-- A fresh engine for `stalePoints`: one cluster, at most ten iterations. -/
def staleKm : KMeans := KMeans.new 1 2 1 10

/-- The two points `0.0` and `1e-200` of the line as `double`, unassigned. -/
def tinyPoints : List Ieee.Point :=
  [Ieee.Point.new 0 [Ieee.Dbl.round 0] "", Ieee.Point.new 1 [Ieee.Dbl.round (1 / 10 ^ 200)] ""]

/-- A fresh engine for `tinyPoints`: as many clusters as points. -/
def tinyKm : Ieee.KMeans := Ieee.KMeans.new 2 2 1 10

/-! ## Loops -/

theorem forLoop_eq_of_le {σ : Type} (lo hi : Nat) (body : σ → Nat → Option σ) (s : σ)
    (h : hi ≤ lo) : forLoop lo hi body s = some s := by
  simp [forLoop, Nat.sub_eq_zero_of_le h]

theorem forLoop_step {σ : Type} (lo hi : Nat) (body : σ → Nat → Option σ) (s : σ)
    (h : lo < hi) : forLoop lo hi body s = (body s lo).bind (forLoop (lo + 1) hi body) := by
  unfold forLoop
  have : hi - lo = (hi - (lo + 1)) + 1 := by omega
  rw [this, List.range'_succ, List.foldlM_cons]
  rfl

theorem forLoop_last {σ : Type} (lo hi : Nat) (body : σ → Nat → Option σ) (s : σ)
    (h : lo ≤ hi) :
    forLoop lo (hi + 1) body s = (forLoop lo hi body s).bind (fun t => body t hi) := by
  unfold forLoop
  have : hi + 1 - lo = (hi - lo) + 1 := by omega
  rw [this, List.range'_concat, List.foldlM_append]
  have h2 : lo + 1 * (hi - lo) = hi := by omega
  rw [h2]
  cases List.foldlM body s (List.range' lo (hi - lo)) <;> simp [List.foldlM]

theorem forLoop_inv {σ : Type} (Inv : Nat → σ → Prop) (lo hi : Nat)
    (body : σ → Nat → Option σ) (s : σ) (hle : lo ≤ hi) (h0 : Inv lo s)
    (hstep : ∀ i t, lo ≤ i → i < hi → Inv i t → ∃ t', body t i = some t' ∧ Inv (i + 1) t') :
    ∃ t, forLoop lo hi body s = some t ∧ Inv hi t := by
  induction hi with
  | zero =>
    have : lo = 0 := by omega
    subst this
    exact ⟨s, by simp [forLoop], h0⟩
  | succ n ih =>
    rcases Nat.lt_or_ge lo (n + 1) with hlt | hge
    · have hln : lo ≤ n := by omega
      obtain ⟨t, ht, hinv⟩ := ih hln (fun i t h1 h2 h3 => hstep i t h1 (by omega) h3)
      obtain ⟨t', ht', hinv'⟩ := hstep n t hln (by omega) hinv
      exact ⟨t', by rw [forLoop_last _ _ _ _ hln, ht]; simpa using ht', hinv'⟩
    · have : lo = n + 1 := by omega
      subst this
      exact ⟨s, forLoop_eq_of_le _ _ _ _ (le_refl _), h0⟩

/-! ## Nearest centroid -/

theorem Root.lt_iff (a b : Root) : a < b ↔ a.radicand < b.radicand := Iff.rfl

theorem sumSquares_eq (km : KMeans) (point : Point) (i : Nat) (c : Cluster)
    (hc : km.clusters[i]? = some c) (hcd : c.central_values.length = km.total_values)
    (hp : point.values.length = km.total_values) :
    km.sumSquares i point = some (km.distTo point i) := by
  have key := forLoop_inv
    (fun j (sum : ℚ) => sum = ((List.zipWith (fun x y => (x - y) ^ 2) c.central_values point.values).take j).sum)
    0 km.total_values (km.sumSquaresStep i point) 0 (Nat.zero_le _) (by simp)
    (by
      intro j t _ hj ht
      have h1 : j < c.central_values.length := by omega
      have h2 : j < point.values.length := by omega
      refine ⟨t + (c.central_values[j] - point.values[j]) ^ 2, ?_, ?_⟩
      · simp [KMeans.sumSquaresStep, hc, Cluster.getCentralValue, Point.getValue, List.getElem?_eq_getElem h1,
          List.getElem?_eq_getElem h2]
      · show _ = _
        rw [List.take_succ, List.sum_append, ← ht]
        simp [List.getElem?_zipWith, List.getElem?_eq_getElem h1, List.getElem?_eq_getElem h2])
  obtain ⟨t, ht, hinv⟩ := key
  unfold KMeans.sumSquares
  rw [ht, hinv, KMeans.distTo, hc]
  simp only [sqDist]
  rw [List.take_of_length_le]
  simp [List.length_zipWith, hcd, hp]

theorem sumSquares_of_wf (km : KMeans) (point : Point) (hwf : km.WF)
    (hp : point.values.length = km.total_values) (i : Nat) (hi : i < km.K) :
    km.sumSquares i point = some (km.distTo point i) := by
  have hi2 : i < km.clusters.length := by rw [hwf.1]; exact hi
  exact sumSquares_eq km point i km.clusters[i] (List.getElem?_eq_getElem hi2)
    (hwf.2 _ (List.getElem_mem hi2)) hp

theorem getIDNearestCenter_spec (km : KMeans) (point : Point) (hK : 1 ≤ km.K) (hwf : km.WF)
    (hp : point.values.length = km.total_values) :
    ∃ c, km.getIDNearestCenter point = some c ∧ km.FirstNearest point km.K c := by
  have key := forLoop_inv
    (fun m (st : Root × Nat) => st.1 = sqrt (km.distTo point st.2) ∧ km.FirstNearest point m st.2)
    1 km.K (km.nearestStep point) (sqrt (km.distTo point 0), 0) hK
    ⟨rfl, Nat.zero_lt_one, fun i hi => by
      have : i = 0 := by omega
      subst this; exact le_refl _, fun i hi => absurd hi (Nat.not_lt_zero _)⟩
    (by
      rintro i ⟨r, c⟩ h1 hi ⟨hr, hc, hmin, hfirst⟩
      simp only at hr hc hmin hfirst
      subst hr
      unfold KMeans.nearestStep
      rw [sumSquares_of_wf km point hwf hp i hi]
      by_cases hlt : km.distTo point i < km.distTo point c
      · refine ⟨(sqrt (km.distTo point i), i), ?_, rfl, Nat.lt_succ_self i, ?_, ?_⟩
        · simp [sqrt, Root.lt_iff, hlt]
        · intro k hk
          rcases Nat.lt_or_ge k i with hki | hki
          · exact le_trans (le_of_lt hlt) (hmin k hki)
          · have : k = i := by omega
            subst this; exact le_refl _
        · intro k hk
          exact lt_of_lt_of_le hlt (hmin k hk)
      · refine ⟨(sqrt (km.distTo point c), c), ?_, rfl, Nat.lt_succ_of_lt hc, ?_, hfirst⟩
        · simp [sqrt, Root.lt_iff, hlt]
        · intro k hk
          rcases Nat.lt_or_ge k i with hki | hki
          · exact hmin k hki
          · have : k = i := by omega
            subst this; exact not_lt.mp hlt)
  obtain ⟨st, hst, -, hfn⟩ := key
  refine ⟨st.2, ?_, hfn⟩
  unfold KMeans.getIDNearestCenter
  rw [sumSquares_of_wf km point hwf hp 0 hK]
  simp [hst]

/-! ## Vectors in closed form -/

theorem vecOf_length {α : Type} (K : Nat) (g : Nat → α) : (vecOf K g).length = K := by
  simp [vecOf]

theorem vecOf_getElem? {α : Type} (K : Nat) (g : Nat → α) (c : Nat) (hc : c < K) :
    (vecOf K g)[c]? = some (g c) := by
  simp [vecOf, List.getElem?_range hc]

theorem vecOf_congr {α : Type} (K : Nat) (g h : Nat → α) (hgh : ∀ c, c < K → g c = h c) :
    vecOf K g = vecOf K h := by
  unfold vecOf
  apply List.map_congr_left
  intro c hc
  exact hgh c (List.mem_range.mp hc)

theorem vecOf_set {α : Type} (K : Nat) (g : Nat → α) (c : Nat) (x : α) :
    (vecOf K g).set c x = vecOf K (fun i => if i = c then x else g i) := by
  apply List.ext_getElem?
  intro i
  rcases Nat.lt_or_ge i K with hi | hi
  · rw [vecOf_getElem? _ _ _ hi, List.getElem?_set]
    by_cases hci : c = i
    · subst hci; simp [vecOf_length, hi]
    · have : ¬ i = c := fun h => hci h.symm
      simp [hci, this, vecOf_getElem? _ _ _ hi]
  · rw [List.getElem?_eq_none (by simp [vecOf_length]; exact hi),
      List.getElem?_eq_none (by simp [vecOf_length]; exact hi)]

theorem readAt_natCast {α : Type} (v : List α) (c : Nat) : readAt v (c : Int) = v[c]? := by
  simp [readAt]

theorem writeAtInt_natCast {α : Type} (v : List α) (c : Nat) (x : α) :
    writeAtInt v (c : Int) x = writeAt v c x := by
  simp [writeAtInt]

theorem writeAt_vecOf {α : Type} (K : Nat) (g : Nat → α) (c : Nat) (x : α) (hc : c < K) :
    writeAt (vecOf K g) c x = some (vecOf K (fun i => if i = c then x else g i)) := by
  simp [writeAt, vecOf_length, hc, vecOf_set]

theorem Point.Assigned.exists_nat {K : Nat} {p : Point} (h : p.Assigned K) :
    ∃ c : Nat, c < K ∧ p.id_cluster = (c : Int) := by
  obtain ⟨h0, h1⟩ := h
  refine ⟨p.id_cluster.toNat, ?_, ?_⟩
  · omega
  · omega

/-! ## The accumulation pass -/

theorem accumulateValue_vecOf (K D : Nat) (F : Nat → Nat → ℚ) (points : List Point) (i : Nat)
    (p : Point) (hp : points[i]? = some p) (hd : D ≤ p.values.length) (c : Nat) (hc : c < K)
    (j : Nat) (hj : j < D) :
    accumulateValue points i (c : Int) (vecOf K (fun c' => vecOf D (F c'))) j =
      some (vecOf K (fun c' => vecOf D
        (fun j' => if c' = c ∧ j' = j then F c j + p.values.getD j 0 else F c' j'))) := by
  have hjp : j < p.values.length := lt_of_lt_of_le hj hd
  unfold accumulateValue
  simp only [hp, readAt_natCast, writeAtInt_natCast, vecOf_getElem? _ _ _ hc,
    Point.getValue, List.getElem?_eq_getElem hjp, Option.some_bind,
    vecOf_getElem? _ _ _ hj, Option.bind_eq_bind, writeAt_vecOf _ _ _ _ hj,
    writeAt_vecOf _ _ _ _ hc]
  congr 1
  apply vecOf_congr
  intro c' hc'
  by_cases h : c' = c
  · subst h
    simp only [if_true, true_and]
    apply vecOf_congr
    intro j' _
    simp [List.getD_eq_getElem?_getD, List.getElem?_eq_getElem hjp]
  · simp [h]

theorem members_append (A B : List Point) (c : Nat) :
    members (A ++ B) c = members A c ++ members B c := by
  simp [members]

theorem members_singleton (p : Point) (c : Nat) :
    members [p] c = if p.id_cluster = (c : Int) then [p] else [] := by
  by_cases h : p.id_cluster = (c : Int) <;> simp [members, h]

theorem coordSum_append (A B : List Point) (j : Nat) :
    coordSum (A ++ B) j = coordSum A j + coordSum B j := by
  simp [coordSum]

theorem coordSum_nil (j : Nat) : coordSum [] j = 0 := rfl

theorem vecOf_const {α : Type} (K : Nat) (x : α) : vecOf K (fun _ => x) = List.replicate K x := by
  apply List.ext_getElem?
  intro i
  rcases Nat.lt_or_ge i K with hi | hi
  · simp [vecOf, List.getElem?_range hi, List.getElem?_replicate, hi]
  · simp [vecOf, List.getElem?_replicate, hi, Nat.not_lt.mpr hi]

theorem sumsOf_nil (K D : Nat) : sumsOf K D [] = LocalVars.new K D := by
  simp only [sumsOf, LocalVars.new, members, List.filter_nil, coordSum_nil, List.length_nil,
    vecOf_const]

theorem accumulateStep_sumsOf (K D : Nat) (points : List Point) (ps : List Point) (i : Nat)
    (p : Point) (hp : points[i]? = some p) (hd : D ≤ p.values.length) (ha : p.Assigned K) :
    accumulateStep D points (sumsOf K D ps) i = some (sumsOf K D (ps ++ [p])) := by
  obtain ⟨c, hc, hpc⟩ := ha.exists_nat
  have key := forLoop_inv
    (fun j (centers : List (List ℚ)) => centers = vecOf K (fun c' => vecOf D (fun j' =>
      coordSum (members ps c') j' + if c' = c ∧ j' < j then p.values.getD j' 0 else 0)))
    0 D (accumulateValue points i (c : Int)) (sumsOf K D ps).centers (Nat.zero_le _)
    (by simp [sumsOf])
    (by
      intro j t _ hj ht
      subst ht
      refine ⟨_, accumulateValue_vecOf K D _ points i p hp hd c hc j hj, ?_⟩
      show _ = _
      apply vecOf_congr
      intro c' _
      apply vecOf_congr
      intro j' _
      by_cases h1 : c' = c
      · subst h1
        by_cases h2 : j' = j
        · subst h2; simp
        · have h3 : j' < j + 1 ↔ j' < j := by omega
          simp [h2, h3]
      · simp [h1])
  obtain ⟨t, ht, hinv⟩ := key
  unfold accumulateStep
  simp only [hp, Option.some_bind, Option.bind_eq_bind, Point.getCluster, hpc, readAt_natCast,
    writeAtInt_natCast, ht]
  simp only [sumsOf, vecOf_getElem? _ _ _ hc, Option.some_bind, writeAt_vecOf _ _ _ _ hc]
  simp only [Option.some.injEq, pure]
  congr 1
  · rw [hinv]
    apply vecOf_congr
    intro c' _
    apply vecOf_congr
    intro j' hj'
    rw [members_append, coordSum_append, members_singleton, hpc]
    by_cases h1 : c' = c
    · subst h1; simp [hj', coordSum]
    · have : ¬ ((c : Int) = (c' : Int)) := by
        intro h; exact h1 (by exact_mod_cast h.symm)
      simp [h1, this, coordSum]
  · apply vecOf_congr
    intro c' _
    rw [members_append, members_singleton, hpc]
    by_cases h1 : c' = c
    · subst h1; simp
    · have : ¬ ((c : Int) = (c' : Int)) := by
        intro h; exact h1 (by exact_mod_cast h.symm)
      simp [h1, this]

theorem pointsAt_range (points : List Point) :
    pointsAt points (List.range points.length) = points := by
  induction points using List.reverseRecOn with
  | nil => rfl
  | append_singleton l a ih =>
    rw [List.length_append, List.length_singleton, List.range_succ, pointsAt,
      List.filterMap_append]
    have h1 : List.filterMap (fun i => (l ++ [a])[i]?) (List.range l.length) = l := by
      conv_rhs => rw [← ih]
      unfold pointsAt
      apply List.filterMap_congr
      intro i hi
      rw [List.getElem?_append_left (List.mem_range.mp hi)]
    rw [h1]
    simp

theorem pointsAt_perm (points : List Point) (L : List Nat)
    (hL : L.Perm (List.range points.length)) : (pointsAt points L).Perm points := by
  have h := List.Perm.filterMap (fun i => points[i]?) hL
  rw [show List.filterMap (fun i => points[i]?) (List.range points.length) = points from
    pointsAt_range points] at h
  exact h

theorem pointsAt_append (points : List Point) (A B : List Nat) :
    pointsAt points (A ++ B) = pointsAt points A ++ pointsAt points B := by
  simp [pointsAt]

theorem sumsOf_perm (K D : Nat) (A B : List Point) (h : A.Perm B) :
    sumsOf K D A = sumsOf K D B := by
  have hm : ∀ c, (members A c).Perm (members B c) := fun c => List.Perm.filter _ h
  unfold sumsOf
  congr 1
  · apply vecOf_congr
    intro c _
    apply vecOf_congr
    intro j _
    exact List.Perm.sum_eq (List.Perm.map _ (hm c))
  · apply vecOf_congr
    intro c _
    exact List.Perm.length_eq (hm c)

theorem foldlM_accumulateStep (K D : Nat) (points : List Point) (L : List Nat)
    (hL : ∀ i ∈ L, ∃ p, points[i]? = some p ∧ p.HasDim D ∧ p.Assigned K) (ps : List Point) :
    L.foldlM (accumulateStep D points) (sumsOf K D ps) =
      some (sumsOf K D (ps ++ pointsAt points L)) := by
  induction L generalizing ps with
  | nil => simp [pointsAt]
  | cons i L ih =>
    obtain ⟨p, hp, hd, ha⟩ := hL i (List.mem_cons_self _ _)
    rw [List.foldlM_cons,
      accumulateStep_sumsOf K D points ps i p hp (Nat.le_of_eq (Eq.symm hd)) ha]
    simp only [Option.some_bind, Option.bind_eq_bind]
    rw [ih (fun k hk => hL k (List.mem_cons_of_mem _ hk))]
    simp [pointsAt, hp]

/-! ## The reduction `combine_each` -/

theorem vecOf_cell_congr (K D : Nat) (F G : Nat → Nat → ℚ)
    (h : ∀ c, c < K → ∀ j, j < D → F c j = G c j) :
    vecOf K (fun c => vecOf D (F c)) = vecOf K (fun c => vecOf D (G c)) :=
  vecOf_congr _ _ _ (fun c hc => vecOf_congr _ _ _ (fun j hj => h c hc j hj))

theorem combineValue_vecOf (K D : Nat) (F G : Nat → Nat → ℚ) (loc : LocalVars)
    (hloc : loc.centers = vecOf K (fun c => vecOf D (G c))) (i : Nat) (hi : i < K) (j : Nat)
    (hj : j < D) :
    Parallel.combineValue loc i (vecOf K (fun c => vecOf D (F c))) j =
      some (vecOf K (fun c => vecOf D
        (fun j' => if c = i ∧ j' = j then F i j + G i j else F c j'))) := by
  unfold Parallel.combineValue
  simp only [hloc, vecOf_getElem? _ _ _ hi, vecOf_getElem? _ _ _ hj, Option.some_bind,
    Option.bind_eq_bind, writeAt_vecOf _ _ _ _ hj, writeAt_vecOf _ _ _ _ hi]
  congr 1
  apply vecOf_congr
  intro c _
  by_cases h : c = i
  · subst h
    simp only [if_true, true_and]
  · simp [h]

theorem combineRow_vecOf (K D : Nat) (F G : Nat → Nat → ℚ) (f g : Nat → Nat) (i : Nat)
    (hi : i < K) :
    Parallel.combineRow D
        { centers := vecOf K (fun c => vecOf D (G c)), counts := vecOf K g }
        { centers := vecOf K (fun c => vecOf D (F c)), counts := vecOf K f } i =
      some { centers := vecOf K (fun c => vecOf D (fun j => if c = i then F c j + G c j else F c j)),
             counts := vecOf K (fun c => if c = i then f c + g c else f c) } := by
  have key := forLoop_inv
    (fun j (centers : List (List ℚ)) => centers = vecOf K (fun c => vecOf D (fun j' =>
      if c = i ∧ j' < j then F c j' + G c j' else F c j')))
    0 D (Parallel.combineValue
      { centers := vecOf K (fun c => vecOf D (G c)), counts := vecOf K g } i)
    (vecOf K (fun c => vecOf D (F c))) (Nat.zero_le _) (by simp)
    (by
      intro j t _ hj ht
      subst ht
      refine ⟨_, combineValue_vecOf K D _ G _ rfl i hi j hj, ?_⟩
      show _ = _
      apply vecOf_cell_congr
      intro c _ j' _
      by_cases h1 : c = i
      · subst h1
        by_cases h2 : j' = j
        · subst h2; simp
        · have h3 : j' < j + 1 ↔ j' < j := by omega
          simp [h2, h3]
      · simp [h1])
  obtain ⟨t, ht, hinv⟩ := key
  unfold Parallel.combineRow
  simp only [vecOf_getElem? _ _ _ hi, Option.some_bind, Option.bind_eq_bind,
    writeAt_vecOf _ _ _ _ hi, ht, pure, Option.some.injEq, LocalVars.mk.injEq]
  constructor
  · rw [hinv]
    apply vecOf_cell_congr
    intro c _ j' hj'
    simp [hj']
  · apply vecOf_congr
    intro c _
    by_cases h : c = i
    · subst h; simp
    · simp [h]

theorem combineOne_vecOf (km : KMeans) (F G : Nat → Nat → ℚ) (f g : Nat → Nat) :
    Parallel.combineOne km
        { centers := vecOf km.K (fun c => vecOf km.total_values (F c)), counts := vecOf km.K f }
        { centers := vecOf km.K (fun c => vecOf km.total_values (G c)), counts := vecOf km.K g } =
      some { centers := vecOf km.K (fun c => vecOf km.total_values (fun j => F c j + G c j)),
             counts := vecOf km.K (fun c => f c + g c) } := by
  have key := forLoop_inv
    (fun i (acc : LocalVars) => acc =
      { centers := vecOf km.K (fun c => vecOf km.total_values
          (fun j => if c < i then F c j + G c j else F c j)),
        counts := vecOf km.K (fun c => if c < i then f c + g c else f c) })
    0 km.K (Parallel.combineRow km.total_values
      { centers := vecOf km.K (fun c => vecOf km.total_values (G c)), counts := vecOf km.K g })
    { centers := vecOf km.K (fun c => vecOf km.total_values (F c)), counts := vecOf km.K f }
    (Nat.zero_le _) (by simp)
    (by
      intro i t _ hi ht
      subst ht
      refine ⟨_, combineRow_vecOf km.K km.total_values _ G _ g i hi, ?_⟩
      show _ = _
      rw [LocalVars.mk.injEq]
      constructor
      · apply vecOf_cell_congr
        intro c _ j _
        by_cases h1 : c = i
        · subst h1; simp
        · have h3 : c < i + 1 ↔ c < i := by omega
          simp [h1, h3]
      · apply vecOf_congr
        intro c _
        by_cases h1 : c = i
        · subst h1; simp
        · have h3 : c < i + 1 ↔ c < i := by omega
          simp [h1, h3])
  obtain ⟨t, ht, hinv⟩ := key
  unfold Parallel.combineOne
  rw [ht, hinv, Option.some.injEq, LocalVars.mk.injEq]
  constructor
  · apply vecOf_cell_congr
    intro c hc j _
    simp [hc]
  · apply vecOf_congr
    intro c hc
    simp [hc]

theorem combineOne_sumsOf (km : KMeans) (A B : List Point) :
    Parallel.combineOne km (sumsOf km.K km.total_values A) (sumsOf km.K km.total_values B) =
      some (sumsOf km.K km.total_values (A ++ B)) := by
  unfold sumsOf
  rw [combineOne_vecOf]
  simp only [members_append, coordSum_append, List.length_append]

theorem localAccumulate_eq (km : KMeans) (points : List Point) (part : List Nat)
    (h : GoodIndices km.K km.total_values points part) :
    Parallel.localAccumulate km points part =
      some (sumsOf km.K km.total_values (pointsAt points part)) := by
  unfold Parallel.localAccumulate
  rw [← sumsOf_nil, foldlM_accumulateStep km.K km.total_values points part h []]
  simp

theorem mapM_localAccumulate (km : KMeans) (points : List Point) (parts : List (List Nat))
    (h : ∀ part ∈ parts, GoodIndices km.K km.total_values points part) :
    parts.mapM (Parallel.localAccumulate km points) =
      some (parts.map (fun part => sumsOf km.K km.total_values (pointsAt points part))) := by
  induction parts with
  | nil => rfl
  | cons part parts ih =>
    rw [List.mapM_cons, localAccumulate_eq km points part (h part (List.mem_cons_self _ _)),
      ih (fun q hq => h q (List.mem_cons_of_mem _ hq))]
    rfl

theorem foldlM_combineOne (km : KMeans) (points : List Point) (parts : List (List Nat))
    (A : List Point) :
    (parts.map (fun part => sumsOf km.K km.total_values (pointsAt points part))).foldlM
        (Parallel.combineOne km) (sumsOf km.K km.total_values A) =
      some (sumsOf km.K km.total_values (A ++ pointsAt points parts.flatten)) := by
  induction parts generalizing A with
  | nil => simp [pointsAt]
  | cons part parts ih =>
    rw [List.map_cons, List.foldlM_cons, combineOne_sumsOf]
    simp only [Option.some_bind, Option.bind_eq_bind]
    rw [ih, List.flatten_cons, pointsAt_append, List.append_assoc]

theorem parallel_accumulate_eq (km : KMeans) (points : List Point) (parts : List (List Nat))
    (h : ∀ part ∈ parts, GoodIndices km.K km.total_values points part) :
    Parallel.accumulate km parts points =
      some (sumsOf km.K km.total_values (pointsAt points parts.flatten)) := by
  unfold Parallel.accumulate
  rw [mapM_localAccumulate km points parts h]
  simp only [Option.some_bind, Option.bind_eq_bind]
  rw [← sumsOf_nil, foldlM_combineOne]
  simp

theorem serial_accumulate_eq (km : KMeans) (points : List Point)
    (hn : points.length = km.total_points)
    (h : ∀ p ∈ points, p.HasDim km.total_values ∧ p.Assigned km.K) :
    Serial.accumulate km points = some (sumsOf km.K km.total_values points) := by
  unfold Serial.accumulate forLoop
  rw [← sumsOf_nil, Nat.sub_zero, ← List.range_eq_range', foldlM_accumulateStep km.K
    km.total_values points _ _ [], ← hn, pointsAt_range]
  · simp
  · intro i hi
    have hi2 : i < points.length := by rw [hn]; exact List.mem_range.mp hi
    exact ⟨points[i], List.getElem?_eq_getElem hi2, h _ (List.getElem_mem hi2)⟩

/-! ## The centroid update -/

theorem vecOf_getD (D : Nat) (l : List ℚ) (h : l.length = D) :
    vecOf D (fun j => l.getD j 0) = l := by
  apply List.ext_getElem?
  intro j
  rcases Nat.lt_or_ge j D with hj | hj
  · rw [vecOf_getElem? _ _ _ hj, List.getD_eq_getElem?_getD,
      List.getElem?_eq_getElem (by omega)]
    rfl
  · rw [List.getElem?_eq_none (by simp [vecOf_length]; exact hj),
      List.getElem?_eq_none (by omega)]

theorem updateValue_eq (K D : Nat) (points : List Point) (clusters : List Cluster) (i : Nat)
    (hi : i < clusters.length) (hiK : i < K) (id : Int) (g : Nat → ℚ)
    (hc : clusters[i]? = some { id_cluster := id, central_values := vecOf D g })
    (hpos : 0 < (members points i).length) (j : Nat) (hj : j < D) :
    updateValue (sumsOf K D points) i clusters j =
      some (clusters.set i { id_cluster := id, central_values := vecOf D (fun j' =>
        if j' = j then coordSum (members points i) j / ((members points i).length : ℚ)
        else g j') }) := by
  unfold updateValue
  have hne : ¬ (members points i).length = 0 := by omega
  simp only [sumsOf, vecOf_getElem? _ _ _ hiK, vecOf_getElem? _ _ _ hj, Option.some_bind,
    Option.bind_eq_bind, divAt, hne, if_false, hc, Cluster.setCentralValue,
    writeAt_vecOf _ _ _ _ hj, Option.map_some']
  simp only [writeAt, hi, if_true]

theorem set_eq_self {α : Type} (l : List α) (i : Nat) (x : α) (h : l[i]? = some x) :
    l.set i x = l := by
  apply List.ext_getElem?
  intro k
  rw [List.getElem?_set]
  by_cases hik : i = k
  · subst hik
    have hi : i < l.length := by
      rcases Nat.lt_or_ge i l.length with h1 | h1
      · exact h1
      · rw [List.getElem?_eq_none h1] at h; exact absurd h (by simp)
    simp [hi, h]
  · simp [hik]

theorem getElem?_set_self_of_lt {α : Type} (l : List α) (i : Nat) (x : α) (h : i < l.length) :
    (l.set i x)[i]? = some x := by
  rw [List.getElem?_set]
  simp [h]

theorem updateStep_eq (K D : Nat) (points : List Point) (clusters : List Cluster) (i : Nat)
    (hiK : i < K) (c : Cluster) (hc : clusters[i]? = some c)
    (hd : c.central_values.length = D) :
    updateStep D (sumsOf K D points) clusters i =
      some (clusters.set i (newCenter D points i c)) := by
  have hi : i < clusters.length := by
    rcases Nat.lt_or_ge i clusters.length with h | h
    · exact h
    · rw [List.getElem?_eq_none h] at hc; exact absurd hc (by simp)
  unfold updateStep
  simp only [sumsOf, vecOf_getElem? _ _ _ hiK, Option.some_bind, Option.bind_eq_bind]
  by_cases hpos : 0 < (members points i).length
  · have key := forLoop_inv
      (fun j (cl : List Cluster) => cl = clusters.set i
        { id_cluster := c.id_cluster, central_values := vecOf D (fun j' =>
          if j' < j then coordSum (members points i) j' / ((members points i).length : ℚ)
          else c.central_values.getD j' 0) })
      0 D (updateValue (sumsOf K D points) i) clusters (Nat.zero_le _)
      (by
        show _ = _
        simp only [Nat.not_lt_zero, if_false, vecOf_getD D _ hd]
        exact (set_eq_self clusters i _ hc).symm)
      (by
        intro j t _ hj ht
        subst ht
        refine ⟨_, updateValue_eq K D points _ i (by simpa using hi) hiK c.id_cluster
          (fun j' =>
            if j' < j then coordSum (members points i) j' / ((members points i).length : ℚ)
            else c.central_values.getD j' 0)
          (getElem?_set_self_of_lt _ _ _ hi) hpos j hj, ?_⟩
        show _ = _
        rw [List.set_set]
        congr 2
        apply vecOf_congr
        intro j' _
        by_cases h2 : j' = j
        · subst h2; simp
        · have h3 : j' < j + 1 ↔ j' < j := by omega
          simp [h2, h3])
    obtain ⟨t, ht, hinv⟩ := key
    have ht2 : forLoop 0 D (updateValue
        { centers := vecOf K (fun c => vecOf D (fun j => coordSum (members points c) j)),
          counts := vecOf K (fun c => (members points c).length) } i) clusters = some t := ht
    simp only [gt_iff_lt, hpos, if_true, ht2, hinv, newCenter, meanOf, Option.some.injEq]
    congr 2
    apply vecOf_congr
    intro j hj
    simp [hj]
  · simp only [gt_iff_lt, hpos, if_false, newCenter, pure, Option.some.injEq]
    exact (set_eq_self clusters i _ hc).symm

/-! ## Passes whose bodies rewrite only their own element -/

theorem lt_length_of_getElem?_eq_some {α : Type} {l : List α} {i : Nat} {x : α}
    (h : l[i]? = some x) : i < l.length := by
  rcases Nat.lt_or_ge i l.length with h1 | h1
  · exact h1
  · rw [List.getElem?_eq_none h1] at h; exact absurd h (by simp)

theorem getElem?_set_of_ne {α : Type} (l : List α) (i k : Nat) (x : α) (h : i ≠ k) :
    (l.set i x)[k]? = l[k]? := by
  rw [List.getElem?_set]
  simp [h]

/-- A fold of steps that each rewrite only their own element: the outcome element by
element. -/
theorem foldlM_pointwise {α : Type} (step : List α → Nat → Option (List α))
    (g : Nat → α → α) (P : Nat → α → Prop)
    (hstep : ∀ l i x, l[i]? = some x → P i x → step l i = some (l.set i (g i x)))
    (L : List Nat) (hnd : L.Nodup) (l : List α) (hL : ∀ i ∈ L, i < l.length)
    (hP : ∀ i ∈ L, ∀ x, l[i]? = some x → P i x) :
    ∃ r, L.foldlM step l = some r ∧ r.length = l.length ∧
      ∀ i x, l[i]? = some x → r[i]? = some (if i ∈ L then g i x else x) := by
  induction L generalizing l with
  | nil => exact ⟨l, rfl, rfl, fun i x h => by simpa using h⟩
  | cons k L ih =>
    have hk : k < l.length := hL k (List.mem_cons_self _ _)
    have hkx : l[k]? = some l[k] := List.getElem?_eq_getElem hk
    have hnd2 := List.nodup_cons.mp hnd
    obtain ⟨r, hr, hlen, hget⟩ := ih hnd2.2 (l.set k (g k l[k]))
      (fun i hi => by rw [List.length_set]; exact hL i (List.mem_cons_of_mem _ hi))
      (fun i hi x hx => by
        have hne : k ≠ i := fun h => hnd2.1 (h ▸ hi)
        rw [getElem?_set_of_ne _ _ _ _ hne] at hx
        exact hP i (List.mem_cons_of_mem _ hi) x hx)
    refine ⟨r, ?_, by rw [hlen, List.length_set], ?_⟩
    · rw [List.foldlM_cons, hstep l k _ hkx (hP k (List.mem_cons_self _ _) _ hkx)]
      exact hr
    · intro i x hx
      by_cases hik : k = i
      · subst hik
        have hx2 : x = l[k] := by rw [hkx] at hx; exact (Option.some.inj hx).symm
        subst hx2
        rw [hget k (g k l[k]) (getElem?_set_self_of_lt _ _ _ hk)]
        simp [hnd2.1]
      · rw [hget i x (by rw [getElem?_set_of_ne _ _ _ _ hik]; exact hx)]
        have : (i ∈ k :: L) ↔ i ∈ L := by
          simp only [List.mem_cons]
          constructor
          · rintro (h | h)
            · exact absurd h.symm hik
            · exact h
          · exact fun h => Or.inr h
        simp only [this]

/-- A fold of steps that each rewrite only their own element and may lower a shared flag:
the outcome element by element, and the flag as the conjunction over the visited elements. -/
theorem foldlM_pointwise_flag {α : Type} (step : List α × Bool → Nat → Option (List α × Bool))
    (g : Nat → α → α) (b : Nat → α → Bool) (P : Nat → α → Prop)
    (hstep : ∀ l d i x, l[i]? = some x → P i x →
      step (l, d) i = some (l.set i (g i x), d && b i x))
    (L : List Nat) (hnd : L.Nodup) (l : List α) (d : Bool) (hL : ∀ i ∈ L, i < l.length)
    (hP : ∀ i ∈ L, ∀ x, l[i]? = some x → P i x) :
    ∃ r d', L.foldlM step (l, d) = some (r, d') ∧ r.length = l.length ∧
      (∀ i x, l[i]? = some x → r[i]? = some (if i ∈ L then g i x else x)) ∧
      (d' = true ↔ d = true ∧ ∀ i ∈ L, ∀ x, l[i]? = some x → b i x = true) := by
  induction L generalizing l d with
  | nil => exact ⟨l, d, rfl, rfl, fun i x h => by simpa using h, by simp⟩
  | cons k L ih =>
    have hk : k < l.length := hL k (List.mem_cons_self _ _)
    have hkx : l[k]? = some l[k] := List.getElem?_eq_getElem hk
    have hnd2 := List.nodup_cons.mp hnd
    obtain ⟨r, d', hr, hlen, hget, hflag⟩ := ih hnd2.2 (l.set k (g k l[k])) (d && b k l[k])
      (fun i hi => by rw [List.length_set]; exact hL i (List.mem_cons_of_mem _ hi))
      (fun i hi x hx => by
        have hne : k ≠ i := fun h => hnd2.1 (h ▸ hi)
        rw [getElem?_set_of_ne _ _ _ _ hne] at hx
        exact hP i (List.mem_cons_of_mem _ hi) x hx)
    refine ⟨r, d', ?_, by rw [hlen, List.length_set], ?_, ?_⟩
    · rw [List.foldlM_cons, hstep l d k _ hkx (hP k (List.mem_cons_self _ _) _ hkx)]
      exact hr
    · intro i x hx
      by_cases hik : k = i
      · subst hik
        have hx2 : x = l[k] := by rw [hkx] at hx; exact (Option.some.inj hx).symm
        subst hx2
        rw [hget k (g k l[k]) (getElem?_set_self_of_lt _ _ _ hk)]
        simp [hnd2.1]
      · rw [hget i x (by rw [getElem?_set_of_ne _ _ _ _ hik]; exact hx)]
        have : (i ∈ k :: L) ↔ i ∈ L := by
          simp only [List.mem_cons]
          constructor
          · rintro (h | h)
            · exact absurd h.symm hik
            · exact h
          · exact fun h => Or.inr h
        simp only [this]
    · rw [hflag, Bool.and_eq_true]
      constructor
      · rintro ⟨⟨hd, hb⟩, hrest⟩
        refine ⟨hd, ?_⟩
        intro i hi x hx
        rcases List.mem_cons.mp hi with h | h
        · subst h
          rw [hkx] at hx
          rw [← Option.some.inj hx]; exact hb
        · have hne : k ≠ i := fun h2 => hnd2.1 (h2 ▸ h)
          exact hrest i h x (by rw [getElem?_set_of_ne _ _ _ _ hne]; exact hx)
      · rintro ⟨hd, hall⟩
        refine ⟨⟨hd, hall k (List.mem_cons_self _ _) _ hkx⟩, ?_⟩
        intro i hi x hx
        have hne : k ≠ i := fun h2 => hnd2.1 (h2 ▸ hi)
        rw [getElem?_set_of_ne _ _ _ _ hne] at hx
        exact hall i (List.mem_cons_of_mem _ hi) x hx

theorem foldlM_updateStep (K D : Nat) (points : List Point) (clusters : List Cluster)
    (L : List Nat) (hL : L.Perm (List.range K)) (hlen : clusters.length = K)
    (hdim : ∀ c ∈ clusters, c.central_values.length = D) :
    ∃ r, L.foldlM (updateStep D (sumsOf K D points)) clusters = some r ∧ r.length = K ∧
      ∀ i c, clusters[i]? = some c → r[i]? = some (newCenter D points i c) := by
  have hmem : ∀ i, i ∈ L ↔ i < K := fun i => by rw [hL.mem_iff, List.mem_range]
  obtain ⟨r, hr, hrl, hget⟩ := foldlM_pointwise (updateStep D (sumsOf K D points))
    (fun i c => newCenter D points i c) (fun i c => i < K ∧ c.central_values.length = D)
    (fun l i x hx hP => updateStep_eq K D points l i hP.1 x hx hP.2)
    L (hL.nodup_iff.mpr (List.nodup_range K)) clusters
    (fun i hi => by rw [hlen]; exact (hmem i).mp hi)
    (fun i hi x hx => ⟨(hmem i).mp hi, hdim x (List.getElem?_mem hx)⟩)
  refine ⟨r, hr, by rw [hrl, hlen], ?_⟩
  intro i c hc
  rw [hget i c hc]
  have : i ∈ L := (hmem i).mpr (by rw [← hlen]; exact lt_length_of_getElem?_eq_some hc)
  simp [this]

/-! ## The assignment pass -/

theorem getIDNearestCenter_eq_nearest (km : KMeans) (p : Point) (hK : 1 ≤ km.K) (hwf : km.WF)
    (hp : p.HasDim km.total_values) :
    km.getIDNearestCenter p = some (km.nearest p) ∧ km.nearest p < km.K := by
  obtain ⟨c, hc, hfn⟩ := getIDNearestCenter_spec km p hK hwf hp
  simp [KMeans.nearest, hc, hfn.1]

theorem assignStep_eq (km : KMeans) (hK : 1 ≤ km.K) (hwf : km.WF) (l : List Point) (d : Bool)
    (i : Nat) (p : Point) (hi : l[i]? = some p) (hp : p.HasDim km.total_values) :
    km.assignStep (l, d) i =
      some (l.set i (p.setCluster (km.nearest p)),
        d && decide (p.id_cluster = (km.nearest p : Int))) := by
  have hlt := lt_length_of_getElem?_eq_some hi
  unfold KMeans.assignStep
  simp only [hi, Option.some_bind, Option.bind_eq_bind,
    (getIDNearestCenter_eq_nearest km p hK hwf hp).1, Point.getCluster]
  by_cases h : p.id_cluster = (km.nearest p : Int)
  · have hp2 : p.setCluster (km.nearest p) = p := by
      unfold Point.setCluster
      rw [← h]
    rw [hp2, set_eq_self l i p hi]
    simp only [ne_eq, h, not_true_eq_false, if_false, decide_True, Bool.and_true]
    rfl
  · simp only [ne_eq, h, not_false_eq_true, if_true, writeAt, hlt, decide_False,
      Bool.and_false, Option.some_bind, Option.bind_eq_bind]
    rfl

theorem foldlM_assignStep (km : KMeans) (hK : 1 ≤ km.K) (hwf : km.WF) (points : List Point)
    (L : List Nat) (hL : L.Perm (List.range points.length))
    (hd : ∀ p ∈ points, p.HasDim km.total_values) :
    L.foldlM km.assignStep (points, true) = some (km.reassign points, km.stable points) := by
  have hmem : ∀ i, i ∈ L ↔ i < points.length := fun i => by rw [hL.mem_iff, List.mem_range]
  obtain ⟨r, d, hr, hrl, hget, hflag⟩ := foldlM_pointwise_flag km.assignStep
    (fun _ p => p.setCluster (km.nearest p))
    (fun _ p => decide (p.id_cluster = (km.nearest p : Int)))
    (fun _ p => p.HasDim km.total_values)
    (fun l d i x hx hP => assignStep_eq km hK hwf l d i x hx hP)
    L (hL.nodup_iff.mpr (List.nodup_range _)) points true
    (fun i hi => (hmem i).mp hi)
    (fun i _ x hx => hd x (List.getElem?_mem hx))
  rw [hr]
  have h1 : r = km.reassign points := by
    apply List.ext_getElem?
    intro i
    rcases Nat.lt_or_ge i points.length with hi | hi
    · rw [hget i points[i] (List.getElem?_eq_getElem hi)]
      simp [KMeans.reassign, (hmem i).mpr hi, List.getElem?_eq_getElem hi]
    · rw [List.getElem?_eq_none (by omega), List.getElem?_eq_none (by simp [KMeans.reassign]; omega)]
  have h2 : d = km.stable points := by
    rw [Bool.eq_iff_iff, hflag, KMeans.stable, List.all_eq_true]
    constructor
    · rintro ⟨-, h⟩ p hp
      obtain ⟨i, hi⟩ := List.mem_iff_getElem?.mp hp
      exact h i ((hmem i).mpr (lt_length_of_getElem?_eq_some hi)) p hi
    · intro h
      exact ⟨rfl, fun i _ x hx => h x (List.getElem?_mem hx)⟩
  rw [h1, h2]

theorem serial_assignPass_eq (km : KMeans) (hK : 1 ≤ km.K) (hwf : km.WF) (points : List Point)
    (hn : points.length = km.total_points) (hd : ∀ p ∈ points, p.HasDim km.total_values) :
    Serial.assignPass km points = some (km.reassign points, km.stable points) := by
  unfold Serial.assignPass forLoop
  rw [Nat.sub_zero, ← List.range_eq_range']
  exact foldlM_assignStep km hK hwf points _ (by rw [hn]) hd

theorem parallel_assignPass_eq (km : KMeans) (hK : 1 ≤ km.K) (hwf : km.WF)
    (points : List Point) (order : List Nat) (hn : points.length = km.total_points)
    (ho : order.Perm (List.range km.total_points))
    (hd : ∀ p ∈ points, p.HasDim km.total_values) :
    Parallel.assignPass km order points = some (km.reassign points, km.stable points) :=
  foldlM_assignStep km hK hwf points order (by rw [hn]; exact ho) hd

/-! ## One iteration in closed form -/

theorem newCenters_length (D : Nat) (points : List Point) (clusters : List Cluster) :
    (newCenters D points clusters).length = clusters.length := by
  simp [newCenters]

theorem newCenters_getElem? (D : Nat) (points : List Point) (clusters : List Cluster) (i : Nat)
    (c : Cluster) (hc : clusters[i]? = some c) :
    (newCenters D points clusters)[i]? = some (newCenter D points i c) := by
  have hi := lt_length_of_getElem?_eq_some hc
  simp [newCenters, List.getElem?_zipWith, List.getElem?_range hi, hc]

theorem eq_newCenters (D : Nat) (points : List Point) (clusters r : List Cluster)
    (hlen : r.length = clusters.length)
    (hget : ∀ i c, clusters[i]? = some c → r[i]? = some (newCenter D points i c)) :
    r = newCenters D points clusters := by
  apply List.ext_getElem?
  intro i
  rcases Nat.lt_or_ge i clusters.length with hi | hi
  · rw [hget i _ (List.getElem?_eq_getElem hi),
      newCenters_getElem? D points clusters i _ (List.getElem?_eq_getElem hi)]
  · rw [List.getElem?_eq_none (by omega),
      List.getElem?_eq_none (by rw [newCenters_length]; exact hi)]

theorem foldlM_updateStep_eq (km : KMeans) (hwf : km.WF) (points : List Point) (L : List Nat)
    (hL : L.Perm (List.range km.K)) :
    L.foldlM (updateStep km.total_values (sumsOf km.K km.total_values points)) km.clusters =
      some (newCenters km.total_values points km.clusters) := by
  obtain ⟨r, hr, hrl, hget⟩ := foldlM_updateStep km.K km.total_values points km.clusters L hL
    hwf.1 hwf.2
  rw [hr, eq_newCenters km.total_values points km.clusters r (by rw [hrl, hwf.1]) hget]

theorem serial_recompute_eq (km : KMeans) (hwf : km.WF) (points : List Point)
    (hn : points.length = km.total_points)
    (h : ∀ p ∈ points, p.HasDim km.total_values ∧ p.Assigned km.K) :
    Serial.recompute km points = some (km.recenter points) := by
  unfold Serial.recompute Serial.updateCenters forLoop
  rw [serial_accumulate_eq km points hn h]
  simp only [Option.some_bind, Option.bind_eq_bind, Nat.sub_zero, ← List.range_eq_range']
  rw [foldlM_updateStep_eq km hwf points _ (List.Perm.refl _)]
  rfl

theorem parallel_recompute_eq (km : KMeans) (hwf : km.WF) (points : List Point)
    (sched : Parallel.Schedule) (hn : points.length = km.total_points)
    (hparts : sched.parts.flatten.Perm (List.range km.total_points))
    (hupd : sched.update.Perm (List.range km.K))
    (h : ∀ p ∈ points, p.HasDim km.total_values ∧ p.Assigned km.K) :
    Parallel.recompute km sched points = some (km.recenter points) := by
  unfold Parallel.recompute Parallel.updateCenters
  have hgood : ∀ part ∈ sched.parts, GoodIndices km.K km.total_values points part := by
    intro part hpart i hi
    have hmem : i ∈ sched.parts.flatten := List.mem_flatten.mpr ⟨part, hpart, hi⟩
    have hi2 : i < points.length := by
      rw [hn]; exact List.mem_range.mp (hparts.mem_iff.mp hmem)
    exact ⟨points[i], List.getElem?_eq_getElem hi2, h _ (List.getElem_mem hi2)⟩
  rw [parallel_accumulate_eq km points sched.parts hgood,
    sumsOf_perm km.K km.total_values _ points
      (pointsAt_perm points _ (by rw [hn]; exact hparts))]
  simp only [Option.some_bind, Option.bind_eq_bind]
  rw [foldlM_updateStep_eq km hwf points _ hupd]
  rfl

theorem reassign_length (km : KMeans) (points : List Point) :
    (km.reassign points).length = points.length := by
  simp [KMeans.reassign]

theorem reassign_hasDim (km : KMeans) (points : List Point) (D : Nat)
    (h : ∀ p ∈ points, p.HasDim D) : ∀ p ∈ km.reassign points, p.HasDim D := by
  intro p hp
  obtain ⟨q, hq, rfl⟩ := List.mem_map.mp hp
  exact h q hq

theorem reassign_assigned (km : KMeans) (hK : 1 ≤ km.K) (hwf : km.WF) (points : List Point)
    (h : ∀ p ∈ points, p.HasDim km.total_values) :
    ∀ p ∈ km.reassign points, p.Assigned km.K := by
  intro p hp
  obtain ⟨q, hq, rfl⟩ := List.mem_map.mp hp
  have := (getIDNearestCenter_eq_nearest km q hK hwf (h q hq)).2
  constructor
  · exact Int.ofNat_nonneg _
  · show ((km.nearest q : Nat) : Int) < _
    exact_mod_cast this

theorem meanOf_length (D : Nat) (ps : List Point) : (meanOf D ps).length = D := by
  simp [meanOf, vecOf_length]

theorem newCenter_length (D : Nat) (points : List Point) (i : Nat) (c : Cluster)
    (h : c.central_values.length = D) : (newCenter D points i c).central_values.length = D := by
  unfold newCenter
  split
  · exact meanOf_length D _
  · exact h

theorem recenter_wf (km : KMeans) (hwf : km.WF) (points : List Point) :
    (km.recenter points).WF := by
  constructor
  · show (newCenters _ _ _).length = km.K
    rw [newCenters_length, hwf.1]
  · intro c hc
    obtain ⟨i, hi⟩ := List.mem_iff_getElem?.mp hc
    have hc2 : c ∈ newCenters km.total_values points km.clusters := hc
    have hi2 : (newCenters km.total_values points km.clusters)[i]? = some c := hi
    have hlt : i < km.clusters.length := by
      have := lt_length_of_getElem?_eq_some hi2
      rwa [newCenters_length] at this
    rw [newCenters_getElem? _ _ _ i _ (List.getElem?_eq_getElem hlt)] at hi2
    rw [← Option.some.inj hi2]
    exact newCenter_length _ _ _ _ (hwf.2 _ (List.getElem_mem hlt))

theorem lloydStep_inv (st : KMeans × List Point) (h : LoopInv st) : LoopInv (lloydStep st).1 := by
  obtain ⟨hK, hwf, hn, hd⟩ := h
  exact ⟨hK, recenter_wf _ hwf _, by
    show (st.1.reassign st.2).length = st.1.total_points
    rw [reassign_length, hn], reassign_hasDim _ _ _ hd⟩

theorem serial_iteration_eq (st : KMeans × List Point) (h : LoopInv st) :
    Serial.iteration st = some (lloydStep st) := by
  obtain ⟨hK, hwf, hn, hd⟩ := h
  unfold Serial.iteration
  rw [serial_assignPass_eq st.1 hK hwf st.2 hn hd]
  simp only [Option.some_bind, Option.bind_eq_bind]
  rw [serial_recompute_eq st.1 hwf _ (by rw [reassign_length, hn])
    (fun p hp => ⟨reassign_hasDim _ _ _ hd p hp, reassign_assigned _ hK hwf _ hd p hp⟩)]
  rfl

theorem parallel_iteration_eq (st : KMeans × List Point) (h : LoopInv st)
    (sched : Parallel.Schedule) (hs : sched.Valid st.1) :
    Parallel.iteration sched st = some (lloydStep st) := by
  obtain ⟨hK, hwf, hn, hd⟩ := h
  unfold Parallel.iteration
  rw [parallel_assignPass_eq st.1 hK hwf st.2 _ hn hs.1 hd]
  simp only [Option.some_bind, Option.bind_eq_bind]
  rw [parallel_recompute_eq st.1 hwf _ sched (by rw [reassign_length, hn]) hs.2.1 hs.2.2
    (fun p hp => ⟨reassign_hasDim _ _ _ hd p hp, reassign_assigned _ hK hwf _ hd p hp⟩)]
  rfl

/-! ## The main loop -/

theorem whileLoop_eq {σ : Type} (M : Nat) (body : Nat → σ → Option (σ × Bool)) (s : σ)
    (iter : Nat) :
    whileLoop M body s iter =
      (body iter s).bind (fun r =>
        if r.2 = true ∨ iter ≥ M then some (r.1, iter) else whileLoop M body r.1 (iter + 1)) := by
  rw [whileLoop]
  cases h : body iter s with
  | none => rfl
  | some r => obtain ⟨t, d⟩ := r; rfl

theorem whileLoop_congr {σ : Type} (Inv : σ → Prop) (M : Nat)
    (body1 body2 : Nat → σ → Option (σ × Bool))
    (hagree : ∀ i s, Inv s → body1 i s = body2 i s)
    (hinv : ∀ i s r, Inv s → body1 i s = some r → Inv r.1)
    (s : σ) (iter : Nat) (hs : Inv s) :
    whileLoop M body1 s iter = whileLoop M body2 s iter := by
  generalize hm : M - iter = m
  induction m using Nat.strong_induction_on generalizing s iter with
  | _ m ih =>
    subst hm
    rw [whileLoop_eq M body1, whileLoop_eq M body2, ← hagree iter s hs]
    cases hb : body1 iter s with
    | none => rfl
    | some r =>
      simp only [Option.some_bind, Option.bind_eq_bind]
      by_cases hstop : r.2 = true ∨ iter ≥ M
      · simp only [hstop, if_true]
      · simp only [hstop, if_false]
        have hlt : ¬ iter ≥ M := fun h2 => hstop (Or.inr h2)
        exact ih (M - (iter + 1)) (by omega) r.1 (iter + 1) (hinv iter s r hs hb) rfl

theorem whileLoop_returns {σ : Type} (Inv : σ → Prop) (M : Nat)
    (body : Nat → σ → Option (σ × Bool))
    (hstep : ∀ i s, Inv s → ∃ r, body i s = some r ∧ Inv r.1)
    (s : σ) (iter : Nat) (hs : Inv s) :
    ∃ t n, whileLoop M body s iter = some (t, n) ∧ Inv t ∧ iter ≤ n ∧ n ≤ max iter M := by
  generalize hm : M - iter = m
  induction m using Nat.strong_induction_on generalizing s iter with
  | _ m ih =>
    subst hm
    obtain ⟨r, hr, hri⟩ := hstep iter s hs
    rw [whileLoop_eq, hr]
    simp only [Option.some_bind, Option.bind_eq_bind]
    by_cases hstop : r.2 = true ∨ iter ≥ M
    · simp only [hstop, if_true]
      exact ⟨r.1, iter, rfl, hri, le_refl _, le_max_left _ _⟩
    · simp only [hstop, if_false]
      have hlt : ¬ iter ≥ M := fun h2 => hstop (Or.inr h2)
      obtain ⟨t, n, h1, h2, h3, h4⟩ := ih (M - (iter + 1)) (by omega) r.1 (iter + 1) hri rfl
      refine ⟨t, n, h1, h2, by omega, ?_⟩
      have : max (iter + 1) M = M := max_eq_right (by omega)
      have h5 : max iter M = M := max_eq_right (by omega)
      omega

theorem whileLoop_stops {σ : Type} (M : Nat) (body : Nat → σ → Option (σ × Bool)) (s : σ)
    (k : Nat) (sk : σ) (dk : Bool) (hk : stateAfter body s k = some (sk, dk)) (t : σ) (n : Nat)
    (h : whileLoop M body sk (k + 1) = some (t, n)) :
    k + 1 ≤ n ∧
    (∃ d, stateAfter body s n = some (t, d) ∧ (d = true ∨ n ≥ M)) ∧
    ∀ i, k + 1 ≤ i → i < n → ∃ u, stateAfter body s i = some (u, false) ∧ i < M := by
  generalize hm : M - (k + 1) = m
  induction m using Nat.strong_induction_on generalizing k sk dk with
  | _ m ih =>
    subst hm
    rw [whileLoop_eq] at h
    have hnext : stateAfter body s (k + 1) = body (k + 1) sk := by
      simp [stateAfter, hk]
    cases hb : body (k + 1) sk with
    | none => rw [hb] at h; exact absurd h (by simp)
    | some r =>
      rw [hb] at h hnext
      simp only [Option.some_bind, Option.bind_eq_bind] at h
      by_cases hstop : r.2 = true ∨ k + 1 ≥ M
      · simp only [hstop, if_true, Option.some.injEq, Prod.mk.injEq] at h
        obtain ⟨h1, h2⟩ := h
        subst h2
        refine ⟨le_refl _, ⟨r.2, ?_, hstop⟩, fun i h3 h4 => absurd h3 (by omega)⟩
        rw [hnext, ← h1]
      · simp only [hstop, if_false] at h
        have hlt : ¬ k + 1 ≥ M := fun h2 => hstop (Or.inr h2)
        have hd : r.2 = false := by
          cases hr : r.2 with
          | true => exact absurd (Or.inl hr) hstop
          | false => rfl
        obtain ⟨h1, h2, h3⟩ := ih (M - (k + 1 + 1)) (by omega) (k + 1) r.1 r.2 hnext h rfl
        refine ⟨by omega, h2, ?_⟩
        intro i hi1 hi2
        rcases Nat.eq_or_lt_of_le hi1 with heq | hgt
        · subst heq
          exact ⟨r.1, by rw [hnext, ← hd], by omega⟩
        · exact h3 i hgt hi2

/-! ## Seeding -/

theorem forLoop_inv_of_some {σ : Type} (Inv : Nat → σ → Prop) (lo hi : Nat)
    (body : σ → Nat → Option σ) (s : σ) (hle : lo ≤ hi) (h0 : Inv lo s)
    (hstep : ∀ i t t', lo ≤ i → i < hi → Inv i t → body t i = some t' → Inv (i + 1) t')
    (t : σ) (ht : forLoop lo hi body s = some t) : Inv hi t := by
  induction hi generalizing t with
  | zero =>
    have : lo = 0 := by omega
    subst this
    simp [forLoop] at ht
    rw [← ht]; exact h0
  | succ n ih =>
    rcases Nat.lt_or_ge lo (n + 1) with hlt | hge
    · have hln : lo ≤ n := by omega
      rw [forLoop_last _ _ _ _ hln] at ht
      cases hm : forLoop lo n body s with
      | none => rw [hm] at ht; exact absurd ht (by simp)
      | some u =>
        rw [hm] at ht
        exact hstep n u t hln (by omega)
          (ih hln (fun i a b h1 h2 h3 h4 => hstep i a b h1 (by omega) h3 h4) u hm) ht
    · have : lo = n + 1 := by omega
      subst this
      rw [forLoop_eq_of_le _ _ _ _ (le_refl _)] at ht
      rw [← Option.some.inj ht]; exact h0

theorem Cluster.new_eq (id : Int) (p : Point) :
    Cluster.new id p = some { id_cluster := id, central_values := p.values } := by
  have key := forLoop_inv
    (fun j (cv : List ℚ) => cv = vecOf p.values.length
      (fun k => if k < j then p.values.getD k 0 else 0))
    0 p.values.length (Cluster.copyValue p) (List.replicate p.values.length 0) (Nat.zero_le _)
    (by simp [vecOf_const])
    (by
      intro j t _ hj ht
      subst ht
      refine ⟨_, ?_, rfl⟩
      unfold Cluster.copyValue
      simp only [Point.getValue, List.getElem?_eq_getElem hj, Option.some_bind,
        Option.bind_eq_bind, writeAt_vecOf _ _ _ _ hj, Option.some.injEq]
      apply vecOf_congr
      intro k _
      by_cases h2 : k = j
      · subst h2; simp [List.getD_eq_getElem?_getD, List.getElem?_eq_getElem hj]
      · have h3 : k < j + 1 ↔ k < j := by omega
        simp [h2, h3])
  obtain ⟨t, ht, hinv⟩ := key
  unfold Cluster.new Point.getTotalValues
  have h2 : t = p.values := by
    rw [hinv]
    refine Eq.trans (vecOf_congr _ _ _ ?_) (vecOf_getD p.values.length p.values rfl)
    intro k hk
    simp [hk]
  rw [ht, h2, Option.map_some']

theorem seedWhile_some (tp i : Nat) (proh : List Nat) (pts : List Point) (cls : List Cluster)
    (draws : List Nat) (sd : SeedState) (h : seedWhile tp i proh pts cls draws = some sd) :
    ∃ idx p0, idx < tp ∧ idx ∉ proh ∧ pts[idx]? = some p0 ∧
      sd.prohibited_indexes = proh ++ [idx] ∧ sd.points = pts.set idx (p0.setCluster i) ∧
      sd.clusters = cls ++ [{ id_cluster := i, central_values := p0.values }] := by
  induction draws with
  | nil => simp [seedWhile] at h
  | cons r draws ih =>
    unfold seedWhile at h
    by_cases htp : tp = 0
    · simp [htp] at h
    · simp only [htp, if_false] at h
      by_cases hmem : r % tp ∈ proh
      · simp only [hmem, not_true_eq_false, if_false] at h
        exact ih h
      · simp only [hmem, not_false_eq_true, if_true] at h
        cases hp : pts[r % tp]? with
        | none => rw [hp] at h; simp at h
        | some p0 =>
          have hlt := lt_length_of_getElem?_eq_some hp
          rw [hp] at h
          simp only [Option.some_bind, Option.bind_eq_bind, writeAt, hlt, if_true,
            getElem?_set_self_of_lt _ _ _ hlt, Cluster.new_eq, pure, Option.some.injEq] at h
          refine ⟨r % tp, p0, Nat.mod_lt _ (Nat.pos_of_ne_zero htp), hmem, hp, ?_, ?_, ?_⟩
          · rw [← h]
          · rw [← h]
          · rw [← h]; rfl

theorem seedStep_seeded (points : List Point) (total_points i : Nat) (st st' : SeedState)
    (hinv : Seeded points total_points i st) (h : seedStep total_points st i = some st') :
    Seeded points total_points (i + 1) st' := by
  obtain ⟨hlen, hnd, hlt, hcl, hpl, hacc, hrest⟩ := hinv
  obtain ⟨idx, p0, hidx, hnot, hp0, e1, e2, e3⟩ := seedWhile_some _ _ _ _ _ _ _ h
  have hp0' : points[idx]? = some p0 := by rw [← hrest idx hnot]; exact hp0
  have hidxlt : idx < st.points.length := lt_length_of_getElem?_eq_some hp0
  refine ⟨?_, ?_, ?_, ?_, ?_, ?_, ?_⟩
  · rw [e1, List.length_append, hlen]; rfl
  · rw [e1]
    refine List.Nodup.append hnd (List.nodup_singleton _) ?_
    intro a ha hb
    rw [List.mem_singleton] at hb
    exact hnot (hb ▸ ha)
  · intro a ha
    rw [e1, List.mem_append, List.mem_singleton] at ha
    rcases ha with ha | ha
    · exact hlt a ha
    · rw [ha]; exact hidx
  · rw [e3, List.length_append, hcl]; rfl
  · rw [e2, List.length_set, hpl]
  · intro k hk
    rcases Nat.lt_or_ge k i with hki | hki
    · obtain ⟨a, q, h1, h2, h3, h4⟩ := hacc k hki
      have hne : idx ≠ a := by
        intro he
        exact hnot (he ▸ List.getElem?_mem h1)
      refine ⟨a, q, ?_, h2, ?_, ?_⟩
      · rw [e1, List.getElem?_append_left (by rw [hlen]; exact hki)]; exact h1
      · rw [e2, getElem?_set_of_ne _ _ _ _ hne]; exact h3
      · rw [e3, List.getElem?_append_left (by rw [hcl]; exact hki)]; exact h4
    · have hk2 : k = i := by omega
      subst hk2
      refine ⟨idx, p0, ?_, hp0', ?_, ?_⟩
      · rw [e1, List.getElem?_append_right (by rw [hlen]), hlen, Nat.sub_self]; rfl
      · rw [e2, getElem?_set_self_of_lt _ _ _ hidxlt]
      · rw [e3, List.getElem?_append_right (by rw [hcl]), hcl, Nat.sub_self]; rfl
  · intro a ha
    rw [e1, List.mem_append, List.mem_singleton] at ha
    have hne : idx ≠ a := fun he => ha (Or.inr he.symm)
    rw [e2, getElem?_set_of_ne _ _ _ _ hne]
    exact hrest a (fun hm => ha (Or.inl hm))

theorem seed_seeded (km : KMeans) (points : List Point) (draws : List Nat) (sd : SeedState)
    (hcl : km.clusters = []) (h : km.seed points draws = some sd) :
    Seeded points km.total_points km.K sd := by
  unfold KMeans.seed at h
  refine forLoop_inv_of_some (fun i st => Seeded points km.total_points i st) 0 km.K
    (seedStep km.total_points) _ (Nat.zero_le _) ?_ ?_ sd h
  · rw [hcl]
    exact ⟨rfl, List.nodup_nil, fun _ h => absurd h (List.not_mem_nil _), rfl, rfl,
      fun k hk => absurd hk (Nat.not_lt_zero _), fun _ _ => rfl⟩
  · intro i t t' _ _ hinv hstep
    exact seedStep_seeded points km.total_points i t t' hinv hstep

theorem Seeded.point_cases {points : List Point} {tp K : Nat} {sd : SeedState}
    (h : Seeded points tp K sd) (idx : Nat) (p : Point) (hp : sd.points[idx]? = some p) :
    ∃ p0, points[idx]? = some p0 ∧
      (p = p0 ∨ ∃ k, k < K ∧ sd.prohibited_indexes[k]? = some idx ∧ p = p0.setCluster k) := by
  obtain ⟨hlen, _, _, _, _, hacc, hrest⟩ := h
  by_cases hm : idx ∈ sd.prohibited_indexes
  · obtain ⟨k, hk⟩ := List.mem_iff_getElem?.mp hm
    have hkK : k < K := by rw [← hlen]; exact lt_length_of_getElem?_eq_some hk
    obtain ⟨a, q, h1, h2, h3, _⟩ := hacc k hkK
    have ha : a = idx := by rw [h1] at hk; exact Option.some.inj hk
    subst ha
    refine ⟨q, h2, Or.inr ⟨k, hkK, h1, ?_⟩⟩
    rw [h3] at hp; exact (Option.some.inj hp).symm
  · refine ⟨p, ?_, Or.inl rfl⟩
    rw [← hrest idx hm]; exact hp

theorem seed_loopInv (km : KMeans) (points : List Point) (draws : List Nat) (sd : SeedState)
    (hK : 1 ≤ km.K) (hcl : km.clusters = []) (hn : points.length = km.total_points)
    (hd : ∀ p ∈ points, p.HasDim km.total_values) (h : km.seed points draws = some sd) :
    LoopInv ({ km with clusters := sd.clusters }, sd.points) := by
  have hs := seed_seeded km points draws sd hcl h
  obtain ⟨hlen, _, _, hcln, hpl, hacc, hrest⟩ := hs
  refine ⟨hK, ⟨hcln, ?_⟩, by rw [hpl, hn], ?_⟩
  · intro c hc
    have hc' : c ∈ sd.clusters := hc
    obtain ⟨k, hk⟩ := List.mem_iff_getElem?.mp hc'
    have hkK : k < km.K := by rw [← hcln]; exact lt_length_of_getElem?_eq_some hk
    obtain ⟨a, q, _, h2, _, h4⟩ := hacc k hkK
    rw [h4] at hk
    rw [← Option.some.inj hk]
    exact hd q (List.getElem?_mem h2)
  · intro p hp
    have hp' : p ∈ sd.points := hp
    obtain ⟨idx, hidx⟩ := List.mem_iff_getElem?.mp hp'
    obtain ⟨p0, h0, hcase⟩ := (seed_seeded km points draws sd hcl h).point_cases idx p hidx
    have hd0 := hd p0 (List.getElem?_mem h0)
    rcases hcase with rfl | ⟨k, _, _, rfl⟩
    · exact hd0
    · exact hd0

/-! ## Invariants along a run -/

theorem getIDNearestCenter_setCluster (km : KMeans) (p : Point) (c : Int) :
    km.getIDNearestCenter (p.setCluster c) = km.getIDNearestCenter p := rfl

theorem lloydStep_runInv (km0 : KMeans) (st : KMeans × List Point) (h : RunInv km0 st) :
    RunInv km0 (lloydStep st).1 :=
  ⟨lloydStep_inv st h.1, h.2.1, h.2.2⟩

theorem serial_body_ok (km0 : KMeans) (i : Nat) (st : KMeans × List Point)
    (h : RunInv km0 st) :
    ∃ r, (fun (_ : Nat) => Serial.iteration) i st = some r ∧ RunInv km0 r.1 :=
  ⟨lloydStep st, serial_iteration_eq st h.1, lloydStep_runInv km0 st h⟩

theorem parallel_body_ok (km0 : KMeans) (scheds : Nat → Parallel.Schedule)
    (hs : ∀ i, (scheds i).Valid km0) (i : Nat) (st : KMeans × List Point) (h : RunInv km0 st) :
    ∃ r, (fun iter => Parallel.iteration (scheds iter)) i st = some r ∧ RunInv km0 r.1 := by
  have hv : (scheds i).Valid st.1 := by
    unfold Parallel.Schedule.Valid
    rw [h.2.1, h.2.2]
    exact hs i
  exact ⟨lloydStep st, parallel_iteration_eq st h.1 (scheds i) hv, lloydStep_runInv km0 st h⟩

theorem seed_runInv (km : KMeans) (points : List Point) (draws : List Nat) (sd : SeedState)
    (hK : 1 ≤ km.K) (hcl : km.clusters = []) (hn : points.length = km.total_points)
    (hd : ∀ p ∈ points, p.HasDim km.total_values) (h : km.seed points draws = some sd) :
    RunInv km ({ km with clusters := sd.clusters }, sd.points) :=
  ⟨seed_loopInv km points draws sd hK hcl hn hd h, rfl, rfl⟩

/-- Along the unconditional repetition of a body that is `lloydStep` on invariant states,
every state satisfies the invariant and, from the first iteration on, every point is
assigned within `[0, K)`. -/
theorem stateAfter_inv (km0 : KMeans) (body : Nat → KMeans × List Point →
      Option ((KMeans × List Point) × Bool))
    (hbody : ∀ i st, RunInv km0 st → body i st = some (lloydStep st))
    (s : KMeans × List Point) (hs : RunInv km0 s) (n : Nat) :
    ∃ st d, stateAfter body s n = some (st, d) ∧ RunInv km0 st ∧
      (1 ≤ n → ∀ p ∈ st.2, p.Assigned km0.K) := by
  induction n with
  | zero => exact ⟨s, false, rfl, hs, fun h => absurd h (by omega)⟩
  | succ n ih =>
    obtain ⟨st, d, h1, h2, _⟩ := ih
    refine ⟨(lloydStep st).1, (lloydStep st).2, ?_, lloydStep_runInv km0 st h2, ?_⟩
    · simp only [stateAfter, h1, Option.some_bind, Option.bind_eq_bind, hbody (n + 1) st h2]
    · intro _ p hp
      rw [← h2.2.1]
      exact reassign_assigned st.1 h2.1.1 h2.1.2.1 st.2 h2.1.2.2.2 p hp

/-! ## The claims -/

theorem recenter_getElem? (km : KMeans) (points : List Point) (i : Nat) (c : Cluster)
    (hc : km.clusters[i]? = some c) :
    (km.recenter points).clusters[i]? = some (newCenter km.total_values points i c) :=
  newCenters_getElem? km.total_values points km.clusters i c hc

/-- C3: in a recompute step, serial or parallel under any valid schedule, a cluster to which
no point is assigned keeps its centroid exactly as it was, and the table still has `K`
centroids (the configuration is untouched). -/
theorem recompute_empty_cluster_kept (km : KMeans) (points : List Point)
    (sched : Parallel.Schedule) (hwf : km.WF) (hn : points.length = km.total_points)
    (hp : ∀ p ∈ points, p.HasDim km.total_values ∧ p.Assigned km.K)
    (hs : sched.Valid km) :
    ∃ km', Serial.recompute km points = some km' ∧
      Parallel.recompute km sched points = some km' ∧
      km'.clusters.length = km.K ∧ km'.K = km.K ∧
      ∀ i, i < km.K → members points i = [] → km'.clusters[i]? = km.clusters[i]? := by
  refine ⟨km.recenter points, serial_recompute_eq km hwf points hn hp,
    parallel_recompute_eq km hwf points sched hn hs.2.1 hs.2.2 hp,
    (recenter_wf km hwf points).1, rfl, ?_⟩
  intro i hi hempty
  have hi2 : i < km.clusters.length := by rw [hwf.1]; exact hi
  rw [recenter_getElem? km points i _ (List.getElem?_eq_getElem hi2),
    List.getElem?_eq_getElem hi2]
  simp [newCenter, hempty]

theorem recompute_empty_cluster_kept_witness :
    (exKm.WF ∧ exPoints.length = exKm.total_points ∧
      (∀ p ∈ exPoints, p.HasDim exKm.total_values ∧ p.Assigned exKm.K) ∧ exSched.Valid exKm) ∧
    ∃ km', Serial.recompute exKm exPoints = some km' ∧
      Parallel.recompute exKm exSched exPoints = some km' ∧
      km'.clusters.length = exKm.K ∧ km'.K = exKm.K ∧
      ∀ i, i < exKm.K → members exPoints i = [] → km'.clusters[i]? = exKm.clusters[i]? :=
  ⟨⟨by decide, by decide, by decide, by decide⟩,
    recompute_empty_cluster_kept exKm exPoints exSched (by decide) (by decide) (by decide)
      (by decide)⟩

/-- C4: an assignment pass over a table of `K >= 1` centroids, serial or parallel in any
order, leaves every point assigned to the index `getIDNearestCenter` returns for it (and
otherwise as it was), and reports a change (`done = false`) exactly when some point's
assignment before the pass differed from that index. -/
theorem assignPass_nearest (km : KMeans) (points : List Point) (order : List Nat)
    (hK : 1 ≤ km.K) (hwf : km.WF) (hn : points.length = km.total_points)
    (hd : ∀ p ∈ points, p.HasDim km.total_values)
    (ho : order.Perm (List.range km.total_points)) :
    ∃ r done, Serial.assignPass km points = some (r, done) ∧
      Parallel.assignPass km order points = some (r, done) ∧
      r.length = points.length ∧
      (∀ (i : Nat) (p : Point), points[i]? = some p → ∃ c, km.getIDNearestCenter p = some c ∧
        r[i]? = some (p.setCluster c) ∧ km.getIDNearestCenter (p.setCluster c) = some c) ∧
      (done = false ↔ ∃ (i : Nat) (p : Point) (c : Nat), points[i]? = some p ∧ km.getIDNearestCenter p = some c ∧
        p.id_cluster ≠ (c : Int)) := by
  refine ⟨km.reassign points, km.stable points, serial_assignPass_eq km hK hwf points hn hd,
    parallel_assignPass_eq km hK hwf points order hn ho hd, reassign_length km points, ?_, ?_⟩
  · intro i p hp
    have hc := (getIDNearestCenter_eq_nearest km p hK hwf (hd p (List.getElem?_mem hp))).1
    refine ⟨km.nearest p, hc, ?_, by rw [getIDNearestCenter_setCluster]; exact hc⟩
    simp [KMeans.reassign, hp]
  · rw [← Bool.not_eq_true, KMeans.stable, List.all_eq_true]
    constructor
    · intro h
      by_contra hne
      apply h
      intro p hp
      obtain ⟨i, hi⟩ := List.mem_iff_getElem?.mp hp
      have hc := (getIDNearestCenter_eq_nearest km p hK hwf (hd p hp)).1
      by_contra hdec
      exact hne ⟨i, p, km.nearest p, hi, hc, by simpa using hdec⟩
    · rintro ⟨i, p, c, hi, hc, hne⟩ hall
      have hc2 := (getIDNearestCenter_eq_nearest km p hK hwf (hd p (List.getElem?_mem hi))).1
      rw [hc2] at hc
      have hcc : km.nearest p = c := Option.some.inj hc
      have := hall p (List.getElem?_mem hi)
      rw [hcc] at this
      exact hne (by simpa using this)

theorem assignPass_nearest_witness :
    (1 ≤ exKm.K ∧ exKm.WF ∧ exPoints.length = exKm.total_points ∧
      (∀ p ∈ exPoints, p.HasDim exKm.total_values) ∧
      exSched.assign.Perm (List.range exKm.total_points)) ∧
    ∃ r done, Serial.assignPass exKm exPoints = some (r, done) ∧
      Parallel.assignPass exKm exSched.assign exPoints = some (r, done) ∧
      r.length = exPoints.length ∧
      (∀ (i : Nat) (p : Point), exPoints[i]? = some p → ∃ c, exKm.getIDNearestCenter p = some c ∧
        r[i]? = some (p.setCluster c) ∧ exKm.getIDNearestCenter (p.setCluster c) = some c) ∧
      (done = false ↔ ∃ (i : Nat) (p : Point) (c : Nat), exPoints[i]? = some p ∧ exKm.getIDNearestCenter p = some c ∧
        p.id_cluster ≠ (c : Int)) :=
  ⟨⟨by decide, by decide, by decide, by decide, by decide⟩,
    assignPass_nearest exKm exPoints exSched.assign (by decide) (by decide) (by decide)
      (by decide) (by decide)⟩

theorem sqDist_nonneg (a b : List ℚ) : 0 ≤ sqDist a b := by
  unfold sqDist
  apply List.sum_nonneg
  intro x hx
  obtain ⟨i, hi⟩ := List.mem_iff_getElem?.mp hx
  rw [List.getElem?_zipWith] at hi
  cases ha : a[i]? with
  | none => rw [ha] at hi; simp at hi
  | some u =>
    cases hb : b[i]? with
    | none => rw [ha, hb] at hi; simp at hi
    | some v =>
      rw [ha, hb] at hi
      simp only [Option.map_some', Option.some_bind, Option.bind_eq_bind] at hi
      rw [← Option.some.inj hi]
      exact sq_nonneg _

/-- The order on `Root` is the order of the real square roots. -/
theorem Root.lt_iff_real (a b : ℚ) (ha : 0 ≤ a) :
    sqrt a < sqrt b ↔ Real.sqrt (a : ℝ) < Real.sqrt (b : ℝ) := by
  rw [Real.sqrt_lt_sqrt_iff (by exact_mod_cast ha), Rat.cast_lt]
  exact Iff.rfl

theorem whileLoop_iter_bounds {σ : Type} (M : Nat) (body : Nat → σ → Option (σ × Bool)) (s t : σ)
    (n : Nat) (h : whileLoop M body s 1 = some (t, n)) : 1 ≤ n ∧ n ≤ max 1 M := by
  obtain ⟨h1, _, h3⟩ := whileLoop_stops M body s 0 s false rfl t n h
  refine ⟨h1, ?_⟩
  rcases Nat.eq_or_lt_of_le h1 with heq | hlt
  · rw [← heq]; exact le_max_left _ _
  · obtain ⟨_, _, h4⟩ := h3 (n - 1) (by omega) (by omega)
    have : n ≤ M := by omega
    exact le_trans this (le_max_right _ _)

theorem serial_run_eq (km : KMeans) (points : List Point) (draws : List Nat)
    (hg : km.K ≤ km.total_points) :
    Serial.run km points draws =
      (km.seed points draws).bind (fun sd =>
        (whileLoop km.max_iterations (fun _ => Serial.iteration)
          ({ km with clusters := sd.clusters }, sd.points) 1).bind
          (fun r => some { km := r.1.1, points := r.1.2, iter := some r.2 })) := by
  unfold Serial.run
  rw [if_neg (by omega)]
  rfl

theorem parallel_run_eq (km : KMeans) (scheds : Nat → Parallel.Schedule) (points : List Point)
    (draws : List Nat) (hg : km.K ≤ km.total_points) :
    Parallel.run km scheds points draws =
      (km.seed points draws).bind (fun sd =>
        (whileLoop km.max_iterations (fun iter => Parallel.iteration (scheds iter))
          ({ km with clusters := sd.clusters }, sd.points) 1).bind
          (fun r => some { km := r.1.1, points := r.1.2, iter := some r.2 })) := by
  unfold Parallel.run
  rw [if_neg (by omega)]
  rfl

theorem run_stops_generic (km : KMeans) (points : List Point) (draws : List Nat)
    (body : Nat → KMeans × List Point → Option ((KMeans × List Point) × Bool))
    (res : RunResult)
    (h : (km.seed points draws).bind (fun sd =>
        (whileLoop km.max_iterations body ({ km with clusters := sd.clusters }, sd.points) 1).bind
          (fun r => some { km := r.1.1, points := r.1.2, iter := some r.2 })) = some res) :
    StopsAtFirst km.max_iterations
      (fun n => (km.seed points draws).bind (fun sd =>
        stateAfter body ({ km with clusters := sd.clusters }, sd.points) n)) res := by
  cases hsd : km.seed points draws with
  | none => rw [hsd] at h; exact absurd h (by simp)
  | some sd =>
    rw [hsd] at h
    simp only [Option.some_bind, Option.bind_eq_bind] at h
    cases hw : whileLoop km.max_iterations body ({ km with clusters := sd.clusters }, sd.points) 1 with
    | none => rw [hw] at h; exact absurd h (by simp)
    | some r =>
      rw [hw] at h
      simp only [Option.some_bind, Option.some.injEq] at h
      obtain ⟨⟨t1, t2⟩, n⟩ := r
      obtain ⟨h1, ⟨d, h2, h3⟩, h4⟩ := whileLoop_stops km.max_iterations body
        ({ km with clusters := sd.clusters }, sd.points) 0 _ false rfl (t1, t2) n hw
      subst h
      exact ⟨n, rfl, h1, ⟨d, by simpa using h2, h3⟩, fun i hi1 hi2 => by
        simpa using h4 i hi1 hi2⟩

/-- C5: a run that passes the guard `K <= total_points` stops at the first iteration
`it >= 1` whose assignment pass reported no change or with `it >= max_iterations`; every
earlier iteration reported a change and was below the cap. Serial and parallel. -/
theorem run_stops_at_first (km : KMeans) (scheds : Nat → Parallel.Schedule)
    (points : List Point) (draws : List Nat) (hg : km.K ≤ km.total_points) :
    (∀ res, Serial.run km points draws = some res →
      StopsAtFirst km.max_iterations (Serial.trace km points draws) res) ∧
    (∀ res, Parallel.run km scheds points draws = some res →
      StopsAtFirst km.max_iterations (Parallel.trace km scheds points draws) res) := by
  constructor
  · intro res h
    rw [serial_run_eq km points draws hg] at h
    exact run_stops_generic km points draws _ res h
  · intro res h
    rw [parallel_run_eq km scheds points draws hg] at h
    exact run_stops_generic km points draws _ res h

theorem lineRun_serial : Serial.run lineKm linePoints lineDraws = some lineResult := by
  with_unfolding_all decide

theorem lineRun_parallel :
    Parallel.run lineKm (fun _ => lineSched) linePoints lineDraws = some lineResult := by
  with_unfolding_all decide

theorem run_stops_at_first_witness :
    lineKm.K ≤ lineKm.total_points ∧
    StopsAtFirst lineKm.max_iterations (Serial.trace lineKm linePoints lineDraws) lineResult ∧
    StopsAtFirst lineKm.max_iterations
      (Parallel.trace lineKm (fun _ => lineSched) linePoints lineDraws) lineResult :=
  ⟨by decide,
    (run_stops_at_first lineKm (fun _ => lineSched) linePoints lineDraws (by decide)).1
      lineResult lineRun_serial,
    (run_stops_at_first lineKm (fun _ => lineSched) linePoints lineDraws (by decide)).2
      lineResult lineRun_parallel⟩

/-- C6, as stated, fails: with `K = 1 <= total_points = 1` and `max_iterations = 0` the
seeding completes and both loops execute one iteration, which is more than
`max_iterations`. -/
theorem run_iterations_exceed_zero_cap :
    zeroCapKm.K ≤ zeroCapKm.total_points ∧
    (zeroCapKm.seed zeroCapPoints [0]).isSome = true ∧
    (Serial.run zeroCapKm zeroCapPoints [0]).map (fun r => r.iter) = some (some 1) ∧
    (Parallel.run zeroCapKm (fun _ => ⟨[0], [[0]], [0]⟩) zeroCapPoints [0]).map
      (fun r => r.iter) = some (some 1) ∧
    ¬ (1 ≤ zeroCapKm.max_iterations) := by
  with_unfolding_all decide

/-- C6 (amended): a run that passes the guard `K <= total_points` and ends has executed at
least one and at most `max(1, max_iterations)` iterations; and with `1 <= K`, `total_points`
points of `total_values` coordinates, a fresh engine and valid schedules, once the seeding has
completed the run does end (serial and parallel). -/
theorem run_terminates_within_cap (km : KMeans) (scheds : Nat → Parallel.Schedule)
    (points : List Point) (draws : List Nat) (hg : km.K ≤ km.total_points) :
    (∀ res, (Serial.run km points draws = some res ∨
        Parallel.run km scheds points draws = some res) →
      ∃ it, res.iter = some it ∧ 1 ≤ it ∧ it ≤ max 1 km.max_iterations) ∧
    (1 ≤ km.K → km.clusters = [] → points.length = km.total_points →
      (∀ p ∈ points, p.HasDim km.total_values) → (∀ i, (scheds i).Valid km) →
      (km.seed points draws).isSome = true →
      (∃ res, Serial.run km points draws = some res) ∧
      (∃ res, Parallel.run km scheds points draws = some res)) := by
  constructor
  · have gen : ∀ (body : Nat → KMeans × List Point → Option ((KMeans × List Point) × Bool))
        (res : RunResult),
        (km.seed points draws).bind (fun sd =>
          (whileLoop km.max_iterations body
            ({ km with clusters := sd.clusters }, sd.points) 1).bind
            (fun r => some { km := r.1.1, points := r.1.2, iter := some r.2 })) = some res →
        ∃ it, res.iter = some it ∧ 1 ≤ it ∧ it ≤ max 1 km.max_iterations := by
      intro body res h
      cases hsd : km.seed points draws with
      | none => rw [hsd] at h; exact absurd h (by simp)
      | some sd =>
        rw [hsd] at h
        simp only [Option.some_bind, Option.bind_eq_bind] at h
        cases hw : whileLoop km.max_iterations body
            ({ km with clusters := sd.clusters }, sd.points) 1 with
        | none => rw [hw] at h; exact absurd h (by simp)
        | some r =>
          rw [hw] at h
          simp only [Option.some_bind, Option.some.injEq] at h
          obtain ⟨t, n⟩ := r
          subst h
          exact ⟨n, rfl, whileLoop_iter_bounds km.max_iterations body _ t n hw⟩
    intro res hres
    rcases hres with h | h
    · rw [serial_run_eq km points draws hg] at h
      exact gen _ res h
    · rw [parallel_run_eq km scheds points draws hg] at h
      exact gen _ res h
  · intro hK hcl hn hd hs hseed
    obtain ⟨sd, hsd⟩ := Option.isSome_iff_exists.mp hseed
    have hinv := seed_runInv km points draws sd hK hcl hn hd hsd
    constructor
    · obtain ⟨t, n, h1, _⟩ := whileLoop_returns (RunInv km) km.max_iterations
        (fun _ => Serial.iteration) (serial_body_ok km) _ 1 hinv
      refine ⟨{ km := t.1, points := t.2, iter := some n }, ?_⟩
      rw [serial_run_eq km points draws hg, hsd]
      simp only [Option.some_bind, Option.bind_eq_bind, h1]
    · obtain ⟨t, n, h1, _⟩ := whileLoop_returns (RunInv km) km.max_iterations
        (fun iter => Parallel.iteration (scheds iter)) (parallel_body_ok km scheds hs) _ 1 hinv
      refine ⟨{ km := t.1, points := t.2, iter := some n }, ?_⟩
      rw [parallel_run_eq km scheds points draws hg, hsd]
      simp only [Option.some_bind, Option.bind_eq_bind, h1]

theorem lineSeed_eq : lineKm.seed linePoints lineDraws = some lineSeed := by
  with_unfolding_all decide

theorem run_terminates_within_cap_witness :
    lineKm.K ≤ lineKm.total_points ∧
    (∃ it, lineResult.iter = some it ∧ 1 ≤ it ∧ it ≤ max 1 lineKm.max_iterations) ∧
    (∃ res, Serial.run lineKm linePoints lineDraws = some res) ∧
    (∃ res, Parallel.run lineKm (fun _ => lineSched) linePoints lineDraws = some res) :=
  ⟨by decide,
    (run_terminates_within_cap lineKm (fun _ => lineSched) linePoints lineDraws
      (by decide)).1 lineResult (Or.inl lineRun_serial),
    (run_terminates_within_cap lineKm (fun _ => lineSched) linePoints lineDraws
      (by decide)).2 (by decide) (by decide) (by decide) (by decide)
      (fun _ => (by decide : lineSched.Valid lineKm))
      (by rw [lineSeed_eq]; rfl)⟩

theorem run_assigned_generic (km : KMeans) (sd : SeedState) (body : Nat → KMeans × List Point → Option ((KMeans × List Point) × Bool))
    (hbody : ∀ i st, RunInv km st → body i st = some (lloydStep st))
    (hinv : RunInv km ({ km with clusters := sd.clusters }, sd.points)) :
    ∃ t n, whileLoop km.max_iterations body ({ km with clusters := sd.clusters }, sd.points) 1 =
        some (t, n) ∧ ∀ p ∈ t.2, p.Assigned km.K := by
  obtain ⟨t, n, h1, _, _, _⟩ := whileLoop_returns (RunInv km) km.max_iterations body
    (fun i st h => ⟨lloydStep st, hbody i st h, lloydStep_runInv km st h⟩) _ 1 hinv
  obtain ⟨h2, ⟨d, h3, _⟩, _⟩ := whileLoop_stops km.max_iterations body _ 0 _ false rfl t n h1
  obtain ⟨st, d', h4, _, h5⟩ := stateAfter_inv km body hbody _ hinv n
  rw [h3] at h4
  have : t = st := (Prod.mk.inj (Option.some.inj h4)).1
  subst this
  exact ⟨t, n, h1, h5 h2⟩

/-- C7: in a run with `1 <= K <= total_points` (parallel under any valid schedules, and
serial), after the assignment pass of every iteration, after every iteration's recompute, and
at the end of the run, every point's cluster is an index in `[0, K)`; none is left at `-1`. -/
theorem run_assignments_in_range (km : KMeans) (scheds : Nat → Parallel.Schedule)
    (points : List Point) (draws : List Nat) (sd : SeedState)
    (hK : 1 ≤ km.K) (hg : km.K ≤ km.total_points) (hcl : km.clusters = [])
    (hn : points.length = km.total_points) (hd : ∀ p ∈ points, p.HasDim km.total_values)
    (hs : ∀ i, (scheds i).Valid km) (hseed : km.seed points draws = some sd) :
    (∃ res, Parallel.run km scheds points draws = some res ∧
      ∀ p ∈ res.points, 0 ≤ p.id_cluster ∧ p.id_cluster < (km.K : Int) ∧ p.id_cluster ≠ -1) ∧
    (∃ res, Serial.run km points draws = some res ∧
      ∀ p ∈ res.points, 0 ≤ p.id_cluster ∧ p.id_cluster < (km.K : Int) ∧ p.id_cluster ≠ -1) ∧
    (∀ n, ∃ st done pts done', Parallel.trace km scheds points draws n = some (st, done) ∧
      Parallel.assignPass st.1 (scheds (n + 1)).assign st.2 = some (pts, done') ∧
      ∀ p ∈ pts, p.Assigned km.K) ∧
    (∀ n, 1 ≤ n → ∃ st done, Parallel.trace km scheds points draws n = some (st, done) ∧
      ∀ p ∈ st.2, p.Assigned km.K) := by
  have hinv := seed_runInv km points draws sd hK hcl hn hd hseed
  have hbp : ∀ i st, RunInv km st →
      (fun iter => Parallel.iteration (scheds iter)) i st = some (lloydStep st) := by
    intro i st h
    have hv : (scheds i).Valid st.1 := by
      unfold Parallel.Schedule.Valid
      rw [h.2.1, h.2.2]
      exact hs i
    exact parallel_iteration_eq st h.1 (scheds i) hv
  have hbs : ∀ (i : Nat) st, RunInv km st →
      (fun (_ : Nat) => Serial.iteration) i st = some (lloydStep st) :=
    fun _ st h => serial_iteration_eq st h.1
  have hne : ∀ p : Point, p.Assigned km.K →
      0 ≤ p.id_cluster ∧ p.id_cluster < (km.K : Int) ∧ p.id_cluster ≠ -1 :=
    fun p h => ⟨h.1, h.2, by have := h.1; omega⟩
  refine ⟨?_, ?_, ?_, ?_⟩
  · obtain ⟨t, n, h1, h2⟩ := run_assigned_generic km sd _ hbp hinv
    refine ⟨{ km := t.1, points := t.2, iter := some n }, ?_, fun p hp => hne p (h2 p hp)⟩
    rw [parallel_run_eq km scheds points draws hg, hseed]
    simp only [Option.some_bind, Option.bind_eq_bind, h1]
  · obtain ⟨t, n, h1, h2⟩ := run_assigned_generic km sd _ hbs hinv
    refine ⟨{ km := t.1, points := t.2, iter := some n }, ?_, fun p hp => hne p (h2 p hp)⟩
    rw [serial_run_eq km points draws hg, hseed]
    simp only [Option.some_bind, Option.bind_eq_bind, h1]
  · intro n
    obtain ⟨st, d, h1, h2, _⟩ := stateAfter_inv km _ hbp _ hinv n
    refine ⟨st, d, st.1.reassign st.2, st.1.stable st.2, ?_, ?_, ?_⟩
    · simp only [Parallel.trace, hseed, Option.some_bind, Option.bind_eq_bind, h1]
    · have hv := hs (n + 1)
      refine parallel_assignPass_eq st.1 h2.1.1 h2.1.2.1 st.2 _ h2.1.2.2.1 ?_ h2.1.2.2.2
      rw [h2.2.2]; exact hv.1
    · intro p hp
      rw [← h2.2.1]
      exact reassign_assigned st.1 h2.1.1 h2.1.2.1 st.2 h2.1.2.2.2 p hp
  · intro n hn1
    obtain ⟨st, d, h1, _, h3⟩ := stateAfter_inv km _ hbp _ hinv n
    refine ⟨st, d, ?_, h3 hn1⟩
    simp only [Parallel.trace, hseed, Option.some_bind, Option.bind_eq_bind, h1]

theorem run_assignments_in_range_witness :
    (1 ≤ lineKm.K ∧ lineKm.K ≤ lineKm.total_points ∧ lineKm.clusters = [] ∧
      linePoints.length = lineKm.total_points ∧
      (∀ p ∈ linePoints, p.HasDim lineKm.total_values) ∧ lineSched.Valid lineKm ∧
      lineKm.seed linePoints lineDraws = some lineSeed) ∧
    ∃ res, Parallel.run lineKm (fun _ => lineSched) linePoints lineDraws = some res ∧
      ∀ p ∈ res.points, 0 ≤ p.id_cluster ∧ p.id_cluster < (lineKm.K : Int) ∧
        p.id_cluster ≠ -1 :=
  ⟨⟨by decide, by decide, by decide, by decide, by decide, by decide, lineSeed_eq⟩,
    (run_assignments_in_range lineKm (fun _ => lineSched) linePoints lineDraws lineSeed
      (by decide) (by decide) (by decide) (by decide) (by decide) (fun _ => (by decide : lineSched.Valid lineKm))
      lineSeed_eq).1⟩

/-- C8: when the seeding of a fresh engine completes, it has accepted exactly `K` point
indices, pairwise distinct and all below `total_points`, and created exactly `K` centroids;
the `i`-th accepted point is assigned to cluster `i` and centroid `i` has that point's
coordinates; every point not accepted is as it was, so still at `-1` when it started there. -/
theorem seed_accepts_distinct (km : KMeans) (points : List Point) (draws : List Nat)
    (sd : SeedState) (hcl : km.clusters = []) (h : km.seed points draws = some sd) :
    sd.prohibited_indexes.length = km.K ∧ sd.prohibited_indexes.Nodup ∧
    (∀ idx ∈ sd.prohibited_indexes, idx < km.total_points) ∧
    sd.clusters.length = km.K ∧ sd.points.length = points.length ∧
    (∀ i, i < km.K → ∃ idx p0, sd.prohibited_indexes[i]? = some idx ∧
      points[idx]? = some p0 ∧ sd.points[idx]? = some (p0.setCluster i) ∧
      sd.clusters[i]? = some { id_cluster := i, central_values := p0.values }) ∧
    (∀ idx, idx ∉ sd.prohibited_indexes → sd.points[idx]? = points[idx]?) ∧
    ((∀ p ∈ points, p.id_cluster = -1) →
      ∀ idx p, idx ∉ sd.prohibited_indexes → sd.points[idx]? = some p → p.id_cluster = -1) := by
  obtain ⟨h1, h2, h3, h4, h5, h6, h7⟩ := seed_seeded km points draws sd hcl h
  refine ⟨h1, h2, h3, h4, h5, h6, h7, ?_⟩
  intro hall idx p hidx hp
  rw [h7 idx hidx] at hp
  exact hall p (List.getElem?_mem hp)

theorem seed_accepts_distinct_witness :
    (lineKm.clusters = [] ∧ lineKm.seed linePoints lineDraws = some lineSeed) ∧
    lineSeed.prohibited_indexes.length = lineKm.K ∧ lineSeed.prohibited_indexes.Nodup ∧
    (∀ idx ∈ lineSeed.prohibited_indexes, idx < lineKm.total_points) ∧
    lineSeed.clusters.length = lineKm.K ∧ lineSeed.points.length = linePoints.length ∧
    (∀ i, i < lineKm.K → ∃ idx p0, lineSeed.prohibited_indexes[i]? = some idx ∧
      linePoints[idx]? = some p0 ∧ lineSeed.points[idx]? = some (p0.setCluster i) ∧
      lineSeed.clusters[i]? = some { id_cluster := i, central_values := p0.values }) ∧
    (∀ idx, idx ∉ lineSeed.prohibited_indexes → lineSeed.points[idx]? = linePoints[idx]?) ∧
    ((∀ p ∈ linePoints, p.id_cluster = -1) →
      ∀ idx p, idx ∉ lineSeed.prohibited_indexes → lineSeed.points[idx]? = some p →
        p.id_cluster = -1) :=
  ⟨⟨by decide, lineSeed_eq⟩,
    seed_accepts_distinct lineKm linePoints lineDraws lineSeed (by decide) lineSeed_eq⟩

/-- C9: with `K > total_points`, `run` (serial and parallel) returns at once with the engine
and every point exactly as they were: no iteration is counted, points that were at `-1` stay
at `-1`, and an empty centroid table stays empty. -/
theorem run_guard_returns_unchanged (km : KMeans) (scheds : Nat → Parallel.Schedule)
    (points : List Point) (draws : List Nat) (hg : km.K > km.total_points) :
    Serial.run km points draws = some { km := km, points := points, iter := none } ∧
    Parallel.run km scheds points draws = some { km := km, points := points, iter := none } ∧
    (∀ res, (Serial.run km points draws = some res ∨
        Parallel.run km scheds points draws = some res) →
      res.points = points ∧ (km.clusters = [] → res.km.clusters = []) ∧
      ((∀ p ∈ points, p.id_cluster = -1) → ∀ p ∈ res.points, p.id_cluster = -1)) := by
  have h1 : Serial.run km points draws = some { km := km, points := points, iter := none } := by
    unfold Serial.run
    rw [if_pos hg]
  have h2 : Parallel.run km scheds points draws =
      some { km := km, points := points, iter := none } := by
    unfold Parallel.run
    rw [if_pos hg]
  refine ⟨h1, h2, ?_⟩
  intro res hres
  rw [h1, h2, or_self] at hres
  rw [← Option.some.inj hres]
  exact ⟨rfl, fun h => h, fun h => h⟩

theorem run_guard_returns_unchanged_witness :
    tooManyKm.K > tooManyKm.total_points ∧
    Serial.run tooManyKm tooManyPoints [0, 1, 2] =
      some { km := tooManyKm, points := tooManyPoints, iter := none } ∧
    Parallel.run tooManyKm (fun _ => ⟨[0, 1], [[0, 1]], [0, 1, 2]⟩) tooManyPoints [0, 1, 2] =
      some { km := tooManyKm, points := tooManyPoints, iter := none } :=
  ⟨by decide,
    (run_guard_returns_unchanged tooManyKm (fun _ => ⟨[0, 1], [[0, 1]], [0, 1, 2]⟩)
      tooManyPoints [0, 1, 2] (by decide)).1,
    (run_guard_returns_unchanged tooManyKm (fun _ => ⟨[0, 1], [[0, 1]], [0, 1, 2]⟩)
      tooManyPoints [0, 1, 2] (by decide)).2.1⟩

theorem parallel_run_eq_serial (km : KMeans) (scheds : Nat → Parallel.Schedule)
    (points : List Point) (draws : List Nat) (hK : 1 ≤ km.K) (hcl : km.clusters = [])
    (hn : points.length = km.total_points) (hd : ∀ p ∈ points, p.HasDim km.total_values)
    (hs : ∀ i, (scheds i).Valid km) :
    Parallel.run km scheds points draws = Serial.run km points draws := by
  by_cases hg : km.K > km.total_points
  · unfold Parallel.run Serial.run
    rw [if_pos hg, if_pos hg]
  · have hg2 : km.K ≤ km.total_points := by omega
    rw [parallel_run_eq km scheds points draws hg2, serial_run_eq km points draws hg2]
    cases hseed : km.seed points draws with
    | none => rfl
    | some sd =>
      have hinv := seed_runInv km points draws sd hK hcl hn hd hseed
      simp only [Option.some_bind, Option.bind_eq_bind]
      rw [whileLoop_congr (RunInv km) km.max_iterations
        (fun iter => Parallel.iteration (scheds iter)) (fun _ => Serial.iteration)
        (fun i st h => by
          obtain ⟨r, hr, _⟩ := parallel_body_ok km scheds hs i st h
          obtain ⟨r2, hr2, _⟩ := serial_body_ok km i st h
          have e1 : Parallel.iteration (scheds i) st = some (lloydStep st) := by
            have hv : (scheds i).Valid st.1 := by
              unfold Parallel.Schedule.Valid
              rw [h.2.1, h.2.2]
              exact hs i
            exact parallel_iteration_eq st h.1 (scheds i) hv
          show Parallel.iteration (scheds i) st = Serial.iteration st
          rw [e1, serial_iteration_eq st h.1])
        (fun i st r h hr => by
          obtain ⟨r2, hr2, hinv2⟩ := parallel_body_ok km scheds hs i st h
          rw [hr] at hr2
          rw [Option.some.inj hr2]
          exact hinv2)
        _ 1 hinv]

/-- C10: for points assigned within `[0, K)`, whatever the number of workers and the
distribution of the point indices among them (each point visited exactly once), the workers'
sums and counts combined by `combine_each` are the sums and counts of the points cluster by
cluster, the same as one worker visiting all points and as the serial single pass; hence the
recompute, and the whole run (final centroids, assignments and iteration count), do not depend
on the schedule. -/
theorem accumulate_partition_independent (km : KMeans) :
    (∀ (points : List Point) (parts : List (List Nat)),
      points.length = km.total_points →
      (∀ p ∈ points, p.HasDim km.total_values ∧ p.Assigned km.K) →
      parts.flatten.Perm (List.range km.total_points) →
      Parallel.accumulate km parts points = some (sumsOf km.K km.total_values points) ∧
      Parallel.accumulate km parts points =
        Parallel.accumulate km [List.range km.total_points] points ∧
      Parallel.accumulate km parts points = Serial.accumulate km points) ∧
    (∀ (points : List Point) (sched1 sched2 : Parallel.Schedule),
      km.WF → points.length = km.total_points →
      (∀ p ∈ points, p.HasDim km.total_values ∧ p.Assigned km.K) →
      sched1.Valid km → sched2.Valid km →
      Parallel.recompute km sched1 points = Parallel.recompute km sched2 points) ∧
    (∀ (points : List Point) (draws : List Nat) (scheds1 scheds2 : Nat → Parallel.Schedule),
      1 ≤ km.K → km.clusters = [] → points.length = km.total_points →
      (∀ p ∈ points, p.HasDim km.total_values) →
      (∀ i, (scheds1 i).Valid km) → (∀ i, (scheds2 i).Valid km) →
      Parallel.run km scheds1 points draws = Parallel.run km scheds2 points draws) := by
  have hacc : ∀ (points : List Point) (parts : List (List Nat)),
      points.length = km.total_points →
      (∀ p ∈ points, p.HasDim km.total_values ∧ p.Assigned km.K) →
      parts.flatten.Perm (List.range km.total_points) →
      Parallel.accumulate km parts points = some (sumsOf km.K km.total_values points) := by
    intro points parts hn hp hparts
    have hgood : ∀ part ∈ parts, GoodIndices km.K km.total_values points part := by
      intro part hpart i hi
      have hmem : i ∈ parts.flatten := List.mem_flatten.mpr ⟨part, hpart, hi⟩
      have hi2 : i < points.length := by
        rw [hn]; exact List.mem_range.mp (hparts.mem_iff.mp hmem)
      exact ⟨points[i], List.getElem?_eq_getElem hi2, hp _ (List.getElem_mem hi2)⟩
    rw [parallel_accumulate_eq km points parts hgood]
    exact congrArg some (sumsOf_perm km.K km.total_values _ points
      (pointsAt_perm points _ (by rw [hn]; exact hparts)))
  refine ⟨?_, ?_, ?_⟩
  · intro points parts hn hp hparts
    refine ⟨hacc points parts hn hp hparts, ?_, ?_⟩
    · rw [hacc points parts hn hp hparts,
        hacc points [List.range km.total_points] hn hp (by simp)]
    · rw [hacc points parts hn hp hparts, serial_accumulate_eq km points hn hp]
  · intro points sched1 sched2 hwf hn hp h1 h2
    rw [parallel_recompute_eq km hwf points sched1 hn h1.2.1 h1.2.2 hp,
      parallel_recompute_eq km hwf points sched2 hn h2.2.1 h2.2.2 hp]
  · intro points draws scheds1 scheds2 hK hcl hn hd h1 h2
    rw [parallel_run_eq_serial km scheds1 points draws hK hcl hn hd h1,
      parallel_run_eq_serial km scheds2 points draws hK hcl hn hd h2]

theorem accumulate_partition_independent_witness :
    (Parallel.accumulate exKm exSched.parts exPoints =
        some (sumsOf exKm.K exKm.total_values exPoints) ∧
      Parallel.accumulate exKm exSched.parts exPoints =
        Parallel.accumulate exKm [List.range exKm.total_points] exPoints ∧
      Parallel.accumulate exKm exSched.parts exPoints = Serial.accumulate exKm exPoints) ∧
    Parallel.recompute exKm exSched exPoints = Parallel.recompute exKm exSched2 exPoints ∧
    Parallel.run lineKm (fun _ => lineSched) linePoints lineDraws =
      Parallel.run lineKm (fun _ => lineSched2) linePoints lineDraws :=
  ⟨(accumulate_partition_independent exKm).1 exPoints exSched.parts (by decide) (by decide)
      (by decide),
    (accumulate_partition_independent exKm).2.1 exPoints exSched exSched2 (by decide)
      (by decide) (by decide) (by decide) (by decide),
    (accumulate_partition_independent lineKm).2.2 linePoints lineDraws (fun _ => lineSched)
      (fun _ => lineSched2) (by decide) (by decide) (by decide) (by decide)
      (fun _ => (by decide : lineSched.Valid lineKm))
      (fun _ => (by decide : lineSched2.Valid lineKm))⟩

theorem nearest_setCluster (km : KMeans) (p : Point) (c : Int) :
    km.nearest (p.setCluster c) = km.nearest p := rfl

theorem reassign_reassign (km : KMeans) (points : List Point) :
    km.reassign (km.reassign points) = km.reassign points := by
  unfold KMeans.reassign
  rw [List.map_map]
  rfl

theorem stable_reassign (km : KMeans) (points : List Point) :
    km.stable (km.reassign points) = true := by
  unfold KMeans.stable KMeans.reassign
  rw [List.all_eq_true]
  intro p hp
  obtain ⟨q, _, rfl⟩ := List.mem_map.mp hp
  rw [nearest_setCluster]
  exact decide_eq_true rfl

/-- C12: after an assignment pass over a table of `K >= 1` centroids, a second pass against
the same centroids (serial, or parallel in any order) reports no change (`done` stays `true`)
and leaves every point's assignment as the first pass left it. -/
theorem assignPass_idempotent (km : KMeans) (points : List Point) (order1 order2 : List Nat)
    (hK : 1 ≤ km.K) (hwf : km.WF) (hn : points.length = km.total_points)
    (hd : ∀ p ∈ points, p.HasDim km.total_values)
    (ho1 : order1.Perm (List.range km.total_points))
    (ho2 : order2.Perm (List.range km.total_points)) :
    ∃ r done, Serial.assignPass km points = some (r, done) ∧
      Parallel.assignPass km order1 points = some (r, done) ∧
      Serial.assignPass km r = some (r, true) ∧
      Parallel.assignPass km order2 r = some (r, true) := by
  have hn2 : (km.reassign points).length = km.total_points := by rw [reassign_length, hn]
  have hd2 := reassign_hasDim km points _ hd
  refine ⟨km.reassign points, km.stable points, serial_assignPass_eq km hK hwf points hn hd,
    parallel_assignPass_eq km hK hwf points order1 hn ho1 hd, ?_, ?_⟩
  · rw [serial_assignPass_eq km hK hwf _ hn2 hd2, reassign_reassign, stable_reassign]
  · rw [parallel_assignPass_eq km hK hwf _ order2 hn2 ho2 hd2, reassign_reassign,
      stable_reassign]

theorem assignPass_idempotent_witness :
    (1 ≤ exKm.K ∧ exKm.WF ∧ exPoints.length = exKm.total_points ∧
      (∀ p ∈ exPoints, p.HasDim exKm.total_values) ∧
      exSched.assign.Perm (List.range exKm.total_points) ∧
      exSched2.assign.Perm (List.range exKm.total_points)) ∧
    ∃ r done, Serial.assignPass exKm exPoints = some (r, done) ∧
      Parallel.assignPass exKm exSched.assign exPoints = some (r, done) ∧
      Serial.assignPass exKm r = some (r, true) ∧
      Parallel.assignPass exKm exSched2.assign r = some (r, true) :=
  ⟨⟨by decide, by decide, by decide, by decide, by decide, by decide⟩,
    assignPass_idempotent exKm exPoints exSched.assign exSched2.assign (by decide) (by decide)
      (by decide) (by decide) (by decide) (by decide)⟩

theorem sum_indicator_range (K c0 : Nat) :
    ((List.range K).map (fun c => if c0 = c then 1 else 0)).sum = if c0 < K then 1 else 0 := by
  induction K with
  | zero => simp
  | succ n ih =>
    rw [List.range_succ, List.map_append, List.sum_append, ih]
    by_cases h1 : c0 < n
    · have : c0 ≠ n := by omega
      simp [h1, this, Nat.lt_succ_of_lt h1]
    · by_cases h2 : c0 = n
      · subst h2; simp
      · have : ¬ c0 < n + 1 := by omega
        simp [h1, h2, this]

theorem sum_members_length (K : Nat) (ps : List Point) (h : ∀ p ∈ ps, p.Assigned K) :
    (vecOf K (fun c => (members ps c).length)).sum = ps.length := by
  induction ps with
  | nil => simp [vecOf, members]
  | cons p ps ih =>
    obtain ⟨c0, hc0, hp⟩ := (h p (List.mem_cons_self _ _)).exists_nat
    have hrest := ih (fun q hq => h q (List.mem_cons_of_mem _ hq))
    have hsplit : ∀ c, (members (p :: ps) c).length =
        (if c0 = c then 1 else 0) + (members ps c).length := by
      intro c
      have : p :: ps = [p] ++ ps := rfl
      rw [this, members_append, members_singleton, hp, List.length_append]
      by_cases hc : c0 = c
      · subst hc; simp
      · have : ¬ ((c0 : Int) = (c : Int)) := fun h2 => hc (by exact_mod_cast h2)
        simp [hc, this]
    unfold vecOf at hrest ⊢
    rw [List.map_congr_left (fun c _ => hsplit c), List.sum_map_add, hrest,
      sum_indicator_range, if_pos hc0, List.length_cons]
    omega


theorem lloydTrace_runInv (km0 : KMeans) (s : KMeans × List Point) (hs : RunInv km0 s)
    (n : Nat) : RunInv km0 (lloydTrace s n).1 := by
  induction n with
  | zero => exact hs
  | succ n ih => exact lloydStep_runInv km0 _ ih

theorem stateAfter_eq_lloydTrace (km0 : KMeans)
    (body : Nat → KMeans × List Point → Option ((KMeans × List Point) × Bool))
    (hbody : ∀ i st, RunInv km0 st → body i st = some (lloydStep st))
    (s : KMeans × List Point) (hs : RunInv km0 s) (n : Nat) :
    stateAfter body s n = some (lloydTrace s n) := by
  induction n with
  | zero => rfl
  | succ n ih =>
    simp only [stateAfter, ih, Option.some_bind, Option.bind_eq_bind,
      hbody (n + 1) _ (lloydTrace_runInv km0 s hs n)]
    rfl

theorem serial_body_eq (km0 : KMeans) (i : Nat) (st : KMeans × List Point)
    (h : RunInv km0 st) : (fun (_ : Nat) => Serial.iteration) i st = some (lloydStep st) :=
  serial_iteration_eq st h.1

theorem parallel_body_eq (km0 : KMeans) (scheds : Nat → Parallel.Schedule)
    (hs : ∀ i, (scheds i).Valid km0) (i : Nat) (st : KMeans × List Point) (h : RunInv km0 st) :
    (fun iter => Parallel.iteration (scheds iter)) i st = some (lloydStep st) := by
  have hv : (scheds i).Valid st.1 := by
    unfold Parallel.Schedule.Valid
    rw [h.2.1, h.2.2]
    exact hs i
  exact parallel_iteration_eq st h.1 (scheds i) hv

theorem serial_trace_eq (km : KMeans) (points : List Point) (draws : List Nat) (sd : SeedState)
    (hK : 1 ≤ km.K) (hcl : km.clusters = []) (hn : points.length = km.total_points)
    (hd : ∀ p ∈ points, p.HasDim km.total_values) (hseed : km.seed points draws = some sd)
    (n : Nat) :
    Serial.trace km points draws n =
      some (lloydTrace ({ km with clusters := sd.clusters }, sd.points) n) := by
  simp only [Serial.trace, hseed, Option.some_bind, Option.bind_eq_bind]
  exact stateAfter_eq_lloydTrace km _ (serial_body_eq km) _
    (seed_runInv km points draws sd hK hcl hn hd hseed) n

theorem parallel_trace_eq (km : KMeans) (scheds : Nat → Parallel.Schedule)
    (points : List Point) (draws : List Nat) (sd : SeedState)
    (hK : 1 ≤ km.K) (hcl : km.clusters = []) (hn : points.length = km.total_points)
    (hd : ∀ p ∈ points, p.HasDim km.total_values) (hs : ∀ i, (scheds i).Valid km)
    (hseed : km.seed points draws = some sd) (n : Nat) :
    Parallel.trace km scheds points draws n =
      some (lloydTrace ({ km with clusters := sd.clusters }, sd.points) n) := by
  simp only [Parallel.trace, hseed, Option.some_bind, Option.bind_eq_bind]
  exact stateAfter_eq_lloydTrace km _ (parallel_body_eq km scheds hs) _
    (seed_runInv km points draws sd hK hcl hn hd hseed) n

theorem sumsOf_counts (K D : Nat) (ps : List Point) (h : ∀ p ∈ ps, p.Assigned K) :
    (sumsOf K D ps).counts.length = K ∧ (sumsOf K D ps).counts.sum = ps.length :=
  ⟨vecOf_length _ _, sum_members_length K ps h⟩

theorem parallel_accumulate_sumsOf (km : KMeans) (points : List Point)
    (parts : List (List Nat)) (hn : points.length = km.total_points)
    (hp : ∀ p ∈ points, p.HasDim km.total_values ∧ p.Assigned km.K)
    (hparts : parts.flatten.Perm (List.range km.total_points)) :
    Parallel.accumulate km parts points = some (sumsOf km.K km.total_values points) := by
  have hgood : ∀ part ∈ parts, GoodIndices km.K km.total_values points part := by
    intro part hpart i hi
    have hmem : i ∈ parts.flatten := List.mem_flatten.mpr ⟨part, hpart, hi⟩
    have hi2 : i < points.length := by
      rw [hn]; exact List.mem_range.mp (hparts.mem_iff.mp hmem)
    exact ⟨points[i], List.getElem?_eq_getElem hi2, hp _ (List.getElem_mem hi2)⟩
  rw [parallel_accumulate_eq km points parts hgood]
  exact congrArg some (sumsOf_perm km.K km.total_values _ points
    (pointsAt_perm points _ (by rw [hn]; exact hparts)))

/-- C13: in every iteration of a run with `1 <= K <= total_points` (serial, and parallel
under any valid schedules), the recompute step's per-cluster counts, `points_per_cluster`
after the reduction, are `K` numbers that sum to exactly `total_points`. -/
theorem counts_sum_to_total_points (km : KMeans) (scheds : Nat → Parallel.Schedule)
    (points : List Point) (draws : List Nat) (sd : SeedState)
    (hK : 1 ≤ km.K) (hcl : km.clusters = [])
    (hn : points.length = km.total_points) (hd : ∀ p ∈ points, p.HasDim km.total_values)
    (hs : ∀ i, (scheds i).Valid km) (hseed : km.seed points draws = some sd) (n : Nat) :
    ∃ st done pts done' acc,
      Serial.trace km points draws n = some (st, done) ∧
      Parallel.trace km scheds points draws n = some (st, done) ∧
      Serial.assignPass st.1 st.2 = some (pts, done') ∧
      Parallel.assignPass st.1 (scheds (n + 1)).assign st.2 = some (pts, done') ∧
      Serial.accumulate st.1 pts = some acc ∧
      Parallel.accumulate st.1 (scheds (n + 1)).parts pts = some acc ∧
      acc.counts.length = km.K ∧ acc.counts.sum = km.total_points := by
  have hinv := lloydTrace_runInv km _ (seed_runInv km points draws sd hK hcl hn hd hseed) n
  have h1 := serial_trace_eq km points draws sd hK hcl hn hd hseed n
  have h2 := parallel_trace_eq km scheds points draws sd hK hcl hn hd hs hseed n
  generalize lloydTrace ({ km with clusters := sd.clusters }, sd.points) n = tr at hinv h1 h2
  obtain ⟨st, done⟩ := tr
  obtain ⟨⟨hK', hwf, hlen, hdim⟩, hk, htp⟩ := hinv
  have hv := hs (n + 1)
  have hass := reassign_assigned st.1 hK' hwf st.2 hdim
  have hdim2 := reassign_hasDim st.1 st.2 _ hdim
  have hlen2 : (st.1.reassign st.2).length = st.1.total_points := by
    rw [reassign_length]; exact hlen
  have hboth : ∀ p ∈ st.1.reassign st.2,
      p.HasDim st.1.total_values ∧ p.Assigned st.1.K :=
    fun p hp => ⟨hdim2 p hp, hass p hp⟩
  refine ⟨st, done, st.1.reassign st.2, st.1.stable st.2,
    sumsOf st.1.K st.1.total_values (st.1.reassign st.2), h1, h2,
    serial_assignPass_eq st.1 hK' hwf st.2 hlen hdim,
    parallel_assignPass_eq st.1 hK' hwf st.2 _ hlen (by rw [htp]; exact hv.1) hdim,
    serial_accumulate_eq st.1 _ hlen2 hboth,
    parallel_accumulate_sumsOf st.1 _ _ hlen2 hboth (by rw [htp]; exact hv.2.1), ?_, ?_⟩
  · rw [(sumsOf_counts _ _ _ hass).1]; exact hk
  · rw [(sumsOf_counts _ _ _ hass).2, hlen2]; exact htp

theorem counts_sum_to_total_points_witness :
    (1 ≤ lineKm.K ∧ lineKm.clusters = [] ∧
      linePoints.length = lineKm.total_points ∧
      (∀ p ∈ linePoints, p.HasDim lineKm.total_values) ∧ lineSched.Valid lineKm ∧
      lineKm.seed linePoints lineDraws = some lineSeed) ∧
    ∃ st done pts done' acc,
      Serial.trace lineKm linePoints lineDraws 0 = some (st, done) ∧
      Parallel.trace lineKm (fun _ => lineSched) linePoints lineDraws 0 = some (st, done) ∧
      Serial.assignPass st.1 st.2 = some (pts, done') ∧
      Parallel.assignPass st.1 lineSched.assign st.2 = some (pts, done') ∧
      Serial.accumulate st.1 pts = some acc ∧
      Parallel.accumulate st.1 lineSched.parts pts = some acc ∧
      acc.counts.length = lineKm.K ∧ acc.counts.sum = lineKm.total_points :=
  ⟨⟨by decide, by decide, by decide, by decide, by decide, lineSeed_eq⟩,
    counts_sum_to_total_points lineKm (fun _ => lineSched) linePoints lineDraws lineSeed
      (by decide) (by decide) (by decide) (by decide)
      (fun _ => (by decide : lineSched.Valid lineKm)) lineSeed_eq 0⟩


/-- The run in closed form: under the data-model invariants and once the seeding has
completed, both runs end after the same `n >= 1` iterations in the state Lloyd's iteration
reaches after `n` steps; iteration `n` reported `done` or hit the cap, no earlier one did. -/
theorem run_closed_form (km : KMeans) (scheds : Nat → Parallel.Schedule)
    (points : List Point) (draws : List Nat) (sd : SeedState)
    (hK : 1 ≤ km.K) (hg : km.K ≤ km.total_points) (hcl : km.clusters = [])
    (hn : points.length = km.total_points) (hd : ∀ p ∈ points, p.HasDim km.total_values)
    (hs : ∀ i, (scheds i).Valid km) (hseed : km.seed points draws = some sd) :
    ∃ n, 1 ≤ n ∧
      Serial.run km points draws =
        some { km := (lloydTrace ({ km with clusters := sd.clusters }, sd.points) n).1.1,
               points := (lloydTrace ({ km with clusters := sd.clusters }, sd.points) n).1.2,
               iter := some n } ∧
      Parallel.run km scheds points draws = Serial.run km points draws ∧
      ((lloydTrace ({ km with clusters := sd.clusters }, sd.points) n).2 = true ∨
        n ≥ km.max_iterations) ∧
      ∀ i, 1 ≤ i → i < n →
        (lloydTrace ({ km with clusters := sd.clusters }, sd.points) i).2 = false ∧
        i < km.max_iterations := by
  have hinv := seed_runInv km points draws sd hK hcl hn hd hseed
  obtain ⟨t, n, h1, _, _, _⟩ := whileLoop_returns (RunInv km) km.max_iterations
    (fun _ => Serial.iteration) (serial_body_ok km) _ 1 hinv
  obtain ⟨h2, ⟨d, h3, h4⟩, h5⟩ := whileLoop_stops km.max_iterations
    (fun _ => Serial.iteration) _ 0 _ false rfl t n h1
  have htr := stateAfter_eq_lloydTrace km _ (serial_body_eq km) _ hinv
  rw [htr n] at h3
  have h3' := Option.some.inj h3
  refine ⟨n, h2, ?_, parallel_run_eq_serial km scheds points draws hK hcl hn hd hs, ?_, ?_⟩
  · rw [serial_run_eq km points draws hg, hseed]
    simp only [Option.some_bind, Option.bind_eq_bind, h1, h3']
  · rw [h3']; exact h4
  · intro i hi1 hi2
    obtain ⟨u, hu, hlt⟩ := h5 i hi1 hi2
    rw [htr i] at hu
    rw [Option.some.inj hu]
    exact ⟨rfl, hlt⟩

theorem lloydTrace_max_iterations (s : KMeans × List Point) (n : Nat) :
    (lloydTrace s n).1.1.max_iterations = s.1.max_iterations := by
  induction n with
  | zero => rfl
  | succ k ih => exact ih

theorem line_seed_state (draws : List Nat) (sd : SeedState)
    (hseed : lineKm.seed linePoints draws = some sd)
    (hacc : sd.prohibited_indexes = [0, 2]) :
    sd.points = lineSeed.points ∧ sd.clusters = lineSeed.clusters := by
  obtain ⟨_, _, _, hcl, hpl, hk, hrest⟩ := seed_seeded lineKm linePoints draws sd rfl hseed
  obtain ⟨a0, q0, h01, h02, h03, h04⟩ := hk 0 (by decide)
  obtain ⟨a1, q1, h11, h12, h13, h14⟩ := hk 1 (by decide)
  rw [hacc] at h01 h11 hrest
  have ha0 : a0 = 0 := (Option.some.inj h01).symm
  have ha1 : a1 = 2 := (Option.some.inj h11).symm
  subst ha0 ha1
  have hq0 : q0 = Point.new 0 [1] "" := (Option.some.inj h02).symm
  have hq1 : q1 = Point.new 2 [9] "" := (Option.some.inj h12).symm
  subst hq0 hq1
  have h1 := hrest 1 (by decide)
  have h3 := hrest 3 (by decide)
  constructor
  · apply List.ext_getElem?
    intro i
    rcases i with _ | _ | _ | _ | i
    · rw [h03]; rfl
    · rw [h1]; rfl
    · rw [h13]; rfl
    · rw [h3]; rfl
    · rw [List.getElem?_eq_none (by rw [hpl]; simp [linePoints]),
        List.getElem?_eq_none (by simp [lineSeed])]
  · apply List.ext_getElem?
    intro i
    rcases i with _ | _ | i
    · rw [h04]; rfl
    · rw [h14]; rfl
    · rw [List.getElem?_eq_none (by rw [hcl]; simp [lineKm, KMeans.new]),
        List.getElem?_eq_none (by simp [lineSeed])]

theorem line_loop_eq :
    whileLoop lineKm.max_iterations (fun _ => Serial.iteration)
      ({ lineKm with clusters := lineSeed.clusters }, lineSeed.points) 1 =
      some ((lineResult.km, lineResult.points), 2) := by
  with_unfolding_all decide

theorem line_trace_two :
    stateAfter (fun _ => Serial.iteration)
      ({ lineKm with clusters := lineSeed.clusters }, lineSeed.points) 2 =
      some ((lineResult.km, lineResult.points), true) := by
  with_unfolding_all decide


/-- C15: on the four points `1.0, 1.1, 9.0, 9.2` with `K = 2` and `max_iterations = 10`,
whenever the seeding accepts point 0 for cluster 0 and point 2 for cluster 1, the run (serial,
and parallel under any valid schedules) stops at iteration 2, below the cap, because the
second assignment pass changed nothing; the centroids are `21/20 = 1.05` and `91/10 = 9.1`,
points 0 and 1 are in cluster 0 and points 2 and 3 in cluster 1. -/
theorem line_scenario_converges (scheds : Nat → Parallel.Schedule) (draws : List Nat)
    (sd : SeedState) (hs : ∀ i, (scheds i).Valid lineKm)
    (hseed : lineKm.seed linePoints draws = some sd)
    (hacc : sd.prohibited_indexes = [0, 2]) :
    ∃ res, Serial.run lineKm linePoints draws = some res ∧
      Parallel.run lineKm scheds linePoints draws = some res ∧
      res.iter = some 2 ∧ 2 < lineKm.max_iterations ∧
      Serial.trace lineKm linePoints draws 2 = some ((res.km, res.points), true) ∧
      res.km.clusters.map (fun c => c.central_values) = [[21 / 20], [91 / 10]] ∧
      res.points.map (fun p => p.id_cluster) = [0, 0, 1, 1] := by
  obtain ⟨hp, hc⟩ := line_seed_state draws sd hseed hacc
  have hrun : Serial.run lineKm linePoints draws = some lineResult := by
    rw [serial_run_eq lineKm linePoints draws (by decide), hseed]
    simp only [Option.some_bind, Option.bind_eq_bind, hp, hc, line_loop_eq]
    rfl
  refine ⟨lineResult, hrun, ?_, rfl, by decide, ?_, rfl, rfl⟩
  · rw [parallel_run_eq_serial lineKm scheds linePoints draws (by decide) (by decide)
      (by decide) (by decide) hs, hrun]
  · simp only [Serial.trace, hseed, Option.some_bind, Option.bind_eq_bind, hp, hc]
    exact line_trace_two

theorem line_scenario_converges_witness :
    (lineSched.Valid lineKm ∧ lineKm.seed linePoints lineDraws = some lineSeed ∧
      lineSeed.prohibited_indexes = [0, 2]) ∧
    ∃ res, Serial.run lineKm linePoints lineDraws = some res ∧
      Parallel.run lineKm (fun _ => lineSched) linePoints lineDraws = some res ∧
      res.iter = some 2 ∧ 2 < lineKm.max_iterations ∧
      Serial.trace lineKm linePoints lineDraws 2 = some ((res.km, res.points), true) ∧
      res.km.clusters.map (fun c => c.central_values) = [[21 / 20], [91 / 10]] ∧
      res.points.map (fun p => p.id_cluster) = [0, 0, 1, 1] :=
  ⟨⟨by decide, lineSeed_eq, rfl⟩,
    line_scenario_converges (fun _ => lineSched) lineDraws lineSeed
      (fun _ => (by decide : lineSched.Valid lineKm)) lineSeed_eq rfl⟩

theorem sqDist_self (a : List ℚ) : sqDist a a = 0 := by
  unfold sqDist
  induction a with
  | nil => rfl
  | cons x a ih => simp [List.zipWith, ih]

theorem sqDist_eq_zero (a b : List ℚ) (hlen : a.length = b.length) (h : sqDist a b = 0) :
    a = b := by
  induction a generalizing b with
  | nil =>
    cases b with
    | nil => rfl
    | cons y b => simp at hlen
  | cons x a ih =>
    cases b with
    | nil => simp at hlen
    | cons y b =>
      have hrest : 0 ≤ sqDist a b := sqDist_nonneg a b
      have hsq : 0 ≤ (x - y) ^ 2 := sq_nonneg _
      have hsum : (x - y) ^ 2 + sqDist a b = 0 := by
        simpa [sqDist, List.zipWith] using h
      have h1 : (x - y) ^ 2 = 0 := by linarith
      have h2 : sqDist a b = 0 := by linarith
      have hxy : x = y := by
        have := pow_eq_zero_iff (two_ne_zero) |>.mp h1
        linarith
      rw [hxy, ih b (by simpa using hlen) h2]

theorem nodup_perm_range (l : List Nat) (n : Nat) (hnd : l.Nodup) (hlen : l.length = n)
    (hlt : ∀ i ∈ l, i < n) : l.Perm (List.range n) := by
  have hsub : l ⊆ List.range n := fun i hi => List.mem_range.mpr (hlt i hi)
  have hsp : l.Subperm (List.range n) := List.subperm_of_subset hnd hsub
  exact hsp.perm_of_length_le (by rw [List.length_range, hlen])

theorem sum_ge_of_all_pos (K : Nat) (f : Nat → Nat) (h : ∀ c, c < K → 1 ≤ f c) :
    K ≤ (vecOf K f).sum ∧ ((vecOf K f).sum = K → ∀ c, c < K → f c = 1) := by
  induction K with
  | zero => exact ⟨Nat.zero_le _, fun _ c hc => absurd hc (Nat.not_lt_zero _)⟩
  | succ n ih =>
    obtain ⟨h1, h2⟩ := ih (fun c hc => h c (by omega))
    have hn := h n (by omega)
    have hs : (vecOf (n + 1) f).sum = (vecOf n f).sum + f n := by
      simp [vecOf, List.range_succ]
    rw [hs]
    refine ⟨by omega, ?_⟩
    intro heq c hc
    rcases Nat.lt_or_ge c n with hcn | hcn
    · exact h2 (by omega) c hcn
    · have : c = n := by omega
      subst this; omega


theorem getElem?_inj_of_nodup {l : List Nat} (hnd : l.Nodup) {i j x : Nat}
    (hi : l[i]? = some x) (hj : l[j]? = some x) : i = j := by
  have hil := lt_length_of_getElem?_eq_some hi
  have hjl := lt_length_of_getElem?_eq_some hj
  rw [List.getElem?_eq_getElem hil] at hi
  rw [List.getElem?_eq_getElem hjl] at hj
  have : l[i] = l[j] := by rw [Option.some.inj hi, Option.some.inj hj]
  exact (List.Nodup.getElem_inj_iff hnd).mp this

theorem all_seeded (km : KMeans) (points : List Point) (draws : List Nat) (sd : SeedState)
    (hcl : km.clusters = [])
    (hKn : km.K = km.total_points) (hseed : km.seed points draws = some sd) (idx : Nat)
    (hidx : idx < km.total_points) :
    ∃ k p0, k < km.K ∧ sd.prohibited_indexes[k]? = some idx ∧ points[idx]? = some p0 ∧
      sd.points[idx]? = some (p0.setCluster k) ∧
      sd.clusters[k]? = some { id_cluster := k, central_values := p0.values } := by
  obtain ⟨hlen, hnd, hlt, _, _, hk, _⟩ := seed_seeded km points draws sd hcl hseed
  have hperm := nodup_perm_range sd.prohibited_indexes km.total_points hnd
    (by rw [hlen, hKn]) hlt
  have hmem : idx ∈ sd.prohibited_indexes := hperm.mem_iff.mpr (List.mem_range.mpr hidx)
  obtain ⟨k, hkidx⟩ := List.mem_iff_getElem?.mp hmem
  have hkK : k < km.K := by rw [← hlen]; exact lt_length_of_getElem?_eq_some hkidx
  obtain ⟨a, p0, h1, h2, h3, h4⟩ := hk k hkK
  have ha : a = idx := by rw [h1] at hkidx; exact Option.some.inj hkidx
  subst ha
  exact ⟨k, p0, hkK, h1, h2, h3, h4⟩

theorem nearest_of_seeded (km : KMeans) (points : List Point) (draws : List Nat)
    (sd : SeedState) (hK : 1 ≤ km.K) (hcl : km.clusters = [])
    (hn : points.length = km.total_points) (hd : ∀ p ∈ points, p.HasDim km.total_values)
    (hdist : DistinctPoints points) (hseed : km.seed points draws = some sd)
    (k idx : Nat) (p0 : Point) (hk : k < km.K) (hki : sd.prohibited_indexes[k]? = some idx)
    (hp0 : points[idx]? = some p0)
    (hck : sd.clusters[k]? = some { id_cluster := k, central_values := p0.values }) :
    ({ km with clusters := sd.clusters } : KMeans).nearest (p0.setCluster k) = k := by
  have hinv := seed_loopInv km points draws sd hK hcl hn hd hseed
  obtain ⟨hlen, hnd, _, _, _, hacc, _⟩ := seed_seeded km points draws sd hcl hseed
  have hd0 : p0.HasDim km.total_values := hd p0 (List.getElem?_mem hp0)
  obtain ⟨c, hc, hcK, hmin, _⟩ := getIDNearestCenter_spec
    ({ km with clusters := sd.clusters } : KMeans) (p0.setCluster k) hinv.1 hinv.2.1 hd0
  have hzero : ({ km with clusters := sd.clusters } : KMeans).distTo (p0.setCluster k) k = 0 := by
    simp only [KMeans.distTo, hck]
    exact sqDist_self _
  obtain ⟨a, q, h1, h2, _, h4⟩ := hacc c hcK
  have hcz : sqDist q.values p0.values = 0 := by
    have hle := hmin k hk
    rw [hzero] at hle
    have hge : 0 ≤ ({ km with clusters := sd.clusters } : KMeans).distTo (p0.setCluster k) c := by
      simp only [KMeans.distTo, h4]
      exact sqDist_nonneg _ _
    have := le_antisymm hle hge
    simpa only [KMeans.distTo, h4] using this
  have hqd : q.HasDim km.total_values := hd q (List.getElem?_mem h2)
  have hvals : q.values = p0.values := sqDist_eq_zero _ _ (by rw [hqd, hd0]) hcz
  have haidx : a = idx := hdist a idx q p0 h2 hp0 hvals
  subst haidx
  have hck2 : c = k := getElem?_inj_of_nodup hnd h1 hki
  simp [KMeans.nearest, hc, hck2]


theorem seeded_stable (km : KMeans) (points : List Point) (draws : List Nat)
    (sd : SeedState) (hK : 1 ≤ km.K) (hKn : km.K = km.total_points) (hcl : km.clusters = [])
    (hn : points.length = km.total_points) (hd : ∀ p ∈ points, p.HasDim km.total_values)
    (hdist : DistinctPoints points) (hseed : km.seed points draws = some sd) :
    (∀ p ∈ sd.points,
      p.id_cluster = (({ km with clusters := sd.clusters } : KMeans).nearest p : Int)) ∧
    (∀ p ∈ sd.points, p.Assigned km.K) ∧
    ∀ i, i < km.K → 1 ≤ (members sd.points i).length := by
  obtain ⟨_, _, _, _, hpl, hacc, _⟩ := seed_seeded km points draws sd hcl hseed
  have hpt : ∀ p ∈ sd.points, ∃ (k : Nat) (p0 : Point), k < km.K ∧ p = p0.setCluster k ∧
      ({ km with clusters := sd.clusters } : KMeans).nearest p = k := by
    intro p hp
    obtain ⟨idx, hidx⟩ := List.mem_iff_getElem?.mp hp
    have hlt : idx < km.total_points := by
      rw [← hn, ← hpl]; exact lt_length_of_getElem?_eq_some hidx
    obtain ⟨k, p0, hk, h1, h2, h3, h4⟩ := all_seeded km points draws sd hcl hKn hseed idx hlt
    have hpe : p = p0.setCluster k := by rw [h3] at hidx; exact (Option.some.inj hidx).symm
    refine ⟨k, p0, hk, hpe, ?_⟩
    rw [hpe]
    exact nearest_of_seeded km points draws sd hK hcl hn hd hdist hseed k idx p0 hk h1 h2 h4
  refine ⟨?_, ?_, ?_⟩
  · intro p hp
    obtain ⟨k, p0, _, hpe, hnear⟩ := hpt p hp
    rw [hnear, hpe]; rfl
  · intro p hp
    obtain ⟨k, p0, hk, hpe, _⟩ := hpt p hp
    rw [hpe]
    exact ⟨Int.ofNat_nonneg _, by show ((k : Nat) : Int) < _; exact_mod_cast hk⟩
  · intro i hi
    obtain ⟨a, q, _, _, h3, _⟩ := hacc i hi
    have hmem : q.setCluster i ∈ members sd.points i := by
      unfold members
      rw [List.mem_filter]
      exact ⟨List.getElem?_mem h3, decide_eq_true rfl⟩
    exact List.length_pos_of_mem hmem

theorem reassign_eq_self (km : KMeans) (points : List Point)
    (h : ∀ p ∈ points, p.id_cluster = (km.nearest p : Int)) :
    km.reassign points = points ∧ km.stable points = true := by
  constructor
  · unfold KMeans.reassign
    conv_rhs => rw [← List.map_id points]
    apply List.map_congr_left
    intro p hp
    unfold Point.setCluster
    rw [← h p hp]
    rfl
  · unfold KMeans.stable
    rw [List.all_eq_true]
    intro p hp
    exact decide_eq_true (h p hp)


/-- C16, as stated, fails: with `K = total_points = 3` and two points of equal coordinates,
after a completed seeding the first assignment pass moves point 1 from cluster 1 to cluster 0
(the tie goes to the lower index), so it reports a change, cluster 1 is left without a point,
and the run stops at iteration 2, not 1. -/
theorem duplicate_points_break_singletons :
    dupKm.K = dupKm.total_points ∧ 1 ≤ dupKm.K ∧
    dupKm.seed dupPoints [0, 1, 2] = some dupSeed ∧
    Serial.assignPass { dupKm with clusters := dupSeed.clusters } dupSeed.points =
      some (dupAssigned, false) ∧
    Parallel.assignPass { dupKm with clusters := dupSeed.clusters } [0, 1, 2] dupSeed.points =
      some (dupAssigned, false) ∧
    members dupAssigned 1 = [] ∧ (members dupAssigned 0).length = 2 ∧
    (Serial.run dupKm dupPoints [0, 1, 2]).map (fun r => r.iter) = some (some 2) ∧
    (Parallel.run dupKm (fun _ => ⟨[0, 1, 2], [[0, 1, 2]], [0, 1, 2]⟩) dupPoints [0, 1, 2]).map
      (fun r => r.iter) = some (some 2) := by
  with_unfolding_all decide

/-- With `K = total_points >= 1` and points of pairwise different coordinates, in exact
arithmetic: after a completed seeding the first assignment pass reassigns no point, every
cluster holds exactly one point, and the run stops at iteration 1. -/
theorem singletons_when_distinct (km : KMeans) (scheds : Nat → Parallel.Schedule)
    (points : List Point) (draws : List Nat) (sd : SeedState)
    (hK : 1 ≤ km.K) (hKn : km.K = km.total_points) (hcl : km.clusters = [])
    (hn : points.length = km.total_points) (hd : ∀ p ∈ points, p.HasDim km.total_values)
    (hdist : DistinctPoints points) (hs : ∀ i, (scheds i).Valid km)
    (hseed : km.seed points draws = some sd) :
    Serial.assignPass { km with clusters := sd.clusters } sd.points = some (sd.points, true) ∧
    Parallel.assignPass { km with clusters := sd.clusters } (scheds 1).assign sd.points =
      some (sd.points, true) ∧
    (∀ i, i < km.K → (members sd.points i).length = 1) ∧
    ∃ res, Serial.run km points draws = some res ∧
      Parallel.run km scheds points draws = some res ∧
      res.iter = some 1 ∧ res.points = sd.points := by
  have hinv := seed_loopInv km points draws sd hK hcl hn hd hseed
  obtain ⟨hst, hass, hpos⟩ := seeded_stable km points draws sd hK hKn hcl hn hd hdist hseed
  obtain ⟨hre, hstable⟩ := reassign_eq_self _ _ hst
  have hser := serial_assignPass_eq _ hinv.1 hinv.2.1 _ hinv.2.2.1 hinv.2.2.2
  have hpar := parallel_assignPass_eq _ hinv.1 hinv.2.1 _ (scheds 1).assign hinv.2.2.1
    (hs 1).1 hinv.2.2.2
  rw [hre, hstable] at hser hpar
  refine ⟨hser, hpar, ?_, ?_⟩
  · have hsum := sum_members_length km.K sd.points hass
    have hlen : sd.points.length = km.K := by rw [hinv.2.2.1]; exact hKn.symm
    rw [hlen] at hsum
    exact (sum_ge_of_all_pos km.K _ hpos).2 hsum
  · have hbody : Serial.iteration ({ km with clusters := sd.clusters }, sd.points) =
        some (lloydStep ({ km with clusters := sd.clusters }, sd.points)) :=
      serial_iteration_eq _ hinv
    have hrun : Serial.run km points draws =
        some { km := (lloydStep ({ km with clusters := sd.clusters }, sd.points)).1.1,
               points := sd.points, iter := some 1 } := by
      rw [serial_run_eq km points draws (by omega), hseed]
      simp only [Option.some_bind, Option.bind_eq_bind]
      rw [whileLoop_eq, hbody]
      simp only [Option.some_bind, Option.bind_eq_bind, lloydStep, hstable, true_or, if_true,
        hre]
    exact ⟨_, hrun, by rw [parallel_run_eq_serial km scheds points draws hK hcl hn hd hs, hrun],
      rfl, rfl⟩

theorem triSeed_eq : dupKm.seed triPoints [2, 0, 1] = some triSeed := by
  with_unfolding_all decide

theorem triPoints_distinct : DistinctPoints triPoints := by
  intro i j p q hi hj hv
  rcases i with _ | _ | _ | i <;> rcases j with _ | _ | _ | j <;>
    simp [triPoints, Point.new] at hi hj <;> subst hi <;> subst hj <;>
    first
      | rfl
      | (exfalso; revert hv; with_unfolding_all decide)


theorem filter_eq_singleton {α : Type} (P : α → Bool) (l : List α) (i0 : Nat) (x : α)
    (hx : l[i0]? = some x) (hP : P x = true)
    (hother : ∀ (i : Nat) (y : α), i ≠ i0 → l[i]? = some y → P y = false) :
    l.filter P = [x] := by
  induction l generalizing i0 with
  | nil => simp at hx
  | cons a l ih =>
    cases i0 with
    | zero =>
      have hax : a = x := by simpa using hx
      subst hax
      have hnil : l.filter P = [] := by
        rw [List.filter_eq_nil_iff]
        intro y hy
        obtain ⟨i, hi⟩ := List.mem_iff_getElem?.mp hy
        have := hother (i + 1) y (by omega) (by simpa using hi)
        simp [this]
      rw [List.filter_cons_of_pos hP, hnil]
    | succ j =>
      have ha : P a = false := hother 0 a (by omega) (by simp)
      rw [List.filter_cons_of_neg (by simp [ha])]
      exact ih j (by simpa using hx) (fun i y hne hy =>
        hother (i + 1) y (by omega) (by simpa using hy))

theorem meanOf_singleton (D : Nat) (p : Point) (h : p.HasDim D) : meanOf D [p] = p.values := by
  unfold meanOf
  refine Eq.trans (vecOf_congr _ _ _ ?_) (vecOf_getD D p.values h)
  intro j _
  simp [coordSum]

theorem lloydStep_centered (st : KMeans × List Point) : Centered (lloydStep st).1 := by
  intro i c hc hpos
  have hc' : (newCenters st.1.total_values (st.1.reassign st.2) st.1.clusters)[i]? = some c := hc
  have hpos' : 0 < (members (st.1.reassign st.2) i).length := hpos
  have hi : i < st.1.clusters.length := by
    have := lt_length_of_getElem?_eq_some hc'
    rwa [newCenters_length] at this
  rw [newCenters_getElem? _ _ _ i _ (List.getElem?_eq_getElem hi)] at hc'
  rw [← Option.some.inj hc']
  simp only [newCenter, hpos', if_true]
  rfl


theorem seed_centered (km : KMeans) (points : List Point) (draws : List Nat) (sd : SeedState)
    (hcl : km.clusters = []) (hd : ∀ p ∈ points, p.HasDim km.total_values)
    (hfresh : ∀ p ∈ points, p.id_cluster = -1) (hseed : km.seed points draws = some sd) :
    Centered ({ km with clusters := sd.clusters }, sd.points) := by
  have hs := seed_seeded km points draws sd hcl hseed
  obtain ⟨_, _, _, hcln, _, hacc, _⟩ := hs
  intro i c hc _
  have hc' : sd.clusters[i]? = some c := hc
  have hi : i < km.K := by rw [← hcln]; exact lt_length_of_getElem?_eq_some hc'
  obtain ⟨idx, q, h1, h2, h3, h4⟩ := hacc i hi
  rw [h4] at hc'
  rw [← Option.some.inj hc']
  have hmem : members sd.points i = [q.setCluster i] := by
    unfold members
    apply filter_eq_singleton _ _ idx _ h3 (decide_eq_true rfl)
    intro j y hne hy
    obtain ⟨p0, hp0, hcase⟩ :=
      (seed_seeded km points draws sd hcl hseed).point_cases j y hy
    rcases hcase with rfl | ⟨k, _, hk, rfl⟩
    · have := hfresh y (List.getElem?_mem hp0)
      rw [decide_eq_false_iff_not, this]
      omega
    · rw [decide_eq_false_iff_not]
      intro hki
      have hki' : (k : Int) = (i : Int) := hki
      have hki2 : k = i := by exact_mod_cast hki'
      subst hki2
      rw [h1] at hk
      exact hne (Option.some.inj hk).symm
  show q.values = meanOf km.total_values (members sd.points i)
  rw [hmem]
  exact (meanOf_singleton km.total_values (q.setCluster i) (hd q (List.getElem?_mem h2))).symm

theorem lloydTrace_centered (km : KMeans) (points : List Point) (draws : List Nat)
    (sd : SeedState) (hcl : km.clusters = []) (hd : ∀ p ∈ points, p.HasDim km.total_values)
    (hfresh : ∀ p ∈ points, p.id_cluster = -1) (hseed : km.seed points draws = some sd)
    (n : Nat) : Centered (lloydTrace ({ km with clusters := sd.clusters }, sd.points) n).1 := by
  cases n with
  | zero => exact seed_centered km points draws sd hcl hd hfresh hseed
  | succ m => exact lloydStep_centered _

theorem recenter_eq_self (st : KMeans × List Point) (hc : Centered st) :
    st.1.recenter st.2 = st.1 := by
  have hcl : newCenters st.1.total_values st.2 st.1.clusters = st.1.clusters := by
    apply List.ext_getElem?
    intro i
    rcases Nat.lt_or_ge i st.1.clusters.length with hi | hi
    · rw [newCenters_getElem? _ _ _ i _ (List.getElem?_eq_getElem hi),
        List.getElem?_eq_getElem hi]
      congr 1
      unfold newCenter
      split
      · next hpos =>
        have := hc i _ (List.getElem?_eq_getElem hi) hpos
        rw [← this]
      · rfl
    · rw [List.getElem?_eq_none (by rw [newCenters_length]; exact hi),
        List.getElem?_eq_none hi]
  unfold KMeans.recenter
  rw [hcl]

theorem lloydStep_fixed (st : KMeans × List Point) (hc : Centered st)
    (hst : st.1.stable st.2 = true) : lloydStep st = (st, true) := by
  have hall : ∀ p ∈ st.2, p.id_cluster = (st.1.nearest p : Int) := by
    intro p hp
    have := (List.all_eq_true.mp hst) p hp
    exact of_decide_eq_true this
  obtain ⟨hre, _⟩ := reassign_eq_self st.1 st.2 hall
  unfold lloydStep
  rw [hre, hst, recenter_eq_self st hc]


/-- In exact arithmetic, a run on freshly constructed points that stops because its last
assignment pass reported no change ends in a fixed point of Lloyd's iteration, for the serial
program and for the parallel program under any valid schedule. -/
theorem converged_fixed_exact (km : KMeans) (scheds : Nat → Parallel.Schedule)
    (points : List Point) (draws : List Nat) (sd : SeedState)
    (hK : 1 ≤ km.K) (hg : km.K ≤ km.total_points) (hcl : km.clusters = [])
    (hn : points.length = km.total_points) (hd : ∀ p ∈ points, p.HasDim km.total_values)
    (hfresh : ∀ p ∈ points, p.id_cluster = -1)
    (hs : ∀ i, (scheds i).Valid km) (hseed : km.seed points draws = some sd) :
    ∃ res n done prev,
      Serial.run km points draws = some res ∧
      Parallel.run km scheds points draws = some res ∧
      res.iter = some n ∧ 1 ≤ n ∧
      Serial.trace km points draws (n - 1) = some prev ∧
      Serial.trace km points draws n = some ((res.km, res.points), done) ∧
      (done = true →
        res.km.clusters = prev.1.1.clusters ∧
        (∀ p ∈ res.points, ∃ c : Nat, res.km.getIDNearestCenter p = some c ∧
          p.id_cluster = (c : Int)) ∧
        Serial.iteration (res.km, res.points) = some ((res.km, res.points), true) ∧
        ∀ sched : Parallel.Schedule, sched.Valid km →
          Parallel.iteration sched (res.km, res.points) =
            some ((res.km, res.points), true)) := by
  obtain ⟨n, hn1, hrun, hpar, _, _⟩ :=
    run_closed_form km scheds points draws sd hK hg hcl hn hd hs hseed
  obtain ⟨m, rfl⟩ : ∃ m, n = m + 1 := ⟨n - 1, by omega⟩
  have hruninv := seed_runInv km points draws sd hK hcl hn hd hseed
  have hinv := lloydTrace_runInv km _ hruninv m
  have hcen := lloydTrace_centered km points draws sd hcl hd hfresh hseed m
  have htr := serial_trace_eq km points draws sd hK hcl hn hd hseed
  refine ⟨_, m + 1, (lloydTrace ({ km with clusters := sd.clusters }, sd.points) (m + 1)).2,
    lloydTrace ({ km with clusters := sd.clusters }, sd.points) m, hrun,
    by rw [hpar, hrun], rfl, hn1, by rw [Nat.add_sub_cancel]; exact htr m, htr (m + 1), ?_⟩
  intro hdone
  have hstable : (lloydTrace ({ km with clusters := sd.clusters }, sd.points) m).1.1.stable
      (lloydTrace ({ km with clusters := sd.clusters }, sd.points) m).1.2 = true := hdone
  have hfix := lloydStep_fixed _ hcen hstable
  have hnext : lloydTrace ({ km with clusters := sd.clusters }, sd.points) (m + 1) =
      ((lloydTrace ({ km with clusters := sd.clusters }, sd.points) m).1, true) := hfix
  rw [hnext]
  refine ⟨rfl, ?_, ?_, ?_⟩
  · intro p hp
    have hnear := getIDNearestCenter_eq_nearest _ p hinv.1.1 hinv.1.2.1 (hinv.1.2.2.2 p hp)
    exact ⟨_, hnear.1, of_decide_eq_true ((List.all_eq_true.mp hstable) p hp)⟩
  · rw [serial_iteration_eq _ hinv.1, hfix]
  · intro sched hv
    have hv' : sched.Valid (lloydTrace ({ km with clusters := sd.clusters }, sd.points) m).1.1 := by
      unfold Parallel.Schedule.Valid
      rw [hinv.2.1, hinv.2.2]
      exact hv
    rw [parallel_iteration_eq _ hinv.1 sched hv', hfix]

theorem forLoop_none {σ : Type} (lo hi : Nat) (body : σ → Nat → Option σ) (s : σ)
    (h : forLoop lo hi body s = none) :
    ∃ i t, lo ≤ i ∧ i < hi ∧ forLoop lo i body s = some t ∧ body t i = none := by
  induction hi with
  | zero => simp [forLoop] at h
  | succ n ih =>
    rcases Nat.lt_or_ge lo (n + 1) with hlt | hge
    · have hln : lo ≤ n := by omega
      rw [forLoop_last _ _ _ _ hln] at h
      cases hm : forLoop lo n body s with
      | none =>
        obtain ⟨i, t, h1, h2, h3, h4⟩ := ih hm
        exact ⟨i, t, h1, by omega, h3, h4⟩
      | some u =>
        rw [hm] at h
        exact ⟨n, u, hln, by omega, hm, by simpa using h⟩
    · rw [forLoop_eq_of_le _ _ _ _ hge] at h
      exact absurd h (by simp)

theorem seedWhile_none (tp i : Nat) (proh : List Nat) (pts : List Point) (cls : List Cluster)
    (draws : List Nat) (htp : 0 < tp) (hlen : tp ≤ pts.length)
    (h : seedWhile tp i proh pts cls draws = none) : ∀ r ∈ draws, r % tp ∈ proh := by
  induction draws with
  | nil => intro r hr; exact absurd hr (List.not_mem_nil _)
  | cons r draws ih =>
    unfold seedWhile at h
    have htp0 : ¬ tp = 0 := by omega
    simp only [htp0, if_false] at h
    by_cases hmem : r % tp ∈ proh
    · simp only [hmem, not_true_eq_false, if_false] at h
      intro x hx
      rcases List.mem_cons.mp hx with rfl | hx
      · exact hmem
      · exact ih h x hx
    · exfalso
      simp only [hmem, not_false_eq_true, if_true] at h
      have hlt : r % tp < pts.length := lt_of_lt_of_le (Nat.mod_lt _ htp) hlen
      simp only [List.getElem?_eq_getElem hlt, Option.some_bind, Option.bind_eq_bind, writeAt,
        hlt, if_true, getElem?_set_self_of_lt _ _ _ hlt, Cluster.new_eq, pure] at h
      exact absurd h (by simp)


theorem seedRounds_seeded (km : KMeans) (points : List Point) (draws : List Nat) (i : Nat)
    (st : SeedState) (hcl : km.clusters = []) (h : km.seedRounds points draws i = some st) :
    Seeded points km.total_points i st := by
  unfold KMeans.seedRounds at h
  refine forLoop_inv_of_some (fun i st => Seeded points km.total_points i st) 0 i
    (seedStep km.total_points) _ (Nat.zero_le _) ?_ ?_ st h
  · rw [hcl]
    exact ⟨rfl, List.nodup_nil, fun _ h => absurd h (List.not_mem_nil _), rfl, rfl,
      fun k hk => absurd hk (Nat.not_lt_zero _), fun _ _ => rfl⟩
  · intro j t t' _ _ hinv hstep
    exact seedStep_seeded points km.total_points j t t' hinv hstep

theorem seed_none_out_of_draws (km : KMeans) (points : List Point) (draws : List Nat)
    (hK : 1 ≤ km.K) (hg : km.K ≤ km.total_points) (hcl : km.clusters = [])
    (hn : points.length = km.total_points) (h : km.seed points draws = none) :
    ∃ i st, i < km.K ∧ km.seedRounds points draws i = some st ∧
      ∀ r ∈ st.draws, r % km.total_points ∈ st.prohibited_indexes := by
  unfold KMeans.seed at h
  obtain ⟨i, t, _, hi, hsome, hnone⟩ := forLoop_none _ _ _ _ h
  have hsd := seedRounds_seeded km points draws i t hcl hsome
  refine ⟨i, t, hi, hsome, ?_⟩
  exact seedWhile_none km.total_points i _ _ _ _ (by omega)
    (by rw [hsd.2.2.2.2.1, hn]) hnone

theorem seedWhile_accept (tp i : Nat) (proh : List Nat) (pts : List Point)
    (cls : List Cluster) (r : Nat) (draws : List Nat) (p : Point) (htp : 0 < tp)
    (hr : r % tp ∉ proh) (hp : pts[r % tp]? = some p) :
    seedWhile tp i proh pts cls (r :: draws) =
      some { prohibited_indexes := proh ++ [r % tp],
             points := pts.set (r % tp) (p.setCluster i),
             clusters := cls ++ [{ id_cluster := i, central_values := p.values }],
             draws := draws } := by
  have hlt := lt_length_of_getElem?_eq_some hp
  have htp0 : ¬ tp = 0 := by omega
  unfold seedWhile
  simp only [htp0, if_false, hr, not_false_eq_true, if_true, hp, Option.some_bind,
    Option.bind_eq_bind, writeAt, hlt, getElem?_set_self_of_lt _ _ _ hlt, Cluster.new_eq, pure]
  rfl

/-- The draws `0, 1, .., K-1` complete the seeding: round `i` accepts point `i`. -/
theorem seed_completes_on_range (km : KMeans) (points : List Point) (extra : List Nat)
    (hg : km.K ≤ km.total_points) (hn : points.length = km.total_points) :
    ∃ sd, km.seed points (List.range km.K ++ extra) = some sd := by
  have key := forLoop_inv
    (fun i (st : SeedState) => st.prohibited_indexes = List.range i ∧
      st.draws = List.range' i (km.K - i) ++ extra ∧ st.points.length = points.length)
    0 km.K (seedStep km.total_points)
    { prohibited_indexes := [], points := points, clusters := km.clusters,
      draws := List.range km.K ++ extra }
    (Nat.zero_le _) ⟨rfl, by simp [List.range_eq_range'], rfl⟩
    (by
      intro i st _ hi ⟨h1, h2, h3⟩
      have hsplit : km.K - i = (km.K - (i + 1)) + 1 := by omega
      have hdraws : st.draws = i :: (List.range' (i + 1) (km.K - (i + 1)) ++ extra) := by
        rw [h2, hsplit, List.range'_succ]; rfl
      have hmod : i % km.total_points = i := Nat.mod_eq_of_lt (by omega)
      have hlt : i < st.points.length := by rw [h3, hn]; omega
      have hacc := seedWhile_accept km.total_points i st.prohibited_indexes st.points
        st.clusters i (List.range' (i + 1) (km.K - (i + 1)) ++ extra) st.points[i]
        (by omega) (by rw [hmod, h1]; simp)
        (by rw [hmod]; exact List.getElem?_eq_getElem hlt)
      refine ⟨{ prohibited_indexes := st.prohibited_indexes ++ [i % km.total_points],
                points := st.points.set (i % km.total_points) (st.points[i].setCluster i),
                clusters := st.clusters ++
                  [{ id_cluster := i, central_values := st.points[i].values }],
                draws := List.range' (i + 1) (km.K - (i + 1)) ++ extra }, ?_, ?_, rfl, ?_⟩
      · unfold seedStep
        rw [hdraws]
        exact hacc
      · show st.prohibited_indexes ++ [i % km.total_points] = List.range (i + 1)
        rw [hmod, h1, List.range_succ]
      · show (st.points.set (i % km.total_points) _).length = points.length
        rw [List.length_set, h3])
  obtain ⟨sd, hsd, _⟩ := key
  exact ⟨sd, hsd⟩


/-- C19: with `1 <= K <= total_points`, `total_points` points of exactly `total_values`
coordinates and a fresh engine, no checked read, write, modulus or division of `run` takes its
error branch. The seeding returns nothing only when a round has rejected every draw that was
left (the draw list ran dry); once the seeding has completed, the serial run and the parallel
run under any valid schedules return a result, and every iteration of the loop body, also
past the stop, returns one. The draws `0, .., K-1` complete the seeding. -/
theorem run_never_faults (km : KMeans) (scheds : Nat → Parallel.Schedule)
    (points : List Point) (draws : List Nat)
    (hK : 1 ≤ km.K) (hg : km.K ≤ km.total_points) (hcl : km.clusters = [])
    (hn : points.length = km.total_points) (hd : ∀ p ∈ points, p.HasDim km.total_values)
    (hs : ∀ i, (scheds i).Valid km) :
    (km.seed points draws = none →
      ∃ i st, i < km.K ∧ km.seedRounds points draws i = some st ∧
        ∀ r ∈ st.draws, r % km.total_points ∈ st.prohibited_indexes) ∧
    (∀ sd, km.seed points draws = some sd →
      (∃ res, Serial.run km points draws = some res ∧
        Parallel.run km scheds points draws = some res) ∧
      ∀ n, ∃ st, Serial.trace km points draws n = some st ∧
        Parallel.trace km scheds points draws n = some st) ∧
    (∃ sd, km.seed points (List.range km.K ++ draws) = some sd) := by
  refine ⟨seed_none_out_of_draws km points draws hK hg hcl hn, ?_,
    seed_completes_on_range km points draws hg hn⟩
  intro sd hseed
  obtain ⟨n, _, hrun, hpar, _, _⟩ :=
    run_closed_form km scheds points draws sd hK hg hcl hn hd hs hseed
  refine ⟨⟨_, hrun, by rw [hpar, hrun]⟩, ?_⟩
  intro m
  exact ⟨_, serial_trace_eq km points draws sd hK hcl hn hd hseed m,
    parallel_trace_eq km scheds points draws sd hK hcl hn hd hs hseed m⟩

theorem run_never_faults_witness :
    (1 ≤ lineKm.K ∧ lineKm.K ≤ lineKm.total_points ∧ lineKm.clusters = [] ∧
      linePoints.length = lineKm.total_points ∧
      (∀ p ∈ linePoints, p.HasDim lineKm.total_values) ∧ lineSched.Valid lineKm ∧
      lineKm.seed linePoints lineDraws = some lineSeed) ∧
    (∃ res, Serial.run lineKm linePoints lineDraws = some res ∧
      Parallel.run lineKm (fun _ => lineSched) linePoints lineDraws = some res) ∧
    (∃ i st, i < lineKm.K ∧ lineKm.seedRounds linePoints [0, 4] i = some st ∧
      ∀ r ∈ st.draws, r % lineKm.total_points ∈ st.prohibited_indexes) :=
  ⟨⟨by decide, by decide, by decide, by decide, by decide, by decide, lineSeed_eq⟩,
    ((run_never_faults lineKm (fun _ => lineSched) linePoints lineDraws (by decide) (by decide)
      (by decide) (by decide) (by decide)
      (fun _ => (by decide : lineSched.Valid lineKm))).2.1 lineSeed lineSeed_eq).1,
    (run_never_faults lineKm (fun _ => lineSched) linePoints [0, 4] (by decide) (by decide)
      (by decide) (by decide) (by decide)
      (fun _ => (by decide : lineSched.Valid lineKm))).1 (by with_unfolding_all decide)⟩

theorem sum_sq_expand (xs : List ℚ) (a : ℚ) :
    (xs.map (fun x => (a - x) ^ 2)).sum =
      (xs.length : ℚ) * a ^ 2 - 2 * a * xs.sum + (xs.map (fun x => x ^ 2)).sum := by
  induction xs with
  | nil => simp
  | cons x xs ih =>
    simp only [List.map_cons, List.sum_cons, List.length_cons, ih]
    push_cast
    ring

/-- The mean minimises the sum of squared deviations. -/
theorem sum_sq_mean_le (xs : List ℚ) (a : ℚ) (h : 0 < xs.length) :
    (xs.map (fun x => (xs.sum / (xs.length : ℚ) - x) ^ 2)).sum ≤
      (xs.map (fun x => (a - x) ^ 2)).sum := by
  rw [sum_sq_expand, sum_sq_expand]
  have hn : (0 : ℚ) < (xs.length : ℚ) := by exact_mod_cast h
  have hne : (xs.length : ℚ) ≠ 0 := ne_of_gt hn
  have key : (xs.length : ℚ) * a ^ 2 - 2 * a * xs.sum -
      ((xs.length : ℚ) * (xs.sum / (xs.length : ℚ)) ^ 2 -
        2 * (xs.sum / (xs.length : ℚ)) * xs.sum) =
      ((xs.length : ℚ) * a - xs.sum) ^ 2 / (xs.length : ℚ) := by
    field_simp
    ring
  have hpos : 0 ≤ ((xs.length : ℚ) * a - xs.sum) ^ 2 / (xs.length : ℚ) :=
    div_nonneg (sq_nonneg _) (le_of_lt hn)
  linarith

theorem sum_map_sum_comm {α β : Type} (l : List α) (m : List β) (g : α → β → ℚ) :
    (l.map (fun x => (m.map (fun y => g x y)).sum)).sum =
      (m.map (fun y => (l.map (fun x => g x y)).sum)).sum := by
  induction l with
  | nil => simp
  | cons x l ih =>
    simp only [List.map_cons, List.sum_cons, ih]
    rw [← List.sum_map_add]

theorem sqDist_eq_sum_range (D : Nat) (a b : List ℚ) (ha : a.length = D) (hb : b.length = D) :
    sqDist a b = ((List.range D).map (fun j => (a.getD j 0 - b.getD j 0) ^ 2)).sum := by
  unfold sqDist
  congr 1
  apply List.ext_getElem?
  intro j
  rcases Nat.lt_or_ge j D with hj | hj
  · have hja : j < a.length := by omega
    have hjb : j < b.length := by omega
    simp [List.getElem?_zipWith, List.getElem?_eq_getElem hja, List.getElem?_eq_getElem hjb,
      List.getElem?_range hj, List.getD_eq_getElem?_getD]
  · rw [List.getElem?_eq_none (by simp [List.length_zipWith]; omega),
      List.getElem?_eq_none (by simp; omega)]


theorem meanOf_getD (D : Nat) (M : List Point) (j : Nat) (hj : j < D) :
    (meanOf D M).getD j 0 = coordSum M j / (M.length : ℚ) := by
  rw [List.getD_eq_getElem?_getD, meanOf, vecOf_getElem? _ _ _ hj]
  rfl

theorem cluster_cost_mean_le (D : Nat) (M : List Point) (hM : ∀ p ∈ M, p.HasDim D)
    (o : List ℚ) (ho : o.length = D) (hpos : 0 < M.length) :
    (M.map (fun p => sqDist (meanOf D M) p.values)).sum ≤
      (M.map (fun p => sqDist o p.values)).sum := by
  have e1 : ∀ p ∈ M, sqDist (meanOf D M) p.values =
      ((List.range D).map (fun j => ((meanOf D M).getD j 0 - p.values.getD j 0) ^ 2)).sum :=
    fun p hp => sqDist_eq_sum_range D (meanOf D M) p.values (meanOf_length D M) (hM p hp)
  have e2 : ∀ p ∈ M, sqDist o p.values =
      ((List.range D).map (fun j => (o.getD j 0 - p.values.getD j 0) ^ 2)).sum :=
    fun p hp => sqDist_eq_sum_range D o p.values ho (hM p hp)
  rw [List.map_congr_left e1, List.map_congr_left e2,
    sum_map_sum_comm M (List.range D)
      (fun p j => ((meanOf D M).getD j 0 - p.values.getD j 0) ^ 2),
    sum_map_sum_comm M (List.range D) (fun p j => (o.getD j 0 - p.values.getD j 0) ^ 2)]
  apply List.sum_le_sum
  intro j hj
  have hjD : j < D := List.mem_range.mp hj
  have hlen : (M.map (fun p => p.values.getD j 0)).length = M.length := List.length_map _ _
  have key := sum_sq_mean_le (M.map (fun p => p.values.getD j 0)) (o.getD j 0)
    (by rw [hlen]; exact hpos)
  rw [List.map_map, List.map_map, hlen] at key
  rw [meanOf_getD D M j hjD]
  exact key

theorem sum_ite_range (K c0 : Nat) (g : Nat → ℚ) (h : c0 < K) :
    ((List.range K).map (fun c => if c0 = c then g c else 0)).sum = g c0 := by
  induction K with
  | zero => exact absurd h (Nat.not_lt_zero _)
  | succ n ih =>
    rw [List.range_succ, List.map_append, List.sum_append]
    rcases Nat.lt_or_ge c0 n with h1 | h1
    · have : c0 ≠ n := by omega
      rw [ih h1]
      simp [this]
    · have h2 : c0 = n := by omega
      subst h2
      have hz : ((List.range c0).map (fun c => if c0 = c then g c else 0)).sum = 0 := by
        apply List.sum_eq_zero
        intro x hx
        obtain ⟨c, hc, rfl⟩ := List.mem_map.mp hx
        have : c0 ≠ c := by have := List.mem_range.mp hc; omega
        simp [this]
      rw [hz]
      simp

theorem sum_regroup (K : Nat) (pts : List Point) (hass : ∀ p ∈ pts, p.Assigned K)
    (f : Nat → Point → ℚ) :
    (pts.map (fun p => f p.id_cluster.toNat p)).sum =
      ((List.range K).map (fun c => ((members pts c).map (f c)).sum)).sum := by
  induction pts with
  | nil => simp [members]
  | cons p ps ih =>
    obtain ⟨c0, hc0, hp⟩ := (hass p (List.mem_cons_self _ _)).exists_nat
    have hsplit : ∀ c, ((members (p :: ps) c).map (f c)).sum =
        (if c0 = c then f c p else 0) + ((members ps c).map (f c)).sum := by
      intro c
      have : p :: ps = [p] ++ ps := rfl
      rw [this, members_append, members_singleton, hp, List.map_append, List.sum_append]
      by_cases hc : c0 = c
      · subst hc; simp
      · have : ¬ ((c0 : Int) = (c : Int)) := fun h2 => hc (by exact_mod_cast h2)
        simp [hc, this]
    rw [List.map_congr_left (fun c _ => hsplit c), List.sum_map_add,
      sum_ite_range K c0 (fun c => f c p) hc0,
      ← ih (fun q hq => hass q (List.mem_cons_of_mem _ hq)), List.map_cons, List.sum_cons, hp]
    rfl


theorem pointCost_eq_distTo (km : KMeans) (p : Point) (h : 0 ≤ p.id_cluster) :
    km.pointCost p = km.distTo p p.id_cluster.toNat := by
  unfold KMeans.pointCost KMeans.distTo readAt
  rw [if_pos h]

theorem cost_eq_regroup (km : KMeans) (pts : List Point) (hass : ∀ p ∈ pts, p.Assigned km.K) :
    cost (km, pts) =
      ((List.range km.K).map (fun c => ((members pts c).map (fun p => km.distTo p c)).sum)).sum := by
  unfold cost
  rw [← sum_regroup km.K pts hass (fun c p => km.distTo p c)]
  congr 1
  apply List.map_congr_left
  intro p hp
  exact pointCost_eq_distTo km p (hass p hp).1

theorem cost_reassign_le (st : KMeans × List Point) (hinv : LoopInv st)
    (hass : ∀ p ∈ st.2, p.Assigned st.1.K) :
    cost (st.1, st.1.reassign st.2) ≤ cost st := by
  obtain ⟨hK, hwf, _, hd⟩ := hinv
  unfold cost KMeans.reassign
  rw [List.map_map]
  apply List.sum_le_sum
  intro p hp
  obtain ⟨c, hc, hfn⟩ := getIDNearestCenter_spec st.1 p hK hwf (hd p hp)
  have hnear : st.1.nearest p = c := by simp [KMeans.nearest, hc]
  obtain ⟨k, hk, hpk⟩ := (hass p hp).exists_nat
  have h1 : st.1.pointCost p = st.1.distTo p k := by
    rw [pointCost_eq_distTo st.1 p (hass p hp).1, hpk]; rfl
  have h2 : st.1.pointCost (p.setCluster (st.1.nearest p)) = st.1.distTo p c := by
    rw [pointCost_eq_distTo st.1 _ (Int.ofNat_nonneg _), hnear]
    rfl
  show st.1.pointCost (p.setCluster (st.1.nearest p)) ≤ st.1.pointCost p
  rw [h1, h2]
  exact hfn.2.1 k hk

theorem cost_recenter_le (km : KMeans) (pts : List Point) (hwf : km.WF)
    (hd : ∀ p ∈ pts, p.HasDim km.total_values) (hass : ∀ p ∈ pts, p.Assigned km.K) :
    cost (km.recenter pts, pts) ≤ cost (km, pts) := by
  rw [cost_eq_regroup (km.recenter pts) pts hass, cost_eq_regroup km pts hass]
  show ((List.range km.K).map _).sum ≤ _
  apply List.sum_le_sum
  intro c hc
  have hcK : c < km.K := List.mem_range.mp hc
  have hcl : c < km.clusters.length := by rw [hwf.1]; exact hcK
  have hold : km.clusters[c]? = some km.clusters[c] := List.getElem?_eq_getElem hcl
  have hnew := recenter_getElem? km pts c _ hold
  have hMd : ∀ p ∈ members pts c, p.HasDim km.total_values :=
    fun p hp => hd p (List.mem_filter.mp hp).1
  show ((members pts c).map (fun p => (km.recenter pts).distTo p c)).sum ≤
    ((members pts c).map (fun p => km.distTo p c)).sum
  simp only [KMeans.distTo, hnew, hold]
  by_cases hpos : 0 < (members pts c).length
  · simp only [newCenter, hpos, if_true]
    exact cluster_cost_mean_le km.total_values (members pts c) hMd _
      (hwf.2 _ (List.getElem_mem hcl)) hpos
  · simp only [newCenter, hpos, if_false]
    exact le_refl _

theorem cost_lloydStep_le (st : KMeans × List Point) (hinv : LoopInv st)
    (hass : ∀ p ∈ st.2, p.Assigned st.1.K) : cost (lloydStep st).1 ≤ cost st := by
  have h1 := cost_reassign_le st hinv hass
  have h2 := cost_recenter_le st.1 (st.1.reassign st.2) hinv.2.1
    (reassign_hasDim _ _ _ hinv.2.2.2) (reassign_assigned _ hinv.1 hinv.2.1 _ hinv.2.2.2)
  exact le_trans h2 h1


/-- C18: in a run with `1 <= K` (serial, and parallel under any valid schedules), for every
iteration `n >= 1` the clustering cost at the end of iteration `n + 1` is at most the cost at
the end of iteration `n`, in exact arithmetic; a cluster left empty keeps its centroid and
adds nothing to either cost. -/
theorem cost_never_increases (km : KMeans) (scheds : Nat → Parallel.Schedule)
    (points : List Point) (draws : List Nat) (sd : SeedState)
    (hK : 1 ≤ km.K) (hcl : km.clusters = [])
    (hn : points.length = km.total_points) (hd : ∀ p ∈ points, p.HasDim km.total_values)
    (hs : ∀ i, (scheds i).Valid km) (hseed : km.seed points draws = some sd)
    (n : Nat) (hn1 : 1 ≤ n) :
    ∃ st done st' done',
      Serial.trace km points draws n = some (st, done) ∧
      Parallel.trace km scheds points draws n = some (st, done) ∧
      Serial.trace km points draws (n + 1) = some (st', done') ∧
      Parallel.trace km scheds points draws (n + 1) = some (st', done') ∧
      cost st' ≤ cost st := by
  have hruninv := seed_runInv km points draws sd hK hcl hn hd hseed
  have hinv := lloydTrace_runInv km _ hruninv n
  obtain ⟨m, rfl⟩ : ∃ m, n = m + 1 := ⟨n - 1, by omega⟩
  have hprev := lloydTrace_runInv km _ hruninv m
  have hass : ∀ p ∈ (lloydTrace ({ km with clusters := sd.clusters }, sd.points) (m + 1)).1.2,
      p.Assigned (lloydTrace ({ km with clusters := sd.clusters }, sd.points) (m + 1)).1.1.K :=
    reassign_assigned _ hprev.1.1 hprev.1.2.1 _ hprev.1.2.2.2
  exact ⟨_, _, _, _, serial_trace_eq km points draws sd hK hcl hn hd hseed (m + 1),
    parallel_trace_eq km scheds points draws sd hK hcl hn hd hs hseed (m + 1),
    serial_trace_eq km points draws sd hK hcl hn hd hseed (m + 1 + 1),
    parallel_trace_eq km scheds points draws sd hK hcl hn hd hs hseed (m + 1 + 1),
    cost_lloydStep_le _ hinv.1 hass⟩

theorem cost_never_increases_witness :
    (1 ≤ lineKm.K ∧ lineKm.clusters = [] ∧ linePoints.length = lineKm.total_points ∧
      (∀ p ∈ linePoints, p.HasDim lineKm.total_values) ∧ lineSched.Valid lineKm ∧
      lineKm.seed linePoints lineDraws = some lineSeed ∧ 1 ≤ 1) ∧
    ∃ st done st' done',
      Serial.trace lineKm linePoints lineDraws 1 = some (st, done) ∧
      Parallel.trace lineKm (fun _ => lineSched) linePoints lineDraws 1 = some (st, done) ∧
      Serial.trace lineKm linePoints lineDraws (1 + 1) = some (st', done') ∧
      Parallel.trace lineKm (fun _ => lineSched) linePoints lineDraws (1 + 1) =
        some (st', done') ∧
      cost st' ≤ cost st :=
  ⟨⟨by decide, by decide, by decide, by decide, by decide, lineSeed_eq, by decide⟩,
    cost_never_increases lineKm (fun _ => lineSched) linePoints lineDraws lineSeed
      (by decide) (by decide) (by decide) (by decide)
      (fun _ => (by decide : lineSched.Valid lineKm)) lineSeed_eq 1 (by decide)⟩

/-- A fold of steps that commute pairwise gives the same result in every order. -/
theorem foldlM_perm_of_comm {σ : Type} (step : σ → Nat → Option σ)
    (hcomm : ∀ s i j, i ≠ j →
      (step s i).bind (fun t => step t j) = (step s j).bind (fun t => step t i))
    {L1 L2 : List Nat} (h : L1.Perm L2) (s : σ) : L1.foldlM step s = L2.foldlM step s := by
  induction h generalizing s with
  | nil => rfl
  | cons a _ ih =>
    rw [List.foldlM_cons, List.foldlM_cons]
    cases step s a with
    | none => rfl
    | some t => exact ih t
  | swap a b l =>
    rw [List.foldlM_cons, List.foldlM_cons]
    have e1 : (step s b >>= fun t => List.foldlM step t (a :: l)) =
        ((step s b).bind (fun t => step t a)).bind (fun t => List.foldlM step t l) := by
      cases step s b with
      | none => rfl
      | some t => simp [List.foldlM_cons]
    have e2 : (step s a >>= fun t => List.foldlM step t (b :: l)) =
        ((step s a).bind (fun t => step t b)).bind (fun t => List.foldlM step t l) := by
      cases step s a with
      | none => rfl
      | some t => simp [List.foldlM_cons]
    rw [e1, e2]
    by_cases hab : a = b
    · subst hab; rfl
    · rw [hcomm s a b hab]
  | trans _ _ ih1 ih2 => exact (ih1 s).trans (ih2 s)

theorem assignStep_form (km : KMeans) (l : List Point) (d : Bool) (i : Nat) :
    km.assignStep (l, d) i =
      (l[i]?).bind (fun p => (km.getIDNearestCenter p).bind (fun c =>
        some (l.set i (p.setCluster c), d && decide (p.id_cluster = (c : Int))))) := by
  unfold KMeans.assignStep
  cases hi : l[i]? with
  | none => rfl
  | some p =>
    have hlt := lt_length_of_getElem?_eq_some hi
    cases hc : km.getIDNearestCenter p with
    | none => simp [hc]
    | some c =>
      simp only [Option.some_bind, Option.bind_eq_bind, hc, Point.getCluster]
      by_cases h : p.id_cluster = (c : Int)
      · have hp2 : p.setCluster c = p := by
          unfold Point.setCluster
          rw [← h]
        rw [hp2, set_eq_self l i p hi]
        simp only [ne_eq, h, not_true_eq_false, if_false, decide_True, Bool.and_true]
        rfl
      · simp only [ne_eq, h, not_false_eq_true, if_true, writeAt, hlt, decide_False,
          Bool.and_false, Option.some_bind, Option.bind_eq_bind]
        rfl

/-- Steps that each rewrite only their own element, from that element alone, and lower a
shared flag commute. -/
theorem flagged_local_comm {α : Type} (step : List α × Bool → Nat → Option (List α × Bool))
    (u : α → Option (α × Bool))
    (hform : ∀ l d i, step (l, d) i =
      (l[i]?).bind (fun x => (u x).bind (fun r => some (l.set i r.1, d && r.2))))
    (s : List α × Bool) (i j : Nat) (hij : i ≠ j) :
    (step s i).bind (fun t => step t j) = (step s j).bind (fun t => step t i) := by
  obtain ⟨l, d⟩ := s
  have hji : j ≠ i := fun h => hij h.symm
  rw [hform l d i, hform l d j]
  cases hi : l[i]? with
  | none =>
    cases hj : l[j]? with
    | none => rfl
    | some y =>
      cases hy : u y with
      | none => simp only [Option.some_bind, Option.none_bind, hy]
      | some ry =>
        simp only [Option.some_bind, Option.none_bind, hy, hform,
          getElem?_set_of_ne _ _ _ _ hji, hi]
  | some x =>
    cases hx : u x with
    | none =>
      cases hj : l[j]? with
      | none => simp only [Option.some_bind, Option.none_bind, hx]
      | some y =>
        cases hy : u y with
        | none => simp only [Option.some_bind, Option.none_bind, hx, hy]
        | some ry =>
          simp only [Option.some_bind, Option.none_bind, hx, hy, hform,
            getElem?_set_of_ne _ _ _ _ hji, hi]
    | some rx =>
      cases hj : l[j]? with
      | none =>
        simp only [Option.some_bind, Option.none_bind, hx, hform,
          getElem?_set_of_ne _ _ _ _ hij, hj]
      | some y =>
        cases hy : u y with
        | none =>
          simp only [Option.some_bind, Option.none_bind, hx, hy, hform,
            getElem?_set_of_ne _ _ _ _ hij, hj]
        | some ry =>
          simp only [Option.some_bind, hform,
            getElem?_set_of_ne _ _ _ _ hij, getElem?_set_of_ne _ _ _ _ hji, hi, hj, hx,
            hy, Option.some.injEq, Prod.mk.injEq]
          exact ⟨List.set_comm _ _ _ hij, by rw [Bool.and_right_comm]⟩

theorem assignStep_comm (km : KMeans) (s : List Point × Bool) (i j : Nat) (hij : i ≠ j) :
    (km.assignStep s i).bind (fun t => km.assignStep t j) =
      (km.assignStep s j).bind (fun t => km.assignStep t i) := by
  refine flagged_local_comm km.assignStep
    (fun p => (km.getIDNearestCenter p).bind (fun c =>
      some (p.setCluster c, decide (p.id_cluster = (c : Int))))) ?_ s i j hij
  intro l d i
  rw [assignStep_form]
  cases l[i]? with
  | none => rfl
  | some p =>
    simp only [Option.some_bind]
    cases km.getIDNearestCenter p with
    | none => rfl
    | some c => rfl

theorem parallel_assignPass_eq_serial (km : KMeans) (order : List Nat) (points : List Point)
    (ho : order.Perm (List.range km.total_points)) :
    Parallel.assignPass km order points = Serial.assignPass km points := by
  unfold Parallel.assignPass Serial.assignPass forLoop
  rw [Nat.sub_zero, ← List.range_eq_range']
  exact foldlM_perm_of_comm km.assignStep (assignStep_comm km) ho _


/-- Steps that each rewrite only their own element, from that element alone, commute. -/
theorem local_comm {α : Type} (step : List α → Nat → Option (List α))
    (h : Nat → Option α → Option (Option α))
    (hform : ∀ l i, step l i = applyLocal l i (h i l[i]?))
    (l : List α) (i j : Nat) (hij : i ≠ j) :
    (step l i).bind (fun t => step t j) = (step l j).bind (fun t => step t i) := by
  have hji : j ≠ i := fun e => hij e.symm
  rw [hform l i, hform l j]
  rcases hi : h i l[i]? with _ | _ | x <;> rcases hj : h j l[j]? with _ | _ | y <;>
    simp only [applyLocal, Option.some_bind, Option.none_bind, hform,
      getElem?_set_of_ne _ _ _ _ hij, getElem?_set_of_ne _ _ _ _ hji, hi, hj]
  rw [List.set_comm _ _ _ hij]

theorem updateValue_form (acc : LocalVars) (i : Nat) (cl : List Cluster) (j : Nat) :
    updateValue acc i cl j =
      (cl[i]?).bind (fun c => (updateElem acc i c j).bind (fun c' => some (cl.set i c'))) := by
  unfold updateValue updateElem
  cases h1 : acc.centers[i]? with
  | none => cases cl[i]? <;> simp
  | some row =>
    cases h2 : row[j]? with
    | none => cases cl[i]? <;> simp [h2]
    | some x =>
      cases h3 : acc.counts[i]? with
      | none => cases cl[i]? <;> simp [h2]
      | some n =>
        cases h4 : divAt x n with
        | none => cases cl[i]? <;> simp [h2, h4]
        | some q =>
          cases hc : cl[i]? with
          | none => simp [h2, h4]
          | some c =>
            have hlt := lt_length_of_getElem?_eq_some hc
            cases h5 : c.setCentralValue j q with
            | none => simp [h2, h4, h5]
            | some c' => simp [h2, h4, h5, writeAt, hlt]


/-- A loop whose every round rewrites element `i` of the list is one rewrite of element `i`
by the loop run on that element. -/
theorem forLoop_lift {α : Type} (i : Nat) (e : α → Nat → Option α)
    (body : List α → Nat → Option (List α))
    (hbody : ∀ l j, body l j = (l[i]?).bind (fun c => (e c j).bind (fun c' => some (l.set i c'))))
    (lo hi : Nat) (hlt : lo < hi) (l : List α) :
    forLoop lo hi body l =
      (l[i]?).bind (fun c => (forLoop lo hi e c).bind (fun c' => some (l.set i c'))) := by
  generalize hm : hi - lo = m
  induction m generalizing lo l with
  | zero => omega
  | succ k ih =>
    rw [forLoop_step lo hi body l hlt, hbody l lo]
    cases hc : l[i]? with
    | none => rfl
    | some c =>
      have hil := lt_length_of_getElem?_eq_some hc
      simp only [Option.some_bind]
      rw [forLoop_step lo hi e c hlt]
      cases hec : e c lo with
      | none => rfl
      | some c1 =>
        simp only [Option.some_bind]
        rcases Nat.lt_or_ge (lo + 1) hi with h2 | h2
        · rw [ih (lo + 1) h2 (l.set i c1) (by omega), getElem?_set_self_of_lt _ _ _ hil]
          simp only [Option.some_bind, List.set_set]
        · rw [forLoop_eq_of_le _ _ _ _ h2, forLoop_eq_of_le _ _ _ _ h2]
          rfl

theorem updateStep_form (D : Nat) (acc : LocalVars) (cl : List Cluster) (i : Nat) :
    updateStep D acc cl i = applyLocal cl i (updateLocal D acc i cl[i]?) := by
  unfold updateStep updateLocal
  cases hn : acc.counts[i]? with
  | none => rfl
  | some n =>
    simp only [Option.some_bind, Option.bind_eq_bind]
    by_cases hpos : n > 0
    · simp only [hpos, if_true]
      by_cases hD : D = 0
      · subst hD
        simp only [if_true, applyLocal]
        exact forLoop_eq_of_le _ _ _ _ (le_refl _)
      · simp only [hD, if_false]
        rw [forLoop_lift i (updateElem acc i) (updateValue acc i)
          (updateValue_form acc i) 0 D (by omega) cl]
        cases cl[i]? with
        | none => rfl
        | some c =>
          simp only [Option.some_bind]
          cases forLoop 0 D (updateElem acc i) c <;> rfl
    · simp only [hpos, if_false]
      rfl

theorem updateStep_comm (D : Nat) (acc : LocalVars) (cl : List Cluster) (i j : Nat)
    (hij : i ≠ j) :
    (updateStep D acc cl i).bind (fun t => updateStep D acc t j) =
      (updateStep D acc cl j).bind (fun t => updateStep D acc t i) :=
  local_comm (updateStep D acc) (updateLocal D acc) (updateStep_form D acc) cl i j hij

theorem parallel_updateCenters_eq_serial (km : KMeans) (order : List Nat) (acc : LocalVars)
    (ho : order.Perm (List.range km.K)) :
    Parallel.updateCenters km order acc = Serial.updateCenters km acc := by
  unfold Parallel.updateCenters Serial.updateCenters forLoop
  rw [Nat.sub_zero, ← List.range_eq_range']
  exact foldlM_perm_of_comm _ (updateStep_comm km.total_values acc) ho _


theorem forLoop_fails {σ : Type} (lo hi : Nat) (body : σ → Nat → Option σ) (s : σ) (j0 : Nat)
    (h1 : lo ≤ j0) (h2 : j0 < hi) (hfail : ∀ t, body t j0 = none) :
    forLoop lo hi body s = none := by
  induction hi with
  | zero => omega
  | succ n ih =>
    rw [forLoop_last _ _ _ _ (by omega)]
    rcases Nat.lt_or_ge j0 n with h3 | h3
    · rw [ih h3]; rfl
    · have : j0 = n := by omega
      subst this
      cases forLoop lo j0 body s with
      | none => rfl
      | some t => exact hfail t

theorem accumulateStep_visitable (K D : Nat) (points ps : List Point) (i : Nat)
    (h : Visitable K D points i) :
    accumulateStep D points (sumsOf K D ps) i =
      some (sumsOf K D (ps ++ pointsAt points [i])) := by
  obtain ⟨p, hp, ha, hd⟩ := h
  rw [accumulateStep_sumsOf K D points ps i p hp hd ha]
  simp [pointsAt, hp]

theorem accumulateStep_not_visitable (K D : Nat) (points ps : List Point) (i : Nat)
    (h : ¬ Visitable K D points i) :
    accumulateStep D points (sumsOf K D ps) i = none := by
  unfold accumulateStep
  cases hp : points[i]? with
  | none => rfl
  | some p =>
    simp only [Option.some_bind, Option.bind_eq_bind, Point.getCluster]
    by_cases h0 : 0 ≤ p.id_cluster
    · by_cases hK : p.id_cluster < (K : Int)
      · have hlen : ¬ D ≤ p.values.length := fun hd => h ⟨p, hp, ⟨h0, hK⟩, hd⟩
        have hloop : ∀ centers, forLoop 0 D
            (accumulateValue points i p.id_cluster) centers = none := by
          intro centers
          apply forLoop_fails 0 D _ centers p.values.length (Nat.zero_le _) (by omega)
          intro t
          unfold accumulateValue
          simp [hp, Point.getValue]
        cases readAt (sumsOf K D ps).counts p.id_cluster with
        | none => rfl
        | some n =>
          simp only [Option.some_bind]
          cases writeAtInt (sumsOf K D ps).counts p.id_cluster (n + 1) with
          | none => rfl
          | some counts => simp only [Option.some_bind, hloop]; rfl
      · have : readAt (sumsOf K D ps).counts p.id_cluster = none := by
          unfold readAt
          rw [if_pos h0]
          apply List.getElem?_eq_none
          simp only [sumsOf, vecOf_length]
          omega
        rw [this]; rfl
    · have : readAt (sumsOf K D ps).counts p.id_cluster = none := by
        unfold readAt
        rw [if_neg h0]
      rw [this]; rfl

theorem foldlM_accumulate_visitable (K D : Nat) (points : List Point) (L : List Nat)
    (hL : ∀ i ∈ L, Visitable K D points i) (ps : List Point) :
    L.foldlM (accumulateStep D points) (sumsOf K D ps) =
      some (sumsOf K D (ps ++ pointsAt points L)) := by
  induction L generalizing ps with
  | nil => simp [pointsAt]
  | cons i L ih =>
    rw [List.foldlM_cons, accumulateStep_visitable K D points ps i (hL i (List.mem_cons_self _ _))]
    simp only [Option.some_bind, Option.bind_eq_bind]
    rw [ih (fun k hk => hL k (List.mem_cons_of_mem _ hk)), List.append_assoc,
      ← pointsAt_append]
    rfl

theorem foldlM_accumulate_not_visitable (K D : Nat) (points : List Point) (L : List Nat)
    (hL : ∃ i ∈ L, ¬ Visitable K D points i) (ps : List Point) :
    L.foldlM (accumulateStep D points) (sumsOf K D ps) = none := by
  induction L generalizing ps with
  | nil => obtain ⟨i, hi, _⟩ := hL; exact absurd hi (List.not_mem_nil _)
  | cons i L ih =>
    rw [List.foldlM_cons]
    by_cases hv : Visitable K D points i
    · rw [accumulateStep_visitable K D points ps i hv]
      simp only [Option.some_bind, Option.bind_eq_bind]
      apply ih
      obtain ⟨k, hk, hnk⟩ := hL
      rcases List.mem_cons.mp hk with rfl | hk
      · exact absurd hv hnk
      · exact ⟨k, hk, hnk⟩
    · rw [accumulateStep_not_visitable K D points ps i hv]
      rfl


theorem mapM_eq_none_of_mem {α β : Type} (f : α → Option β) (l : List α) (a : α)
    (ha : a ∈ l) (hf : f a = none) : l.mapM f = none := by
  induction l with
  | nil => exact absurd ha (List.not_mem_nil _)
  | cons x l ih =>
    rw [List.mapM_cons]
    rcases List.mem_cons.mp ha with rfl | h
    · rw [hf]; rfl
    · cases f x with
      | none => rfl
      | some y => rw [ih h]; rfl

theorem mapM_localAccumulate_visitable (km : KMeans) (points : List Point)
    (parts : List (List Nat))
    (h : ∀ part ∈ parts, ∀ i ∈ part, Visitable km.K km.total_values points i) :
    parts.mapM (Parallel.localAccumulate km points) =
      some (parts.map (fun part => sumsOf km.K km.total_values (pointsAt points part))) := by
  induction parts with
  | nil => rfl
  | cons part parts ih =>
    have hpart : Parallel.localAccumulate km points part =
        some (sumsOf km.K km.total_values (pointsAt points part)) := by
      unfold Parallel.localAccumulate
      rw [← sumsOf_nil, foldlM_accumulate_visitable km.K km.total_values points part
        (h part (List.mem_cons_self _ _)) []]
      simp
    rw [List.mapM_cons, hpart, ih (fun q hq => h q (List.mem_cons_of_mem _ hq))]
    rfl

theorem parallel_accumulate_eq_serial (km : KMeans) (parts : List (List Nat))
    (points : List Point) (hparts : parts.flatten.Perm (List.range km.total_points)) :
    Parallel.accumulate km parts points = Serial.accumulate km points := by
  have hser : Serial.accumulate km points =
      (List.range km.total_points).foldlM (accumulateStep km.total_values points)
        (sumsOf km.K km.total_values []) := by
    unfold Serial.accumulate forLoop
    rw [Nat.sub_zero, ← List.range_eq_range', sumsOf_nil]
  rw [hser]
  unfold Parallel.accumulate
  by_cases hall : ∀ i ∈ List.range km.total_points, Visitable km.K km.total_values points i
  · rw [foldlM_accumulate_visitable km.K km.total_values points _ hall [],
      mapM_localAccumulate_visitable km points parts (fun part hpart i hi =>
        hall i (hparts.mem_iff.mp (List.mem_flatten.mpr ⟨part, hpart, hi⟩)))]
    simp only [Option.some_bind, Option.bind_eq_bind]
    rw [← sumsOf_nil, foldlM_combineOne]
    exact congrArg some (sumsOf_perm km.K km.total_values _ _
      (List.Perm.append_left [] (List.Perm.filterMap (fun i => points[i]?) hparts)))
  · have hex : ∃ i ∈ List.range km.total_points,
        ¬ Visitable km.K km.total_values points i := by
      by_contra hne
      apply hall
      intro i hi
      by_contra hv
      exact hne ⟨i, hi, hv⟩
    rw [foldlM_accumulate_not_visitable km.K km.total_values points _ hex []]
    obtain ⟨i, hi, hv⟩ := hex
    obtain ⟨part, hpart, hip⟩ := List.mem_flatten.mp (hparts.mem_iff.mpr hi)
    have hnone : Parallel.localAccumulate km points part = none := by
      unfold Parallel.localAccumulate
      rw [← sumsOf_nil]
      exact foldlM_accumulate_not_visitable km.K km.total_values points part ⟨i, hip, hv⟩ []
    rw [mapM_eq_none_of_mem _ parts part hpart hnone]
    rfl

theorem parallel_recompute_eq_serial (km : KMeans) (sched : Parallel.Schedule)
    (points : List Point) (hparts : sched.parts.flatten.Perm (List.range km.total_points))
    (hupd : sched.update.Perm (List.range km.K)) :
    Parallel.recompute km sched points = Serial.recompute km points := by
  unfold Parallel.recompute Serial.recompute
  rw [parallel_accumulate_eq_serial km sched.parts points hparts]
  cases Serial.accumulate km points with
  | none => rfl
  | some acc =>
    simp only [Option.some_bind, Option.bind_eq_bind]
    rw [parallel_updateCenters_eq_serial km sched.update acc hupd]

theorem parallel_iteration_eq_serial (sched : Parallel.Schedule) (st : KMeans × List Point)
    (hs : sched.Valid st.1) : Parallel.iteration sched st = Serial.iteration st := by
  unfold Parallel.iteration Serial.iteration
  rw [parallel_assignPass_eq_serial st.1 sched.assign st.2 hs.1]
  cases Serial.assignPass st.1 st.2 with
  | none => rfl
  | some r =>
    simp only [Option.some_bind, Option.bind_eq_bind]
    rw [parallel_recompute_eq_serial st.1 sched r.1 hs.2.1 hs.2.2]


theorem serial_iteration_fields (st : KMeans × List Point)
    (r : (KMeans × List Point) × Bool) (h : Serial.iteration st = some r) :
    r.1.1.K = st.1.K ∧ r.1.1.total_points = st.1.total_points := by
  unfold Serial.iteration at h
  cases ha : Serial.assignPass st.1 st.2 with
  | none => rw [ha] at h; exact absurd h (by simp)
  | some a =>
    rw [ha] at h
    simp only [Option.some_bind, Option.bind_eq_bind] at h
    unfold Serial.recompute at h
    cases hacc : Serial.accumulate st.1 a.1 with
    | none => rw [hacc] at h; exact absurd h (by simp)
    | some acc =>
      rw [hacc] at h
      simp only [Option.some_bind, Option.bind_eq_bind] at h
      cases hu : Serial.updateCenters st.1 acc with
      | none => rw [hu] at h; exact absurd h (by simp)
      | some cl =>
        rw [hu] at h
        simp only [Option.some_bind, pure, Option.some.injEq] at h
        rw [← h]
        exact ⟨rfl, rfl⟩

theorem parallel_run_eq_serial_general (km : KMeans) (scheds : Nat → Parallel.Schedule)
    (points : List Point) (draws : List Nat) (hs : ∀ i, (scheds i).Valid km) :
    Parallel.run km scheds points draws = Serial.run km points draws := by
  by_cases hg : km.K > km.total_points
  · unfold Parallel.run Serial.run
    rw [if_pos hg, if_pos hg]
  · have hg2 : km.K ≤ km.total_points := by omega
    rw [parallel_run_eq km scheds points draws hg2, serial_run_eq km points draws hg2]
    cases hseed : km.seed points draws with
    | none => rfl
    | some sd =>
      simp only [Option.some_bind, Option.bind_eq_bind]
      rw [← whileLoop_congr
        (fun st : KMeans × List Point => st.1.K = km.K ∧ st.1.total_points = km.total_points)
        km.max_iterations (fun _ => Serial.iteration)
        (fun iter => Parallel.iteration (scheds iter))
        (fun i st h => by
          have hv : (scheds i).Valid st.1 := by
            unfold Parallel.Schedule.Valid
            rw [h.1, h.2]
            exact hs i
          exact (parallel_iteration_eq_serial (scheds i) st hv).symm)
        (fun i st r h hr => by
          obtain ⟨h1, h2⟩ := serial_iteration_fields st r hr
          exact ⟨h1.trans h.1, h2.trans h.2⟩)
        _ 1 ⟨rfl, rfl⟩]

/-- C11: on every input (engine configuration, points, draws of `rand()`), the parallel run
under any valid schedules and the serial run give the same outcome: the same final
assignments, the same final centroid table and the same iteration count, in exact arithmetic;
and under the data-model invariants, once the seeding has completed, that outcome exists. -/
theorem serial_parallel_same_run (km : KMeans) (scheds : Nat → Parallel.Schedule)
    (points : List Point) (draws : List Nat) (hs : ∀ i, (scheds i).Valid km) :
    Parallel.run km scheds points draws = Serial.run km points draws ∧
    (∀ resS resP, Serial.run km points draws = some resS →
      Parallel.run km scheds points draws = some resP →
      resP.points = resS.points ∧ resP.km.clusters = resS.km.clusters ∧
        resP.iter = resS.iter) ∧
    (1 ≤ km.K → km.clusters = [] → points.length = km.total_points →
      (∀ p ∈ points, p.HasDim km.total_values) → (km.seed points draws).isSome = true →
      ∃ res, Serial.run km points draws = some res ∧
        Parallel.run km scheds points draws = some res) := by
  have heq := parallel_run_eq_serial_general km scheds points draws hs
  refine ⟨heq, ?_, ?_⟩
  · intro resS resP h1 h2
    rw [heq, h1] at h2
    rw [← Option.some.inj h2]
    exact ⟨rfl, rfl, rfl⟩
  · intro hK hcl hn hd hseed
    obtain ⟨sd, hsd⟩ := Option.isSome_iff_exists.mp hseed
    by_cases hg : km.K > km.total_points
    · refine ⟨{ km := km, points := points, iter := none }, ?_, ?_⟩
      · unfold Serial.run; rw [if_pos hg]
      · unfold Parallel.run; rw [if_pos hg]
    · obtain ⟨n, _, hrun, _, _, _⟩ :=
        run_closed_form km scheds points draws sd hK (by omega) hcl hn hd hs hsd
      exact ⟨_, hrun, by rw [heq, hrun]⟩

theorem serial_parallel_same_run_witness :
    lineSched.Valid lineKm ∧
    Parallel.run lineKm (fun _ => lineSched) linePoints lineDraws =
      Serial.run lineKm linePoints lineDraws ∧
    (∃ res, Serial.run lineKm linePoints lineDraws = some res ∧
      Parallel.run lineKm (fun _ => lineSched) linePoints lineDraws = some res) :=
  ⟨by decide,
    (serial_parallel_same_run lineKm (fun _ => lineSched) linePoints lineDraws
      (fun _ => (by decide : lineSched.Valid lineKm))).1,
    (serial_parallel_same_run lineKm (fun _ => lineSched) linePoints lineDraws
      (fun _ => (by decide : lineSched.Valid lineKm))).2.2 (by decide) (by decide) (by decide)
      (by decide) (by rw [lineSeed_eq]; rfl)⟩

/-! ## IEEE 754 arithmetic: signs and order -/

namespace Ieee

theorem twoPow_pos (e : Int) : 0 < twoPow e := by
  unfold twoPow
  split
  · positivity
  · positivity

theorem roundHalfEven_nonneg (m : ℚ) (h : 0 ≤ m) : 0 ≤ roundHalfEven m := by
  have hf : 0 ≤ ⌊m⌋ := Int.floor_nonneg.mpr h
  unfold roundHalfEven
  simp only
  split
  · exact hf
  · split
    · omega
    · split
      · exact hf
      · omega

theorem round_notNaN (q : ℚ) : (Dbl.round q).NotNaN := by
  unfold Dbl.round
  simp only
  split_ifs <;> trivial

theorem round_nonneg (q : ℚ) (h : 0 ≤ q) : (Dbl.round q).Nonneg := by
  unfold Dbl.round
  have hn : ¬ q < 0 := not_lt.mpr h
  split
  · exact le_refl _
  · simp only [hn, if_false, decide_False]
    split
    · rfl
    · show 0 ≤ _
      apply mul_nonneg
      · exact_mod_cast roundHalfEven_nonneg _ (div_nonneg h (le_of_lt (twoPow_pos _)))
      · exact le_of_lt (twoPow_pos _)

theorem nonneg_notNaN {a : Dbl} (h : a.Nonneg) : a.NotNaN := by
  cases a with
  | fin x => trivial
  | inf s => trivial
  | nan => exact (h : False).elim

theorem finite_notNaN {a : Dbl} (h : a.Finite) : a.NotNaN := by
  cases a with
  | fin x => trivial
  | inf s => trivial
  | nan => exact (h : False).elim

theorem sub_notNaN (a b : Dbl) (ha : a.NotNaN) (hb : b.Finite) : (a - b).NotNaN := by
  cases a with
  | fin x =>
    cases b with
    | fin y => exact round_notNaN _
    | inf s => exact (hb : False).elim
    | nan => exact (hb : False).elim
  | inf s =>
    cases b with
    | fin y => trivial
    | inf s => exact (hb : False).elim
    | nan => exact (hb : False).elim
  | nan => exact (ha : False).elim

theorem pow2_nonneg (a : Dbl) (ha : a.NotNaN) : (pow2 a).Nonneg := by
  cases a with
  | fin x => exact round_nonneg _ (mul_self_nonneg x)
  | inf s => rfl
  | nan => exact (ha : False).elim

theorem add_nonneg_dbl (a b : Dbl) (ha : a.Nonneg) (hb : b.Nonneg) : (a + b).Nonneg := by
  cases a with
  | fin x =>
    cases b with
    | fin y => exact round_nonneg _ (add_nonneg ha hb)
    | inf s => exact hb
    | nan => exact (hb : False).elim
  | inf s =>
    cases b with
    | fin y => exact ha
    | inf t =>
      have hs : s = false := ha
      have ht : t = false := hb
      subst hs; subst ht
      rfl
    | nan => exact (hb : False).elim
  | nan => exact (ha : False).elim

theorem sqrtApprox_nonneg (a : ℚ) : 0 ≤ sqrtApprox a := by
  unfold sqrtApprox
  simp only
  split
  · exact div_nonneg (Nat.cast_nonneg _) (Nat.cast_nonneg _)
  · apply div_nonneg _ (Nat.cast_nonneg _)
    have : (0 : ℚ) ≤ (isqrt ⌊a * ((4 ^ ((120 - ilog2 a) / 2).toNat : Nat) : ℚ)⌋.toNat : ℚ) :=
      Nat.cast_nonneg _
    linarith

theorem sqrt_nonneg (a : Dbl) (ha : a.Nonneg) : (sqrt a).Nonneg := by
  cases a with
  | fin x =>
    have hx : 0 ≤ x := ha
    unfold sqrt
    simp only [not_lt.mpr hx, if_false]
    split
    · exact le_refl _
    · exact round_nonneg _ (sqrtApprox_nonneg x)
  | inf s =>
    have hs : s = false := ha
    subst hs
    rfl
  | nan => exact (ha : False).elim

theorem dbl_lt_iff (a b : Dbl) : a < b ↔ Dbl.lt a b = true := Iff.rfl

theorem dbl_lt_irrefl (a : Dbl) : ¬ a < a := by
  rw [dbl_lt_iff]
  cases a with
  | fin x => simp [Dbl.lt]
  | inf s => cases s <;> simp [Dbl.lt]
  | nan => simp [Dbl.lt]

theorem dbl_lt_trans {a b c : Dbl} (h1 : a < b) (h2 : b < c) : a < c := by
  rw [dbl_lt_iff] at *
  rcases a with x | s | _ <;> rcases b with y | t | _ <;> rcases c with z | u | _ <;>
    simp only [Dbl.lt, decide_eq_true_eq, Bool.not_eq_true', Bool.and_eq_true] at * <;>
    first
      | exact lt_trans h1 h2
      | exact h2
      | exact h1
      | (subst_vars; simp_all)

theorem dbl_lt_of_lt_of_not_lt {a b c : Dbl} (hc : c.NotNaN) (h1 : a < b) (h2 : ¬ c < b) :
    a < c := by
  rw [dbl_lt_iff] at *
  rcases a with x | s | _ <;> rcases b with y | t | _ <;> rcases c with z | u | _ <;>
    simp only [Dbl.lt, decide_eq_true_eq, Bool.not_eq_true', Bool.and_eq_true, not_lt,
      Dbl.NotNaN] at * <;>
    first
      | exact lt_of_lt_of_le h1 h2
      | (cases s <;> cases t <;> cases u <;> simp_all)
      | (cases s <;> cases t <;> simp_all)
      | (cases s <;> cases u <;> simp_all)
      | (cases t <;> cases u <;> simp_all)
      | (cases s <;> simp_all)
      | (cases t <;> simp_all)
      | (cases u <;> simp_all)
      | simp_all

theorem dbl_pos_of_nonneg_ne_zero {a : Dbl} (h : a.Nonneg) (hne : a ≠ 0) : (0 : Dbl) < a := by
  rw [dbl_lt_iff]
  cases a with
  | fin x =>
    have hx : 0 ≤ x := h
    have hx2 : x ≠ 0 := fun h0 => hne (by rw [h0]; rfl)
    show Dbl.lt (Dbl.fin 0) (Dbl.fin x) = true
    simp only [Dbl.lt, decide_eq_true_eq]
    exact lt_of_le_of_ne hx (Ne.symm hx2)
  | inf s =>
    have hs : s = false := h
    subst hs
    rfl
  | nan => exact (h : False).elim

/-! ## Nearest centroid under IEEE arithmetic -/

theorem sumSquares_eq_ieee (km : KMeans) (point : Point) (i : Nat) (c : Cluster)
    (hc : km.clusters[i]? = some c) (hcd : c.central_values.length = km.total_values)
    (hp : point.values.length = km.total_values) :
    km.sumSquares i point = some (sumSq c.central_values point.values) := by
  have key := forLoop_inv
    (fun j (sum : Dbl) => sum =
      ((List.zipWith (fun x y => pow2 (x - y)) c.central_values point.values).take j).foldl
        (fun s x => s + x) 0)
    0 km.total_values (km.sumSquaresStep i point) 0 (Nat.zero_le _) (by simp)
    (by
      intro j t _ hj ht
      have h1 : j < c.central_values.length := by omega
      have h2 : j < point.values.length := by omega
      refine ⟨t + pow2 (c.central_values[j] - point.values[j]), ?_, ?_⟩
      · simp [KMeans.sumSquaresStep, hc, Cluster.getCentralValue, Point.getValue,
          List.getElem?_eq_getElem h1, List.getElem?_eq_getElem h2]
      · show _ = _
        rw [List.take_succ, List.foldl_append, ← ht]
        simp [List.getElem?_zipWith, List.getElem?_eq_getElem h1, List.getElem?_eq_getElem h2])
  obtain ⟨t, ht, hinv⟩ := key
  unfold KMeans.sumSquares
  rw [ht, hinv]
  simp only [sumSq]
  rw [List.take_of_length_le]
  simp [List.length_zipWith, hcd, hp]

theorem sumSquares_of_wf_ieee (km : KMeans) (point : Point) (hwf : km.WF)
    (hp : point.values.length = km.total_values) (i : Nat) (hi : i < km.K) :
    ∃ s, km.sumSquares i point = some s ∧ sqrt s = km.distTo point i := by
  have hi2 : i < km.clusters.length := by rw [hwf.1]; exact hi
  have hc : km.clusters[i]? = some km.clusters[i] := List.getElem?_eq_getElem hi2
  refine ⟨_, sumSquares_eq_ieee km point i km.clusters[i] hc
    (hwf.2 _ (List.getElem_mem hi2)) hp, ?_⟩
  rw [KMeans.distTo, hc]
  rfl

theorem getIDNearestCenter_spec_ieee (km : KMeans) (point : Point) (hK : 1 ≤ km.K) (hwf : km.WF)
    (hp : point.values.length = km.total_values) :
    ∃ c, km.getIDNearestCenter point = some c ∧ c < km.K ∧
      ((∀ i, i < km.K → (km.distTo point i).NotNaN) → km.FirstMinimal point km.K c) := by
  have key := forLoop_inv
    (fun m (st : Dbl × Nat) => st.1 = km.distTo point st.2 ∧ st.2 < m ∧
      ((∀ i, i < km.K → (km.distTo point i).NotNaN) → km.FirstMinimal point m st.2))
    1 km.K (km.nearestStep point) (km.distTo point 0, 0) hK
    ⟨rfl, Nat.zero_lt_one, fun _ => ⟨Nat.zero_lt_one, fun i hi => by
      have : i = 0 := by omega
      subst this; exact dbl_lt_irrefl _, fun i hi => absurd hi (Nat.not_lt_zero _)⟩⟩
    (by
      rintro i ⟨r, c⟩ h1 hi ⟨hr, hc, hfm⟩
      simp only at hr hc hfm
      subst hr
      unfold KMeans.nearestStep
      obtain ⟨s, hs1, hs2⟩ := sumSquares_of_wf_ieee km point hwf hp i hi
      rw [hs1]
      simp only [Option.some_bind, Option.bind_eq_bind, hs2]
      by_cases hlt : km.distTo point i < km.distTo point c
      · refine ⟨(km.distTo point i, i), ?_, rfl, Nat.lt_succ_self i, ?_⟩
        · simp only [hlt, if_true]; rfl
        · intro hnn
          obtain ⟨_, hmin, hfirst⟩ := hfm hnn
          refine ⟨Nat.lt_succ_self i, ?_, ?_⟩
          · intro k hk hki
            rcases Nat.lt_or_ge k i with hk2 | hk2
            · exact hmin k hk2 (dbl_lt_trans hki hlt)
            · have : k = i := by omega
              subst this; exact dbl_lt_irrefl _ hki
          · intro k hk
            exact dbl_lt_of_lt_of_not_lt (hnn k (by omega)) hlt (hmin k hk)
      · refine ⟨(km.distTo point c, c), ?_, rfl, Nat.lt_succ_of_lt hc, ?_⟩
        · simp only [hlt, if_false]; rfl
        · intro hnn
          obtain ⟨_, hmin, hfirst⟩ := hfm hnn
          refine ⟨Nat.lt_succ_of_lt hc, ?_, hfirst⟩
          intro k hk
          rcases Nat.lt_or_ge k i with hk2 | hk2
          · exact hmin k hk2
          · have : k = i := by omega
            subst this; exact hlt)
  obtain ⟨st, hst, -, hlt, hfn⟩ := key
  refine ⟨st.2, ?_, hlt, hfn⟩
  unfold KMeans.getIDNearestCenter
  obtain ⟨s, hs1, hs2⟩ := sumSquares_of_wf_ieee km point hwf hp 0 hK
  rw [hs1]
  simp only [Option.some_bind, Option.bind_eq_bind, hs2, hst]
  rfl

theorem foldl_add_nonneg (l : List Dbl) (acc : Dbl) (hacc : acc.Nonneg)
    (hl : ∀ x ∈ l, x.Nonneg) : (l.foldl (fun s x => s + x) acc).Nonneg := by
  induction l generalizing acc with
  | nil => exact hacc
  | cons a l ih =>
    rw [List.foldl_cons]
    exact ih _ (add_nonneg_dbl _ _ hacc (hl a (List.mem_cons_self _ _)))
      (fun x hx => hl x (List.mem_cons_of_mem _ hx))

theorem sumSq_nonneg (c p : List Dbl) (hc : ∀ x ∈ c, x.NotNaN) (hp : ∀ y ∈ p, y.Finite) :
    (sumSq c p).Nonneg := by
  unfold sumSq
  apply foldl_add_nonneg _ (0 : Dbl) (show (0 : Dbl).Nonneg from le_refl (0 : ℚ))
  intro x hx
  obtain ⟨n, hn, rfl⟩ := List.mem_iff_getElem.mp hx
  rw [List.getElem_zipWith]
  exact pow2_nonneg _ (sub_notNaN _ _ (hc _ (List.getElem_mem _)) (hp _ (List.getElem_mem _)))

theorem distTo_nonneg (km : KMeans) (point : Point)
    (hc : ∀ c ∈ km.clusters, ∀ x ∈ c.central_values, x.NotNaN)
    (hp : ∀ y ∈ point.values, y.Finite) (i : Nat) : (km.distTo point i).Nonneg := by
  unfold KMeans.distTo
  cases h : km.clusters[i]? with
  | none => exact (show (0 : Dbl).Nonneg from le_refl (0 : ℚ))
  | some c =>
    exact sqrt_nonneg _ (sumSq_nonneg _ _ (hc c (List.getElem?_mem h)) hp)


end Ieee

/-! ## Seeding and the assignment pass under IEEE arithmetic -/

namespace Ieee

theorem vecOf_getD_ieee (D : Nat) (l : List Dbl) (h : l.length = D) :
    vecOf D (fun j => l.getD j 0) = l := by
  apply List.ext_getElem?
  intro j
  rcases Nat.lt_or_ge j D with hj | hj
  · rw [vecOf_getElem? _ _ _ hj, List.getD_eq_getElem?_getD,
      List.getElem?_eq_getElem (by omega)]
    rfl
  · rw [List.getElem?_eq_none (by simp [vecOf_length]; exact hj),
      List.getElem?_eq_none (by omega)]

theorem Cluster.new_eq_ieee (id : Int) (p : Point) :
    Cluster.new id p = some { id_cluster := id, central_values := p.values } := by
  have key := forLoop_inv
    (fun j (cv : List Dbl) => cv = vecOf p.values.length
      (fun k => if k < j then p.values.getD k 0 else 0))
    0 p.values.length (Cluster.copyValue p) (List.replicate p.values.length 0) (Nat.zero_le _)
    (by simp [vecOf_const])
    (by
      intro j t _ hj ht
      subst ht
      refine ⟨_, ?_, rfl⟩
      unfold Cluster.copyValue
      simp only [Point.getValue, List.getElem?_eq_getElem hj, Option.some_bind,
        Option.bind_eq_bind, writeAt_vecOf _ _ _ _ hj, Option.some.injEq]
      apply vecOf_congr
      intro k _
      by_cases h2 : k = j
      · subst h2; simp [List.getD_eq_getElem?_getD, List.getElem?_eq_getElem hj]
      · have h3 : k < j + 1 ↔ k < j := by omega
        simp [h2, h3])
  obtain ⟨t, ht, hinv⟩ := key
  unfold Cluster.new Point.getTotalValues
  have h2 : t = p.values := by
    rw [hinv]
    refine Eq.trans (vecOf_congr _ _ _ ?_) (vecOf_getD_ieee p.values.length p.values rfl)
    intro k hk
    simp [hk]
  rw [ht, h2, Option.map_some']

theorem seedWhile_some_ieee (tp i : Nat) (proh : List Nat) (pts : List Point) (cls : List Cluster)
    (draws : List Nat) (sd : SeedState) (h : seedWhile tp i proh pts cls draws = some sd) :
    ∃ idx p0, idx < tp ∧ idx ∉ proh ∧ pts[idx]? = some p0 ∧
      sd.prohibited_indexes = proh ++ [idx] ∧ sd.points = pts.set idx (p0.setCluster i) ∧
      sd.clusters = cls ++ [{ id_cluster := i, central_values := p0.values }] := by
  induction draws with
  | nil => simp [seedWhile] at h
  | cons r draws ih =>
    unfold seedWhile at h
    by_cases htp : tp = 0
    · simp [htp] at h
    · simp only [htp, if_false] at h
      by_cases hmem : r % tp ∈ proh
      · simp only [hmem, not_true_eq_false, if_false] at h
        exact ih h
      · simp only [hmem, not_false_eq_true, if_true] at h
        cases hp : pts[r % tp]? with
        | none => rw [hp] at h; simp at h
        | some p0 =>
          have hlt := lt_length_of_getElem?_eq_some hp
          rw [hp] at h
          simp only [Option.some_bind, Option.bind_eq_bind, writeAt, hlt, if_true,
            getElem?_set_self_of_lt _ _ _ hlt, Cluster.new_eq_ieee, pure, Option.some.injEq] at h
          refine ⟨r % tp, p0, Nat.mod_lt _ (Nat.pos_of_ne_zero htp), hmem, hp, ?_, ?_, ?_⟩
          · rw [← h]
          · rw [← h]
          · rw [← h]; rfl

theorem seedStep_seeded_ieee (points : List Point) (total_points i : Nat) (st st' : SeedState)
    (hinv : Seeded points total_points i st) (h : seedStep total_points st i = some st') :
    Seeded points total_points (i + 1) st' := by
  obtain ⟨hlen, hnd, hlt, hcl, hpl, hacc, hrest⟩ := hinv
  obtain ⟨idx, p0, hidx, hnot, hp0, e1, e2, e3⟩ := seedWhile_some_ieee _ _ _ _ _ _ _ h
  have hp0' : points[idx]? = some p0 := by rw [← hrest idx hnot]; exact hp0
  have hidxlt : idx < st.points.length := lt_length_of_getElem?_eq_some hp0
  refine ⟨?_, ?_, ?_, ?_, ?_, ?_, ?_⟩
  · rw [e1, List.length_append, hlen]; rfl
  · rw [e1]
    refine List.Nodup.append hnd (List.nodup_singleton _) ?_
    intro a ha hb
    rw [List.mem_singleton] at hb
    exact hnot (hb ▸ ha)
  · intro a ha
    rw [e1, List.mem_append, List.mem_singleton] at ha
    rcases ha with ha | ha
    · exact hlt a ha
    · rw [ha]; exact hidx
  · rw [e3, List.length_append, hcl]; rfl
  · rw [e2, List.length_set, hpl]
  · intro k hk
    rcases Nat.lt_or_ge k i with hki | hki
    · obtain ⟨a, q, h1, h2, h3, h4⟩ := hacc k hki
      have hne : idx ≠ a := by
        intro he
        exact hnot (he ▸ List.getElem?_mem h1)
      refine ⟨a, q, ?_, h2, ?_, ?_⟩
      · rw [e1, List.getElem?_append_left (by rw [hlen]; exact hki)]; exact h1
      · rw [e2, getElem?_set_of_ne _ _ _ _ hne]; exact h3
      · rw [e3, List.getElem?_append_left (by rw [hcl]; exact hki)]; exact h4
    · have hk2 : k = i := by omega
      subst hk2
      refine ⟨idx, p0, ?_, hp0', ?_, ?_⟩
      · rw [e1, List.getElem?_append_right (by rw [hlen]), hlen, Nat.sub_self]; rfl
      · rw [e2, getElem?_set_self_of_lt _ _ _ hidxlt]
      · rw [e3, List.getElem?_append_right (by rw [hcl]), hcl, Nat.sub_self]; rfl
  · intro a ha
    rw [e1, List.mem_append, List.mem_singleton] at ha
    have hne : idx ≠ a := fun he => ha (Or.inr he.symm)
    rw [e2, getElem?_set_of_ne _ _ _ _ hne]
    exact hrest a (fun hm => ha (Or.inl hm))

theorem seed_seeded_ieee (km : KMeans) (points : List Point) (draws : List Nat) (sd : SeedState)
    (hcl : km.clusters = []) (h : km.seed points draws = some sd) :
    Seeded points km.total_points km.K sd := by
  unfold KMeans.seed at h
  refine forLoop_inv_of_some (fun i st => Seeded points km.total_points i st) 0 km.K
    (seedStep km.total_points) _ (Nat.zero_le _) ?_ ?_ sd h
  · rw [hcl]
    exact ⟨rfl, List.nodup_nil, fun _ h => absurd h (List.not_mem_nil _), rfl, rfl,
      fun k hk => absurd hk (Nat.not_lt_zero _), fun _ _ => rfl⟩
  · intro i t t' _ _ hinv hstep
    exact seedStep_seeded_ieee points km.total_points i t t' hinv hstep

theorem Seeded.point_cases_ieee {points : List Point} {tp K : Nat} {sd : SeedState}
    (h : Seeded points tp K sd) (idx : Nat) (p : Point) (hp : sd.points[idx]? = some p) :
    ∃ p0, points[idx]? = some p0 ∧
      (p = p0 ∨ ∃ k, k < K ∧ sd.prohibited_indexes[k]? = some idx ∧ p = p0.setCluster k) := by
  obtain ⟨hlen, _, _, _, _, hacc, hrest⟩ := h
  by_cases hm : idx ∈ sd.prohibited_indexes
  · obtain ⟨k, hk⟩ := List.mem_iff_getElem?.mp hm
    have hkK : k < K := by rw [← hlen]; exact lt_length_of_getElem?_eq_some hk
    obtain ⟨a, q, h1, h2, h3, _⟩ := hacc k hkK
    have ha : a = idx := by rw [h1] at hk; exact Option.some.inj hk
    subst ha
    refine ⟨q, h2, Or.inr ⟨k, hkK, h1, ?_⟩⟩
    rw [h3] at hp; exact (Option.some.inj hp).symm
  · refine ⟨p, ?_, Or.inl rfl⟩
    rw [← hrest idx hm]; exact hp

theorem seed_loopInv_ieee (km : KMeans) (points : List Point) (draws : List Nat) (sd : SeedState)
    (hK : 1 ≤ km.K) (hcl : km.clusters = []) (hn : points.length = km.total_points)
    (hd : ∀ p ∈ points, p.HasDim km.total_values) (h : km.seed points draws = some sd) :
    LoopInv ({ km with clusters := sd.clusters }, sd.points) := by
  have hs := seed_seeded_ieee km points draws sd hcl h
  obtain ⟨hlen, _, _, hcln, hpl, hacc, hrest⟩ := hs
  refine ⟨hK, ⟨hcln, ?_⟩, by rw [hpl, hn], ?_⟩
  · intro c hc
    have hc' : c ∈ sd.clusters := hc
    obtain ⟨k, hk⟩ := List.mem_iff_getElem?.mp hc'
    have hkK : k < km.K := by rw [← hcln]; exact lt_length_of_getElem?_eq_some hk
    obtain ⟨a, q, _, h2, _, h4⟩ := hacc k hkK
    rw [h4] at hk
    rw [← Option.some.inj hk]
    exact hd q (List.getElem?_mem h2)
  · intro p hp
    have hp' : p ∈ sd.points := hp
    obtain ⟨idx, hidx⟩ := List.mem_iff_getElem?.mp hp'
    obtain ⟨p0, h0, hcase⟩ := (seed_seeded_ieee km points draws sd hcl h).point_cases_ieee idx p hidx
    have hd0 := hd p0 (List.getElem?_mem h0)
    rcases hcase with rfl | ⟨k, _, _, rfl⟩
    · exact hd0
    · exact hd0

theorem all_seeded_ieee (km : KMeans) (points : List Point) (draws : List Nat) (sd : SeedState)
    (hcl : km.clusters = [])
    (hKn : km.K = km.total_points) (hseed : km.seed points draws = some sd) (idx : Nat)
    (hidx : idx < km.total_points) :
    ∃ k p0, k < km.K ∧ sd.prohibited_indexes[k]? = some idx ∧ points[idx]? = some p0 ∧
      sd.points[idx]? = some (p0.setCluster k) ∧
      sd.clusters[k]? = some { id_cluster := k, central_values := p0.values } := by
  obtain ⟨hlen, hnd, hlt, _, _, hk, _⟩ := seed_seeded_ieee km points draws sd hcl hseed
  have hperm := nodup_perm_range sd.prohibited_indexes km.total_points hnd
    (by rw [hlen, hKn]) hlt
  have hmem : idx ∈ sd.prohibited_indexes := hperm.mem_iff.mpr (List.mem_range.mpr hidx)
  obtain ⟨k, hkidx⟩ := List.mem_iff_getElem?.mp hmem
  have hkK : k < km.K := by rw [← hlen]; exact lt_length_of_getElem?_eq_some hkidx
  obtain ⟨a, p0, h1, h2, h3, h4⟩ := hk k hkK
  have ha : a = idx := by rw [h1] at hkidx; exact Option.some.inj hkidx
  subst ha
  exact ⟨k, p0, hkK, h1, h2, h3, h4⟩

theorem getIDNearestCenter_eq_nearest_ieee (km : KMeans) (p : Point) (hK : 1 ≤ km.K) (hwf : km.WF)
    (hp : p.HasDim km.total_values) :
    km.getIDNearestCenter p = some (km.nearest p) ∧ km.nearest p < km.K := by
  obtain ⟨c, hc, hlt, _⟩ := getIDNearestCenter_spec_ieee km p hK hwf hp
  simp [KMeans.nearest, hc, hlt]

theorem assignStep_eq_ieee (km : KMeans) (hK : 1 ≤ km.K) (hwf : km.WF) (l : List Point) (d : Bool)
    (i : Nat) (p : Point) (hi : l[i]? = some p) (hp : p.HasDim km.total_values) :
    km.assignStep (l, d) i =
      some (l.set i (p.setCluster (km.nearest p)),
        d && decide (p.id_cluster = (km.nearest p : Int))) := by
  have hlt := lt_length_of_getElem?_eq_some hi
  unfold KMeans.assignStep
  simp only [hi, Option.some_bind, Option.bind_eq_bind,
    (getIDNearestCenter_eq_nearest_ieee km p hK hwf hp).1, Point.getCluster]
  by_cases h : p.id_cluster = (km.nearest p : Int)
  · have hp2 : p.setCluster (km.nearest p) = p := by
      unfold Point.setCluster
      rw [← h]
    rw [hp2, set_eq_self l i p hi]
    simp only [ne_eq, h, not_true_eq_false, if_false, decide_True, Bool.and_true]
    rfl
  · simp only [ne_eq, h, not_false_eq_true, if_true, writeAt, hlt, decide_False,
      Bool.and_false, Option.some_bind, Option.bind_eq_bind]
    rfl

theorem foldlM_assignStep_ieee (km : KMeans) (hK : 1 ≤ km.K) (hwf : km.WF) (points : List Point)
    (L : List Nat) (hL : L.Perm (List.range points.length))
    (hd : ∀ p ∈ points, p.HasDim km.total_values) :
    L.foldlM km.assignStep (points, true) = some (km.reassign points, km.stable points) := by
  have hmem : ∀ i, i ∈ L ↔ i < points.length := fun i => by rw [hL.mem_iff, List.mem_range]
  obtain ⟨r, d, hr, hrl, hget, hflag⟩ := foldlM_pointwise_flag km.assignStep
    (fun _ p => p.setCluster (km.nearest p))
    (fun _ p => decide (p.id_cluster = (km.nearest p : Int)))
    (fun _ p => p.HasDim km.total_values)
    (fun l d i x hx hP => assignStep_eq_ieee km hK hwf l d i x hx hP)
    L (hL.nodup_iff.mpr (List.nodup_range _)) points true
    (fun i hi => (hmem i).mp hi)
    (fun i _ x hx => hd x (List.getElem?_mem hx))
  rw [hr]
  have h1 : r = km.reassign points := by
    apply List.ext_getElem?
    intro i
    rcases Nat.lt_or_ge i points.length with hi | hi
    · rw [hget i points[i] (List.getElem?_eq_getElem hi)]
      simp [KMeans.reassign, (hmem i).mpr hi, List.getElem?_eq_getElem hi]
    · rw [List.getElem?_eq_none (by omega), List.getElem?_eq_none (by simp [KMeans.reassign]; omega)]
  have h2 : d = km.stable points := by
    rw [Bool.eq_iff_iff, hflag, KMeans.stable, List.all_eq_true]
    constructor
    · rintro ⟨-, h⟩ p hp
      obtain ⟨i, hi⟩ := List.mem_iff_getElem?.mp hp
      exact h i ((hmem i).mpr (lt_length_of_getElem?_eq_some hi)) p hi
    · intro h
      exact ⟨rfl, fun i _ x hx => h x (List.getElem?_mem hx)⟩
  rw [h1, h2]

theorem serial_assignPass_eq_ieee (km : KMeans) (hK : 1 ≤ km.K) (hwf : km.WF) (points : List Point)
    (hn : points.length = km.total_points) (hd : ∀ p ∈ points, p.HasDim km.total_values) :
    Serial.assignPass km points = some (km.reassign points, km.stable points) := by
  unfold Serial.assignPass forLoop
  rw [Nat.sub_zero, ← List.range_eq_range']
  exact foldlM_assignStep_ieee km hK hwf points _ (by rw [hn]) hd

theorem parallel_assignPass_eq_ieee (km : KMeans) (hK : 1 ≤ km.K) (hwf : km.WF)
    (points : List Point) (order : List Nat) (hn : points.length = km.total_points)
    (ho : order.Perm (List.range km.total_points))
    (hd : ∀ p ∈ points, p.HasDim km.total_values) :
    Parallel.assignPass km order points = some (km.reassign points, km.stable points) :=
  foldlM_assignStep_ieee km hK hwf points order (by rw [hn]; exact ho) hd

theorem reassign_length_ieee (km : KMeans) (points : List Point) :
    (km.reassign points).length = points.length := by
  simp [KMeans.reassign]

theorem reassign_hasDim_ieee (km : KMeans) (points : List Point) (D : Nat)
    (h : ∀ p ∈ points, p.HasDim D) : ∀ p ∈ km.reassign points, p.HasDim D := by
  intro p hp
  obtain ⟨q, hq, rfl⟩ := List.mem_map.mp hp
  exact h q hq

theorem reassign_assigned_ieee (km : KMeans) (hK : 1 ≤ km.K) (hwf : km.WF) (points : List Point)
    (h : ∀ p ∈ points, p.HasDim km.total_values) :
    ∀ p ∈ km.reassign points, p.Assigned km.K := by
  intro p hp
  obtain ⟨q, hq, rfl⟩ := List.mem_map.mp hp
  have := (getIDNearestCenter_eq_nearest_ieee km q hK hwf (h q hq)).2
  constructor
  · exact Int.ofNat_nonneg _
  · show ((km.nearest q : Nat) : Int) < _
    exact_mod_cast this

theorem reassign_eq_self_ieee (km : KMeans) (points : List Point)
    (h : ∀ p ∈ points, p.id_cluster = (km.nearest p : Int)) :
    km.reassign points = points ∧ km.stable points = true := by
  constructor
  · unfold KMeans.reassign
    conv_rhs => rw [← List.map_id points]
    apply List.map_congr_left
    intro p hp
    unfold Point.setCluster
    rw [← h p hp]
    rfl
  · unfold KMeans.stable
    rw [List.all_eq_true]
    intro p hp
    exact decide_eq_true (h p hp)

theorem getIDNearestCenter_setCluster_ieee (km : KMeans) (p : Point) (c : Int) :
    km.getIDNearestCenter (p.setCluster c) = km.getIDNearestCenter p := rfl


end Ieee

/-! ## The accumulation and the reduction under IEEE arithmetic -/

namespace Ieee

theorem accumulateValue_vecOf_ieee (K D : Nat) (F : Nat → Nat → Dbl) (points : List Point) (i : Nat)
    (p : Point) (hp : points[i]? = some p) (hd : D ≤ p.values.length) (c : Nat) (hc : c < K)
    (j : Nat) (hj : j < D) :
    accumulateValue points i (c : Int) (vecOf K (fun c' => vecOf D (F c'))) j =
      some (vecOf K (fun c' => vecOf D
        (fun j' => if c' = c ∧ j' = j then F c j + p.values.getD j 0 else F c' j'))) := by
  have hjp : j < p.values.length := lt_of_lt_of_le hj hd
  unfold accumulateValue
  simp only [hp, readAt_natCast, writeAtInt_natCast, vecOf_getElem? _ _ _ hc,
    Point.getValue, List.getElem?_eq_getElem hjp, Option.some_bind,
    vecOf_getElem? _ _ _ hj, Option.bind_eq_bind, writeAt_vecOf _ _ _ _ hj,
    writeAt_vecOf _ _ _ _ hc]
  congr 1
  apply vecOf_congr
  intro c' hc'
  by_cases h : c' = c
  · subst h
    simp only [if_true, true_and]
    apply vecOf_congr
    intro j' _
    simp [List.getD_eq_getElem?_getD, List.getElem?_eq_getElem hjp]
  · simp [h]

theorem vecOf_cell_congr_ieee (K D : Nat) (F G : Nat → Nat → Dbl)
    (h : ∀ c, c < K → ∀ j, j < D → F c j = G c j) :
    vecOf K (fun c => vecOf D (F c)) = vecOf K (fun c => vecOf D (G c)) :=
  vecOf_congr _ _ _ (fun c hc => vecOf_congr _ _ _ (fun j hj => h c hc j hj))

theorem combineValue_vecOf_ieee (K D : Nat) (F G : Nat → Nat → Dbl) (loc : LocalVars)
    (hloc : loc.centers = vecOf K (fun c => vecOf D (G c))) (i : Nat) (hi : i < K) (j : Nat)
    (hj : j < D) :
    Parallel.combineValue loc i (vecOf K (fun c => vecOf D (F c))) j =
      some (vecOf K (fun c => vecOf D
        (fun j' => if c = i ∧ j' = j then F i j + G i j else F c j'))) := by
  unfold Parallel.combineValue
  simp only [hloc, vecOf_getElem? _ _ _ hi, vecOf_getElem? _ _ _ hj, Option.some_bind,
    Option.bind_eq_bind, writeAt_vecOf _ _ _ _ hj, writeAt_vecOf _ _ _ _ hi]
  congr 1
  apply vecOf_congr
  intro c _
  by_cases h : c = i
  · subst h
    simp only [if_true, true_and]
  · simp [h]

theorem combineRow_vecOf_ieee (K D : Nat) (F G : Nat → Nat → Dbl) (f g : Nat → Nat) (i : Nat)
    (hi : i < K) :
    Parallel.combineRow D
        { centers := vecOf K (fun c => vecOf D (G c)), counts := vecOf K g }
        { centers := vecOf K (fun c => vecOf D (F c)), counts := vecOf K f } i =
      some { centers := vecOf K (fun c => vecOf D (fun j => if c = i then F c j + G c j else F c j)),
             counts := vecOf K (fun c => if c = i then f c + g c else f c) } := by
  have key := forLoop_inv
    (fun j (centers : List (List Dbl)) => centers = vecOf K (fun c => vecOf D (fun j' =>
      if c = i ∧ j' < j then F c j' + G c j' else F c j')))
    0 D (Parallel.combineValue
      { centers := vecOf K (fun c => vecOf D (G c)), counts := vecOf K g } i)
    (vecOf K (fun c => vecOf D (F c))) (Nat.zero_le _) (by simp)
    (by
      intro j t _ hj ht
      subst ht
      refine ⟨_, combineValue_vecOf_ieee K D _ G _ rfl i hi j hj, ?_⟩
      show _ = _
      apply vecOf_cell_congr_ieee
      intro c _ j' _
      by_cases h1 : c = i
      · subst h1
        by_cases h2 : j' = j
        · subst h2; simp
        · have h3 : j' < j + 1 ↔ j' < j := by omega
          simp [h2, h3]
      · simp [h1])
  obtain ⟨t, ht, hinv⟩ := key
  unfold Parallel.combineRow
  simp only [vecOf_getElem? _ _ _ hi, Option.some_bind, Option.bind_eq_bind,
    writeAt_vecOf _ _ _ _ hi, ht, pure, Option.some.injEq, LocalVars.mk.injEq]
  constructor
  · rw [hinv]
    apply vecOf_cell_congr_ieee
    intro c _ j' hj'
    simp [hj']
  · apply vecOf_congr
    intro c _
    by_cases h : c = i
    · subst h; simp
    · simp [h]

theorem combineOne_vecOf_ieee (km : KMeans) (F G : Nat → Nat → Dbl) (f g : Nat → Nat) :
    Parallel.combineOne km
        { centers := vecOf km.K (fun c => vecOf km.total_values (F c)), counts := vecOf km.K f }
        { centers := vecOf km.K (fun c => vecOf km.total_values (G c)), counts := vecOf km.K g } =
      some { centers := vecOf km.K (fun c => vecOf km.total_values (fun j => F c j + G c j)),
             counts := vecOf km.K (fun c => f c + g c) } := by
  have key := forLoop_inv
    (fun i (acc : LocalVars) => acc =
      { centers := vecOf km.K (fun c => vecOf km.total_values
          (fun j => if c < i then F c j + G c j else F c j)),
        counts := vecOf km.K (fun c => if c < i then f c + g c else f c) })
    0 km.K (Parallel.combineRow km.total_values
      { centers := vecOf km.K (fun c => vecOf km.total_values (G c)), counts := vecOf km.K g })
    { centers := vecOf km.K (fun c => vecOf km.total_values (F c)), counts := vecOf km.K f }
    (Nat.zero_le _) (by simp)
    (by
      intro i t _ hi ht
      subst ht
      refine ⟨_, combineRow_vecOf_ieee km.K km.total_values _ G _ g i hi, ?_⟩
      show _ = _
      rw [LocalVars.mk.injEq]
      constructor
      · apply vecOf_cell_congr_ieee
        intro c _ j _
        by_cases h1 : c = i
        · subst h1; simp
        · have h3 : c < i + 1 ↔ c < i := by omega
          simp [h1, h3]
      · apply vecOf_congr
        intro c _
        by_cases h1 : c = i
        · subst h1; simp
        · have h3 : c < i + 1 ↔ c < i := by omega
          simp [h1, h3])
  obtain ⟨t, ht, hinv⟩ := key
  unfold Parallel.combineOne
  rw [ht, hinv, Option.some.injEq, LocalVars.mk.injEq]
  constructor
  · apply vecOf_cell_congr_ieee
    intro c hc j _
    simp [hc]
  · apply vecOf_congr
    intro c hc
    simp [hc]

theorem Point.Assigned.exists_nat_ieee {K : Nat} {p : Point} (h : p.Assigned K) :
    ∃ c : Nat, c < K ∧ p.id_cluster = (c : Int) := by
  obtain ⟨h0, h1⟩ := h
  refine ⟨p.id_cluster.toNat, ?_, ?_⟩
  · omega
  · omega


theorem cell_mk (K D : Nat) (F : Nat → Nat → Dbl) (f : Nat → Nat) (c : Nat) (hc : c < K)
    (j : Nat) (hj : j < D) :
    LocalVars.cell { centers := vecOf K (fun c => vecOf D (F c)), counts := vecOf K f } c j =
      F c j := by
  simp [LocalVars.cell, List.getD_eq_getElem?_getD, vecOf_getElem? _ _ _ hc,
    vecOf_getElem? _ _ _ hj]

theorem count_mk (K : Nat) (centers : List (List Dbl)) (f : Nat → Nat) (c : Nat) (hc : c < K) :
    LocalVars.count { centers := centers, counts := vecOf K f } c = f c := by
  simp [LocalVars.count, List.getD_eq_getElem?_getD, vecOf_getElem? _ _ _ hc]

theorem shape_mk (K D : Nat) (F : Nat → Nat → Dbl) (f : Nat → Nat) :
    Shape K D { centers := vecOf K (fun c => vecOf D (F c)), counts := vecOf K f } := by
  unfold Shape
  rw [LocalVars.mk.injEq]
  constructor
  · apply vecOf_cell_congr_ieee
    intro c hc j hj
    exact (cell_mk K D F f c hc j hj).symm
  · apply vecOf_congr
    intro c hc
    exact (count_mk K _ f c hc).symm

theorem new_shape (K D : Nat) : Shape K D (LocalVars.new K D) := by
  have : LocalVars.new K D =
      { centers := vecOf K (fun _ => vecOf D (fun _ => (0 : Dbl))),
        counts := vecOf K (fun _ => 0) } := by
    simp only [LocalVars.new, vecOf_const]
  rw [this]
  exact shape_mk K D _ _

theorem accumulateStep_vecOf (K D : Nat) (F : Nat → Nat → Dbl) (f : Nat → Nat)
    (points : List Point) (i : Nat) (p : Point) (hp : points[i]? = some p)
    (hd : D ≤ p.values.length) (c : Nat) (hc : c < K) (hpc : p.id_cluster = (c : Int)) :
    accumulateStep D points
        { centers := vecOf K (fun c' => vecOf D (F c')), counts := vecOf K f } i =
      some { centers := vecOf K (fun c' => vecOf D (fun j =>
               if c' = c then F c' j + p.values.getD j 0 else F c' j)),
             counts := vecOf K (fun c' => if c' = c then f c' + 1 else f c') } := by
  have key := forLoop_inv
    (fun j (centers : List (List Dbl)) => centers = vecOf K (fun c' => vecOf D (fun j' =>
      if c' = c ∧ j' < j then F c' j' + p.values.getD j' 0 else F c' j')))
    0 D (accumulateValue points i (c : Int)) (vecOf K (fun c' => vecOf D (F c')))
    (Nat.zero_le _) (by simp)
    (by
      intro j t _ hj ht
      subst ht
      refine ⟨_, accumulateValue_vecOf_ieee K D _ points i p hp hd c hc j hj, ?_⟩
      show _ = _
      apply vecOf_cell_congr_ieee
      intro c' _ j' _
      by_cases h1 : c' = c
      · subst h1
        by_cases h2 : j' = j
        · subst h2; simp
        · have h3 : j' < j + 1 ↔ j' < j := by omega
          simp [h2, h3]
      · simp [h1])
  obtain ⟨t, ht, hinv⟩ := key
  unfold accumulateStep
  simp only [hp, Option.some_bind, Option.bind_eq_bind, Point.getCluster, hpc, readAt_natCast,
    writeAtInt_natCast, ht, vecOf_getElem? _ _ _ hc, writeAt_vecOf _ _ _ _ hc, pure,
    Option.some.injEq, LocalVars.mk.injEq]
  constructor
  · rw [hinv]
    apply vecOf_cell_congr_ieee
    intro c' _ j' hj'
    by_cases h1 : c' = c
    · subst h1; simp [hj']
    · simp [h1]
  · apply vecOf_congr
    intro c' _
    by_cases h1 : c' = c
    · subst h1; simp
    · simp [h1]

theorem accumulateStep_shape (K D : Nat) (points : List Point) (acc : LocalVars) (i : Nat)
    (hacc : Shape K D acc) (hv : Visitable K D points i) :
    ∃ acc', accumulateStep D points acc i = some acc' ∧ Shape K D acc' := by
  obtain ⟨p, hp, ha, hd⟩ := hv
  obtain ⟨c, hc, hpc⟩ := ha.exists_nat_ieee
  rw [hacc, accumulateStep_vecOf K D _ _ points i p hp hd c hc hpc]
  exact ⟨_, rfl, shape_mk K D _ _⟩

theorem foldlM_accumulateStep_shape (K D : Nat) (points : List Point) (L : List Nat)
    (hL : ∀ i ∈ L, Visitable K D points i) (acc : LocalVars) (hacc : Shape K D acc) :
    ∃ acc', L.foldlM (accumulateStep D points) acc = some acc' ∧ Shape K D acc' := by
  induction L generalizing acc with
  | nil => exact ⟨acc, rfl, hacc⟩
  | cons i L ih =>
    obtain ⟨a1, h1, hs1⟩ := accumulateStep_shape K D points acc i hacc
      (hL i (List.mem_cons_self _ _))
    obtain ⟨a2, h2, hs2⟩ := ih (fun k hk => hL k (List.mem_cons_of_mem _ hk)) a1 hs1
    exact ⟨a2, by rw [List.foldlM_cons, h1]; exact h2, hs2⟩

theorem visitable_of_inv (K D : Nat) (points : List Point)
    (h : ∀ p ∈ points, p.HasDim D ∧ p.Assigned K) (i : Nat) (hi : i < points.length) :
    Visitable K D points i :=
  ⟨points[i], List.getElem?_eq_getElem hi, (h _ (List.getElem_mem hi)).2,
    Nat.le_of_eq (h _ (List.getElem_mem hi)).1.symm⟩

theorem serial_accumulate_shape (km : KMeans) (points : List Point)
    (hn : points.length = km.total_points)
    (h : ∀ p ∈ points, p.HasDim km.total_values ∧ p.Assigned km.K) :
    ∃ acc, Serial.accumulate km points = some acc ∧ Shape km.K km.total_values acc := by
  unfold Serial.accumulate forLoop
  rw [Nat.sub_zero, ← List.range_eq_range']
  apply foldlM_accumulateStep_shape _ _ _ _ _ _ (new_shape _ _)
  intro i hi
  exact visitable_of_inv _ _ _ h i (by rw [hn]; exact List.mem_range.mp hi)

theorem combineOne_shape (km : KMeans) (acc loc : LocalVars)
    (hacc : Shape km.K km.total_values acc) (hloc : Shape km.K km.total_values loc) :
    ∃ acc', Parallel.combineOne km acc loc = some acc' ∧ Shape km.K km.total_values acc' := by
  rw [hacc, hloc, combineOne_vecOf_ieee]
  exact ⟨_, rfl, shape_mk _ _ _ _⟩

theorem mapM_localAccumulate_shape (km : KMeans) (points : List Point)
    (parts : List (List Nat))
    (h : ∀ part ∈ parts, ∀ i ∈ part, Visitable km.K km.total_values points i) :
    ∃ locals, parts.mapM (Parallel.localAccumulate km points) = some locals ∧
      ∀ loc ∈ locals, Shape km.K km.total_values loc := by
  induction parts with
  | nil => exact ⟨[], rfl, fun _ h => absurd h (List.not_mem_nil _)⟩
  | cons part parts ih =>
    obtain ⟨loc, h1, hs1⟩ := foldlM_accumulateStep_shape km.K km.total_values points part
      (h part (List.mem_cons_self _ _)) _ (new_shape _ _)
    obtain ⟨locals, h2, hs2⟩ := ih (fun q hq => h q (List.mem_cons_of_mem _ hq))
    refine ⟨loc :: locals, ?_, ?_⟩
    · have h1' : Parallel.localAccumulate km points part = some loc := h1
      rw [List.mapM_cons, h1', h2]
      rfl
    · intro x hx
      rcases List.mem_cons.mp hx with rfl | hx
      · exact hs1
      · exact hs2 x hx

theorem foldlM_combineOne_shape (km : KMeans) (locals : List LocalVars)
    (h : ∀ loc ∈ locals, Shape km.K km.total_values loc) (acc : LocalVars)
    (hacc : Shape km.K km.total_values acc) :
    ∃ acc', locals.foldlM (Parallel.combineOne km) acc = some acc' ∧
      Shape km.K km.total_values acc' := by
  induction locals generalizing acc with
  | nil => exact ⟨acc, rfl, hacc⟩
  | cons loc locals ih =>
    obtain ⟨a1, h1, hs1⟩ := combineOne_shape km acc loc hacc (h loc (List.mem_cons_self _ _))
    obtain ⟨a2, h2, hs2⟩ := ih (fun x hx => h x (List.mem_cons_of_mem _ hx)) a1 hs1
    exact ⟨a2, by rw [List.foldlM_cons, h1]; exact h2, hs2⟩

theorem parallel_accumulate_shape (km : KMeans) (points : List Point)
    (parts : List (List Nat)) (hn : points.length = km.total_points)
    (hparts : parts.flatten.Perm (List.range km.total_points))
    (h : ∀ p ∈ points, p.HasDim km.total_values ∧ p.Assigned km.K) :
    ∃ acc, Parallel.accumulate km parts points = some acc ∧
      Shape km.K km.total_values acc := by
  obtain ⟨locals, h1, hs1⟩ := mapM_localAccumulate_shape km points parts (by
    intro part hpart i hi
    have hmem : i ∈ parts.flatten := List.mem_flatten.mpr ⟨part, hpart, hi⟩
    exact visitable_of_inv _ _ _ h i (by
      rw [hn]; exact List.mem_range.mp (hparts.mem_iff.mp hmem)))
  obtain ⟨acc, h2, hs2⟩ := foldlM_combineOne_shape km locals hs1 _ (new_shape _ _)
  refine ⟨acc, ?_, hs2⟩
  unfold Parallel.accumulate
  rw [h1]
  exact h2

end Ieee

/-! ## The centroid update and one iteration under IEEE arithmetic -/

namespace Ieee

theorem updateValue_vecOf (K D : Nat) (F : Nat → Nat → Dbl) (f : Nat → Nat)
    (clusters : List Cluster) (i : Nat) (hi : i < clusters.length) (hiK : i < K) (id : Int)
    (g : Nat → Dbl)
    (hc : clusters[i]? = some { id_cluster := id, central_values := vecOf D g })
    (hpos : 0 < f i) (j : Nat) (hj : j < D) :
    updateValue { centers := vecOf K (fun c => vecOf D (F c)), counts := vecOf K f } i
        clusters j =
      some (clusters.set i { id_cluster := id, central_values := vecOf D (fun j' =>
        if j' = j then F i j / Dbl.ofNat (f i) else g j') }) := by
  unfold updateValue
  have hne : ¬ f i = 0 := by omega
  simp only [vecOf_getElem? _ _ _ hiK, vecOf_getElem? _ _ _ hj, Option.some_bind,
    Option.bind_eq_bind, divAt, hne, if_false, hc, Cluster.setCentralValue,
    writeAt_vecOf _ _ _ _ hj, Option.map_some']
  simp only [writeAt, hi, if_true]

theorem updateStep_vecOf (K D : Nat) (F : Nat → Nat → Dbl) (f : Nat → Nat)
    (clusters : List Cluster) (i : Nat) (hiK : i < K) (c : Cluster)
    (hc : clusters[i]? = some c) (hd : c.central_values.length = D) :
    updateStep D { centers := vecOf K (fun c => vecOf D (F c)), counts := vecOf K f }
        clusters i =
      some (clusters.set i (if 0 < f i then
        { c with central_values := vecOf D (fun j => F i j / Dbl.ofNat (f i)) } else c)) := by
  have hi : i < clusters.length := lt_length_of_getElem?_eq_some hc
  unfold updateStep
  simp only [vecOf_getElem? _ _ _ hiK, Option.some_bind, Option.bind_eq_bind]
  by_cases hpos : 0 < f i
  · have key := forLoop_inv
      (fun j (cl : List Cluster) => cl = clusters.set i
        { id_cluster := c.id_cluster, central_values := vecOf D (fun j' =>
          if j' < j then F i j' / Dbl.ofNat (f i) else c.central_values.getD j' 0) })
      0 D (updateValue { centers := vecOf K (fun c => vecOf D (F c)), counts := vecOf K f } i)
      clusters (Nat.zero_le _)
      (by
        show _ = _
        simp only [Nat.not_lt_zero, if_false, vecOf_getD_ieee D _ hd]
        exact (set_eq_self clusters i _ hc).symm)
      (by
        intro j t _ hj ht
        subst ht
        refine ⟨_, updateValue_vecOf K D F f _ i (by simpa using hi) hiK c.id_cluster
          (fun j' => if j' < j then F i j' / Dbl.ofNat (f i) else c.central_values.getD j' 0)
          (getElem?_set_self_of_lt _ _ _ hi) hpos j hj, ?_⟩
        show _ = _
        rw [List.set_set]
        congr 2
        apply vecOf_congr
        intro j' _
        by_cases h2 : j' = j
        · subst h2; simp
        · have h3 : j' < j + 1 ↔ j' < j := by omega
          simp [h2, h3])
    obtain ⟨t, ht, hinv⟩ := key
    simp only [gt_iff_lt, hpos, if_true, ht, hinv, Option.some.injEq]
    congr 2
    apply vecOf_congr
    intro j hj
    simp [hj]
  · simp only [gt_iff_lt, hpos, if_false, pure, Option.some.injEq]
    exact (set_eq_self clusters i _ hc).symm

theorem updateStep_recenterBy (K D : Nat) (acc : LocalVars) (hacc : Shape K D acc)
    (clusters : List Cluster) (i : Nat) (hiK : i < K) (c : Cluster)
    (hc : clusters[i]? = some c) (hd : c.central_values.length = D) :
    updateStep D acc clusters i = some (clusters.set i (recenterBy D acc i c)) := by
  have h := updateStep_vecOf K D acc.cell acc.count clusters i hiK c hc hd
  rw [← hacc] at h
  exact h

theorem recenterAll_length (D : Nat) (acc : LocalVars) (clusters : List Cluster) :
    (recenterAll D acc clusters).length = clusters.length := by
  simp [recenterAll]

theorem recenterAll_getElem? (D : Nat) (acc : LocalVars) (clusters : List Cluster) (i : Nat)
    (c : Cluster) (hc : clusters[i]? = some c) :
    (recenterAll D acc clusters)[i]? = some (recenterBy D acc i c) := by
  have hi := lt_length_of_getElem?_eq_some hc
  simp [recenterAll, List.getElem?_zipWith, List.getElem?_range hi, hc]

theorem foldlM_updateStep_ieee (K D : Nat) (acc : LocalVars) (hacc : Shape K D acc)
    (clusters : List Cluster) (L : List Nat) (hL : L.Perm (List.range K))
    (hlen : clusters.length = K) (hdim : ∀ c ∈ clusters, c.central_values.length = D) :
    L.foldlM (updateStep D acc) clusters = some (recenterAll D acc clusters) := by
  have hmem : ∀ i, i ∈ L ↔ i < K := fun i => by rw [hL.mem_iff, List.mem_range]
  obtain ⟨r, hr, hrl, hget⟩ := foldlM_pointwise (updateStep D acc)
    (fun i c => recenterBy D acc i c) (fun i c => i < K ∧ c.central_values.length = D)
    (fun l i x hx hP => updateStep_recenterBy K D acc hacc l i hP.1 x hx hP.2)
    L (hL.nodup_iff.mpr (List.nodup_range K)) clusters
    (fun i hi => by rw [hlen]; exact (hmem i).mp hi)
    (fun i hi x hx => ⟨(hmem i).mp hi, hdim x (List.getElem?_mem hx)⟩)
  rw [hr]
  congr 1
  apply List.ext_getElem?
  intro i
  rcases Nat.lt_or_ge i clusters.length with hi | hi
  · rw [hget i _ (List.getElem?_eq_getElem hi),
      recenterAll_getElem? D acc clusters i _ (List.getElem?_eq_getElem hi)]
    have : i ∈ L := (hmem i).mpr (by rw [← hlen]; exact hi)
    simp [this]
  · rw [List.getElem?_eq_none (by omega),
      List.getElem?_eq_none (by rw [recenterAll_length]; exact hi)]

theorem recenterBy_idem (D : Nat) (acc : LocalVars) (i : Nat) (c : Cluster) :
    recenterBy D acc i (recenterBy D acc i c) = recenterBy D acc i c := by
  unfold recenterBy
  split <;> rfl

theorem recenterBy_length (D : Nat) (acc : LocalVars) (i : Nat) (c : Cluster)
    (h : c.central_values.length = D) : (recenterBy D acc i c).central_values.length = D := by
  unfold recenterBy
  split
  · exact vecOf_length D _
  · exact h

theorem recenterAll_idem (D : Nat) (acc : LocalVars) (clusters : List Cluster) :
    recenterAll D acc (recenterAll D acc clusters) = recenterAll D acc clusters := by
  apply List.ext_getElem?
  intro i
  rcases Nat.lt_or_ge i clusters.length with hi | hi
  · have h1 := recenterAll_getElem? D acc clusters i _ (List.getElem?_eq_getElem hi)
    rw [recenterAll_getElem? D acc _ i _ h1, h1, recenterBy_idem]
  · rw [List.getElem?_eq_none (by simp only [recenterAll_length]; exact hi),
      List.getElem?_eq_none (by simp only [recenterAll_length]; exact hi)]

theorem recenterAll_wf (km : KMeans) (hwf : km.WF) (acc : LocalVars) :
    ({ km with clusters := recenterAll km.total_values acc km.clusters } : KMeans).WF := by
  constructor
  · show (recenterAll _ _ _).length = km.K
    rw [recenterAll_length, hwf.1]
  · intro c hc
    have hc2 : c ∈ recenterAll km.total_values acc km.clusters := hc
    obtain ⟨i, hi⟩ := List.mem_iff_getElem?.mp hc2
    have hlt : i < km.clusters.length := by
      have := lt_length_of_getElem?_eq_some hi
      rwa [recenterAll_length] at this
    rw [recenterAll_getElem? _ _ _ i _ (List.getElem?_eq_getElem hlt)] at hi
    rw [← Option.some.inj hi]
    exact recenterBy_length _ _ _ _ (hwf.2 _ (List.getElem_mem hlt))

theorem serial_recompute_ieee (km : KMeans) (hwf : km.WF) (points : List Point)
    (hn : points.length = km.total_points)
    (h : ∀ p ∈ points, p.HasDim km.total_values ∧ p.Assigned km.K) :
    ∃ acc, Shape km.K km.total_values acc ∧ Serial.accumulate km points = some acc ∧
      Serial.recompute km points =
        some { km with clusters := recenterAll km.total_values acc km.clusters } := by
  obtain ⟨acc, hacc, hs⟩ := serial_accumulate_shape km points hn h
  refine ⟨acc, hs, hacc, ?_⟩
  unfold Serial.recompute Serial.updateCenters forLoop
  rw [hacc]
  simp only [Option.some_bind, Option.bind_eq_bind, Nat.sub_zero, ← List.range_eq_range']
  rw [foldlM_updateStep_ieee km.K km.total_values acc hs km.clusters _ (List.Perm.refl _)
    hwf.1 hwf.2]
  rfl

theorem parallel_recompute_ieee (km : KMeans) (hwf : km.WF) (points : List Point)
    (sched : Parallel.Schedule) (hn : points.length = km.total_points)
    (hparts : sched.parts.flatten.Perm (List.range km.total_points))
    (hupd : sched.update.Perm (List.range km.K))
    (h : ∀ p ∈ points, p.HasDim km.total_values ∧ p.Assigned km.K) :
    ∃ acc, Shape km.K km.total_values acc ∧
      Parallel.accumulate km sched.parts points = some acc ∧
      Parallel.recompute km sched points =
        some { km with clusters := recenterAll km.total_values acc km.clusters } := by
  obtain ⟨acc, hacc, hs⟩ := parallel_accumulate_shape km points sched.parts hn hparts h
  refine ⟨acc, hs, hacc, ?_⟩
  unfold Parallel.recompute Parallel.updateCenters
  rw [hacc]
  simp only [Option.some_bind, Option.bind_eq_bind]
  rw [foldlM_updateStep_ieee km.K km.total_values acc hs km.clusters _ hupd hwf.1 hwf.2]
  rfl

theorem serial_iteration_ieee (st : KMeans × List Point) (h : LoopInv st) :
    ∃ acc, Serial.accumulate st.1 (st.1.reassign st.2) = some acc ∧
      Serial.iteration st =
        some (({ st.1 with clusters := recenterAll st.1.total_values acc st.1.clusters },
          st.1.reassign st.2), st.1.stable st.2) := by
  obtain ⟨hK, hwf, hn, hd⟩ := h
  obtain ⟨acc, _, hacc, hrec⟩ := serial_recompute_ieee st.1 hwf (st.1.reassign st.2)
    (by rw [reassign_length_ieee, hn])
    (fun p hp => ⟨reassign_hasDim_ieee _ _ _ hd p hp, reassign_assigned_ieee _ hK hwf _ hd p hp⟩)
  refine ⟨acc, hacc, ?_⟩
  unfold Serial.iteration
  rw [serial_assignPass_eq_ieee st.1 hK hwf st.2 hn hd]
  simp only [Option.some_bind, Option.bind_eq_bind]
  rw [hrec]
  rfl

theorem parallel_iteration_ieee (st : KMeans × List Point) (h : LoopInv st)
    (sched : Parallel.Schedule) (hs : st.1.Admits sched) :
    ∃ acc, Parallel.accumulate st.1 sched.parts (st.1.reassign st.2) = some acc ∧
      Parallel.iteration sched st =
        some (({ st.1 with clusters := recenterAll st.1.total_values acc st.1.clusters },
          st.1.reassign st.2), st.1.stable st.2) := by
  obtain ⟨hK, hwf, hn, hd⟩ := h
  obtain ⟨acc, _, hacc, hrec⟩ := parallel_recompute_ieee st.1 hwf (st.1.reassign st.2) sched
    (by rw [reassign_length_ieee, hn]) hs.2.1 hs.2.2
    (fun p hp => ⟨reassign_hasDim_ieee _ _ _ hd p hp, reassign_assigned_ieee _ hK hwf _ hd p hp⟩)
  refine ⟨acc, hacc, ?_⟩
  unfold Parallel.iteration
  rw [parallel_assignPass_eq_ieee st.1 hK hwf st.2 _ hn hs.1 hd]
  simp only [Option.some_bind, Option.bind_eq_bind]
  rw [hrec]
  rfl

theorem recentered_loopInv (st : KMeans × List Point) (h : LoopInv st) (acc : LocalVars) :
    LoopInv ({ st.1 with clusters := recenterAll st.1.total_values acc st.1.clusters },
      st.1.reassign st.2) := by
  obtain ⟨hK, hwf, hn, hd⟩ := h
  exact ⟨hK, recenterAll_wf st.1 hwf acc, by
    show (st.1.reassign st.2).length = st.1.total_points
    rw [reassign_length_ieee, hn], reassign_hasDim_ieee _ _ _ hd⟩

end Ieee

/-! ## As many clusters as points, under IEEE arithmetic -/

namespace Ieee

theorem members_append_ieee (A B : List Point) (c : Nat) :
    members (A ++ B) c = members A c ++ members B c := by
  simp [members]

theorem members_singleton_ieee (p : Point) (c : Nat) :
    members [p] c = if p.id_cluster = (c : Int) then [p] else [] := by
  by_cases h : p.id_cluster = (c : Int) <;> simp [members, h]

theorem sum_members_length_ieee (K : Nat) (ps : List Point) (h : ∀ p ∈ ps, p.Assigned K) :
    (vecOf K (fun c => (members ps c).length)).sum = ps.length := by
  induction ps with
  | nil => simp [vecOf, members]
  | cons p ps ih =>
    obtain ⟨c0, hc0, hp⟩ := (h p (List.mem_cons_self _ _)).exists_nat_ieee
    have hrest := ih (fun q hq => h q (List.mem_cons_of_mem _ hq))
    have hsplit : ∀ c, (members (p :: ps) c).length =
        (if c0 = c then 1 else 0) + (members ps c).length := by
      intro c
      have : p :: ps = [p] ++ ps := rfl
      rw [this, members_append_ieee, members_singleton_ieee, hp, List.length_append]
      by_cases hc : c0 = c
      · subst hc; simp
      · have : ¬ ((c0 : Int) = (c : Int)) := fun h2 => hc (by exact_mod_cast h2)
        simp [hc, this]
    unfold vecOf at hrest ⊢
    rw [List.map_congr_left (fun c _ => hsplit c), List.sum_map_add, hrest,
      sum_indicator_range, if_pos hc0, List.length_cons]
    omega


theorem sub_self_fin (x : ℚ) : Dbl.fin x - Dbl.fin x = 0 := by
  show Dbl.sub (Dbl.fin x) (Dbl.fin x) = Dbl.fin 0
  simp [Dbl.sub, Dbl.round]

theorem pow2_zero : pow2 0 = 0 := by
  show pow2 (Dbl.fin 0) = Dbl.fin 0
  simp [pow2, Dbl.round]

theorem zero_add_zero : (0 : Dbl) + 0 = 0 := by
  show Dbl.add (Dbl.fin 0) (Dbl.fin 0) = Dbl.fin 0
  simp [Dbl.add, Dbl.round]

theorem sqrt_zero : sqrt 0 = 0 := by
  show sqrt (Dbl.fin 0) = Dbl.fin 0
  simp [sqrt]

theorem foldl_add_zero (l : List Dbl) (h : ∀ x ∈ l, x = 0) :
    l.foldl (fun s x => s + x) 0 = 0 := by
  induction l with
  | nil => rfl
  | cons a l ih =>
    rw [List.foldl_cons, h a (List.mem_cons_self _ _), zero_add_zero]
    exact ih (fun x hx => h x (List.mem_cons_of_mem _ hx))

theorem computedDist_self (v : List Dbl) (h : ∀ x ∈ v, x.Finite) : computedDist v v = 0 := by
  unfold computedDist sumSq
  rw [foldl_add_zero, sqrt_zero]
  intro x hx
  obtain ⟨n, hn, rfl⟩ := List.mem_iff_getElem.mp hx
  rw [List.getElem_zipWith]
  have hlt : n < v.length := by simpa using hn
  have hf := h _ (List.getElem_mem hlt)
  cases hv : v[n] with
  | fin q => rw [sub_self_fin, pow2_zero]
  | inf s => rw [hv] at hf; exact (hf : False).elim
  | nan => rw [hv] at hf; exact (hf : False).elim

theorem nearest_of_seeded_ieee (km : KMeans) (points : List Point) (draws : List Nat)
    (sd : SeedState) (hK : 1 ≤ km.K) (hcl : km.clusters = [])
    (hn : points.length = km.total_points) (hd : ∀ p ∈ points, p.HasDim km.total_values)
    (hfin : ∀ p ∈ points, ∀ v ∈ p.values, v.Finite) (hfar : FarApart points)
    (hseed : km.seed points draws = some sd)
    (k idx : Nat) (p0 : Point) (hk : k < km.K) (hki : sd.prohibited_indexes[k]? = some idx)
    (hp0 : points[idx]? = some p0)
    (hck : sd.clusters[k]? = some { id_cluster := k, central_values := p0.values }) :
    ({ km with clusters := sd.clusters } : KMeans).nearest (p0.setCluster k) = k := by
  have hinv := seed_loopInv_ieee km points draws sd hK hcl hn hd hseed
  obtain ⟨hlen, hnd, _, hcln, _, hacc, _⟩ := seed_seeded_ieee km points draws sd hcl hseed
  have hd0 : p0.HasDim km.total_values := hd p0 (List.getElem?_mem hp0)
  have hfin0 : ∀ v ∈ (p0.setCluster k).values, v.Finite := hfin p0 (List.getElem?_mem hp0)
  have hcn : ∀ c ∈ ({ km with clusters := sd.clusters } : KMeans).clusters,
      ∀ x ∈ c.central_values, x.NotNaN := by
    intro c hc x hx
    have hc' : c ∈ sd.clusters := hc
    obtain ⟨i, hi⟩ := List.mem_iff_getElem?.mp hc'
    have hiK : i < km.K := by rw [← hcln]; exact lt_length_of_getElem?_eq_some hi
    obtain ⟨a, q, _, h2, _, h4⟩ := hacc i hiK
    rw [h4] at hi
    rw [← Option.some.inj hi] at hx
    exact finite_notNaN (hfin q (List.getElem?_mem h2) x hx)
  obtain ⟨c, hc, hcK, hfm⟩ := getIDNearestCenter_spec_ieee
    ({ km with clusters := sd.clusters } : KMeans) (p0.setCluster k) hinv.1 hinv.2.1 hd0
  obtain ⟨_, hmin, _⟩ := hfm (fun i _ => nonneg_notNaN (distTo_nonneg _ _ hcn hfin0 i))
  have hzero : ({ km with clusters := sd.clusters } : KMeans).distTo (p0.setCluster k) k = 0 := by
    simp only [KMeans.distTo, hck]
    exact computedDist_self _ hfin0
  obtain ⟨a, q, h1, h2, _, h4⟩ := hacc c hcK
  have haidx : a = idx := by
    by_contra hne
    have hne0 : computedDist q.values p0.values ≠ 0 := hfar idx a p0 q hp0 h2 (Ne.symm hne)
    have hdc : ({ km with clusters := sd.clusters } : KMeans).distTo (p0.setCluster k) c =
        computedDist q.values p0.values := by
      simp only [KMeans.distTo, h4]
      rfl
    have hpos : (0 : Dbl) <
        ({ km with clusters := sd.clusters } : KMeans).distTo (p0.setCluster k) c :=
      dbl_pos_of_nonneg_ne_zero (distTo_nonneg _ _ hcn hfin0 c) (by rw [hdc]; exact hne0)
    have hnot := hmin k hk
    rw [hzero] at hnot
    exact hnot hpos
  subst haidx
  have hck2 : c = k := getElem?_inj_of_nodup hnd h1 hki
  simp [KMeans.nearest, hc, hck2]

theorem seeded_stable_ieee (km : KMeans) (points : List Point) (draws : List Nat)
    (sd : SeedState) (hK : 1 ≤ km.K) (hKn : km.K = km.total_points) (hcl : km.clusters = [])
    (hn : points.length = km.total_points) (hd : ∀ p ∈ points, p.HasDim km.total_values)
    (hfin : ∀ p ∈ points, ∀ v ∈ p.values, v.Finite) (hfar : FarApart points)
    (hseed : km.seed points draws = some sd) :
    (∀ p ∈ sd.points,
      p.id_cluster = (({ km with clusters := sd.clusters } : KMeans).nearest p : Int)) ∧
    (∀ p ∈ sd.points, p.Assigned km.K) ∧
    ∀ i, i < km.K → 1 ≤ (members sd.points i).length := by
  obtain ⟨_, _, _, _, hpl, hacc, _⟩ := seed_seeded_ieee km points draws sd hcl hseed
  have hpt : ∀ p ∈ sd.points, ∃ (k : Nat) (p0 : Point), k < km.K ∧ p = p0.setCluster k ∧
      ({ km with clusters := sd.clusters } : KMeans).nearest p = k := by
    intro p hp
    obtain ⟨idx, hidx⟩ := List.mem_iff_getElem?.mp hp
    have hlt : idx < km.total_points := by
      rw [← hn, ← hpl]; exact lt_length_of_getElem?_eq_some hidx
    obtain ⟨k, p0, hk, h1, h2, h3, h4⟩ := all_seeded_ieee km points draws sd hcl hKn hseed idx hlt
    have hpe : p = p0.setCluster k := by rw [h3] at hidx; exact (Option.some.inj hidx).symm
    refine ⟨k, p0, hk, hpe, ?_⟩
    rw [hpe]
    exact nearest_of_seeded_ieee km points draws sd hK hcl hn hd hfin hfar hseed k idx p0 hk h1 h2 h4
  refine ⟨?_, ?_, ?_⟩
  · intro p hp
    obtain ⟨k, p0, _, hpe, hnear⟩ := hpt p hp
    rw [hnear, hpe]; rfl
  · intro p hp
    obtain ⟨k, p0, hk, hpe, _⟩ := hpt p hp
    rw [hpe]
    exact ⟨Int.ofNat_nonneg _, by show ((k : Nat) : Int) < _; exact_mod_cast hk⟩
  · intro i hi
    obtain ⟨a, q, _, _, h3, _⟩ := hacc i hi
    have hmem : q.setCluster i ∈ members sd.points i := by
      unfold members
      rw [List.mem_filter]
      exact ⟨List.getElem?_mem h3, decide_eq_true rfl⟩
    exact List.length_pos_of_mem hmem

theorem serial_run_eq_ieee (km : KMeans) (points : List Point) (draws : List Nat)
    (hg : km.K ≤ km.total_points) :
    Serial.run km points draws =
      (km.seed points draws).bind (fun sd =>
        (whileLoop km.max_iterations (fun _ => Serial.iteration)
          ({ km with clusters := sd.clusters }, sd.points) 1).bind
          (fun r => some { km := r.1.1, points := r.1.2, iter := some r.2 })) := by
  unfold Serial.run
  rw [if_neg (by omega)]
  rfl

theorem parallel_run_eq_ieee (km : KMeans) (scheds : Nat → Parallel.Schedule) (points : List Point)
    (draws : List Nat) (hg : km.K ≤ km.total_points) :
    Parallel.run km scheds points draws =
      (km.seed points draws).bind (fun sd =>
        (whileLoop km.max_iterations (fun iter => Parallel.iteration (scheds iter))
          ({ km with clusters := sd.clusters }, sd.points) 1).bind
          (fun r => some { km := r.1.1, points := r.1.2, iter := some r.2 })) := by
  unfold Parallel.run
  rw [if_neg (by omega)]
  rfl


theorem singletons_when_apart (km : KMeans) (scheds : Nat → Parallel.Schedule)
    (points : List Point) (draws : List Nat) (sd : SeedState)
    (hK : 1 ≤ km.K) (hKn : km.K = km.total_points) (hcl : km.clusters = [])
    (hn : points.length = km.total_points) (hd : ∀ p ∈ points, p.HasDim km.total_values)
    (hfin : ∀ p ∈ points, ∀ v ∈ p.values, v.Finite) (hfar : FarApart points)
    (hs : ∀ i, km.Admits (scheds i)) (hseed : km.seed points draws = some sd) :
    Serial.assignPass { km with clusters := sd.clusters } sd.points = some (sd.points, true) ∧
    Parallel.assignPass { km with clusters := sd.clusters } (scheds 1).assign sd.points =
      some (sd.points, true) ∧
    (∀ i, i < km.K → (members sd.points i).length = 1) ∧
    ∃ resS resP, Serial.run km points draws = some resS ∧
      Parallel.run km scheds points draws = some resP ∧
      resS.iter = some 1 ∧ resP.iter = some 1 ∧
      resS.points = sd.points ∧ resP.points = sd.points := by
  have hinv := seed_loopInv_ieee km points draws sd hK hcl hn hd hseed
  obtain ⟨hst, hass, hpos⟩ :=
    seeded_stable_ieee km points draws sd hK hKn hcl hn hd hfin hfar hseed
  obtain ⟨hre, hstable⟩ := reassign_eq_self_ieee _ _ hst
  have hser := serial_assignPass_eq_ieee _ hinv.1 hinv.2.1 _ hinv.2.2.1 hinv.2.2.2
  have hpar := parallel_assignPass_eq_ieee _ hinv.1 hinv.2.1 _ (scheds 1).assign hinv.2.2.1
    (hs 1).1 hinv.2.2.2
  rw [hre, hstable] at hser hpar
  refine ⟨hser, hpar, ?_, ?_⟩
  · have hsum := sum_members_length_ieee km.K sd.points hass
    have hlen : sd.points.length = km.K := by rw [hinv.2.2.1]; exact hKn.symm
    rw [hlen] at hsum
    exact (sum_ge_of_all_pos km.K _ hpos).2 hsum
  · obtain ⟨accS, _, hbodyS⟩ := serial_iteration_ieee _ hinv
    obtain ⟨accP, _, hbodyP⟩ := parallel_iteration_ieee _ hinv (scheds 1) (hs 1)
    rw [hre, hstable] at hbodyS hbodyP
    refine ⟨{ km := { km with clusters := recenterAll km.total_values accS sd.clusters },
              points := sd.points, iter := some 1 },
      { km := { km with clusters := recenterAll km.total_values accP sd.clusters },
        points := sd.points, iter := some 1 }, ?_, ?_, ?_⟩
    · rw [serial_run_eq_ieee km points draws (by omega), hseed]
      simp only [Option.some_bind, Option.bind_eq_bind]
      rw [whileLoop_eq, hbodyS]
      simp only [Option.some_bind, Option.bind_eq_bind, true_or, if_true]
    · rw [parallel_run_eq_ieee km scheds points draws (by omega), hseed]
      simp only [Option.some_bind, Option.bind_eq_bind]
      rw [whileLoop_eq, hbodyP]
      simp only [Option.some_bind, Option.bind_eq_bind, true_or, if_true]
    · exact ⟨rfl, rfl, rfl, rfl⟩

end Ieee

/-! ## The serial run under IEEE arithmetic, in closed form -/

namespace Ieee

theorem ofNat_one : Dbl.ofNat 1 = Dbl.fin 1 := by decide!

theorem zero_add_rep (v : Dbl) (h : v.Representable) : (0 : Dbl) + v = v := by
  show Dbl.add (Dbl.fin 0) v = v
  cases v with
  | fin q =>
    simp only [Dbl.add, zero_add]
    exact h
  | inf s => rfl
  | nan => rfl

theorem div_one_rep (v : Dbl) (h : v.Representable) : v / Dbl.ofNat 1 = v := by
  rw [ofNat_one]
  show Dbl.div v (Dbl.fin 1) = v
  cases v with
  | fin q =>
    simp only [Dbl.div, one_ne_zero, if_false, div_one]
    exact h
  | inf s => cases s <;> simp [Dbl.div]
  | nan => rfl

theorem coordSum_concat (ps : List Point) (p : Point) (j : Nat) :
    coordSum (ps ++ [p]) j = coordSum ps j + p.values.getD j 0 := by
  simp [coordSum, List.foldl_append]

theorem sumsOf_nil_ieee (K D : Nat) : sumsOf K D [] = LocalVars.new K D := by
  simp only [sumsOf, LocalVars.new, members, List.filter_nil, coordSum, List.foldl_nil,
    List.length_nil, vecOf_const]

theorem accumulateStep_sumsOf_ieee (K D : Nat) (points : List Point) (ps : List Point)
    (i : Nat) (p : Point) (hp : points[i]? = some p) (hd : D ≤ p.values.length)
    (ha : p.Assigned K) :
    accumulateStep D points (sumsOf K D ps) i = some (sumsOf K D (ps ++ [p])) := by
  obtain ⟨c, hc, hpc⟩ := ha.exists_nat_ieee
  unfold sumsOf
  rw [accumulateStep_vecOf K D _ _ points i p hp hd c hc hpc, Option.some.injEq,
    LocalVars.mk.injEq]
  constructor
  · apply vecOf_cell_congr_ieee
    intro c' _ j _
    rw [members_append_ieee, members_singleton_ieee, hpc]
    by_cases h1 : c' = c
    · subst h1
      simp only [if_true]
      rw [coordSum_concat]
    · have : ¬ ((c : Int) = (c' : Int)) := by
        intro h; exact h1 (by exact_mod_cast h.symm)
      simp [h1, this]
  · apply vecOf_congr
    intro c' _
    rw [members_append_ieee, members_singleton_ieee, hpc]
    by_cases h1 : c' = c
    · subst h1; simp
    · have : ¬ ((c : Int) = (c' : Int)) := by
        intro h; exact h1 (by exact_mod_cast h.symm)
      simp [h1, this]

theorem serial_accumulate_eq_ieee (km : KMeans) (points : List Point)
    (hn : points.length = km.total_points)
    (h : ∀ p ∈ points, p.HasDim km.total_values ∧ p.Assigned km.K) :
    Serial.accumulate km points = some (sumsOf km.K km.total_values points) := by
  have key := forLoop_inv
    (fun i (acc : LocalVars) => acc = sumsOf km.K km.total_values (points.take i))
    0 km.total_points (accumulateStep km.total_values points)
    (LocalVars.new km.K km.total_values) (Nat.zero_le _)
    (by simp [sumsOf_nil_ieee])
    (by
      intro i t _ hi ht
      subst ht
      have hi2 : i < points.length := by rw [hn]; exact hi
      have hp := h _ (List.getElem_mem hi2)
      refine ⟨_, accumulateStep_sumsOf_ieee km.K km.total_values points _ i points[i]
        (List.getElem?_eq_getElem hi2) (Nat.le_of_eq hp.1.symm) hp.2, ?_⟩
      show _ = _
      rw [List.take_succ, List.getElem?_eq_getElem hi2]
      rfl)
  obtain ⟨t, ht, hinv⟩ := key
  unfold Serial.accumulate
  rw [ht, hinv, List.take_of_length_le (by omega)]

theorem serial_iteration_eq_ieee (st : KMeans × List Point) (h : LoopInv st) :
    Serial.iteration st = some (lloydStep st) := by
  obtain ⟨acc, hacc, hit⟩ := serial_iteration_ieee st h
  obtain ⟨hK, hwf, hn, hd⟩ := h
  rw [serial_accumulate_eq_ieee st.1 (st.1.reassign st.2) (by rw [reassign_length_ieee, hn])
    (fun p hp => ⟨reassign_hasDim_ieee _ _ _ hd p hp,
      reassign_assigned_ieee _ hK hwf _ hd p hp⟩)] at hacc
  rw [hit, ← Option.some.inj hacc]
  rfl

theorem lloydStep_inv_ieee (st : KMeans × List Point) (h : LoopInv st) :
    LoopInv (lloydStep st).1 :=
  recentered_loopInv st h _

theorem lloydTrace_inv_ieee (s : KMeans × List Point) (hs : LoopInv s) (n : Nat) :
    LoopInv (lloydTrace s n).1 := by
  induction n with
  | zero => exact hs
  | succ n ih => exact lloydStep_inv_ieee _ ih

theorem stateAfter_eq_lloydTrace_ieee (s : KMeans × List Point) (hs : LoopInv s) (n : Nat) :
    stateAfter (fun _ => Serial.iteration) s n = some (lloydTrace s n) := by
  induction n with
  | zero => rfl
  | succ n ih =>
    simp only [stateAfter, ih, Option.some_bind, Option.bind_eq_bind,
      serial_iteration_eq_ieee _ (lloydTrace_inv_ieee s hs n)]
    rfl

theorem serial_trace_eq_ieee (km : KMeans) (points : List Point) (draws : List Nat)
    (sd : SeedState) (hK : 1 ≤ km.K) (hcl : km.clusters = [])
    (hn : points.length = km.total_points) (hd : ∀ p ∈ points, p.HasDim km.total_values)
    (hseed : km.seed points draws = some sd) (n : Nat) :
    Serial.trace km points draws n =
      some (lloydTrace ({ km with clusters := sd.clusters }, sd.points) n) := by
  simp only [Serial.trace, hseed, Option.some_bind, Option.bind_eq_bind]
  exact stateAfter_eq_lloydTrace_ieee _
    (seed_loopInv_ieee km points draws sd hK hcl hn hd hseed) n

theorem serial_run_closed_form_ieee (km : KMeans) (points : List Point) (draws : List Nat)
    (sd : SeedState) (hK : 1 ≤ km.K) (hg : km.K ≤ km.total_points) (hcl : km.clusters = [])
    (hn : points.length = km.total_points) (hd : ∀ p ∈ points, p.HasDim km.total_values)
    (hseed : km.seed points draws = some sd) :
    ∃ n, 1 ≤ n ∧
      Serial.run km points draws =
        some { km := (lloydTrace ({ km with clusters := sd.clusters }, sd.points) n).1.1,
               points := (lloydTrace ({ km with clusters := sd.clusters }, sd.points) n).1.2,
               iter := some n } ∧
      ((lloydTrace ({ km with clusters := sd.clusters }, sd.points) n).2 = true ∨
        n ≥ km.max_iterations) := by
  have hinv := seed_loopInv_ieee km points draws sd hK hcl hn hd hseed
  obtain ⟨t, n, h1, _, _, _⟩ := whileLoop_returns LoopInv km.max_iterations
    (fun _ => Serial.iteration)
    (fun _ st hst => ⟨lloydStep st, serial_iteration_eq_ieee st hst, lloydStep_inv_ieee st hst⟩)
    _ 1 hinv
  obtain ⟨h2, ⟨d, h3, h4⟩, _⟩ := whileLoop_stops km.max_iterations
    (fun _ => Serial.iteration) _ 0 _ false rfl t n h1
  rw [stateAfter_eq_lloydTrace_ieee _ hinv n] at h3
  have h3' := Option.some.inj h3
  refine ⟨n, h2, ?_, ?_⟩
  · rw [serial_run_eq_ieee km points draws hg, hseed]
    simp only [Option.some_bind, Option.bind_eq_bind, h1, h3']
  · rw [h3']; exact h4

theorem lloydStep_centered_ieee (st : KMeans × List Point) : Centered (lloydStep st).1 := by
  show recenterAll _ _ (recenterAll _ _ _) = recenterAll _ _ _
  exact recenterAll_idem _ _ _

theorem seed_centered_ieee (km : KMeans) (points : List Point) (draws : List Nat)
    (sd : SeedState) (hcl : km.clusters = []) (hd : ∀ p ∈ points, p.HasDim km.total_values)
    (hfresh : ∀ p ∈ points, p.id_cluster = -1)
    (hrep : ∀ p ∈ points, ∀ v ∈ p.values, v.Representable)
    (hseed : km.seed points draws = some sd) :
    Centered ({ km with clusters := sd.clusters }, sd.points) := by
  have hs := seed_seeded_ieee km points draws sd hcl hseed
  obtain ⟨_, _, _, hcln, _, hacc, _⟩ := hs
  show recenterAll km.total_values (sumsOf km.K km.total_values sd.points) sd.clusters =
    sd.clusters
  apply List.ext_getElem?
  intro i
  rcases Nat.lt_or_ge i sd.clusters.length with hi | hi
  · rw [recenterAll_getElem? _ _ _ i _ (List.getElem?_eq_getElem hi),
      List.getElem?_eq_getElem hi]
    congr 1
    have hiK : i < km.K := by rw [← hcln]; exact hi
    obtain ⟨idx, q, h1, h2, h3, h4⟩ := hacc i hiK
    have hci : sd.clusters[i] = { id_cluster := i, central_values := q.values } := by
      have := List.getElem?_eq_getElem hi
      rw [h4] at this
      exact (Option.some.inj this).symm
    have hmem : members sd.points i = [q.setCluster i] := by
      unfold members
      apply filter_eq_singleton _ _ idx _ h3 (decide_eq_true rfl)
      intro j y hne hy
      obtain ⟨p0, hp0, hcase⟩ :=
        (seed_seeded_ieee km points draws sd hcl hseed).point_cases_ieee j y hy
      rcases hcase with rfl | ⟨k, _, hk, rfl⟩
      · have := hfresh y (List.getElem?_mem hp0)
        rw [decide_eq_false_iff_not, this]
        omega
      · rw [decide_eq_false_iff_not]
        intro hki
        have hki' : (k : Int) = (i : Int) := hki
        have hki2 : k = i := by exact_mod_cast hki'
        subst hki2
        rw [h1] at hk
        exact hne (Option.some.inj hk).symm
    have hdq : q.values.length = km.total_values := hd q (List.getElem?_mem h2)
    have hcount : (sumsOf km.K km.total_values sd.points).count i = 1 := by
      unfold sumsOf
      rw [count_mk _ _ _ i hiK, hmem]
      rfl
    rw [hci]
    unfold recenterBy
    rw [hcount]
    simp only [Nat.lt_one_iff, if_true]
    congr 1
    refine Eq.trans (vecOf_congr _ _ _ ?_) (vecOf_getD_ieee km.total_values q.values hdq)
    intro j hj
    have hjq : j < q.values.length := by rw [hdq]; exact hj
    have hv : (q.values.getD j 0).Representable := by
      rw [List.getD_eq_getElem?_getD, List.getElem?_eq_getElem hjq]
      exact hrep q (List.getElem?_mem h2) _ (List.getElem_mem hjq)
    have hcell : (sumsOf km.K km.total_values sd.points).cell i j =
        (0 : Dbl) + q.values.getD j 0 := by
      unfold sumsOf
      rw [cell_mk _ _ _ _ i hiK j hj, hmem]
      rfl
    rw [hcell, zero_add_rep _ hv, div_one_rep _ hv]
  · rw [List.getElem?_eq_none (by rw [recenterAll_length]; exact hi),
      List.getElem?_eq_none hi]

theorem lloydTrace_centered_ieee (km : KMeans) (points : List Point) (draws : List Nat)
    (sd : SeedState) (hcl : km.clusters = []) (hd : ∀ p ∈ points, p.HasDim km.total_values)
    (hfresh : ∀ p ∈ points, p.id_cluster = -1)
    (hrep : ∀ p ∈ points, ∀ v ∈ p.values, v.Representable)
    (hseed : km.seed points draws = some sd) (n : Nat) :
    Centered (lloydTrace ({ km with clusters := sd.clusters }, sd.points) n).1 := by
  cases n with
  | zero => exact seed_centered_ieee km points draws sd hcl hd hfresh hrep hseed
  | succ m => exact lloydStep_centered_ieee _

theorem lloydStep_fixed_ieee (st : KMeans × List Point) (hc : Centered st)
    (hst : st.1.stable st.2 = true) : lloydStep st = (st, true) := by
  have hall : ∀ p ∈ st.2, p.id_cluster = (st.1.nearest p : Int) := by
    intro p hp
    have := (List.all_eq_true.mp hst) p hp
    exact of_decide_eq_true this
  obtain ⟨hre, _⟩ := reassign_eq_self_ieee st.1 st.2 hall
  unfold lloydStep KMeans.recenter
  rw [hre, hst, hc]

theorem serial_converged_fixed (km : KMeans) (points : List Point) (draws : List Nat)
    (sd : SeedState) (hK : 1 ≤ km.K) (hg : km.K ≤ km.total_points) (hcl : km.clusters = [])
    (hn : points.length = km.total_points) (hd : ∀ p ∈ points, p.HasDim km.total_values)
    (hfresh : ∀ p ∈ points, p.id_cluster = -1)
    (hrep : ∀ p ∈ points, ∀ v ∈ p.values, v.Representable)
    (hseed : km.seed points draws = some sd) :
    ∃ res n done prev,
      Serial.run km points draws = some res ∧ res.iter = some n ∧ 1 ≤ n ∧
      Serial.trace km points draws (n - 1) = some prev ∧
      Serial.trace km points draws n = some ((res.km, res.points), done) ∧
      (done = true →
        res.km.clusters = prev.1.1.clusters ∧
        (∀ p ∈ res.points, ∃ c : Nat, res.km.getIDNearestCenter p = some c ∧
          p.id_cluster = (c : Int)) ∧
        Serial.iteration (res.km, res.points) = some ((res.km, res.points), true)) := by
  obtain ⟨n, hn1, hrun, _⟩ :=
    serial_run_closed_form_ieee km points draws sd hK hg hcl hn hd hseed
  obtain ⟨m, rfl⟩ : ∃ m, n = m + 1 := ⟨n - 1, by omega⟩
  have hinv0 := seed_loopInv_ieee km points draws sd hK hcl hn hd hseed
  have hinv := lloydTrace_inv_ieee _ hinv0 m
  have hcen := lloydTrace_centered_ieee km points draws sd hcl hd hfresh hrep hseed m
  have htr := serial_trace_eq_ieee km points draws sd hK hcl hn hd hseed
  refine ⟨_, m + 1, (lloydTrace ({ km with clusters := sd.clusters }, sd.points) (m + 1)).2,
    lloydTrace ({ km with clusters := sd.clusters }, sd.points) m, hrun, rfl, hn1,
    by rw [Nat.add_sub_cancel]; exact htr m, htr (m + 1), ?_⟩
  intro hdone
  have hstable : (lloydTrace ({ km with clusters := sd.clusters }, sd.points) m).1.1.stable
      (lloydTrace ({ km with clusters := sd.clusters }, sd.points) m).1.2 = true := hdone
  have hfix := lloydStep_fixed_ieee _ hcen hstable
  have hnext : lloydTrace ({ km with clusters := sd.clusters }, sd.points) (m + 1) =
      ((lloydTrace ({ km with clusters := sd.clusters }, sd.points) m).1, true) := hfix
  rw [hnext]
  refine ⟨rfl, ?_, ?_⟩
  · intro p hp
    have hnear := getIDNearestCenter_eq_nearest_ieee _ p hinv.1 hinv.2.1 (hinv.2.2.2 p hp)
    exact ⟨_, hnear.1, of_decide_eq_true ((List.all_eq_true.mp hstable) p hp)⟩
  · rw [serial_iteration_eq_ieee _ hinv, hfix]

end Ieee

/-! ## IEEE 754 arithmetic: what the rounding functions compute -/

namespace Ieee

theorem log2Aux_spec (fuel n : Nat) (hf : n ≤ fuel) (hn : 0 < n) :
    2 ^ log2Aux fuel n ≤ n ∧ n < 2 ^ (log2Aux fuel n + 1) := by
  induction fuel generalizing n with
  | zero => omega
  | succ fuel ih =>
    unfold log2Aux
    by_cases h2 : n < 2
    · simp only [h2, if_true]
      constructor
      · simpa using hn
      · simpa using h2
    · simp only [h2, if_false]
      obtain ⟨h3, h4⟩ := ih (n / 2) (by omega) (by omega)
      rw [pow_succ, pow_succ]
      rw [pow_succ] at h4
      constructor <;> omega

/-- The function `log2` is the binary logarithm rounded down. -/
theorem log2_spec (n : Nat) (hn : 0 < n) : 2 ^ log2 n ≤ n ∧ n < 2 ^ (log2 n + 1) :=
  log2Aux_spec n n (le_refl n) hn

theorem isqrtAux_spec (n k r : Nat) (h1 : r * r ≤ n) (h2 : n < (r + 2 ^ k) * (r + 2 ^ k)) :
    isqrtAux n k r * isqrtAux n k r ≤ n ∧
      n < (isqrtAux n k r + 1) * (isqrtAux n k r + 1) := by
  induction k generalizing r with
  | zero => exact ⟨h1, by simpa using h2⟩
  | succ k ih =>
    unfold isqrtAux
    by_cases hc : (r + 2 ^ k) * (r + 2 ^ k) ≤ n
    · simp only [hc, if_true]
      apply ih _ hc
      have : r + 2 ^ k + 2 ^ k = r + 2 ^ (k + 1) := by rw [pow_succ]; omega
      rw [this]
      exact h2
    · simp only [hc, if_false]
      exact ih _ h1 (by omega)

/-- The function `isqrt` is the integer square root. -/
theorem isqrt_spec (n : Nat) : isqrt n * isqrt n ≤ n ∧ n < (isqrt n + 1) * (isqrt n + 1) := by
  unfold isqrt
  apply isqrtAux_spec _ _ _ (by simp)
  rw [Nat.zero_add, ← pow_add]
  rcases Nat.eq_zero_or_pos n with h0 | hpos
  · subst h0; positivity
  · have h := (log2_spec n hpos).2
    refine lt_of_lt_of_le h (Nat.pow_le_pow_right (by decide) ?_)
    omega

/-- The function `roundHalfEven` returns an integer nearest to its argument. -/
theorem roundHalfEven_spec (m : ℚ) : |(roundHalfEven m : ℚ) - m| ≤ 1 / 2 := by
  have h1 : (⌊m⌋ : ℚ) ≤ m := Int.floor_le m
  have h2 : m < (⌊m⌋ : ℚ) + 1 := Int.lt_floor_add_one m
  unfold roundHalfEven
  simp only
  rw [abs_le]
  split
  · constructor <;> linarith
  · split
    · push_cast
      constructor <;> linarith
    · split
      · constructor <;> linarith
      · push_cast
        constructor <;> linarith

theorem twoPow_eq_zpow (e : Int) : twoPow e = (2 : ℚ) ^ e := by
  unfold twoPow
  split
  · next h =>
    obtain ⟨n, rfl⟩ := Int.eq_ofNat_of_zero_le h
    simp
  · next h =>
    have h' : e < 0 := by omega
    obtain ⟨n, rfl⟩ : ∃ n : Nat, e = -(n : Int) := ⟨(-e).toNat, by omega⟩
    simp [zpow_neg]

/-- The function `ilog2` picks the binade of a positive rational. -/
theorem ilog2_spec (q : ℚ) (hq : 0 < q) : twoPow (ilog2 q) ≤ q ∧ q < twoPow (ilog2 q + 1) := by
  have hnum : 0 < q.num := Rat.num_pos.mpr hq
  have hn : 0 < q.num.natAbs := Int.natAbs_pos.mpr (ne_of_gt hnum)
  have hd : 0 < q.den := q.den_pos
  obtain ⟨a1, a2⟩ := log2_spec q.num.natAbs hn
  obtain ⟨b1, b2⟩ := log2_spec q.den hd
  have hdq : (0 : ℚ) < (q.den : ℚ) := by exact_mod_cast hd
  have hmul : q * (q.den : ℚ) = (q.num.natAbs : ℚ) := by
    have h1 : ((q.num.natAbs : Int) : ℚ) = (q.num : ℚ) := by
      rw [Int.natAbs_of_nonneg (le_of_lt hnum)]
    have h2 : ((q.num.natAbs : Int) : ℚ) = (q.num.natAbs : ℚ) := Int.cast_natCast _
    rw [← h2, h1]
    exact Rat.mul_den_eq_num q
  have a1q : (2 : ℚ) ^ (log2 q.num.natAbs) ≤ (q.num.natAbs : ℚ) := by exact_mod_cast a1
  have a2q : (q.num.natAbs : ℚ) < (2 : ℚ) ^ (log2 q.num.natAbs + 1) := by exact_mod_cast a2
  have b1q : (2 : ℚ) ^ (log2 q.den) ≤ (q.den : ℚ) := by exact_mod_cast b1
  have b2q : (q.den : ℚ) < (2 : ℚ) ^ (log2 q.den + 1) := by exact_mod_cast b2
  have hpa : (0 : ℚ) < (2 : ℚ) ^ (log2 q.num.natAbs) := by positivity
  have hpb : (0 : ℚ) < (2 : ℚ) ^ (log2 q.den) := by positivity
  have hz : ∀ x : Int, (0 : ℚ) < (2 : ℚ) ^ x := fun x => zpow_pos (by norm_num) x
  have hsucc : ∀ x : Int, (2 : ℚ) ^ (x + 1) = (2 : ℚ) ^ x * 2 := fun x =>
    zpow_add_one₀ (by norm_num) x
  have he : (2 : ℚ) ^ ((log2 q.num.natAbs : Int) - (log2 q.den : Int)) =
      (2 : ℚ) ^ (log2 q.num.natAbs) / (2 : ℚ) ^ (log2 q.den) := by
    rw [zpow_sub₀ (by norm_num), zpow_natCast, zpow_natCast]
  have hlow : (2 : ℚ) ^ ((log2 q.num.natAbs : Int) - (log2 q.den : Int)) < q * 2 := by
    rw [he, div_lt_iff₀ hpb]
    have : q * 2 * (2 : ℚ) ^ (log2 q.den) = q * ((2 : ℚ) ^ (log2 q.den + 1)) := by
      rw [pow_succ]; ring
    rw [this]
    calc (2 : ℚ) ^ (log2 q.num.natAbs) ≤ (q.num.natAbs : ℚ) := a1q
      _ = q * (q.den : ℚ) := hmul.symm
      _ < q * (2 : ℚ) ^ (log2 q.den + 1) := by
        apply mul_lt_mul_of_pos_left b2q hq
  have hhigh : q < (2 : ℚ) ^ ((log2 q.num.natAbs : Int) - (log2 q.den : Int)) * 2 := by
    rw [he, div_mul_eq_mul_div, lt_div_iff₀ hpb]
    calc q * (2 : ℚ) ^ (log2 q.den) ≤ q * (q.den : ℚ) :=
          mul_le_mul_of_nonneg_left b1q (le_of_lt hq)
      _ = (q.num.natAbs : ℚ) := hmul
      _ < (2 : ℚ) ^ (log2 q.num.natAbs + 1) := a2q
      _ = (2 : ℚ) ^ (log2 q.num.natAbs) * 2 := by rw [pow_succ]
  unfold ilog2
  simp only [twoPow_eq_zpow]
  split
  · next hlt =>
    constructor
    · have := hsucc ((log2 q.num.natAbs : Int) - (log2 q.den : Int) - 1)
      rw [sub_add_cancel] at this
      have hpos := hz ((log2 q.num.natAbs : Int) - (log2 q.den : Int) - 1)
      nlinarith
    · rw [sub_add_cancel]
      exact hlt
  · next hge =>
    constructor
    · exact not_lt.mp hge
    · rw [hsucc]
      exact hhigh


/-- A finite result of `Dbl.round` is a multiple of the unit in the last place of the binade
of its argument, at most half a unit away from the argument: rounding is to nearest. -/
theorem round_nearest (q r : ℚ) (h : Dbl.round q = Dbl.fin r) :
    ∃ k : Int, r = (k : ℚ) * twoPow (max (ilog2 |q|) (-1022) - 52) ∧
      |r - q| ≤ twoPow (max (ilog2 |q|) (-1022) - 52) / 2 := by
  unfold Dbl.round at h
  by_cases h0 : q = 0
  · simp only [h0, if_true, Dbl.fin.injEq] at h
    subst h0
    refine ⟨0, by rw [← h]; simp, ?_⟩
    rw [← h]
    simp only [sub_self, abs_zero]
    exact le_of_lt (div_pos (twoPow_pos _) (by norm_num))
  · simp only [h0, if_false] at h
    by_cases hneg : q < 0
    · have habs : |q| = -q := abs_of_neg hneg
      simp only [hneg, if_true, decide_True] at h
      split at h
      · exact absurd h (by simp)
      · rw [Dbl.fin.injEq] at h
        rw [habs]
        have hu := twoPow_pos (max (ilog2 (-q)) (-1022) - 52)
        have hs := roundHalfEven_spec (-q / twoPow (max (ilog2 (-q)) (-1022) - 52))
        refine ⟨-roundHalfEven (-q / twoPow (max (ilog2 (-q)) (-1022) - 52)), ?_, ?_⟩
        · rw [← h]; push_cast; ring
        · rw [← h]
          rw [abs_le] at hs ⊢
          obtain ⟨hs1, hs2⟩ := hs
          have e : -q = -q / twoPow (max (ilog2 (-q)) (-1022) - 52) *
              twoPow (max (ilog2 (-q)) (-1022) - 52) := by
            field_simp
          constructor
          · nlinarith
          · nlinarith
    · have hpos : 0 < q := lt_of_le_of_ne (not_lt.mp hneg) (Ne.symm h0)
      have habs : |q| = q := abs_of_pos hpos
      simp only [hneg, if_false, decide_False] at h
      split at h
      · exact absurd h (by simp)
      · rw [Dbl.fin.injEq] at h
        rw [habs]
        have hu := twoPow_pos (max (ilog2 q) (-1022) - 52)
        have hs := roundHalfEven_spec (q / twoPow (max (ilog2 q) (-1022) - 52))
        refine ⟨roundHalfEven (q / twoPow (max (ilog2 q) (-1022) - 52)), h.symm, ?_⟩
        rw [← h]
        rw [abs_le] at hs ⊢
        obtain ⟨hs1, hs2⟩ := hs
        have e : q = q / twoPow (max (ilog2 q) (-1022) - 52) *
            twoPow (max (ilog2 q) (-1022) - 52) := by
          field_simp
        constructor
        · nlinarith
        · nlinarith


/-- The rational `sqrtApprox a` stands for the real square root of `a`: it is the root itself
when the root is rational at the chosen scale, and otherwise the midpoint of a bracket
`[s / 2^k, (s + 1) / 2^k]` whose ends have the root strictly between them. -/
theorem sqrtApprox_spec (a : ℚ) (ha : 0 < a) :
    sqrtApprox a * sqrtApprox a = a ∨
    ∃ s k : Nat, sqrtApprox a = ((s : ℚ) + 1 / 2) / ((2 ^ k : Nat) : ℚ) ∧
      ((s : ℚ) / ((2 ^ k : Nat) : ℚ)) * ((s : ℚ) / ((2 ^ k : Nat) : ℚ)) < a ∧
      a < (((s : ℚ) + 1) / ((2 ^ k : Nat) : ℚ)) * (((s : ℚ) + 1) / ((2 ^ k : Nat) : ℚ)) := by
  have h4 : ∀ k : Nat, ((4 ^ k : Nat) : ℚ) = ((2 ^ k : Nat) : ℚ) * ((2 ^ k : Nat) : ℚ) := by
    intro k
    have : (4 : Nat) ^ k = 2 ^ k * 2 ^ k := by
      rw [← Nat.mul_pow]
    rw [this]; push_cast; ring
  have h2pos : ∀ k : Nat, (0 : ℚ) < ((2 ^ k : Nat) : ℚ) := by
    intro k; positivity
  unfold sqrtApprox
  simp only
  generalize ((120 - ilog2 a) / 2).toNat = k
  have hx0 : 0 ≤ a * ((4 ^ k : Nat) : ℚ) := by positivity
  have hfl : (0 : Int) ≤ ⌊a * ((4 ^ k : Nat) : ℚ)⌋ := Int.floor_nonneg.mpr hx0
  obtain ⟨s1, s2⟩ := isqrt_spec ⌊a * ((4 ^ k : Nat) : ℚ)⌋.toNat
  generalize hs : isqrt ⌊a * ((4 ^ k : Nat) : ℚ)⌋.toNat = s at s1 s2
  have hn : ((⌊a * ((4 ^ k : Nat) : ℚ)⌋.toNat : Nat) : ℚ) = (⌊a * ((4 ^ k : Nat) : ℚ)⌋ : ℚ) := by
    have := Int.toNat_of_nonneg hfl
    exact_mod_cast congrArg (fun z : Int => (z : ℚ)) this
  have hle : (⌊a * ((4 ^ k : Nat) : ℚ)⌋ : ℚ) ≤ a * ((4 ^ k : Nat) : ℚ) := Int.floor_le _
  have hlt : a * ((4 ^ k : Nat) : ℚ) < (⌊a * ((4 ^ k : Nat) : ℚ)⌋ : ℚ) + 1 :=
    Int.lt_floor_add_one _
  have s1q : (s : ℚ) * (s : ℚ) ≤ (⌊a * ((4 ^ k : Nat) : ℚ)⌋ : ℚ) := by
    rw [← hn]; exact_mod_cast s1
  have s2q : (⌊a * ((4 ^ k : Nat) : ℚ)⌋ : ℚ) + 1 ≤ ((s : ℚ) + 1) * ((s : ℚ) + 1) := by
    rw [← hn]; exact_mod_cast s2
  have hp := h2pos k
  split
  · next heq =>
    left
    have heq' : (s : ℚ) * (s : ℚ) = a * ((4 ^ k : Nat) : ℚ) := by
      rw [← heq]; push_cast; ring
    rw [h4] at heq'
    rw [div_mul_div_comm, div_eq_iff (ne_of_gt (mul_pos hp hp))]
    exact heq'
  · next hne =>
    right
    refine ⟨s, k, rfl, ?_, ?_⟩
    · have hne' : (s : ℚ) * (s : ℚ) ≠ a * ((4 ^ k : Nat) : ℚ) := by
        intro h; apply hne; rw [← h]; push_cast; ring
      have hlt2 : (s : ℚ) * (s : ℚ) < a * ((4 ^ k : Nat) : ℚ) :=
        lt_of_le_of_ne (le_trans s1q hle) hne'
      rw [h4] at hlt2
      rw [div_mul_div_comm, div_lt_iff₀ (mul_pos hp hp)]
      linarith
    · have hlt3 : a * ((4 ^ k : Nat) : ℚ) < ((s : ℚ) + 1) * ((s : ℚ) + 1) :=
        lt_of_lt_of_le hlt s2q
      rw [h4] at hlt3
      rw [div_mul_div_comm, lt_div_iff₀ (mul_pos hp hp)]
      linarith

/-- The rounding of a real result at its landmarks: a decimal literal; ties going to the even
neighbour, down and up; the largest finite value and the overflow threshold; the smallest
subnormal and the underflow to zero; a negative value; and two calls of the library. -/
theorem round_landmarks :
    Dbl.round (1 / 10) = Dbl.fin (3602879701896397 / 36028797018963968) ∧
    Dbl.round (1 + 1 / 2 ^ 53) = Dbl.fin 1 ∧
    Dbl.round (1 + 3 / 2 ^ 53) = Dbl.fin (1 + 1 / 2 ^ 51) ∧
    Dbl.round (2 ^ 1024 - 2 ^ 970 - 1) = Dbl.fin (2 ^ 1024 - 2 ^ 971) ∧
    Dbl.round (2 ^ 1024 - 2 ^ 970) = Dbl.inf false ∧
    Dbl.round (1 / 2 ^ 1074) = Dbl.fin (1 / 2 ^ 1074) ∧
    Dbl.round (1 / 2 ^ 1075) = Dbl.fin 0 ∧
    Dbl.round (3 / 2 ^ 1075) = Dbl.fin (1 / 2 ^ 1073) ∧
    Dbl.round (-(1 / 10)) = Dbl.fin (-(3602879701896397 / 36028797018963968)) ∧
    sqrt (Dbl.fin 2) = Dbl.fin (6369051672525773 / 4503599627370496) ∧
    pow2 (Dbl.round (1 / 10 ^ 200)) = Dbl.fin 0 := by
  decide!

end Ieee

/-! ## The claims settled against both arithmetics -/

/-- C1, as stated, fails in the arithmetic of the program: for the point `(0, 0)` and the
centroids `(1, 2^-26)` and `(1, 0)`, all coordinates being `double`, the two sums are
`1 + 2^-52` and `1`, both square roots round to `1.0`, so `dist < min_dist` is false and the
method returns index 0, although centroid 1 is strictly nearer in squared Euclidean distance
(the exact computation returns 1). -/
theorem getIDNearestCenter_rounding_keeps_farther :
    ((∀ c ∈ tieKm.clusters, ∀ v ∈ c.central_values, Ieee.IsDouble v) ∧
      (∀ v ∈ tiePoint.values, Ieee.IsDouble v)) ∧
    (1 ≤ tieKm.K ∧ tieKm.WF ∧ tiePoint.HasDim tieKm.total_values) ∧
    (tieKm.toIeee.sumSquares 0 tiePoint.toIeee = some (Ieee.Dbl.fin (1 + 1 / 2 ^ 52)) ∧
      tieKm.toIeee.sumSquares 1 tiePoint.toIeee = some (Ieee.Dbl.fin 1) ∧
      Ieee.sqrt (Ieee.Dbl.fin (1 + 1 / 2 ^ 52)) = Ieee.Dbl.fin 1 ∧
      Ieee.sqrt (Ieee.Dbl.fin 1) = Ieee.Dbl.fin 1) ∧
    tieKm.toIeee.getIDNearestCenter tiePoint.toIeee = some 0 ∧
    tieKm.distTo tiePoint 1 < tieKm.distTo tiePoint 0 ∧
    tieKm.getIDNearestCenter tiePoint = some 1 := by
  refine ⟨by decide!, by decide!, by decide!, by decide!, by decide!, by decide!⟩

/-- C1 (amended): for a table of `K >= 1` centroids of the point's dimension,
`getIDNearestCenter` returns an index `c < K` such that, in exact arithmetic, the squared
Euclidean distance to centroid `c` is minimal over all `K` centroids and every centroid with
a smaller index is strictly farther; and, in the `double` arithmetic of the program (finite
point, no NaN among the centroids), no centroid has a smaller computed distance `sqrt(sum)`
than centroid `c` and every centroid with a smaller index has a larger one. -/
theorem getIDNearestCenter_first_minimal (km : KMeans) (point : Point)
    (kmI : Ieee.KMeans) (pointI : Ieee.Point)
    (hK : 1 ≤ km.K) (hwf : km.WF) (hp : point.HasDim km.total_values)
    (hKI : 1 ≤ kmI.K) (hwfI : kmI.WF) (hpI : pointI.HasDim kmI.total_values)
    (hcI : ∀ c ∈ kmI.clusters, ∀ x ∈ c.central_values, x.NotNaN)
    (hfI : ∀ y ∈ pointI.values, y.Finite) :
    (∃ c, km.getIDNearestCenter point = some c ∧ c < km.K ∧
      (∀ i, i < km.K → km.distTo point c ≤ km.distTo point i) ∧
      (∀ i, i < c → km.distTo point c < km.distTo point i)) ∧
    (∃ c, kmI.getIDNearestCenter pointI = some c ∧ c < kmI.K ∧
      (∀ i, i < kmI.K → ¬ kmI.distTo pointI i < kmI.distTo pointI c) ∧
      (∀ i, i < c → kmI.distTo pointI c < kmI.distTo pointI i)) := by
  refine ⟨getIDNearestCenter_spec km point hK hwf hp, ?_⟩
  obtain ⟨c, hc, hlt, hfm⟩ := Ieee.getIDNearestCenter_spec_ieee kmI pointI hKI hwfI hpI
  obtain ⟨_, hmin, hfirst⟩ :=
    hfm (fun i _ => Ieee.nonneg_notNaN (Ieee.distTo_nonneg kmI pointI hcI hfI i))
  exact ⟨c, hc, hlt, hmin, hfirst⟩

theorem getIDNearestCenter_first_minimal_witness :
    ((1 ≤ tieKm.K ∧ tieKm.WF ∧ tiePoint.HasDim tieKm.total_values) ∧
      (1 ≤ tieKm.toIeee.K ∧ tieKm.toIeee.WF ∧
        tiePoint.toIeee.HasDim tieKm.toIeee.total_values) ∧
      (∀ c ∈ tieKm.toIeee.clusters, ∀ x ∈ c.central_values, x.NotNaN) ∧
      (∀ y ∈ tiePoint.toIeee.values, y.Finite)) ∧
    (∃ c, tieKm.getIDNearestCenter tiePoint = some c ∧ c < tieKm.K ∧
      (∀ i, i < tieKm.K → tieKm.distTo tiePoint c ≤ tieKm.distTo tiePoint i) ∧
      (∀ i, i < c → tieKm.distTo tiePoint c < tieKm.distTo tiePoint i)) ∧
    (∃ c, tieKm.toIeee.getIDNearestCenter tiePoint.toIeee = some c ∧ c < tieKm.toIeee.K ∧
      (∀ i, i < tieKm.toIeee.K →
        ¬ tieKm.toIeee.distTo tiePoint.toIeee i < tieKm.toIeee.distTo tiePoint.toIeee c) ∧
      (∀ i, i < c →
        tieKm.toIeee.distTo tiePoint.toIeee c < tieKm.toIeee.distTo tiePoint.toIeee i)) :=
  ⟨⟨⟨by decide, by decide, by decide⟩, ⟨by decide, by decide, by decide⟩, by decide,
      by decide⟩,
    getIDNearestCenter_first_minimal tieKm tiePoint tieKm.toIeee tiePoint.toIeee
      (by decide) (by decide) (by decide) (by decide) (by decide) (by decide) (by decide)
      (by decide)⟩

theorem triSeed_eq_ieee :
    dupKm.toIeee.seed (triPoints.map Point.toIeee) [2, 0, 1] = some triSeed.toIeee := by
  decide!

theorem triPoints_farApart : Ieee.FarApart (triPoints.map Point.toIeee) := by
  intro i j p q hi hj hne
  rcases i with _ | _ | _ | i <;> rcases j with _ | _ | _ | j <;>
    simp [triPoints, Point.new, Point.toIeee] at hi hj <;> subst hi <;> subst hj <;>
    first
      | exact absurd rfl hne
      | decide!

/-- Two points with different coordinates can be at computed distance zero: for `0.0` and
`1e-200` the square of the difference underflows to `0.0`. With `K = total_points = 2` the
first pass then moves point 1 to cluster 0 and the run stops at iteration 2. -/
theorem underflow_merges_distinct_points :
    tinyKm.K = tinyKm.total_points ∧
    (∀ p ∈ tinyPoints, ∀ v ∈ p.values, v.Representable ∧ v.Finite) ∧
    Ieee.Dbl.round 0 ≠ Ieee.Dbl.round (1 / 10 ^ 200) ∧
    Ieee.computedDist [Ieee.Dbl.round 0] [Ieee.Dbl.round (1 / 10 ^ 200)] = 0 ∧
    (Ieee.Serial.run tinyKm tinyPoints [0, 1]).map (fun r => (r.iter, r.points.map
      (fun p => p.id_cluster))) = some (some 2, [0, 0]) := by
  refine ⟨by decide, by decide!, by decide!, by decide!, by decide!⟩

/-- C16 (amended): with `K = total_points >= 1`, after a completed seeding the first
assignment pass (serial, or parallel in any order) reassigns no point and reports no change,
every cluster holds exactly one point, and the run stops at iteration 1 with the assignments
of the seeding, provided that, in exact arithmetic, the points have pairwise different
coordinates, and, in the `double` arithmetic of the program, the coordinates are finite and
no two points are at computed distance zero from each other. -/
theorem singleton_clusters_when_apart (km : KMeans) (scheds : Nat → Parallel.Schedule)
    (points : List Point) (draws : List Nat) (sd : SeedState)
    (kmI : Ieee.KMeans) (schedsI : Nat → Parallel.Schedule) (pointsI : List Ieee.Point)
    (drawsI : List Nat) (sdI : Ieee.SeedState)
    (hK : 1 ≤ km.K) (hKn : km.K = km.total_points) (hcl : km.clusters = [])
    (hn : points.length = km.total_points) (hd : ∀ p ∈ points, p.HasDim km.total_values)
    (hdist : DistinctPoints points) (hs : ∀ i, (scheds i).Valid km)
    (hseed : km.seed points draws = some sd)
    (hKI : 1 ≤ kmI.K) (hKnI : kmI.K = kmI.total_points) (hclI : kmI.clusters = [])
    (hnI : pointsI.length = kmI.total_points)
    (hdI : ∀ p ∈ pointsI, p.HasDim kmI.total_values)
    (hfinI : ∀ p ∈ pointsI, ∀ v ∈ p.values, v.Finite) (hfarI : Ieee.FarApart pointsI)
    (hsI : ∀ i, kmI.Admits (schedsI i)) (hseedI : kmI.seed pointsI drawsI = some sdI) :
    (Serial.assignPass { km with clusters := sd.clusters } sd.points = some (sd.points, true) ∧
      Parallel.assignPass { km with clusters := sd.clusters } (scheds 1).assign sd.points =
        some (sd.points, true) ∧
      (∀ i, i < km.K → (members sd.points i).length = 1) ∧
      ∃ res, Serial.run km points draws = some res ∧
        Parallel.run km scheds points draws = some res ∧
        res.iter = some 1 ∧ res.points = sd.points) ∧
    (Ieee.Serial.assignPass { kmI with clusters := sdI.clusters } sdI.points =
        some (sdI.points, true) ∧
      Ieee.Parallel.assignPass { kmI with clusters := sdI.clusters } (schedsI 1).assign
        sdI.points = some (sdI.points, true) ∧
      (∀ i, i < kmI.K → (Ieee.members sdI.points i).length = 1) ∧
      ∃ resS resP, Ieee.Serial.run kmI pointsI drawsI = some resS ∧
        Ieee.Parallel.run kmI schedsI pointsI drawsI = some resP ∧
        resS.iter = some 1 ∧ resP.iter = some 1 ∧
        resS.points = sdI.points ∧ resP.points = sdI.points) :=
  ⟨singletons_when_distinct km scheds points draws sd hK hKn hcl hn hd hdist hs hseed,
    Ieee.singletons_when_apart kmI schedsI pointsI drawsI sdI hKI hKnI hclI hnI hdI hfinI
      hfarI hsI hseedI⟩

theorem singleton_clusters_when_apart_witness :
    ((1 ≤ dupKm.K ∧ dupKm.K = dupKm.total_points ∧ dupKm.clusters = [] ∧
        triPoints.length = dupKm.total_points ∧
        (∀ p ∈ triPoints, p.HasDim dupKm.total_values) ∧ DistinctPoints triPoints ∧
        triSched.Valid dupKm ∧ dupKm.seed triPoints [2, 0, 1] = some triSeed) ∧
      (1 ≤ dupKm.toIeee.K ∧ dupKm.toIeee.K = dupKm.toIeee.total_points ∧
        dupKm.toIeee.clusters = [] ∧
        (triPoints.map Point.toIeee).length = dupKm.toIeee.total_points ∧
        (∀ p ∈ triPoints.map Point.toIeee, p.HasDim dupKm.toIeee.total_values) ∧
        (∀ p ∈ triPoints.map Point.toIeee, ∀ v ∈ p.values, v.Finite) ∧
        Ieee.FarApart (triPoints.map Point.toIeee) ∧ dupKm.toIeee.Admits triSched ∧
        dupKm.toIeee.seed (triPoints.map Point.toIeee) [2, 0, 1] = some triSeed.toIeee)) ∧
    (Serial.assignPass { dupKm with clusters := triSeed.clusters } triSeed.points =
        some (triSeed.points, true) ∧
      Parallel.assignPass { dupKm with clusters := triSeed.clusters } triSched.assign
        triSeed.points = some (triSeed.points, true) ∧
      (∀ i, i < dupKm.K → (members triSeed.points i).length = 1) ∧
      ∃ res, Serial.run dupKm triPoints [2, 0, 1] = some res ∧
        Parallel.run dupKm (fun _ => triSched) triPoints [2, 0, 1] = some res ∧
        res.iter = some 1 ∧ res.points = triSeed.points) ∧
    (Ieee.Serial.assignPass { dupKm.toIeee with clusters := triSeed.toIeee.clusters }
        triSeed.toIeee.points = some (triSeed.toIeee.points, true) ∧
      Ieee.Parallel.assignPass { dupKm.toIeee with clusters := triSeed.toIeee.clusters }
        triSched.assign triSeed.toIeee.points = some (triSeed.toIeee.points, true) ∧
      (∀ i, i < dupKm.toIeee.K → (Ieee.members triSeed.toIeee.points i).length = 1) ∧
      ∃ resS resP, Ieee.Serial.run dupKm.toIeee (triPoints.map Point.toIeee) [2, 0, 1] =
          some resS ∧
        Ieee.Parallel.run dupKm.toIeee (fun _ => triSched) (triPoints.map Point.toIeee)
          [2, 0, 1] = some resP ∧
        resS.iter = some 1 ∧ resP.iter = some 1 ∧
        resS.points = triSeed.toIeee.points ∧ resP.points = triSeed.toIeee.points) :=
  ⟨⟨⟨by decide, by decide, by decide, by decide, by decide, triPoints_distinct, by decide,
        triSeed_eq⟩,
      ⟨by decide, by decide, by decide, by decide, by decide, by decide, triPoints_farApart,
        by decide, triSeed_eq_ieee⟩⟩,
    singleton_clusters_when_apart dupKm (fun _ => triSched) triPoints [2, 0, 1] triSeed
      dupKm.toIeee (fun _ => triSched) (triPoints.map Point.toIeee) [2, 0, 1] triSeed.toIeee
      (by decide) (by decide) (by decide) (by decide) (by decide) triPoints_distinct
      (fun _ => (by decide : triSched.Valid dupKm)) triSeed_eq
      (by decide) (by decide) (by decide) (by decide) (by decide) (by decide)
      triPoints_farApart (fun _ => (by decide : dupKm.toIeee.Admits triSched))
      triSeed_eq_ieee⟩

theorem thirdsSeed_eq : thirdsKm.seed thirdsPoints [0] = some thirdsSeed := by decide!

theorem thirdsScheds_admitted (i : Nat) : thirdsKm.Admits (thirdsScheds i) := by
  unfold thirdsScheds
  split <;> decide

/-- C17, as stated, fails in two ways. In the `double` arithmetic of the parallel program,
on the unassigned points `0.1, 0.2, 0.3` with `K = 1`: iteration 1, accumulated by one
worker, leaves the centroid `0.20000000000000004`; iteration 2 reassigns no point
(`done == true`) but, accumulated by two workers, its recompute changes the centroid to
`0.19999999999999998`. And in exact arithmetic, on points handed over already assigned
(`0` and `2`, both in cluster 0, `K = 1`): the first pass reassigns no point, the run stops
at iteration 1, and its recompute moves the centroid from `0` to `1`. -/
theorem converged_run_moves_centroid :
    ((1 ≤ thirdsKm.K ∧ thirdsKm.K ≤ thirdsKm.total_points ∧
        thirdsPoints.length = thirdsKm.total_points ∧
        (∀ p ∈ thirdsPoints, p.HasDim thirdsKm.total_values ∧ p.id_cluster = -1) ∧
        (∀ p ∈ thirdsPoints, ∀ v ∈ p.values, v.Representable ∧ v.Finite) ∧
        ∀ i, thirdsKm.Admits (thirdsScheds i)) ∧
      Ieee.Parallel.trace thirdsKm thirdsScheds thirdsPoints [0] 1 =
        some ((thirdsHigh, thirdsAssigned), false) ∧
      Ieee.Parallel.trace thirdsKm thirdsScheds thirdsPoints [0] 2 =
        some ((thirdsLow, thirdsAssigned), true) ∧
      Ieee.Parallel.run thirdsKm thirdsScheds thirdsPoints [0] =
        some { km := thirdsLow, points := thirdsAssigned, iter := some 2 } ∧
      thirdsLow.clusters ≠ thirdsHigh.clusters) ∧
    ((1 ≤ staleKm.K ∧ staleKm.K ≤ staleKm.total_points ∧
        stalePoints.length = staleKm.total_points ∧
        ∀ p ∈ stalePoints, p.HasDim staleKm.total_values) ∧
      Serial.trace staleKm stalePoints [0] 0 =
        some (({ staleKm with clusters := [⟨0, [0]⟩] }, stalePoints), false) ∧
      Serial.trace staleKm stalePoints [0] 1 =
        some (({ staleKm with clusters := [⟨0, [1]⟩] }, stalePoints), true) ∧
      Serial.run staleKm stalePoints [0] =
        some { km := { staleKm with clusters := [⟨0, [1]⟩] }, points := stalePoints,
               iter := some 1 } ∧
      Parallel.run staleKm (fun _ => ⟨[0, 1], [[0, 1]], [0]⟩) stalePoints [0] =
        some { km := { staleKm with clusters := [⟨0, [1]⟩] }, points := stalePoints,
               iter := some 1 }) := by
  refine ⟨⟨⟨by decide, by decide, by decide, by decide, by decide!, thirdsScheds_admitted⟩,
    by decide!, by decide!, by decide!, by decide!⟩,
    ⟨by decide, by decide, by decide, by decide⟩, by decide!, by decide!, by decide!,
    by decide!⟩

/-- C17 (amended): a run with `1 <= K <= total_points` on points that enter unassigned
(`id_cluster = -1`, as the constructor of `Point` leaves them) that stops because its last
assignment pass reported no change ends in a fixed point of Lloyd's iteration: the last
recompute left the centroid table as it was before that iteration, every point is assigned
to the index `getIDNearestCenter` returns for it against the final centroids, and one more
iteration changes nothing. This holds in exact arithmetic for the serial program and for
the parallel program under any valid schedule, and in `double` arithmetic for the serial
program, whose accumulation always runs in the same order. -/
theorem converged_run_fixed_from_unassigned (km : KMeans)
    (scheds : Nat → Parallel.Schedule) (points : List Point) (draws : List Nat)
    (sd : SeedState) (kmI : Ieee.KMeans) (pointsI : List Ieee.Point) (drawsI : List Nat)
    (sdI : Ieee.SeedState)
    (hK : 1 ≤ km.K) (hg : km.K ≤ km.total_points) (hcl : km.clusters = [])
    (hn : points.length = km.total_points) (hd : ∀ p ∈ points, p.HasDim km.total_values)
    (hfresh : ∀ p ∈ points, p.id_cluster = -1)
    (hs : ∀ i, (scheds i).Valid km) (hseed : km.seed points draws = some sd)
    (hKI : 1 ≤ kmI.K) (hgI : kmI.K ≤ kmI.total_points) (hclI : kmI.clusters = [])
    (hnI : pointsI.length = kmI.total_points)
    (hdI : ∀ p ∈ pointsI, p.HasDim kmI.total_values)
    (hfreshI : ∀ p ∈ pointsI, p.id_cluster = -1)
    (hrepI : ∀ p ∈ pointsI, ∀ v ∈ p.values, v.Representable)
    (hseedI : kmI.seed pointsI drawsI = some sdI) :
    (∃ res n done prev,
      Serial.run km points draws = some res ∧
      Parallel.run km scheds points draws = some res ∧
      res.iter = some n ∧ 1 ≤ n ∧
      Serial.trace km points draws (n - 1) = some prev ∧
      Serial.trace km points draws n = some ((res.km, res.points), done) ∧
      (done = true →
        res.km.clusters = prev.1.1.clusters ∧
        (∀ p ∈ res.points, ∃ c : Nat, res.km.getIDNearestCenter p = some c ∧
          p.id_cluster = (c : Int)) ∧
        Serial.iteration (res.km, res.points) = some ((res.km, res.points), true) ∧
        ∀ sched : Parallel.Schedule, sched.Valid km →
          Parallel.iteration sched (res.km, res.points) =
            some ((res.km, res.points), true))) ∧
    (∃ res n done prev,
      Ieee.Serial.run kmI pointsI drawsI = some res ∧ res.iter = some n ∧ 1 ≤ n ∧
      Ieee.Serial.trace kmI pointsI drawsI (n - 1) = some prev ∧
      Ieee.Serial.trace kmI pointsI drawsI n = some ((res.km, res.points), done) ∧
      (done = true →
        res.km.clusters = prev.1.1.clusters ∧
        (∀ p ∈ res.points, ∃ c : Nat, res.km.getIDNearestCenter p = some c ∧
          p.id_cluster = (c : Int)) ∧
        Ieee.Serial.iteration (res.km, res.points) = some ((res.km, res.points), true))) :=
  ⟨converged_fixed_exact km scheds points draws sd hK hg hcl hn hd hfresh hs hseed,
    Ieee.serial_converged_fixed kmI pointsI drawsI sdI hKI hgI hclI hnI hdI hfreshI hrepI
      hseedI⟩

theorem converged_run_fixed_from_unassigned_witness :
    ((1 ≤ lineKm.K ∧ lineKm.K ≤ lineKm.total_points ∧ lineKm.clusters = [] ∧
        linePoints.length = lineKm.total_points ∧
        (∀ p ∈ linePoints, p.HasDim lineKm.total_values) ∧
        (∀ p ∈ linePoints, p.id_cluster = -1) ∧ lineSched.Valid lineKm ∧
        lineKm.seed linePoints lineDraws = some lineSeed) ∧
      (1 ≤ thirdsKm.K ∧ thirdsKm.K ≤ thirdsKm.total_points ∧ thirdsKm.clusters = [] ∧
        thirdsPoints.length = thirdsKm.total_points ∧
        (∀ p ∈ thirdsPoints, p.HasDim thirdsKm.total_values) ∧
        (∀ p ∈ thirdsPoints, p.id_cluster = -1) ∧
        (∀ p ∈ thirdsPoints, ∀ v ∈ p.values, v.Representable) ∧
        thirdsKm.seed thirdsPoints [0] = some thirdsSeed)) ∧
    (∃ res n done prev,
      Serial.run lineKm linePoints lineDraws = some res ∧
      Parallel.run lineKm (fun _ => lineSched) linePoints lineDraws = some res ∧
      res.iter = some n ∧ 1 ≤ n ∧
      Serial.trace lineKm linePoints lineDraws (n - 1) = some prev ∧
      Serial.trace lineKm linePoints lineDraws n = some ((res.km, res.points), done) ∧
      (done = true →
        res.km.clusters = prev.1.1.clusters ∧
        (∀ p ∈ res.points, ∃ c : Nat, res.km.getIDNearestCenter p = some c ∧
          p.id_cluster = (c : Int)) ∧
        Serial.iteration (res.km, res.points) = some ((res.km, res.points), true) ∧
        ∀ sched : Parallel.Schedule, sched.Valid lineKm →
          Parallel.iteration sched (res.km, res.points) =
            some ((res.km, res.points), true))) ∧
    (∃ res n done prev,
      Ieee.Serial.run thirdsKm thirdsPoints [0] = some res ∧ res.iter = some n ∧ 1 ≤ n ∧
      Ieee.Serial.trace thirdsKm thirdsPoints [0] (n - 1) = some prev ∧
      Ieee.Serial.trace thirdsKm thirdsPoints [0] n = some ((res.km, res.points), done) ∧
      (done = true →
        res.km.clusters = prev.1.1.clusters ∧
        (∀ p ∈ res.points, ∃ c : Nat, res.km.getIDNearestCenter p = some c ∧
          p.id_cluster = (c : Int)) ∧
        Ieee.Serial.iteration (res.km, res.points) = some ((res.km, res.points), true))) :=
  ⟨⟨⟨by decide, by decide, by decide, by decide, by decide, by decide, by decide,
        lineSeed_eq⟩,
      ⟨by decide, by decide, by decide, by decide, by decide, by decide, by decide!,
        thirdsSeed_eq⟩⟩,
    converged_run_fixed_from_unassigned lineKm (fun _ => lineSched) linePoints lineDraws
      lineSeed thirdsKm thirdsPoints [0] thirdsSeed
      (by decide) (by decide) (by decide) (by decide) (by decide) (by decide)
      (fun _ => (by decide : lineSched.Valid lineKm)) lineSeed_eq
      (by decide) (by decide) (by decide) (by decide) (by decide) (by decide) (by decide!)
      thirdsSeed_eq⟩

end KMeansSpec
